import Mathlib

/-!
# CPU scheduling simulators (`os/scheduling`)

A shallow embedding of the scheduling engines of the repository
(`fcfs.cpp`, `sjf.cpp`, `srtf.cpp`, `round_robin.cpp`, `priority_preemptive.cpp`,
`round_robin_priority.cpp`) together with the properties proved about them.

Conventions of the embedding.

* Every C++ `int` is an `Int`.  The simulators only add, subtract and compare
  small clock values; signed overflow is undefined in C++ and is not modelled.
* `std::vector` and `std::queue` are lists: `push` appends at the back, `front`
  is the head and `pop` removes the head.
* `std::sort` is determined by its comparator up to the order of equivalent
  elements.  It is modelled by an insertion sort that keeps equivalent elements
  in input order.  The GNU implementation runs this insertion sort on up to 16
  elements; on longer inputs it partitions first and can leave equivalent
  elements in another order.  The comparators of `fcfs.cpp` and `sjf.cpp` also
  compare the ids; those of the four tick-based engines compare the arrival
  time only, so there the order of the processes of equal arrival time in a list
  of more than 16 is not what the model says.
* `std::priority_queue` is the binary heap of the GNU C++ library
  (`std::push_heap`, `std::pop_heap`, `std::__adjust_heap`) on a list.
* `front()` of an empty `std::queue` has no value defined by the language.  Only
  `srtf.cpp` evaluates it; `srtf.frontOfEmpty` and `srtf.drain` say how that read
  is embedded.
* A call that does not return (`RunningProcess::addProcess` of
  `round_robin_priority.cpp` on a negative priority, the admission loop of
  `srtf.cpp` when it pops the empty queue) has the result `none`.
* Each source file declares its own `Process`; each file has its own namespace.
-/

set_option autoImplicit false

/-! ## `fcfs.cpp` -/

namespace fcfs

/-- Process structure of `fcfs.cpp`. -/
structure Process where
  pid : Int
  arrivalTime : Int
  executionTime : Int
  startingTime : Int
  finishedTime : Int
  waitingTime : Int
  turnAroundTime : Int
  deriving DecidableEq, Repr

/-- Aggregate initialisation `{pid, arrival, execution}`: the remaining members
are value-initialised to zero. -/
def Process.init (pid arrivalTime executionTime : Int) : Process :=
  { pid := pid, arrivalTime := arrivalTime, executionTime := executionTime,
    startingTime := 0, finishedTime := 0, waitingTime := 0, turnAroundTime := 0 }

/-- Comparison used for sorting: arrival time first, then pid. -/
def processCompare (p1 p2 : Process) : Bool :=
  if p1.arrivalTime = p2.arrivalTime then decide (p1.pid < p2.pid)
  else decide (p1.arrivalTime < p2.arrivalTime)

/-- The relation "`b` does not go before `a`" that the sorted queue satisfies. -/
def notAfter (a b : Process) : Prop := processCompare b a = false

instance : DecidableRel notAfter := fun a b =>
  inferInstanceAs (Decidable (processCompare b a = false))

/-- The call `std::sort(begin, end, processCompare)`. -/
def sortProcesses (l : List Process) : List Process :=
  l.insertionSort notAfter

/-- Data members of class `FCFS`. -/
structure FCFS where
  mTimer : Int
  mProcessQueue : List Process
  deriving DecidableEq, Repr

/-- Constructor `FCFS::FCFS`: timer 0, queue = the sorted copy of the input. -/
def FCFS.ctor (processes : List Process) : FCFS :=
  { mTimer := 0, mProcessQueue := sortProcesses processes }

/-- Body of the `for` loop of `FCFS::process` for one process: returns the new
timer and the updated process. -/
def processOne (mTimer : Int) (process : Process) : Int × Process :=
  let mTimer := if mTimer < process.arrivalTime then process.arrivalTime else mTimer
  let process := { process with startingTime := mTimer }
  let mTimer := mTimer + process.executionTime
  let process := { process with finishedTime := mTimer }
  let process :=
    { process with turnAroundTime := process.finishedTime - process.arrivalTime }
  let process :=
    { process with waitingTime := process.turnAroundTime - process.executionTime }
  (mTimer, process)

/-- The `for (auto& process : mProcessQueue)` loop of `FCFS::process`. -/
def processLoop : Int → List Process → Int × List Process
  | mTimer, [] => (mTimer, [])
  | mTimer, p :: rest =>
    let r := processOne mTimer p
    let rs := processLoop r.1 rest
    (rs.1, r.2 :: rs.2)

/-- Method `FCFS::process`. -/
def FCFS.process (s : FCFS) : FCFS :=
  let r := processLoop s.mTimer s.mProcessQueue
  { mTimer := r.1, mProcessQueue := r.2 }

/-- The two sums that `FCFS::print` accumulates after calling `process`:
`(waitingTime, turnAroundTime)`. -/
def FCFS.printSums (s : FCFS) : Int × Int :=
  (s.process.mProcessQueue.foldl
    (fun acc p => (acc.1 + p.waitingTime, acc.2 + p.turnAroundTime)) (0, 0))

/-- The value printed as "Average waiting time":
`double(waitingTime) / mProcessQueue.size()`, as an exact rational. -/
def FCFS.averageWaitingTime (s : FCFS) : ℚ :=
  (s.printSums.1 : ℚ) / (s.process.mProcessQueue.length : ℚ)

/-- The process list of `main`. -/
def mainProcessList : List Process :=
  [Process.init 0 0 5, Process.init 1 4 3, Process.init 2 3 3, Process.init 3 12 4]

end fcfs

/-! ## `std::priority_queue` (binary heap of the GNU C++ library) -/

namespace stdlib

variable {α : Type}

/-- The loop of `std::__push_heap(first, holeIndex, topIndex, value, comp)`:
while the hole is below `topIndex` and `comp(parent, value)`, the parent moves
into the hole; then `value` is stored in the hole.  The first argument bounds
the number of iterations (the hole index is enough). -/
def pushHeapLoop (comp : α → α → Bool) (topIndex : Nat) (value : α) :
    Nat → List α → Nat → List α
  | 0, c, holeIndex => c.set holeIndex value
  | fuel + 1, c, holeIndex =>
    let parent := (holeIndex - 1) / 2
    if holeIndex > topIndex && comp (c.getD parent value) value then
      pushHeapLoop comp topIndex value fuel (c.set holeIndex (c.getD parent value)) parent
    else
      c.set holeIndex value

/-- The function `std::__push_heap`. -/
def pushHeapAt (comp : α → α → Bool) (c : List α) (holeIndex topIndex : Nat)
    (value : α) : List α :=
  pushHeapLoop comp topIndex value holeIndex c holeIndex

/-- The `while (secondChild < (len - 1) / 2)` loop of `std::__adjust_heap`:
the hole moves down to the child that `comp` does not put below its sibling.
At the loop head `secondChild = holeIndex`.  Returns the container and the hole. -/
def adjustHeapLoop (comp : α → α → Bool) (value : α) (len : Nat) :
    Nat → List α → Nat → List α × Nat
  | 0, c, holeIndex => (c, holeIndex)
  | fuel + 1, c, holeIndex =>
    if holeIndex < (len - 1) / 2 then
      let secondChild := 2 * (holeIndex + 1)
      let secondChild :=
        if comp (c.getD secondChild value) (c.getD (secondChild - 1) value) then
          secondChild - 1
        else secondChild
      adjustHeapLoop comp value len fuel (c.set holeIndex (c.getD secondChild value))
        secondChild
    else (c, holeIndex)

/-- The function `std::__adjust_heap(first, holeIndex, len, value, comp)`. -/
def adjustHeap (comp : α → α → Bool) (c : List α) (holeIndex len : Nat)
    (value : α) : List α :=
  let topIndex := holeIndex
  let r := adjustHeapLoop comp value len len c holeIndex
  let r :=
    if len % 2 = 0 ∧ r.2 = (len - 2) / 2 then
      let secondChild := 2 * (r.2 + 1)
      (r.1.set r.2 (r.1.getD (secondChild - 1) value), secondChild - 1)
    else r
  pushHeapAt comp r.1 r.2 topIndex value

/-- Member `priority_queue::push(x)`: `c.push_back(x)` followed by
`std::push_heap(c.begin(), c.end(), comp)`. -/
def pqPush (comp : α → α → Bool) (c : List α) (x : α) : List α :=
  pushHeapAt comp (c ++ [x]) c.length 0 x

/-- Member `priority_queue::top()`: `c.front()`. -/
def pqTop (c : List α) : Option α := c.head?

/-- Member `priority_queue::pop()`: `std::pop_heap(c.begin(), c.end(), comp)`
followed by `c.pop_back()`.  For more than one element `pop_heap` saves the last
element, overwrites it with the first and calls `__adjust_heap` on the range
without its last slot; `pop_back` then drops that slot. -/
def pqPop (comp : α → α → Bool) (c : List α) : List α :=
  match c.getLast? with
  | none => []
  | some value =>
    if c.length > 1 then adjustHeap comp c.dropLast 0 (c.length - 1) value
    else c.dropLast

end stdlib

/-! ## `sjf.cpp` -/

namespace sjf

/-- Process structure of `sjf.cpp`. -/
structure Process where
  pid : Int
  arrivalTime : Int
  executionTime : Int
  startingTime : Int
  finishedTime : Int
  waitingTime : Int
  turnAroundTime : Int
  deriving DecidableEq, Repr

/-- Aggregate initialisation `{pid, arrival, execution}`. -/
def Process.init (pid arrivalTime executionTime : Int) : Process :=
  { pid := pid, arrivalTime := arrivalTime, executionTime := executionTime,
    startingTime := 0, finishedTime := 0, waitingTime := 0, turnAroundTime := 0 }

/-- Comparison used for sorting: arrival time first, then pid. -/
def processCompare (p1 p2 : Process) : Bool :=
  if p1.arrivalTime = p2.arrivalTime then decide (p1.pid < p2.pid)
  else decide (p1.arrivalTime < p2.arrivalTime)

/-- The relation "`b` does not go before `a`" that the sorted list satisfies. -/
def notAfter (a b : Process) : Prop := processCompare b a = false

instance : DecidableRel notAfter := fun a b =>
  inferInstanceAs (Decidable (processCompare b a = false))

/-- The call `std::sort(begin, end, processCompare)`. -/
def sortProcesses (l : List Process) : List Process :=
  l.insertionSort notAfter

/-- Comparator for the priority queue, `ProcessComparator::operator()`. -/
def ProcessComparator (p1 p2 : Process) : Bool :=
  if p1.executionTime = p2.executionTime then decide (p1.pid > p2.pid)
  else decide (p1.executionTime > p2.executionTime)

/-- Data members of class `SJF`. -/
structure SJF where
  mTimer : Int
  mRunningProcess : List Process
  mProcessList : List Process
  mFinishedProcesses : List Process
  deriving DecidableEq, Repr

/-- Constructor `SJF::SJF`: sorts the list and loads it into the queue. -/
def SJF.ctor (processes : List Process) : SJF :=
  { mTimer := 0, mRunningProcess := [], mProcessList := sortProcesses processes,
    mFinishedProcesses := [] }

/-- The inner loop
`while (!mProcessList.empty() && mProcessList.front().arrivalTime <= mTimer)`:
returns the running heap and the remaining queue. -/
def drain (mTimer : Int) : List Process → List Process → List Process × List Process
  | running, [] => (running, [])
  | running, p :: rest =>
    if p.arrivalTime ≤ mTimer then
      drain mTimer (stdlib.pqPush ProcessComparator running p) rest
    else (running, p :: rest)

/-- The first statement of the loop body: if the running queue is empty, load
the front of the process queue. -/
def loadIfEmpty (s : SJF) : SJF :=
  if s.mRunningProcess.isEmpty then
    match s.mProcessList with
    | [] => s
    | p :: rest =>
      { s with mRunningProcess := stdlib.pqPush ProcessComparator s.mRunningProcess p,
               mProcessList := rest }
  else s

/-- The second statement: move the timer up to the arrival of the top process. -/
def syncTimer (s : SJF) : SJF :=
  match stdlib.pqTop s.mRunningProcess with
  | none => s
  | some top => if s.mTimer < top.arrivalTime then { s with mTimer := top.arrivalTime } else s

/-- The third statement: the admission loop. -/
def drainArrived (s : SJF) : SJF :=
  let r := drain s.mTimer s.mRunningProcess s.mProcessList
  { s with mRunningProcess := r.1, mProcessList := r.2 }

/-- The rest of the body: pop the top process and run it to completion. -/
def runTop (s : SJF) : SJF :=
  match stdlib.pqTop s.mRunningProcess with
  | none => s
  | some currentProcess =>
    let running := stdlib.pqPop ProcessComparator s.mRunningProcess
    let currentProcess := { currentProcess with startingTime := s.mTimer }
    let currentProcess :=
      { currentProcess with finishedTime := s.mTimer + currentProcess.executionTime }
    { s with mTimer := currentProcess.finishedTime, mRunningProcess := running,
             mFinishedProcesses := s.mFinishedProcesses ++ [currentProcess] }

/-- One iteration of the outer `while` loop of `SJF::scheduleProcess`. -/
def loopBody (s : SJF) : SJF :=
  runTop (drainArrived (syncTimer (loadIfEmpty s)))

/-- Condition of the outer loop. -/
def loopCond (s : SJF) : Bool :=
  !s.mRunningProcess.isEmpty || !s.mProcessList.isEmpty

/-- The state after at most `n` iterations of the outer loop. -/
def steps : Nat → SJF → SJF
  | 0, s => s
  | n + 1, s => if loopCond s then steps n (loopBody s) else s

/-- The final `for` loop: turnaround and waiting time of a finished process. -/
def finalize (p : Process) : Process :=
  let p := { p with turnAroundTime := p.finishedTime - p.arrivalTime }
  { p with waitingTime := p.turnAroundTime - p.executionTime }

/-- Method `SJF::scheduleProcess`.  Every iteration of the outer loop finishes
one process, so the number of stored processes bounds the iterations. -/
def SJF.scheduleProcess (s : SJF) : SJF :=
  let s := steps (s.mRunningProcess.length + s.mProcessList.length) s
  { s with mFinishedProcesses := s.mFinishedProcesses.map finalize }

/-- The process list of `main`. -/
def mainProcessList : List Process :=
  [Process.init 0 2 5, Process.init 1 4 3, Process.init 2 3 2, Process.init 3 12 4]

end sjf

/-! ## `srtf.cpp` -/

namespace srtf

/-- Process structure of `srtf.cpp`. -/
structure Process where
  pid : Int
  arrivalTime : Int
  burstTime : Int
  tempBurstTime : Int
  startingTime : Int
  finishingTime : Int
  turnAroundTime : Int
  waitingTime : Int
  init : Bool
  deriving DecidableEq, Repr

/-- Aggregate initialisation `{pid, arrival, burst, tempBurst}`: the remaining
members are zero and `init` is `false`. -/
def Process.init4 (pid arrivalTime burstTime tempBurstTime : Int) : Process :=
  { pid := pid, arrivalTime := arrivalTime, burstTime := burstTime,
    tempBurstTime := tempBurstTime, startingTime := 0, finishingTime := 0,
    turnAroundTime := 0, waitingTime := 0, init := false }

/-- Comparator of the running heap, `TempBurstTimeCompare::operator()`. -/
def TempBurstTimeCompare (a b : Process) : Bool :=
  decide (a.tempBurstTime > b.tempBurstTime)

/-- Comparison used for sorting, `compare`: arrival time only. -/
def compare (p1 p2 : Process) : Bool :=
  decide (p1.arrivalTime < p2.arrivalTime)

/-- The relation "`b` does not go before `a`" that the sorted list satisfies. -/
def notAfter (a b : Process) : Prop := compare b a = false

instance : DecidableRel notAfter := fun a b =>
  inferInstanceAs (Decidable (compare b a = false))

/-- The call `std::sort(begin, end, compare)`.  `compare` looks at the arrival time
only, and `std::sort` does not fix the order of records of equal arrival time.  The
result is given by insertion sort, which keeps such records in input order; this is
what `std::sort` does on up to 16 records, on longer lists it may order them
otherwise. -/
def sortProcesses (l : List Process) : List Process :=
  l.insertionSort notAfter

/-- Data members of class `SRTF`, and one ghost counter.

`frontOnEmpty` is not a member of the class: it counts the evaluations of
`mProcessList.front()` made while the queue is empty.  The source evaluates
`mTimeCounter == mProcessList.front().arrivalTime` without testing `empty()`;
what such a read yields and what follows from it is described at `frontOfEmpty`
and `drain`. -/
structure SRTF where
  mProcessList : List Process
  mRunningProcessList : List Process
  mGantChart : List (Int × Int)
  mFinishedProcesses : List Process
  mTimeCounter : Int
  mTimeQuantum : Int
  frontOnEmpty : Nat
  deriving DecidableEq, Repr

/-- Constructor `SRTF::SRTF`. -/
def SRTF.ctor (processList : List Process) : SRTF :=
  { mProcessList := sortProcesses processList, mRunningProcessList := [],
    mGantChart := [], mFinishedProcesses := [], mTimeCounter := 0, mTimeQuantum := 1,
    frontOnEmpty := 0 }

/-- The record that `mProcessList.front()` yields when the queue is empty.  The
language does not define this read.  In the program the read goes to the slot of
the queue's buffer behind the last record that was queued; that slot has never
been written and holds zeros, so every member of the record read is 0. -/
def frontOfEmpty : Process := Process.init4 0 0 0 0

/-- The inner loop `while (mTimeCounter == mProcessList.front().arrivalTime)`:
returns the running heap, the remaining queue and the number of evaluations of
`front()` on an empty queue that ended the loop (0 or 1).

The condition is evaluated without a test of `empty()`.  On the empty queue it
compares the clock with `frontOfEmpty.arrivalTime`: when they differ the loop
ends; when they are equal (clock 0) the body pushes that record into the heap and
calls `pop()` on the empty queue, after which the behaviour of the program is not
defined and it does not return a result (in practice it ends with a memory
fault): `none`. -/
def drain (mTimeCounter : Int) :
    List Process → List Process → Option (List Process × List Process × Nat)
  | running, [] =>
    if mTimeCounter = frontOfEmpty.arrivalTime then none else some (running, [], 1)
  | running, p :: rest =>
    if mTimeCounter = p.arrivalTime then
      drain mTimeCounter (stdlib.pqPush TempBurstTimeCompare running p) rest
    else some (running, p :: rest, 0)

/-- The admission loop on the state; `none` when it pops the empty queue. -/
def drainArrived (s : SRTF) : Option SRTF :=
  (drain s.mTimeCounter s.mRunningProcessList s.mProcessList).map (fun r =>
    { s with mRunningProcessList := r.1, mProcessList := r.2.1,
             frontOnEmpty := s.frontOnEmpty + r.2.2 })

/-- The `if (!mRunningProcessList.empty())` block followed by `++mTimeCounter`. -/
def dispatch (s : SRTF) : SRTF :=
  match stdlib.pqTop s.mRunningProcessList with
  | none => { s with mTimeCounter := s.mTimeCounter + 1 }
  | some currentProcess =>
    let running := stdlib.pqPop TempBurstTimeCompare s.mRunningProcessList
    let currentProcess :=
      { currentProcess with tempBurstTime := currentProcess.tempBurstTime - s.mTimeQuantum }
    let currentProcess :=
      if currentProcess.init = false then
        { currentProcess with startingTime := s.mTimeCounter, init := true }
      else currentProcess
    let r : List Process × List Process :=
      if currentProcess.tempBurstTime = 0 then
        (running,
          s.mFinishedProcesses ++
            [{ currentProcess with finishingTime := s.mTimeCounter + 1 }])
      else
        (stdlib.pqPush TempBurstTimeCompare running currentProcess, s.mFinishedProcesses)
    { s with mRunningProcessList := r.1, mFinishedProcesses := r.2,
             mGantChart := s.mGantChart ++ [(currentProcess.pid, s.mTimeCounter)],
             mTimeCounter := s.mTimeCounter + 1 }

/-- One iteration of the outer `while` loop of `SRTF::scheduleProcess`; `none`
when the admission loop pops the empty queue. -/
def loopBody (s : SRTF) : Option SRTF :=
  (drainArrived s).map dispatch

/-- Condition of the outer loop. -/
def loopCond (s : SRTF) : Bool :=
  !s.mProcessList.isEmpty || !s.mRunningProcessList.isEmpty

/-- The state after at most `n` iterations of the outer loop; `none` when an
admission loop among them pops the empty queue. -/
def steps : Nat → SRTF → Option SRTF
  | 0, s => some s
  | n + 1, s => if loopCond s then (loopBody s).bind (steps n) else some s

/-- The final `for` loop: turnaround and waiting time of a finished process. -/
def finalize (p : Process) : Process :=
  let p := { p with turnAroundTime := p.finishingTime - p.arrivalTime }
  { p with waitingTime := p.turnAroundTime - p.burstTime }

/-- Method `SRTF::scheduleProcess` with a bound on the iterations of the outer
loop: `none` when the loop has not ended within `fuel` iterations or an admission
loop pops the empty queue. -/
def SRTF.scheduleProcess (fuel : Nat) (s : SRTF) : Option SRTF :=
  (steps fuel s).bind (fun s =>
    if loopCond s then none
    else some { s with mFinishedProcesses := s.mFinishedProcesses.map finalize })

end srtf

/-! ## `round_robin.cpp` -/

namespace round_robin

/-- Process structure of `round_robin.cpp`. -/
structure Process where
  pid : Int
  arrivalTime : Int
  burstTime : Int
  tempBurstTime : Int
  startingTime : Int
  finishingTime : Int
  turnAroundTime : Int
  waitingTime : Int
  init : Bool
  deriving DecidableEq, Repr

/-- Aggregate initialisation `{pid, arrival, burst, tempBurst}`. -/
def Process.init4 (pid arrivalTime burstTime tempBurstTime : Int) : Process :=
  { pid := pid, arrivalTime := arrivalTime, burstTime := burstTime,
    tempBurstTime := tempBurstTime, startingTime := 0, finishingTime := 0,
    turnAroundTime := 0, waitingTime := 0, init := false }

/-- Comparison used for sorting, `compare`: arrival time only. -/
def compare (p1 p2 : Process) : Bool :=
  decide (p1.arrivalTime < p2.arrivalTime)

/-- The relation "`b` does not go before `a`" that the sorted list satisfies. -/
def notAfter (a b : Process) : Prop := compare b a = false

instance : DecidableRel notAfter := fun a b =>
  inferInstanceAs (Decidable (compare b a = false))

/-- The call `std::sort(begin, end, compare)`.  `compare` looks at the arrival time
only, and `std::sort` does not fix the order of records of equal arrival time.  The
result is given by insertion sort, which keeps such records in input order; this is
what `std::sort` does on up to 16 records, on longer lists it may order them
otherwise. -/
def sortProcesses (l : List Process) : List Process :=
  l.insertionSort notAfter

/-- Data members of class `RoundRobin`. -/
structure RoundRobin where
  mProcessList : List Process
  mRunningProcessList : List Process
  mGantChart : List (Int × Int)
  mFinishedProcesses : List Process
  mTimeCounter : Int
  mTimeQuantum : Int
  deriving DecidableEq, Repr

/-- Constructor `RoundRobin::RoundRobin`. -/
def RoundRobin.ctor (processList : List Process) : RoundRobin :=
  { mProcessList := sortProcesses processList, mRunningProcessList := [],
    mGantChart := [], mFinishedProcesses := [], mTimeCounter := 0, mTimeQuantum := 1 }

/-- The inner loop
`while (!mProcessList.empty() && mTimeCounter >= mProcessList.front().arrivalTime)`:
returns the processes moved to the back of the running queue, in order, and the
remaining process queue. -/
def drain (mTimeCounter : Int) : List Process → List Process × List Process
  | [] => ([], [])
  | p :: rest =>
    if mTimeCounter ≥ p.arrivalTime then
      let r := drain mTimeCounter rest
      (p :: r.1, r.2)
    else ([], p :: rest)

/-- The admission loop on the state: every moved process is pushed at the
back of the running queue. -/
def drainArrived (s : RoundRobin) : RoundRobin :=
  let r := drain s.mTimeCounter s.mProcessList
  { s with mRunningProcessList := s.mRunningProcessList ++ r.1, mProcessList := r.2 }

/-- The `if (!mRunningProcessList.empty()) ... else ...` statement. -/
def dispatch (s : RoundRobin) : RoundRobin :=
  match s.mRunningProcessList with
  | [] => { s with mTimeCounter := s.mTimeCounter + s.mTimeQuantum }
  | currentProcess :: running =>
    let currentProcess :=
      if currentProcess.init = false then
        { currentProcess with startingTime := s.mTimeCounter, init := true }
      else currentProcess
    let mGantChart := s.mGantChart ++ [(currentProcess.pid, s.mTimeCounter)]
    let r : Process × Int :=
      if currentProcess.tempBurstTime < s.mTimeQuantum then
        ({ currentProcess with tempBurstTime := 0 },
          s.mTimeCounter + currentProcess.tempBurstTime)
      else
        ({ currentProcess with
            tempBurstTime := currentProcess.tempBurstTime - s.mTimeQuantum },
          s.mTimeCounter + s.mTimeQuantum)
    let currentProcess := r.1
    let mTimeCounter := r.2
    if currentProcess.tempBurstTime = 0 then
      let currentProcess := { currentProcess with finishingTime := mTimeCounter }
      { s with mRunningProcessList := running, mGantChart := mGantChart,
               mTimeCounter := mTimeCounter,
               mFinishedProcesses := s.mFinishedProcesses ++ [currentProcess] }
    else
      { s with mRunningProcessList := running ++ [currentProcess],
               mGantChart := mGantChart, mTimeCounter := mTimeCounter }

/-- One iteration of the outer `while` loop of `RoundRobin::scheduleProcess`. -/
def loopBody (s : RoundRobin) : RoundRobin :=
  dispatch (drainArrived s)

/-- Condition of the outer loop. -/
def loopCond (s : RoundRobin) : Bool :=
  !s.mProcessList.isEmpty || !s.mRunningProcessList.isEmpty

/-- The state after at most `n` iterations of the outer loop. -/
def steps : Nat → RoundRobin → RoundRobin
  | 0, s => s
  | n + 1, s => if loopCond s then steps n (loopBody s) else s

/-- The final `for` loop: turnaround and waiting time of a finished process. -/
def finalize (p : Process) : Process :=
  let p := { p with turnAroundTime := p.finishingTime - p.arrivalTime }
  { p with waitingTime := p.turnAroundTime - p.burstTime }

/-- Method `RoundRobin::scheduleProcess` with a bound on the iterations of the
outer loop: `none` when the loop has not ended within `fuel` iterations. -/
def RoundRobin.scheduleProcess (fuel : Nat) (s : RoundRobin) : Option RoundRobin :=
  let s := steps fuel s
  if loopCond s then none
  else some { s with mFinishedProcesses := s.mFinishedProcesses.map finalize }

end round_robin

/-! ## `priority_preemptive.cpp` -/

namespace priority_preemptive

/-- Process structure of `priority_preemptive.cpp`. -/
structure Process where
  pid : Int
  arrivalTime : Int
  priority : Int
  burstTime : Int
  tempBurstTime : Int
  startingTime : Int
  finishingTime : Int
  turnAroundTime : Int
  waitingTime : Int
  init : Bool
  deriving DecidableEq, Repr

/-- Aggregate initialisation `{pid, arrival, priority, burst}`: the remaining
members are zero and `init` is `false`. -/
def Process.init4 (pid arrivalTime priority burstTime : Int) : Process :=
  { pid := pid, arrivalTime := arrivalTime, priority := priority, burstTime := burstTime,
    tempBurstTime := 0, startingTime := 0, finishingTime := 0, turnAroundTime := 0,
    waitingTime := 0, init := false }

/-- Comparator of the running heap, `PriorityCompare::operator()`. -/
def PriorityCompare (a b : Process) : Bool :=
  if a.priority = b.priority then decide (a.pid > b.pid)
  else decide (a.priority > b.priority)

/-- Comparison used for sorting, `compare`: arrival time only. -/
def compare (p1 p2 : Process) : Bool :=
  decide (p1.arrivalTime < p2.arrivalTime)

/-- The relation "`b` does not go before `a`" that the sorted list satisfies. -/
def notAfter (a b : Process) : Prop := compare b a = false

instance : DecidableRel notAfter := fun a b =>
  inferInstanceAs (Decidable (compare b a = false))

/-- The call `std::sort(begin, end, compare)`.  `compare` looks at the arrival time
only, and `std::sort` does not fix the order of records of equal arrival time.  The
result is given by insertion sort, which keeps such records in input order; this is
what `std::sort` does on up to 16 records, on longer lists it may order them
otherwise. -/
def sortProcesses (l : List Process) : List Process :=
  l.insertionSort notAfter

/-- Data members of class `PriorityPreemptive`. -/
structure PriorityPreemptive where
  mProcessList : List Process
  mRunningProcessList : List Process
  mGantChart : List (Int × Int)
  mFinishedProcesses : List Process
  mTimeCounter : Int
  mTimeQuantum : Int
  deriving DecidableEq, Repr

/-- Constructor `PriorityPreemptive::PriorityPreemptive`: sorts the list, sets
`tempBurstTime = burstTime` on every process and loads the queue. -/
def PriorityPreemptive.ctor (processList : List Process) : PriorityPreemptive :=
  { mProcessList :=
      (sortProcesses processList).map (fun p => { p with tempBurstTime := p.burstTime }),
    mRunningProcessList := [], mGantChart := [], mFinishedProcesses := [],
    mTimeCounter := 0, mTimeQuantum := 1 }

/-- The inner loop
`while (!mProcessList.empty() && mTimeCounter >= mProcessList.front().arrivalTime)`:
returns the running heap and the remaining process queue. -/
def drain (mTimeCounter : Int) : List Process → List Process → List Process × List Process
  | running, [] => (running, [])
  | running, p :: rest =>
    if mTimeCounter ≥ p.arrivalTime then
      drain mTimeCounter (stdlib.pqPush PriorityCompare running p) rest
    else (running, p :: rest)

/-- The admission loop on the state. -/
def drainArrived (s : PriorityPreemptive) : PriorityPreemptive :=
  let r := drain s.mTimeCounter s.mRunningProcessList s.mProcessList
  { s with mRunningProcessList := r.1, mProcessList := r.2 }

/-- The `if (!mRunningProcessList.empty()) ... else ...` statement. -/
def dispatch (s : PriorityPreemptive) : PriorityPreemptive :=
  match stdlib.pqTop s.mRunningProcessList with
  | none => { s with mTimeCounter := s.mTimeCounter + s.mTimeQuantum }
  | some currentProcess =>
    let running := stdlib.pqPop PriorityCompare s.mRunningProcessList
    let currentProcess :=
      if currentProcess.init = false then
        { currentProcess with startingTime := s.mTimeCounter, init := true }
      else currentProcess
    let mGantChart := s.mGantChart ++ [(currentProcess.pid, s.mTimeCounter)]
    let r : Process × Int :=
      if currentProcess.tempBurstTime < s.mTimeQuantum then
        ({ currentProcess with tempBurstTime := 0 },
          s.mTimeCounter + currentProcess.tempBurstTime)
      else
        ({ currentProcess with
            tempBurstTime := currentProcess.tempBurstTime - s.mTimeQuantum },
          s.mTimeCounter + s.mTimeQuantum)
    let currentProcess := r.1
    let mTimeCounter := r.2
    if currentProcess.tempBurstTime = 0 then
      let currentProcess := { currentProcess with finishingTime := mTimeCounter }
      { s with mRunningProcessList := running, mGantChart := mGantChart,
               mTimeCounter := mTimeCounter,
               mFinishedProcesses := s.mFinishedProcesses ++ [currentProcess] }
    else
      { s with mRunningProcessList := stdlib.pqPush PriorityCompare running currentProcess,
               mGantChart := mGantChart, mTimeCounter := mTimeCounter }

/-- One iteration of the outer `while` loop of
`PriorityPreemptive::scheduleProcess`. -/
def loopBody (s : PriorityPreemptive) : PriorityPreemptive :=
  dispatch (drainArrived s)

/-- Condition of the outer loop. -/
def loopCond (s : PriorityPreemptive) : Bool :=
  !s.mProcessList.isEmpty || !s.mRunningProcessList.isEmpty

/-- The state after at most `n` iterations of the outer loop. -/
def steps : Nat → PriorityPreemptive → PriorityPreemptive
  | 0, s => s
  | n + 1, s => if loopCond s then steps n (loopBody s) else s

/-- The final `for` loop: turnaround and waiting time of a finished process. -/
def finalize (p : Process) : Process :=
  let p := { p with turnAroundTime := p.finishingTime - p.arrivalTime }
  { p with waitingTime := p.turnAroundTime - p.burstTime }

/-- Method `PriorityPreemptive::scheduleProcess` with a bound on the iterations of
the outer loop: `none` when the loop has not ended within `fuel` iterations. -/
def PriorityPreemptive.scheduleProcess (fuel : Nat) (s : PriorityPreemptive) :
    Option PriorityPreemptive :=
  let s := steps fuel s
  if loopCond s then none
  else some { s with mFinishedProcesses := s.mFinishedProcesses.map finalize }

/-- The process list of `main`. -/
def mainProcessList : List Process :=
  [Process.init4 1 0 1 10, Process.init4 2 1 2 9, Process.init4 0 2 1 5,
    Process.init4 4 3 3 4, Process.init4 5 40 5 4]

end priority_preemptive

/-! ## `round_robin_priority.cpp` -/

namespace round_robin_priority

/-- Process structure of `round_robin_priority.cpp`. -/
structure Process where
  pid : Int
  arrivalTime : Int
  priority : Int
  burstTime : Int
  tempBurstTime : Int
  startingTime : Int
  finishingTime : Int
  turnAroundTime : Int
  waitingTime : Int
  init : Bool
  deriving DecidableEq, Repr

/-- Aggregate initialisation `{pid, arrival, priority, burst}`. -/
def Process.init4 (pid arrivalTime priority burstTime : Int) : Process :=
  { pid := pid, arrivalTime := arrivalTime, priority := priority, burstTime := burstTime,
    tempBurstTime := 0, startingTime := 0, finishingTime := 0, turnAroundTime := 0,
    waitingTime := 0, init := false }

/-- The value-initialised `Process()`: every member zero. -/
def Process.zero : Process := Process.init4 0 0 0 0

/-- Comparison used for sorting, `compare`: arrival time only. -/
def compare (p1 p2 : Process) : Bool :=
  decide (p1.arrivalTime < p2.arrivalTime)

/-- The relation "`b` does not go before `a`" that the sorted list satisfies. -/
def notAfter (a b : Process) : Prop := compare b a = false

instance : DecidableRel notAfter := fun a b =>
  inferInstanceAs (Decidable (compare b a = false))

/-- The call `std::sort(begin, end, compare)`.  `compare` looks at the arrival time
only, and `std::sort` does not fix the order of records of equal arrival time.  The
result is given by insertion sort, which keeps such records in input order; this is
what `std::sort` does on up to 16 records, on longer lists it may order them
otherwise. -/
def sortProcesses (l : List Process) : List Process :=
  l.insertionSort notAfter

/-- Data members of class `RunningProcess`: one queue per priority value (the
index of the vector is the priority) and the stored count. -/
structure RunningProcess where
  mProcessList : List (List Process)
  processCount : Int
  deriving DecidableEq, Repr

/-- Constructor `RunningProcess()`. -/
def RunningProcess.ctor : RunningProcess :=
  { mProcessList := [], processCount := 0 }

/-- Method `getSize`. -/
def RunningProcess.getSize (r : RunningProcess) : Int := r.processCount

/-- Method `empty`. -/
def RunningProcess.empty (r : RunningProcess) : Bool := decide (r.processCount = 0)

/-- Method `addProcess`.  The loop `while (process.priority >= mProcessList.size())`
compares the `int` with an unsigned size: a negative priority converts to a huge
unsigned value, the loop never ends normally, and the result is `none`.  Otherwise
empty queues are pushed until the vector has more than `priority` entries, the
process goes to the back of queue `priority`, and `++processCount` is returned. -/
def RunningProcess.addProcess (r : RunningProcess) (process : Process) :
    Option (RunningProcess × Int) :=
  if process.priority < 0 then none
  else
    let n := process.priority.toNat
    let buckets := r.mProcessList ++ List.replicate (n + 1 - r.mProcessList.length) []
    let buckets := buckets.set n (buckets.getD n [] ++ [process])
    some ({ mProcessList := buckets, processCount := r.processCount + 1 },
      r.processCount + 1)

/-- The `for (auto& processList : mProcessList)` loop of `getProcess`: the front
of the first non-empty queue and the queues without it; `none` when every queue
is empty. -/
def getProcessLoop : List (List Process) → Option (Process × List (List Process))
  | [] => none
  | [] :: rest => (getProcessLoop rest).map (fun r => (r.1, [] :: r.2))
  | (p :: ps) :: rest => some (p, ps :: rest)

/-- Method `getProcess`.  The source binds a reference to `front()`, pops the queue
and returns a copy made through that reference; the embedding returns the value
the reference named before the `pop()`.  When every queue is empty, `Process()` is
returned and nothing changes. -/
def RunningProcess.getProcess (r : RunningProcess) : Process × RunningProcess :=
  match getProcessLoop r.mProcessList with
  | some (p, buckets) =>
    (p, { mProcessList := buckets, processCount := r.processCount - 1 })
  | none => (Process.zero, r)

/-- Data members of class `PriorityPreemptive` (bucketed variant). -/
structure PriorityPreemptive where
  mProcessList : List Process
  mRunningProcessList : RunningProcess
  mGantChart : List (Int × Int)
  mFinishedProcesses : List Process
  mTimeCounter : Int
  mTimeQuantum : Int
  deriving DecidableEq, Repr

/-- Constructor `PriorityPreemptive::PriorityPreemptive`. -/
def PriorityPreemptive.ctor (processList : List Process) : PriorityPreemptive :=
  { mProcessList :=
      (sortProcesses processList).map (fun p => { p with tempBurstTime := p.burstTime }),
    mRunningProcessList := RunningProcess.ctor, mGantChart := [],
    mFinishedProcesses := [], mTimeCounter := 0, mTimeQuantum := 1 }

/-- The inner loop
`while (!mProcessList.empty() && mTimeCounter >= mProcessList.front().arrivalTime)`:
returns the running structure and the remaining process queue; `none` when an
`addProcess` does not return. -/
def drain (mTimeCounter : Int) :
    RunningProcess → List Process → Option (RunningProcess × List Process)
  | running, [] => some (running, [])
  | running, p :: rest =>
    if mTimeCounter ≥ p.arrivalTime then
      (running.addProcess p).bind (fun x => drain mTimeCounter x.1 rest)
    else some (running, p :: rest)

/-- The loop `for (int i = mTimeCounter - mTimeQuantum; i <= mTimeCounter; ++i)`
that runs before a preempted process is stored again: every iteration moves at
most one process, the front of the process queue, when `i >= arrivalTime`.  The
first argument counts the iterations left, the second is `i`. -/
def drainDuring : Nat → Int → RunningProcess → List Process →
    Option (RunningProcess × List Process)
  | 0, _, running, queue => some (running, queue)
  | n + 1, i, running, [] => drainDuring n (i + 1) running []
  | n + 1, i, running, p :: rest =>
    if i ≥ p.arrivalTime then
      (running.addProcess p).bind (fun x => drainDuring n (i + 1) x.1 rest)
    else drainDuring n (i + 1) running (p :: rest)

/-- The admission loop on the state. -/
def drainArrived (s : PriorityPreemptive) : Option PriorityPreemptive :=
  (drain s.mTimeCounter s.mRunningProcessList s.mProcessList).map
    (fun r => { s with mRunningProcessList := r.1, mProcessList := r.2 })

/-- The `if (!mRunningProcessList.empty()) ... else ...` statement. -/
def dispatch (s : PriorityPreemptive) : Option PriorityPreemptive :=
  if s.mRunningProcessList.empty then
    some { s with mTimeCounter := s.mTimeCounter + s.mTimeQuantum }
  else
    let g := s.mRunningProcessList.getProcess
    let currentProcess := g.1
    let running := g.2
    let currentProcess :=
      if currentProcess.init = false then
        { currentProcess with startingTime := s.mTimeCounter, init := true }
      else currentProcess
    let mGantChart := s.mGantChart ++ [(currentProcess.pid, s.mTimeCounter)]
    let r : Process × Int :=
      if currentProcess.tempBurstTime < s.mTimeQuantum then
        ({ currentProcess with tempBurstTime := 0 },
          s.mTimeCounter + currentProcess.tempBurstTime)
      else
        ({ currentProcess with
            tempBurstTime := currentProcess.tempBurstTime - s.mTimeQuantum },
          s.mTimeCounter + s.mTimeQuantum)
    let currentProcess := r.1
    let mTimeCounter := r.2
    if currentProcess.tempBurstTime = 0 then
      let currentProcess := { currentProcess with finishingTime := mTimeCounter }
      some { s with mRunningProcessList := running, mGantChart := mGantChart,
                    mTimeCounter := mTimeCounter,
                    mFinishedProcesses := s.mFinishedProcesses ++ [currentProcess] }
    else
      (drainDuring (s.mTimeQuantum + 1).toNat (mTimeCounter - s.mTimeQuantum) running
          s.mProcessList).bind
        (fun x => (x.1.addProcess currentProcess).map
          (fun y => { s with mRunningProcessList := y.1, mProcessList := x.2,
                             mGantChart := mGantChart, mTimeCounter := mTimeCounter }))

/-- One iteration of the outer `while` loop of
`PriorityPreemptive::scheduleProcess`. -/
def loopBody (s : PriorityPreemptive) : Option PriorityPreemptive :=
  (drainArrived s).bind dispatch

/-- Condition of the outer loop. -/
def loopCond (s : PriorityPreemptive) : Bool :=
  !s.mProcessList.isEmpty || !s.mRunningProcessList.empty

/-- The state after at most `n` iterations of the outer loop; `none` when an
`addProcess` does not return. -/
def steps : Nat → PriorityPreemptive → Option PriorityPreemptive
  | 0, s => some s
  | n + 1, s => if loopCond s then (loopBody s).bind (steps n) else some s

/-- The final `for` loop: turnaround and waiting time of a finished process. -/
def finalize (p : Process) : Process :=
  let p := { p with turnAroundTime := p.finishingTime - p.arrivalTime }
  { p with waitingTime := p.turnAroundTime - p.burstTime }

/-- Method `PriorityPreemptive::scheduleProcess` with a bound on the iterations of
the outer loop: `none` when the loop has not ended within `fuel` iterations or an
`addProcess` does not return. -/
def PriorityPreemptive.scheduleProcess (fuel : Nat) (s : PriorityPreemptive) :
    Option PriorityPreemptive :=
  (steps fuel s).bind (fun s =>
    if loopCond s then none
    else some { s with mFinishedProcesses := s.mFinishedProcesses.map finalize })

/-- The process list of `main`. -/
def mainProcessList : List Process :=
  [Process.init4 1 0 1 10, Process.init4 2 1 2 9, Process.init4 0 2 1 5,
    Process.init4 4 3 2 4, Process.init4 5 40 5 4]

end round_robin_priority

/-! ## Specification-side notions used by the properties -/

namespace stdlib

/-- The list `l` is a heap for the ordering `key`: no element has a smaller key
than its parent, the parent of position `i > 0` being position `(i - 1) / 2`.
With `comp a b ↔ key b < key a` this is the heap property of `std::is_heap`. -/
def IsHeap {α κ : Type} [LinearOrder κ] (key : α → κ) (l : List α) : Prop :=
  ∀ i x y, 0 < i → l[i]? = some y → l[(i - 1) / 2]? = some x → key x ≤ key y

end stdlib

namespace stdlib

/-- The state of `std::__push_heap` while `value` travels up: the list is a heap
apart from the pairs that involve the hole, the children of the hole have keys
no smaller than `value`, and no smaller than the parent of the hole. -/
def HoleInv {α κ : Type} [LinearOrder κ] (key : α → κ) (value : α) (l : List α)
    (hole : Nat) : Prop :=
  (∀ i x y, 0 < i → i ≠ hole → (i - 1) / 2 ≠ hole →
    l[i]? = some y → l[(i - 1) / 2]? = some x → key x ≤ key y) ∧
  (∀ i y, 0 < i → (i - 1) / 2 = hole → l[i]? = some y → key value ≤ key y) ∧
  (∀ i x y, 0 < i → (i - 1) / 2 = hole → 0 < hole →
    l[i]? = some y → l[(hole - 1) / 2]? = some x → key x ≤ key y)

end stdlib

namespace sjf

/-- The members that identify a process of the input: (pid, arrival time,
execution time). -/
def core (p : Process) : Int × Int × Int := (p.pid, p.arrivalTime, p.executionTime)

/-- The key that `ProcessComparator` orders by: execution time, then pid. -/
def key (p : Process) : Int ×ₗ Int := toLex (p.executionTime, p.pid)

/-- The processes not yet run when entry `k` (counted from 0) of the finished
list `fin` is dispatched: the input without the first `k` entries of `fin`,
as (pid, arrival time, execution time). -/
def pending (processes fin : List Process) (k : Nat) : List (Int × Int × Int) :=
  @List.diff (Int × Int × Int) instBEqOfDecidableEq (processes.map core)
    ((fin.take k).map core)

/-- What holds at the head of the outer loop: the running queue is a heap for
`key` and the process queue is ordered by arrival time. -/
def Inv (s : SJF) : Prop :=
  stdlib.IsHeap key s.mRunningProcess ∧
  s.mProcessList.Pairwise (fun a b => a.arrivalTime ≤ b.arrivalTime)

end sjf

namespace sjf

/-- Every entry of the finished list `fin` had arrived when it started, and had
the smallest (execution time, pid) among the pending processes that had arrived. -/
def DispatchedMin (processes fin : List Process) : Prop :=
  ∀ k p, fin[k]? = some p →
    p.arrivalTime ≤ p.startingTime ∧
    ∀ c ∈ pending processes fin k, c.2.1 ≤ p.startingTime →
      p.executionTime < c.2.2 ∨ (p.executionTime = c.2.2 ∧ p.pid ≤ c.1)

/-- Every entry of the finished list `fin` starts at the later of the previous
finish time (0 for the first entry) and the smallest arrival time among the
pending processes, and finishes its execution time later. -/
def DispatchedStart (processes fin : List Process) : Prop :=
  ∀ k p prev, fin[k]? = some p →
    (0 :: fin.map (fun q => q.finishedTime))[k]? = some prev →
    p.finishedTime = p.startingTime + p.executionTime ∧
    ∃ m, (∃ c ∈ pending processes fin k, c.2.1 = m) ∧
      (∀ c ∈ pending processes fin k, m ≤ c.2.1) ∧
      p.startingTime = max prev m

/-- What holds at the head of the outer loop in a run on `processes`. -/
def Reach (processes : List Process) (s : SJF) : Prop :=
  Inv s ∧
  ((s.mFinishedProcesses ++ (s.mRunningProcess ++ s.mProcessList)).map core).Perm
    (processes.map core) ∧
  (0 :: s.mFinishedProcesses.map (fun q => q.finishedTime))[s.mFinishedProcesses.length]?
    = some s.mTimer ∧
  DispatchedMin processes s.mFinishedProcesses ∧
  ((∀ p ∈ processes, 0 ≤ p.executionTime) →
    (∀ q ∈ s.mRunningProcess, q.arrivalTime ≤ s.mTimer) ∧
    DispatchedStart processes s.mFinishedProcesses)

end sjf

namespace srtf

/-- The members that identify a process of the input: (pid, arrival time,
burst time). -/
def core (p : Process) : Int × Int × Int := (p.pid, p.arrivalTime, p.burstTime)

/-- The key that `TempBurstTimeCompare` orders by: the remaining time. -/
def key (p : Process) : Int := p.tempBurstTime

/-- The admission loop with the test `!mProcessList.empty() &&` in front of the
comparison, as the loops of the sibling engines have it: on the empty queue it ends
at once.  The third component counts the evaluations of the condition on the empty
queue (0 or 1).  This loop and the definitions `guarded.*` built on it are not in
the source; they are total, and the lemmas `srtf_drain_guarded` and
`srtf_steps_guarded` relate the loop of the source to them. -/
def guarded.drain (mTimeCounter : Int) :
    List Process → List Process → List Process × List Process × Nat
  | running, [] => (running, [], 1)
  | running, p :: rest =>
    if mTimeCounter = p.arrivalTime then
      guarded.drain mTimeCounter (stdlib.pqPush TempBurstTimeCompare running p) rest
    else (running, p :: rest, 0)

/-- The guarded admission loop on the state. -/
def guarded.drainArrived (s : SRTF) : SRTF :=
  let r := guarded.drain s.mTimeCounter s.mRunningProcessList s.mProcessList
  { s with mRunningProcessList := r.1, mProcessList := r.2.1,
           frontOnEmpty := s.frontOnEmpty + r.2.2 }

/-- One iteration of the outer loop with the guarded admission loop. -/
def guarded.loopBody (s : SRTF) : SRTF :=
  dispatch (guarded.drainArrived s)

/-- The state after at most `n` iterations of the outer loop with the guarded
admission loop. -/
def guarded.steps : Nat → SRTF → SRTF
  | 0, s => s
  | n + 1, s => if loopCond s then guarded.steps n (guarded.loopBody s) else s

/-- The scheduling routine with the guarded admission loop: `none` when the loop
has not ended within `fuel` iterations. -/
def guarded.scheduleProcess (fuel : Nat) (s : SRTF) : Option SRTF :=
  let s := guarded.steps fuel s
  if loopCond s then none
  else some { s with mFinishedProcesses := s.mFinishedProcesses.map finalize }

/-- The state of iteration `n` (counted from 0) of the guarded loop in a run on
`processes`, right after the admission loop and before the dispatch. -/
def guarded.atDispatch (processes : List Process) (n : Nat) : SRTF :=
  guarded.drainArrived (guarded.steps n (SRTF.ctor processes))

/-- The state of iteration `n` (counted from 0) of the outer loop in a run on
`processes`, right after the admission loop and before the dispatch; `none` when
the run does not get there. -/
def atDispatch (processes : List Process) (n : Nat) : Option SRTF :=
  (steps n (SRTF.ctor processes)).bind drainArrived

/-- What holds at the head of the outer loop in a run on `processes`: the running
list is a heap for the remaining time and holds arrived processes only, the process
queue is ordered by arrival time and holds no process that arrived before the
current time, and finished, running and queued processes are the input. -/
def Reach (processes : List Process) (s : SRTF) : Prop :=
  stdlib.IsHeap key s.mRunningProcessList ∧
  s.mProcessList.Pairwise (fun a b => a.arrivalTime ≤ b.arrivalTime) ∧
  (∀ q ∈ s.mProcessList, s.mTimeCounter ≤ q.arrivalTime) ∧
  (∀ q ∈ s.mRunningProcessList, q.arrivalTime ≤ s.mTimeCounter) ∧
  ((s.mFinishedProcesses ++ (s.mRunningProcessList ++ s.mProcessList)).map core).Perm
    (processes.map core)

end srtf

namespace round_robin

/-- The members that identify a process of the input: (pid, arrival time,
burst time). -/
def core (p : Process) : Int × Int × Int := (p.pid, p.arrivalTime, p.burstTime)

end round_robin

/-! ## The common shape of the tick-based engines

`srtf.cpp`, `round_robin.cpp`, `priority_preemptive.cpp` and
`round_robin_priority.cpp` run the same loop and differ in the ready structure
only.  `tick.State` is the view of an engine state that forgets the order inside
the ready structure, and `tick.Step` says what one iteration of the loop does to
this view.  The properties that do not depend on the selection rule are proved
once for `tick.Step` and carried to each engine. -/

namespace tick

/-- The members of a process that the tick-based engines share. -/
structure Proc where
  pid : Int
  arrivalTime : Int
  burstTime : Int
  tempBurstTime : Int
  startingTime : Int
  finishingTime : Int
  init : Bool
  deriving DecidableEq, Repr

/-- The view of an engine state: process queue, the processes in the ready
structure (in any order), finished list, trace and clock. -/
structure State where
  queue : List Proc
  ready : List Proc
  finished : List Proc
  gantt : List (Int × Int)
  t : Int

/-- The members that identify a process of the input. -/
def core (p : Proc) : Int × Int × Int := (p.pid, p.arrivalTime, p.burstTime)

/-- A dispatch at clock `t` with time quantum 1: the starting time is set on the
first dispatch; a remaining time below 1 is used up and the clock moves by it,
otherwise the remaining time drops by 1 and the clock moves by 1.  Returns the
process and the new clock. -/
def slice (t : Int) (p : Proc) : Proc × Int :=
  let p := if p.init = false then { p with startingTime := t, init := true } else p
  if p.tempBurstTime < 1 then ({ p with tempBurstTime := 0 }, t + p.tempBurstTime)
  else ({ p with tempBurstTime := p.tempBurstTime - 1 }, t + 1)

/-- The finished record of a dispatched process: the finishing time is the clock
after the time slice. -/
def finish (r : Proc × Int) : Proc := { r.1 with finishingTime := r.2 }

/-- One iteration of the loop on the view.

`idle`: nothing is ready and the front of the process queue has not arrived; only
the clock moves, by 1.

`run`: the arrived front part `moved` of the process queue joins the ready
processes; one of them, `cur`, is dispatched at the clock `a.t`; a second front
part `moved2` of the queue, arrived by the new clock, may join as well; `cur` goes
to the finished list when its remaining time is 0 and stays ready otherwise. -/
inductive Step : State → State → Prop
  | idle (a b : State)
      (hready : a.ready = [])
      (hhead : ∀ q, a.queue.head? = some q → a.t < q.arrivalTime)
      (hq : b.queue = a.queue) (hr : b.ready = []) (hf : b.finished = a.finished)
      (hg : b.gantt = a.gantt) (ht : b.t = a.t + 1) : Step a b
  | run (a b : State) (moved rest : List Proc) (cur : Proc)
      (others moved2 rest2 : List Proc)
      (hq : a.queue = moved ++ rest)
      (hm : ∀ q ∈ moved, q.arrivalTime ≤ a.t)
      (hp : (a.ready ++ moved).Perm (cur :: others))
      (hq2 : rest = moved2 ++ rest2)
      (hm2 : ∀ q ∈ moved2, q.arrivalTime ≤ (slice a.t cur).2)
      (hbq : b.queue = rest2)
      (hg : b.gantt = a.gantt ++ [(cur.pid, a.t)])
      (ht : b.t = (slice a.t cur).2)
      (hfin :
        ((slice a.t cur).1.tempBurstTime = 0 ∧
          b.finished = a.finished ++ [finish (slice a.t cur)] ∧
          b.ready.Perm (others ++ moved2)) ∨
        ((slice a.t cur).1.tempBurstTime ≠ 0 ∧
          b.finished = a.finished ∧
          b.ready.Perm ((slice a.t cur).1 :: (others ++ moved2)))) : Step a b

/-- Finished, ready and queued processes together are the input. -/
def Conserved (input : List (Int × Int × Int)) (a : State) : Prop :=
  ((a.finished ++ (a.ready ++ a.queue)).map core).Perm input

/-- No remaining time is negative, every ready process has arrived, and every
trace event carries the id of a process that had arrived at its timestamp. -/
def Arrived (a : State) : Prop :=
  (∀ p ∈ a.ready ++ a.queue, 0 ≤ p.tempBurstTime) ∧
  (∀ p ∈ a.ready, p.arrivalTime ≤ a.t) ∧
  (∀ e ∈ a.gantt, ∃ p ∈ a.ready ++ a.finished, p.pid = e.1 ∧ p.arrivalTime ≤ e.2)

/-- A process marked as started did not start before it arrived, and every
finished process is marked. -/
def Started (a : State) : Prop :=
  (∀ p ∈ a.finished ++ (a.ready ++ a.queue), p.init = true →
    p.arrivalTime ≤ p.startingTime) ∧
  (∀ p ∈ a.finished, p.init = true)

/-- The time already granted to the processes of `l` that carry the id `i`. -/
def work (i : Int) : List Proc → Int
  | [] => 0
  | p :: l => (if p.pid = i then p.burstTime - p.tempBurstTime else 0) + work i l

/-- The bookkeeping of the remaining time on well-formed input: queued processes
are untouched, ready processes have between 1 and `burstTime` units left and have
been granted no more time than has passed since their arrival, finished processes
have nothing left and finish no earlier than arrival plus burst; every trace event
lies before the clock, and the events carrying an id are as many as the time
granted to the processes with that id. -/
def Work (a : State) : Prop :=
  (∀ p ∈ a.queue, p.tempBurstTime = p.burstTime ∧ 1 ≤ p.burstTime) ∧
  (∀ p ∈ a.ready, 1 ≤ p.tempBurstTime ∧ p.tempBurstTime ≤ p.burstTime ∧
    p.arrivalTime + (p.burstTime - p.tempBurstTime) ≤ a.t) ∧
  (∀ p ∈ a.finished, p.tempBurstTime = 0 ∧ p.arrivalTime + p.burstTime ≤ p.finishingTime ∧
    p.finishingTime ≤ a.t) ∧
  (∀ e ∈ a.gantt, e.2 < a.t) ∧
  (∀ i, ((a.gantt.map Prod.fst).count i : Int) = work i (a.finished ++ a.ready))

/-- The last trace event of a finished process is one tick before its finishing
time. -/
def Last (a : State) : Prop :=
  ∀ p ∈ a.finished, (p.pid, p.finishingTime - 1) ∈ a.gantt ∧
    ∀ e ∈ a.gantt, e.1 = p.pid → e.2 < p.finishingTime

/-- The remaining time of all unfinished processes. -/
def remaining (a : State) : Int :=
  ((a.ready ++ a.queue).map (fun p => p.tempBurstTime)).sum

/-- The time until the last queued process arrives (0 when none is queued or all
have arrived). -/
def gap (t : Int) (queue : List Proc) : Int :=
  (queue.map (fun q => q.arrivalTime - t)).foldr max 0

/-- A bound on the number of iterations still to come. -/
def potential (a : State) : Int := remaining a + gap a.t a.queue

end tick

/-! ## The views of the four tick-based engines -/

namespace round_robin

/-- The shared members of a process of `round_robin.cpp`. -/
def view (p : Process) : tick.Proc :=
  { pid := p.pid, arrivalTime := p.arrivalTime, burstTime := p.burstTime,
    tempBurstTime := p.tempBurstTime, startingTime := p.startingTime,
    finishingTime := p.finishingTime, init := p.init }

/-- The view of a state of `RoundRobin`. -/
def abs (s : RoundRobin) : tick.State :=
  { queue := s.mProcessList.map view, ready := s.mRunningProcessList.map view,
    finished := s.mFinishedProcesses.map view, gantt := s.mGantChart,
    t := s.mTimeCounter }

end round_robin

namespace srtf

/-- The shared members of a process of `srtf.cpp`. -/
def view (p : Process) : tick.Proc :=
  { pid := p.pid, arrivalTime := p.arrivalTime, burstTime := p.burstTime,
    tempBurstTime := p.tempBurstTime, startingTime := p.startingTime,
    finishingTime := p.finishingTime, init := p.init }

/-- The view of a state of `SRTF`. -/
def abs (s : SRTF) : tick.State :=
  { queue := s.mProcessList.map view, ready := s.mRunningProcessList.map view,
    finished := s.mFinishedProcesses.map view, gantt := s.mGantChart,
    t := s.mTimeCounter }

end srtf

namespace priority_preemptive

/-- The shared members of a process of `priority_preemptive.cpp`. -/
def view (p : Process) : tick.Proc :=
  { pid := p.pid, arrivalTime := p.arrivalTime, burstTime := p.burstTime,
    tempBurstTime := p.tempBurstTime, startingTime := p.startingTime,
    finishingTime := p.finishingTime, init := p.init }

/-- The view of a state of `PriorityPreemptive`. -/
def abs (s : PriorityPreemptive) : tick.State :=
  { queue := s.mProcessList.map view, ready := s.mRunningProcessList.map view,
    finished := s.mFinishedProcesses.map view, gantt := s.mGantChart,
    t := s.mTimeCounter }

/-- The key that `PriorityCompare` orders by: priority, then pid. -/
def key (p : Process) : Int ×ₗ Int := toLex (p.priority, p.pid)

/-- The state of iteration `n` (counted from 0) of the outer loop in a run on
`processes`, right after the admission loop and before the dispatch. -/
def atDispatch (processes : List Process) (n : Nat) : PriorityPreemptive :=
  drainArrived (steps n (PriorityPreemptive.ctor processes))

/-- What holds of the two containers at the head of the outer loop: the running
list is a heap for `key`, the process queue is ordered by arrival time, and the
time quantum is 1. -/
def Inv (s : PriorityPreemptive) : Prop :=
  stdlib.IsHeap key s.mRunningProcessList ∧
  s.mProcessList.Pairwise (fun a b => a.arrivalTime ≤ b.arrivalTime) ∧
  s.mTimeQuantum = 1

end priority_preemptive

namespace round_robin_priority

/-- The shared members of a process of `round_robin_priority.cpp`. -/
def view (p : Process) : tick.Proc :=
  { pid := p.pid, arrivalTime := p.arrivalTime, burstTime := p.burstTime,
    tempBurstTime := p.tempBurstTime, startingTime := p.startingTime,
    finishingTime := p.finishingTime, init := p.init }

/-- The processes stored in a `RunningProcess`, queue after queue. -/
def RunningProcess.stored (r : RunningProcess) : List Process := r.mProcessList.flatten

/-- The view of a state of the bucketed `PriorityPreemptive`. -/
def abs (s : PriorityPreemptive) : tick.State :=
  { queue := s.mProcessList.map view, ready := s.mRunningProcessList.stored.map view,
    finished := s.mFinishedProcesses.map view, gantt := s.mGantChart,
    t := s.mTimeCounter }

/-- Every stored process sits in the queue of its priority, and `processCount` is
the number of stored processes. -/
def RunningProcess.Wf (r : RunningProcess) : Prop :=
  (∀ (j : Nat) (q : List Process) (p : Process),
    r.mProcessList[j]? = some q → p ∈ q → p.priority = (j : Int)) ∧
  r.processCount = (r.stored.length : Int)

/-- What holds of the containers at the head of the outer loop: the running
structure is well formed, no queued process has a negative priority, the process
queue is ordered by arrival time, and the time quantum is 1. -/
def Inv (s : PriorityPreemptive) : Prop :=
  s.mRunningProcessList.Wf ∧
  (∀ p ∈ s.mProcessList, 0 ≤ p.priority) ∧
  s.mProcessList.Pairwise (fun a b => a.arrivalTime ≤ b.arrivalTime) ∧
  s.mTimeQuantum = 1

end round_robin_priority

/-! ## Further specification-side notions -/

namespace priority_preemptive

/-- The members that identify a process of the input: (pid, arrival time,
priority, burst time). -/
def core (p : Process) : Int × Int × Int × Int :=
  (p.pid, p.arrivalTime, p.priority, p.burstTime)

end priority_preemptive

/-! ## The averages of the print routines -/

namespace stdlib

/-- The value of a `double` expression.  IEEE 754 division does not trap on a
zero divisor: `0.0 / 0` is a NaN and any other value over 0 is an infinity.  A
quotient with a divisor that is not zero is kept as the exact rational; its
rounding to a `double` is not modelled. -/
inductive DoubleValue where
  | nan
  | infinity (negative : Bool)
  | finite (q : ℚ)
  deriving DecidableEq

/-- The expression `double(a) / n` for an `int` `a` and a `size_t` `n`. -/
def divDouble (a : Int) (n : Nat) : DoubleValue :=
  if n = 0 then
    if a = 0 then DoubleValue.nan else DoubleValue.infinity (decide (a < 0))
  else DoubleValue.finite ((a : ℚ) / (n : ℚ))

end stdlib

namespace fcfs

/-- The two averages that `FCFS::print` writes: both sums divided by
`mProcessQueue.size()`, with no test of the size. -/
def FCFS.printAverages (s : FCFS) : stdlib.DoubleValue × stdlib.DoubleValue :=
  (stdlib.divDouble s.printSums.1 s.process.mProcessQueue.length,
    stdlib.divDouble s.printSums.2 s.process.mProcessQueue.length)

end fcfs

namespace sjf

/-- The two averages that `SJF::print` writes after calling `scheduleProcess`:
the sums of the waiting and turnaround times divided by
`mFinishedProcesses.size()`, with no test of the size. -/
def SJF.printAverages (s : SJF) : stdlib.DoubleValue × stdlib.DoubleValue :=
  let r := s.scheduleProcess
  let sums := r.mFinishedProcesses.foldl
    (fun acc p => (acc.1 + p.waitingTime, acc.2 + p.turnAroundTime)) ((0, 0) : Int × Int)
  (stdlib.divDouble sums.1 r.mFinishedProcesses.length,
    stdlib.divDouble sums.2 r.mFinishedProcesses.length)

end sjf

namespace srtf

/-- The two averages that `SRTF::print` writes after calling `scheduleProcess`
(`none` when `scheduleProcess` has not returned within `fuel` iterations): the sums
of the
waiting and turnaround times divided by `mFinishedProcesses.size()`, with no
test of the size. -/
def SRTF.printAverages (fuel : Nat) (s : SRTF) :
    Option (stdlib.DoubleValue × stdlib.DoubleValue) :=
  (SRTF.scheduleProcess fuel s).map (fun r =>
    let sums := r.mFinishedProcesses.foldl
      (fun acc p => (acc.1 + p.waitingTime, acc.2 + p.turnAroundTime)) ((0, 0) : Int × Int)
    (stdlib.divDouble sums.1 r.mFinishedProcesses.length,
      stdlib.divDouble sums.2 r.mFinishedProcesses.length))

end srtf

namespace round_robin

/-- The two averages that `RoundRobin::print` writes after calling
`scheduleProcess` (`none` when the loop has not ended within `fuel` iterations):
the sums of the waiting and turnaround times divided by
`mFinishedProcesses.size()`, with no test of the size. -/
def RoundRobin.printAverages (fuel : Nat) (s : RoundRobin) :
    Option (stdlib.DoubleValue × stdlib.DoubleValue) :=
  (RoundRobin.scheduleProcess fuel s).map (fun r =>
    let sums := r.mFinishedProcesses.foldl
      (fun acc p => (acc.1 + p.waitingTime, acc.2 + p.turnAroundTime)) ((0, 0) : Int × Int)
    (stdlib.divDouble sums.1 r.mFinishedProcesses.length,
      stdlib.divDouble sums.2 r.mFinishedProcesses.length))

end round_robin

namespace priority_preemptive

/-- The two averages that the plain `PriorityPreemptive::print` writes after
calling `scheduleProcess` (`none` when the loop has not ended within `fuel`
iterations): the sums of the waiting and turnaround times divided by
`mFinishedProcesses.size()`, with no test of the size. -/
def PriorityPreemptive.printAverages (fuel : Nat) (s : PriorityPreemptive) :
    Option (stdlib.DoubleValue × stdlib.DoubleValue) :=
  (PriorityPreemptive.scheduleProcess fuel s).map (fun r =>
    let sums := r.mFinishedProcesses.foldl
      (fun acc p => (acc.1 + p.waitingTime, acc.2 + p.turnAroundTime)) ((0, 0) : Int × Int)
    (stdlib.divDouble sums.1 r.mFinishedProcesses.length,
      stdlib.divDouble sums.2 r.mFinishedProcesses.length))

end priority_preemptive

namespace round_robin_priority

/-- The two averages that the bucketed `PriorityPreemptive::print` writes after
calling `scheduleProcess` (`none` when `scheduleProcess` has not returned within
`fuel` iterations): the sums of the waiting and turnaround times divided by
`mFinishedProcesses.size()`, with no test of the size. -/
def PriorityPreemptive.printAverages (fuel : Nat) (s : PriorityPreemptive) :
    Option (stdlib.DoubleValue × stdlib.DoubleValue) :=
  (PriorityPreemptive.scheduleProcess fuel s).map (fun r =>
    let sums := r.mFinishedProcesses.foldl
      (fun acc p => (acc.1 + p.waitingTime, acc.2 + p.turnAroundTime)) ((0, 0) : Int × Int)
    (stdlib.divDouble sums.1 r.mFinishedProcesses.length,
      stdlib.divDouble sums.2 r.mFinishedProcesses.length))

/-! ## Sequences of calls on a `RunningProcess` -/

/-- A call of one of the two methods of `RunningProcess` that change it. -/
inductive Call where
  | addProcess (process : Process)
  | getProcess

/-- The structure after one call; `none` when `addProcess` does not return. -/
def RunningProcess.call (r : RunningProcess) : Call → Option RunningProcess
  | Call.addProcess p => (r.addProcess p).map Prod.fst
  | Call.getProcess => some r.getProcess.2

/-- The structure after a sequence of calls, the first call first. -/
def RunningProcess.calls : RunningProcess → List Call → Option RunningProcess
  | r, [] => some r
  | r, c :: cs => (r.call c).bind (fun r2 => r2.calls cs)

/-- One more than the highest priority among the processes that the calls add;
0 when no call adds a process. -/
def highestAdded : List Call → Nat
  | [] => 0
  | Call.addProcess p :: cs => max (p.priority.toNat + 1) (highestAdded cs)
  | Call.getProcess :: cs => highestAdded cs

/-- No call adds a process with a negative priority. -/
def CallsValid (cs : List Call) : Prop :=
  ∀ p, Call.addProcess p ∈ cs → 0 ≤ p.priority

end round_robin_priority

namespace tick

/-- A process that has not been dispatched has no trace event; the starting time
of a dispatched process is the timestamp of the first trace event with its id, is
not later than any trace event with its id, and is not later than the clock. -/
def First (a : State) : Prop :=
  ∀ p ∈ a.finished ++ (a.ready ++ a.queue),
    (p.init = false → ∀ e ∈ a.gantt, e.1 ≠ p.pid) ∧
    (p.init = true →
      a.gantt.find? (fun e => decide (e.1 = p.pid)) = some (p.pid, p.startingTime) ∧
      (∀ e ∈ a.gantt, e.1 = p.pid → p.startingTime ≤ e.2) ∧
      p.startingTime ≤ a.t)

/-- What an iteration of a tick-based loop does to the processes and the trace, as
far as the starting times go: the clock does not go back; either the trace and the
processes stay as they are, or one process `cur` is dispatched: the event
(id of `cur`, clock) is appended, `cur` becomes `cur2` with the same id, `init` set
and the starting time set to the clock if `init` was not set before, and `cur2`
may join the finished list. -/
def Move (a b : State) : Prop :=
  a.t ≤ b.t ∧
  ((b.gantt = a.gantt ∧ b.finished = a.finished ∧
      (b.finished ++ (b.ready ++ b.queue)).Perm (a.finished ++ (a.ready ++ a.queue))) ∨
    ∃ cur cur2 others,
      (a.finished ++ (a.ready ++ a.queue)).Perm (cur :: others) ∧
      (b.finished ++ (b.ready ++ b.queue)).Perm (cur2 :: others) ∧
      cur2.pid = cur.pid ∧ cur2.init = true ∧
      (cur.init = false → cur2.startingTime = a.t) ∧
      (cur.init = true → cur2.startingTime = cur.startingTime) ∧
      (b.finished = a.finished ∨ b.finished = a.finished ++ [cur2]) ∧
      b.gantt = a.gantt ++ [(cur.pid, a.t)])

/-- The starting time is set once: a process of `a` whose `init` is set has `init`
set and the same starting time in `b`. -/
def SetOnce (a b : State) : Prop :=
  ∀ p ∈ a.finished ++ (a.ready ++ a.queue), p.init = true →
    ∀ q ∈ b.finished ++ (b.ready ++ b.queue), q.pid = p.pid →
      q.init = true ∧ q.startingTime = p.startingTime

end tick

/-! ## Notions used to compare runs of the two priority engines -/

namespace priority_preemptive

/-- The statements of `PriorityPreemptive::scheduleProcess` between the fetch of
the current process and the test of its remaining time, as a function of the
clock, the time quantum and the fetched process: the process after its time slice
and the clock after it. -/
def timeSlice (mTimeCounter mTimeQuantum : Int) (currentProcess : Process) : Process × Int :=
  let currentProcess :=
    if currentProcess.init = false then
      { currentProcess with startingTime := mTimeCounter, init := true }
    else currentProcess
  if currentProcess.tempBurstTime < mTimeQuantum then
    ({ currentProcess with tempBurstTime := 0 }, mTimeCounter + currentProcess.tempBurstTime)
  else
    ({ currentProcess with tempBurstTime := currentProcess.tempBurstTime - mTimeQuantum },
      mTimeCounter + mTimeQuantum)

end priority_preemptive

namespace round_robin_priority

/-- The statements of the bucketed `PriorityPreemptive::scheduleProcess` between
the fetch of the current process and the test of its remaining time: the process
after its time slice and the clock after it. -/
def timeSlice (mTimeCounter mTimeQuantum : Int) (currentProcess : Process) : Process × Int :=
  let currentProcess :=
    if currentProcess.init = false then
      { currentProcess with startingTime := mTimeCounter, init := true }
    else currentProcess
  if currentProcess.tempBurstTime < mTimeQuantum then
    ({ currentProcess with tempBurstTime := 0 }, mTimeCounter + currentProcess.tempBurstTime)
  else
    ({ currentProcess with tempBurstTime := currentProcess.tempBurstTime - mTimeQuantum },
      mTimeCounter + mTimeQuantum)

/-- The record of `priority_preemptive.cpp` with the same members as a record of
`round_robin_priority.cpp`: the two structures declare the same members. -/
def Process.toPlain (p : Process) : priority_preemptive.Process :=
  { pid := p.pid, arrivalTime := p.arrivalTime, priority := p.priority,
    burstTime := p.burstTime, tempBurstTime := p.tempBurstTime,
    startingTime := p.startingTime, finishingTime := p.finishingTime,
    turnAroundTime := p.turnAroundTime, waitingTime := p.waitingTime, init := p.init }

/-- The process with a negative priority replaced by 0.  The engine reads the
priority of a process only when it stores the process, so a run that returns is the
run on the queue with these processes in place of the queued ones. -/
def Process.clamp (p : Process) : Process :=
  if p.priority < 0 then { p with priority := 0 } else p

/-- The state with every queued process replaced by its `clamp`. -/
def PriorityPreemptive.clampQueue (s : PriorityPreemptive) : PriorityPreemptive :=
  { s with mProcessList := s.mProcessList.map Process.clamp }

/-- A state `sp` of the plain priority engine and a state `sb` of the bucketed
engine agree up to the processes `early`: they have the same clock, trace and
finished list; the bucketed engine has stored the front part `early` of the plain
engine's process queue already, all of it arrived; apart from that the same
processes are queued and the same processes are ready.  Both ready structures are
well formed, both time quanta are 1, the bucketed engine holds no negative priority
and no two unfinished processes have the same priority. -/
def AgreeUpTo (early : List Process) (sp : priority_preemptive.PriorityPreemptive)
    (sb : PriorityPreemptive) : Prop :=
  sp.mTimeCounter = sb.mTimeCounter ∧
  sp.mGantChart = sb.mGantChart ∧
  sp.mFinishedProcesses = sb.mFinishedProcesses.map Process.toPlain ∧
  sp.mTimeQuantum = 1 ∧ sb.mTimeQuantum = 1 ∧
  stdlib.IsHeap priority_preemptive.key sp.mRunningProcessList ∧
  sb.mRunningProcessList.Wf ∧
  (∀ p ∈ sb.mRunningProcessList.stored ++ sb.mProcessList, 0 ≤ p.priority) ∧
  ((sb.mRunningProcessList.stored ++ sb.mProcessList).map (fun p => p.priority)).Nodup ∧
  sp.mProcessList = (early ++ sb.mProcessList).map Process.toPlain ∧
  (∀ p ∈ early, p.arrivalTime ≤ sb.mTimeCounter) ∧
  (sp.mRunningProcessList ++ early.map Process.toPlain).Perm
    (sb.mRunningProcessList.stored.map Process.toPlain)

/-- The two states agree, up to some processes stored early. -/
def Agree (sp : priority_preemptive.PriorityPreemptive) (sb : PriorityPreemptive) : Prop :=
  ∃ early, AgreeUpTo early sp sb

end round_robin_priority

/-! # Properties -/

/-! ## Running the outer loops

The lemmas on SRTF in this and the following sections are about `srtf.guarded.*`,
the loop with the test of `empty()` in its admission loop; it is total.  The section
on the loop of the source and the guarded loop carries them over to `srtf.steps`
and `srtf.SRTF.scheduleProcess`. -/

namespace srtf

theorem srtf_steps_of_loopCond_false (n : Nat) (s : SRTF) (h : loopCond s = false) :
    guarded.steps n s = s := by
  cases n with
  | zero => rfl
  | succ n => simp [guarded.steps, h]

theorem srtf_steps_add (n k : Nat) (s : SRTF) : guarded.steps (n + k) s = guarded.steps k (guarded.steps n s) := by
  induction n generalizing s with
  | zero => simp [guarded.steps]
  | succ n ih =>
    rw [Nat.succ_add]
    by_cases h : loopCond s = true
    · simp [guarded.steps, h, ih]
    · have h' : loopCond s = false := by simpa using h
      simp [guarded.steps, h', srtf_steps_of_loopCond_false]

/-- Once the loop has ended within `n` iterations, any larger bound gives the
same result. -/
theorem srtf_scheduleProcess_mono (n m : Nat) (s r : SRTF) (hnm : n ≤ m)
    (h : guarded.scheduleProcess n s = some r) : guarded.scheduleProcess m s = some r := by
  obtain ⟨k, rfl⟩ := Nat.exists_eq_add_of_le hnm
  unfold guarded.scheduleProcess at h ⊢
  by_cases hc : loopCond (guarded.steps n s) = true
  · simp [hc] at h
  · have hc' : loopCond (guarded.steps n s) = false := by simpa using hc
    rw [srtf_steps_add, srtf_steps_of_loopCond_false k _ hc']
    exact h

end srtf

namespace round_robin

theorem rr_steps_of_loopCond_false (n : Nat) (s : RoundRobin) (h : loopCond s = false) :
    steps n s = s := by
  cases n with
  | zero => rfl
  | succ n => simp [steps, h]

theorem rr_steps_add (n k : Nat) (s : RoundRobin) :
    steps (n + k) s = steps k (steps n s) := by
  induction n generalizing s with
  | zero => simp [steps]
  | succ n ih =>
    rw [Nat.succ_add]
    by_cases h : loopCond s = true
    · simp [steps, h, ih]
    · have h' : loopCond s = false := by simpa using h
      simp [steps, h', rr_steps_of_loopCond_false]

/-- Once the loop has ended within `n` iterations, any larger bound gives the
same result. -/
theorem rr_scheduleProcess_mono (n m : Nat) (s r : RoundRobin) (hnm : n ≤ m)
    (h : RoundRobin.scheduleProcess n s = some r) :
    RoundRobin.scheduleProcess m s = some r := by
  obtain ⟨k, rfl⟩ := Nat.exists_eq_add_of_le hnm
  unfold RoundRobin.scheduleProcess at h ⊢
  by_cases hc : loopCond (steps n s) = true
  · simp [hc] at h
  · have hc' : loopCond (steps n s) = false := by simpa using hc
    rw [rr_steps_add, rr_steps_of_loopCond_false k _ hc']
    exact h

end round_robin

/-! ## The scenarios of the specification -/

/-- C1: FCFS on the process list {(0,0,5),(1,4,3),(2,3,3),(3,12,4)} handles the
processes in the id order 0, 2, 1, 3 and gives them the finish times 5, 8, 11, 16. -/
theorem fcfs_scenario_order_and_finish :
    ((fcfs.FCFS.ctor
        [fcfs.Process.init 0 0 5, fcfs.Process.init 1 4 3, fcfs.Process.init 2 3 3,
          fcfs.Process.init 3 12 4]).process.mProcessQueue.map
      (fun p => (p.pid, p.finishedTime))) = [(0, 5), (2, 8), (1, 11), (3, 16)] := by
  decide

/-- C2 as stated fails: on the scenario list the waiting times computed by FCFS
are not 0, 5, 4, 1, their sum is not 10 and the average is not 2.5. -/
theorem fcfs_scenario_waiting_not_as_stated :
    ¬ (((fcfs.FCFS.ctor
          [fcfs.Process.init 0 0 5, fcfs.Process.init 1 4 3, fcfs.Process.init 2 3 3,
            fcfs.Process.init 3 12 4]).process.mProcessQueue.map
          (fun p => p.waitingTime)) = [0, 5, 4, 1]) ∧
    (fcfs.FCFS.ctor
        [fcfs.Process.init 0 0 5, fcfs.Process.init 1 4 3, fcfs.Process.init 2 3 3,
          fcfs.Process.init 3 12 4]).printSums.1 ≠ 10 ∧
    (fcfs.FCFS.ctor
        [fcfs.Process.init 0 0 5, fcfs.Process.init 1 4 3, fcfs.Process.init 2 3 3,
          fcfs.Process.init 3 12 4]).averageWaitingTime ≠ 5 / 2 := by
  have hs : (fcfs.FCFS.ctor
        [fcfs.Process.init 0 0 5, fcfs.Process.init 1 4 3, fcfs.Process.init 2 3 3,
          fcfs.Process.init 3 12 4]).printSums = (6, 21) := by decide
  have hl : (fcfs.FCFS.ctor
        [fcfs.Process.init 0 0 5, fcfs.Process.init 1 4 3, fcfs.Process.init 2 3 3,
          fcfs.Process.init 3 12 4]).process.mProcessQueue.length = 4 := by decide
  refine ⟨by decide, by rw [hs]; decide, ?_⟩
  unfold fcfs.FCFS.averageWaitingTime
  rw [hs, hl]
  norm_num

/-- C2 (amended): on the scenario list FCFS yields the waiting times 0, 2, 4, 0
(in the order 0, 2, 1, 3 of the queue); they sum to 6 and the average waiting time
over the 4 processes is 1.5. -/
theorem fcfs_scenario_waiting :
    ((fcfs.FCFS.ctor
        [fcfs.Process.init 0 0 5, fcfs.Process.init 1 4 3, fcfs.Process.init 2 3 3,
          fcfs.Process.init 3 12 4]).process.mProcessQueue.map
      (fun p => (p.pid, p.waitingTime))) = [(0, 0), (2, 2), (1, 4), (3, 0)] ∧
    (fcfs.FCFS.ctor
        [fcfs.Process.init 0 0 5, fcfs.Process.init 1 4 3, fcfs.Process.init 2 3 3,
          fcfs.Process.init 3 12 4]).printSums.1 = 6 ∧
    (fcfs.FCFS.ctor
        [fcfs.Process.init 0 0 5, fcfs.Process.init 1 4 3, fcfs.Process.init 2 3 3,
          fcfs.Process.init 3 12 4]).process.mProcessQueue.length = 4 ∧
    (fcfs.FCFS.ctor
        [fcfs.Process.init 0 0 5, fcfs.Process.init 1 4 3, fcfs.Process.init 2 3 3,
          fcfs.Process.init 3 12 4]).averageWaitingTime = 3 / 2 := by
  have hs : (fcfs.FCFS.ctor
        [fcfs.Process.init 0 0 5, fcfs.Process.init 1 4 3, fcfs.Process.init 2 3 3,
          fcfs.Process.init 3 12 4]).printSums = (6, 21) := by decide
  have hl : (fcfs.FCFS.ctor
        [fcfs.Process.init 0 0 5, fcfs.Process.init 1 4 3, fcfs.Process.init 2 3 3,
          fcfs.Process.init 3 12 4]).process.mProcessQueue.length = 4 := by decide
  refine ⟨by decide, by rw [hs], hl, ?_⟩
  unfold fcfs.FCFS.averageWaitingTime
  rw [hs, hl]
  norm_num

/-- C4: Round-Robin (quantum 1) on the processes (0, arrival 0, burst 3) and
(1, arrival 0, burst 3), in that order, ends (within any bound of at least 6
iterations) with a trace whose ids alternate 0,1,0,1,0,1 at the timestamps
0,1,2,3,4,5; process 0 finishes at time 5 and process 1 at time 6. -/
theorem round_robin_scenario_trace (fuel : Nat) (h : 6 ≤ fuel) :
    ((round_robin.RoundRobin.ctor
        [round_robin.Process.init4 0 0 3 3,
          round_robin.Process.init4 1 0 3 3]).scheduleProcess fuel).map
      (fun r => (r.mTimeQuantum, r.mGantChart,
        r.mFinishedProcesses.map (fun p => (p.pid, p.finishingTime))))
      = some (1, [(0, 0), (1, 1), (0, 2), (1, 3), (0, 4), (1, 5)], [(0, 5), (1, 6)]) := by
  have h6 : ∃ r, (round_robin.RoundRobin.ctor
        [round_robin.Process.init4 0 0 3 3,
          round_robin.Process.init4 1 0 3 3]).scheduleProcess 6 = some r ∧
      (r.mTimeQuantum, r.mGantChart,
        r.mFinishedProcesses.map (fun p => (p.pid, p.finishingTime)))
        = (1, [(0, 0), (1, 1), (0, 2), (1, 3), (0, 4), (1, 5)], [(0, 5), (1, 6)]) := by
    decide
  obtain ⟨r, hr, hv⟩ := h6
  rw [round_robin.rr_scheduleProcess_mono 6 fuel _ r h hr]
  simp [hv]

/-- The statement of C4 at the bound 6. -/
theorem round_robin_scenario_trace_witness :
    6 ≤ 6 ∧
    ((round_robin.RoundRobin.ctor
        [round_robin.Process.init4 0 0 3 3,
          round_robin.Process.init4 1 0 3 3]).scheduleProcess 6).map
      (fun r => (r.mTimeQuantum, r.mGantChart,
        r.mFinishedProcesses.map (fun p => (p.pid, p.finishingTime))))
      = some (1, [(0, 0), (1, 1), (0, 2), (1, 3), (0, 4), (1, 5)], [(0, 5), (1, 6)]) :=
  ⟨le_refl 6, round_robin_scenario_trace 6 (le_refl 6)⟩

/-! ## FCFS -/

namespace fcfs

/-- The members that identify a process: pid, arrival time, execution time. -/
theorem fcfs_processOne_fields (t : Int) (p : Process) :
    (processOne t p).2.pid = p.pid ∧ (processOne t p).2.arrivalTime = p.arrivalTime ∧
    (processOne t p).2.executionTime = p.executionTime ∧
    (processOne t p).2.startingTime = max t p.arrivalTime ∧
    (processOne t p).2.finishedTime = max t p.arrivalTime + p.executionTime ∧
    (processOne t p).1 = max t p.arrivalTime + p.executionTime := by
  unfold processOne
  by_cases h : t < p.arrivalTime
  · simp [h, max_eq_right (le_of_lt h)]
  · simp [h, max_eq_left (not_lt.mp h)]

theorem fcfs_processLoop_cons (t : Int) (p : Process) (rest : List Process) :
    (processLoop t (p :: rest)).2 =
      (processOne t p).2 :: (processLoop (processOne t p).1 rest).2 := rfl

theorem fcfs_notAfter_iff (a b : Process) :
    notAfter a b ↔ a.arrivalTime < b.arrivalTime ∨
      (a.arrivalTime = b.arrivalTime ∧ a.pid ≤ b.pid) := by
  unfold notAfter processCompare
  by_cases h : b.arrivalTime = a.arrivalTime
  · simp [h]
  · simp only [h, if_false, decide_eq_false_iff_not, not_lt]
    constructor
    · intro hle
      exact Or.inl (lt_of_le_of_ne hle (fun e => h e.symm))
    · rintro (hlt | ⟨he, _⟩)
      · exact le_of_lt hlt
      · exact absurd he.symm h

theorem fcfs_notAfter_total : IsTotal Process notAfter :=
  ⟨fun a b => by
    rw [fcfs_notAfter_iff, fcfs_notAfter_iff]
    rcases lt_trichotomy a.arrivalTime b.arrivalTime with h | h | h
    · exact Or.inl (Or.inl h)
    · rcases le_total a.pid b.pid with hp | hp
      · exact Or.inl (Or.inr ⟨h, hp⟩)
      · exact Or.inr (Or.inr ⟨h.symm, hp⟩)
    · exact Or.inr (Or.inl h)⟩

theorem fcfs_notAfter_trans : IsTrans Process notAfter :=
  ⟨fun a b c => by
    rw [fcfs_notAfter_iff, fcfs_notAfter_iff, fcfs_notAfter_iff]
    rintro (h1 | ⟨h1, h1p⟩) (h2 | ⟨h2, h2p⟩)
    · exact Or.inl (lt_trans h1 h2)
    · exact Or.inl (h2 ▸ h1)
    · exact Or.inl (h1 ▸ h2)
    · exact Or.inr ⟨h1.trans h2, le_trans h1p h2p⟩⟩

/-- The queue built by the constructor is the input list sorted by
(arrival time, pid). -/
theorem fcfs_ctor_queue (processes : List Process) :
    (FCFS.ctor processes).mProcessQueue.Perm processes ∧
    (FCFS.ctor processes).mProcessQueue.Pairwise notAfter :=
  ⟨List.perm_insertionSort _ _,
    @List.sorted_insertionSort _ notAfter _ fcfs_notAfter_total fcfs_notAfter_trans _⟩

theorem fcfs_processLoop_core (t : Int) (l : List Process) :
    (processLoop t l).2.map (fun p => (p.pid, p.arrivalTime, p.executionTime)) =
      l.map (fun p => (p.pid, p.arrivalTime, p.executionTime)) := by
  induction l generalizing t with
  | nil => rfl
  | cons p rest ih =>
    obtain ⟨h1, h2, h3, -⟩ := fcfs_processOne_fields t p
    rw [fcfs_processLoop_cons, List.map_cons, List.map_cons, ih, h1, h2, h3]

theorem fcfs_processLoop_finish (t : Int) (l : List Process) :
    ∀ p ∈ (processLoop t l).2, p.finishedTime = p.startingTime + p.executionTime := by
  induction l generalizing t with
  | nil => intro p hp; simp [processLoop] at hp
  | cons q rest ih =>
    intro p hp
    rw [fcfs_processLoop_cons, List.mem_cons] at hp
    rcases hp with rfl | hp
    · obtain ⟨-, -, h3, h4, h5, -⟩ := fcfs_processOne_fields t q
      rw [h5, h4, h3]
    · exact ih _ p hp

theorem fcfs_processLoop_head (t : Int) (l : List Process) :
    ∀ p, (processLoop t l).2.head? = some p → p.startingTime = max t p.arrivalTime := by
  cases l with
  | nil => intro p hp; simp [processLoop] at hp
  | cons q rest =>
    intro p hp
    rw [fcfs_processLoop_cons, List.head?_cons, Option.some.injEq] at hp
    subst hp
    obtain ⟨-, h2, -, h4, -⟩ := fcfs_processOne_fields t q
    rw [h4, h2]

theorem fcfs_processLoop_chain (t : Int) (l : List Process) :
    (processLoop t l).2.Chain'
      (fun a b => b.startingTime = max a.finishedTime b.arrivalTime) := by
  induction l generalizing t with
  | nil => simp [processLoop]
  | cons q rest ih =>
    rw [fcfs_processLoop_cons, List.chain'_cons']
    refine ⟨?_, ih _⟩
    intro b hb
    have hb' := fcfs_processLoop_head (processOne t q).1 rest b (by simpa using hb)
    obtain ⟨-, -, -, -, h5, h6⟩ := fcfs_processOne_fields t q
    rw [hb', h6, h5]

theorem fcfs_processLoop_disjoint (t : Int) (l : List Process)
    (hexec : ∀ p ∈ l, 0 ≤ p.executionTime) :
    (∀ p ∈ (processLoop t l).2, t ≤ p.startingTime ∧ p.startingTime ≤ p.finishedTime) ∧
    (processLoop t l).2.Pairwise (fun a b => a.finishedTime ≤ b.startingTime) := by
  induction l generalizing t with
  | nil => simp [processLoop]
  | cons q rest ih =>
    obtain ⟨-, -, -, h4, h5, h6⟩ := fcfs_processOne_fields t q
    have hq : 0 ≤ q.executionTime := hexec q (List.mem_cons_self _ _)
    obtain ⟨ih1, ih2⟩ := ih (processOne t q).1 (fun p hp => hexec p (List.mem_cons_of_mem _ hp))
    rw [fcfs_processLoop_cons]
    refine ⟨?_, ?_⟩
    · intro p hp
      rw [List.mem_cons] at hp
      rcases hp with rfl | hp
      · rw [h4, h5]
        exact ⟨le_max_left _ _, by omega⟩
      · obtain ⟨ha, hb⟩ := ih1 p hp
        rw [h6] at ha
        exact ⟨by have := le_max_left t q.arrivalTime; omega, hb⟩
    · rw [List.pairwise_cons]
      refine ⟨?_, ih2⟩
      intro p hp
      obtain ⟨ha, -⟩ := ih1 p hp
      rw [h5]
      rw [h6] at ha
      exact ha

end fcfs

/-- C5 as stated fails: on the list (0, arrival 0, execution time 5),
(1, 0, -10), (2, 0, 3) `FCFS::process` gives process 0 the interval [0, 5) and
process 2 the interval [0, 3); the two intervals share the instant 0, and the
finish time 5 of the first process is after the start time 0 of the third. -/
theorem fcfs_intervals_overlap_negative_burst :
    ((fcfs.FCFS.ctor
        [fcfs.Process.init 0 0 5, fcfs.Process.init 1 0 (-10),
          fcfs.Process.init 2 0 3]).process.mProcessQueue.map
      (fun p => (p.pid, p.startingTime, p.finishedTime)))
      = [(0, 0, 5), (1, 5, -5), (2, 0, 3)] ∧
    ¬ ((fcfs.FCFS.ctor
        [fcfs.Process.init 0 0 5, fcfs.Process.init 1 0 (-10),
          fcfs.Process.init 2 0 3]).process.mProcessQueue.Pairwise
      (fun a b => a.finishedTime ≤ b.startingTime)) := by
  decide

/-- C5 (amended): for every process list, the queue of `FCFS` is the input sorted
by (arrivalTime, pid), and `FCFS::process` keeps pid, arrival and execution time of
every position and assigns start_1 = max(0, arrival_1),
start_(i+1) = max(finish_i, arrival_(i+1)) and finish_i = start_i + burst_i; if no
execution time is negative, every process finishes no earlier than it starts and no
later than every process behind it in the queue starts, so the CPU intervals
[start_i, finish_i) are pairwise disjoint and in sorted order. -/
theorem fcfs_process_schedule (processes : List fcfs.Process) :
    (fcfs.FCFS.ctor processes).mProcessQueue.Perm processes ∧
    (fcfs.FCFS.ctor processes).mProcessQueue.Pairwise
      (fun a b => fcfs.processCompare b a = false) ∧
    (fcfs.FCFS.ctor processes).process.mProcessQueue.map
        (fun p => (p.pid, p.arrivalTime, p.executionTime)) =
      (fcfs.FCFS.ctor processes).mProcessQueue.map
        (fun p => (p.pid, p.arrivalTime, p.executionTime)) ∧
    (∀ p, (fcfs.FCFS.ctor processes).process.mProcessQueue.head? = some p →
      p.startingTime = max 0 p.arrivalTime) ∧
    (fcfs.FCFS.ctor processes).process.mProcessQueue.Chain'
      (fun a b => b.startingTime = max a.finishedTime b.arrivalTime) ∧
    (∀ p ∈ (fcfs.FCFS.ctor processes).process.mProcessQueue,
      p.finishedTime = p.startingTime + p.executionTime) ∧
    ((∀ p ∈ processes, 0 ≤ p.executionTime) →
      (∀ p ∈ (fcfs.FCFS.ctor processes).process.mProcessQueue,
        p.startingTime ≤ p.finishedTime) ∧
      (fcfs.FCFS.ctor processes).process.mProcessQueue.Pairwise
        (fun a b => a.finishedTime ≤ b.startingTime)) := by
  refine ⟨(fcfs.fcfs_ctor_queue processes).1, (fcfs.fcfs_ctor_queue processes).2,
    fcfs.fcfs_processLoop_core _ _, fcfs.fcfs_processLoop_head _ _, fcfs.fcfs_processLoop_chain _ _,
    fcfs.fcfs_processLoop_finish _ _, ?_⟩
  intro hexec
  have hq : ∀ p ∈ (fcfs.FCFS.ctor processes).mProcessQueue, 0 ≤ p.executionTime :=
    fun p hp => hexec p ((fcfs.fcfs_ctor_queue processes).1.mem_iff.mp hp)
  obtain ⟨h1, h2⟩ := fcfs.fcfs_processLoop_disjoint 0 _ hq
  exact ⟨fun p hp => (h1 p hp).2, h2⟩

/-- The statement of C5 (amended) on the scenario list, whose execution times are
all positive. -/
theorem fcfs_process_schedule_witness :
    (∀ p ∈ [fcfs.Process.init 0 0 5, fcfs.Process.init 1 4 3, fcfs.Process.init 2 3 3,
        fcfs.Process.init 3 12 4], 0 ≤ p.executionTime) ∧
    (fcfs.FCFS.ctor [fcfs.Process.init 0 0 5, fcfs.Process.init 1 4 3,
        fcfs.Process.init 2 3 3, fcfs.Process.init 3 12 4]).process.mProcessQueue.Pairwise
      (fun a b => a.finishedTime ≤ b.startingTime) :=
  ⟨by decide,
    ((fcfs_process_schedule _).2.2.2.2.2.2 (by decide)).2⟩

/-! ## The binary heap -/

namespace stdlib

section heap

variable {α κ : Type} [LinearOrder κ]

theorem cons_set_perm (a b : α) (t : List α) (j : Nat) (h : t[j]? = some b) :
    (b :: t.set j a).Perm (a :: t) := by
  induction t generalizing j with
  | nil => simp at h
  | cons x t ih =>
    cases j with
    | zero =>
      simp only [List.getElem?_cons_zero, Option.some.injEq] at h
      subst h
      simpa using List.Perm.swap a x t
    | succ j =>
      simp only [List.getElem?_cons_succ] at h
      simp only [List.set_cons_succ]
      exact (List.Perm.swap x b _).trans (((ih j h).cons x).trans (List.Perm.swap a x t))

/-- Moving the element of position `j` to position `i` and storing `a` at `j`
gives the same elements as storing `a` at `i`. -/
theorem set_set_perm (a b : α) (l : List α) (i j : Nat) (hij : i ≠ j)
    (hi : i < l.length) (hj : l[j]? = some b) :
    ((l.set i b).set j a).Perm (l.set i a) := by
  induction l generalizing i j with
  | nil => simp at hi
  | cons x t ih =>
    cases i with
    | zero =>
      cases j with
      | zero => exact absurd rfl hij
      | succ j =>
        simp only [List.getElem?_cons_succ] at hj
        simpa using cons_set_perm a b t j hj
    | succ i =>
      have hi' : i < t.length := by simpa using hi
      cases j with
      | zero =>
        simp only [List.getElem?_cons_zero, Option.some.injEq] at hj
        subst hj
        simp only [List.set_cons_succ, List.set_cons_zero]
        obtain ⟨c0, hc0⟩ : ∃ c0, t[i]? = some c0 :=
          ⟨t[i], List.getElem?_eq_getElem hi'⟩
        have h1 := cons_set_perm a c0 t i hc0
        have h2 := cons_set_perm x c0 t i hc0
        have h3 : (c0 :: a :: t.set i x).Perm (c0 :: x :: t.set i a) :=
          (List.Perm.swap a c0 _).trans (((h2.cons a).trans (List.Perm.swap x a t)).trans
            ((h1.symm.cons x).trans (List.Perm.swap c0 x _)))
        exact h3.cons_inv
      | succ j =>
        simp only [List.getElem?_cons_succ] at hj
        simp only [List.set_cons_succ]
        exact (ih i j (fun e => hij (by rw [e])) hi' hj).cons x

/-- In a heap the first element has the smallest key. -/
theorem IsHeap.head_le (key : α → κ) (l : List α) (hc : IsHeap key l) (r : α)
    (hr : l[0]? = some r) : ∀ x ∈ l, key r ≤ key x := by
  have main : ∀ (n i : Nat) (x : α), i ≤ n → l[i]? = some x → key r ≤ key x := by
    intro n
    induction n with
    | zero =>
      intro i x hi hx
      have : i = 0 := by omega
      subst this
      rw [hr] at hx
      cases hx
      exact le_refl _
    | succ n ih =>
      intro i x hi hx
      by_cases h0 : i = 0
      · subst h0
        rw [hr] at hx
        cases hx
        exact le_refl _
      · have hlt : i < l.length := (List.getElem?_eq_some.mp hx).1
        have hp : (i - 1) / 2 < l.length := by omega
        have hy : l[(i - 1) / 2]? = some l[(i - 1) / 2] := List.getElem?_eq_getElem hp
        exact le_trans (ih _ _ (by omega) hy) (hc i _ x (by omega) hx hy)
  intro x hx
  obtain ⟨i, hi, rfl⟩ := List.getElem_of_mem hx
  exact main i i _ (le_refl i) (List.getElem?_eq_getElem hi)

theorem IsHeap.dropLast (key : α → κ) (l : List α) (hc : IsHeap key l) :
    IsHeap key l.dropLast := by
  intro i x y hi hy hx
  rw [List.dropLast_eq_take] at hy hx
  rw [List.getElem?_take] at hy hx
  split at hy
  · split at hx
    · exact hc i x y hi hy hx
    · cases hx
  · cases hy

end heap

end stdlib

namespace stdlib

section heap

variable {α κ : Type} [LinearOrder κ]

theorem getD_of_getElem? (l : List α) (i : Nat) (d x : α) (h : l[i]? = some x) :
    l.getD i d = x := by
  simp [List.getD_eq_getElem?_getD, h]

/-- Storing `value` in the hole gives a heap when the parent of the hole does not
have a larger key. -/
theorem HoleInv.isHeap_set (key : α → κ) (value : α) (l : List α) (hole : Nat)
    (hlen : hole < l.length) (hinv : HoleInv key value l hole)
    (hpar : 0 < hole → ∀ x, l[(hole - 1) / 2]? = some x → key x ≤ key value) :
    IsHeap key (l.set hole value) := by
  obtain ⟨hA, hB, -⟩ := hinv
  intro i x y hi hy hx
  rw [List.getElem?_set] at hy hx
  by_cases h1 : hole = i
  · subst h1
    have hne : ¬ hole = (hole - 1) / 2 := by omega
    simp only [hlen, if_true, Option.some.injEq] at hy
    simp only [hne, if_false] at hx
    subst hy
    exact hpar hi x hx
  · simp only [h1, if_false] at hy
    by_cases h2 : hole = (i - 1) / 2
    · simp only [h2.symm, hlen, if_true, Option.some.injEq] at hx
      subst hx
      exact hB i y hi h2.symm hy
    · simp only [h2, if_false] at hx
      exact hA i x y hi (fun e => h1 e.symm) (fun e => h2 e.symm) hy hx

/-- The function `std::__push_heap` with `topIndex = 0` restores the heap and keeps
the elements. -/
theorem pushHeapLoop_spec (key : α → κ) (comp : α → α → Bool)
    (hcomp : ∀ a b, comp a b = true ↔ key b < key a) (value : α) :
    ∀ (fuel : Nat) (l : List α) (hole : Nat), hole ≤ fuel → hole < l.length →
      HoleInv key value l hole →
      IsHeap key (pushHeapLoop comp 0 value fuel l hole) ∧
      (pushHeapLoop comp 0 value fuel l hole).Perm (l.set hole value) := by
  intro fuel
  induction fuel with
  | zero =>
    intro l hole hf hlen hinv
    have h0 : hole = 0 := by omega
    subst h0
    exact ⟨hinv.isHeap_set key value l 0 hlen (fun h => absurd h (lt_irrefl 0)),
      List.Perm.refl _⟩
  | succ fuel ih =>
    intro l hole hf hlen hinv
    have hplen : (hole - 1) / 2 < l.length := by omega
    have hpx : l[(hole - 1) / 2]? = some l[(hole - 1) / 2] :=
      List.getElem?_eq_getElem hplen
    have hgd : l.getD ((hole - 1) / 2) value = l[(hole - 1) / 2] :=
      getD_of_getElem? l _ value _ hpx
    unfold pushHeapLoop
    simp only [hgd]
    by_cases hcond : (decide (hole > 0) && comp l[(hole - 1) / 2] value) = true
    · rw [if_pos hcond]
      simp only [Bool.and_eq_true, decide_eq_true_eq] at hcond
      obtain ⟨hpos, hcmp⟩ := hcond
      have hlt : key value < key l[(hole - 1) / 2] := (hcomp _ _).mp hcmp
      have hpne : (hole - 1) / 2 ≠ hole := by omega
      obtain ⟨hA, hB, hC⟩ := hinv
      have hinv' : HoleInv key value (l.set hole l[(hole - 1) / 2]) ((hole - 1) / 2) := by
        refine ⟨?_, ?_, ?_⟩
        · intro i x y hi hne1 hne2 hy hx
          rw [List.getElem?_set] at hy hx
          by_cases h1 : hole = i
          · exact absurd (by rw [← h1]) hne2
          · simp only [h1, if_false] at hy
            by_cases h2 : hole = (i - 1) / 2
            · simp only [h2.symm, hlen, if_true, Option.some.injEq] at hx
              subst hx
              exact hC i _ y hi h2.symm hpos hy hpx
            · simp only [h2, if_false] at hx
              exact hA i x y hi (fun e => h1 e.symm) (fun e => h2 e.symm) hy hx
        · intro i y hi hpi hy
          rw [List.getElem?_set] at hy
          by_cases h1 : hole = i
          · subst h1
            simp only [if_true, hlen, Option.some.injEq] at hy
            subst hy
            exact le_of_lt hlt
          · simp only [h1, if_false] at hy
            have := hA i _ y hi (fun e => h1 e.symm) (by omega) hy (by rw [hpi]; exact hpx)
            exact le_trans (le_of_lt hlt) this
        · intro i x y hi hpi hppos hy hx
          rw [List.getElem?_set] at hy hx
          have hgne : ¬ hole = ((hole - 1) / 2 - 1) / 2 := by omega
          simp only [hgne, if_false] at hx
          have hgp : key x ≤ key l[(hole - 1) / 2] :=
            hA ((hole - 1) / 2) x _ hppos hpne (by omega) hpx hx
          by_cases h1 : hole = i
          · subst h1
            simp only [if_true, hlen, Option.some.injEq] at hy
            subst hy
            exact hgp
          · simp only [h1, if_false] at hy
            have := hA i _ y hi (fun e => h1 e.symm) (by omega) hy (by rw [hpi]; exact hpx)
            exact le_trans hgp this
      obtain ⟨r1, r2⟩ := ih (l.set hole l[(hole - 1) / 2]) ((hole - 1) / 2) (by omega)
        (by simpa using hplen) hinv'
      exact ⟨r1, r2.trans (set_set_perm value _ l hole _ (fun e => hpne e.symm) hlen hpx)⟩
    · rw [if_neg hcond]
      refine ⟨HoleInv.isHeap_set key value l hole hlen hinv ?_, List.Perm.refl _⟩
      intro hpos x hx
      rw [hpx] at hx
      cases hx
      have hnc : comp l[(hole - 1) / 2] value = false := by
        simpa [hpos] using hcond
      have : ¬ key value < key l[(hole - 1) / 2] := by
        rw [← hcomp]
        simp [hnc]
      exact not_lt.mp this

end heap

end stdlib

namespace stdlib

section heap

variable {α κ : Type} [LinearOrder κ]

/-- A heap whose position `hole` has no child is in the state `HoleInv`. -/
theorem HoleInv.of_isHeap_leaf (key : α → κ) (value : α) (l : List α) (hole : Nat)
    (hl : IsHeap key l) (hleaf : ∀ i, 0 < i → (i - 1) / 2 = hole → l.length ≤ i) :
    HoleInv key value l hole := by
  refine ⟨fun i x y hi _ _ hy hx => hl i x y hi hy hx, ?_, ?_⟩
  · intro i y hi hp hy
    have h1 := hleaf i hi hp
    have h2 := (List.getElem?_eq_some.mp hy).1
    omega
  · intro i x y hi hp _ hy _
    have h1 := hleaf i hi hp
    have h2 := (List.getElem?_eq_some.mp hy).1
    omega

/-- One move of the hole towards the leaves: the child `k` with the smallest key
is copied into the hole. -/
theorem IsHeap.set_child (key : α → κ) (l : List α) (hl : IsHeap key l) (hole k : Nat)
    (hk : k < l.length) (hk0 : 0 < k) (hpar : (k - 1) / 2 = hole)
    (hmin : ∀ i y, 0 < i → (i - 1) / 2 = hole → l[i]? = some y → key l[k] ≤ key y) :
    IsHeap key (l.set hole l[k]) := by
  have hlen : hole < l.length := by omega
  have hkx : l[k]? = some l[k] := List.getElem?_eq_getElem hk
  have hhx : l[hole]? = some l[hole] := List.getElem?_eq_getElem hlen
  have hhk : key l[hole] ≤ key l[k] := hl k _ _ hk0 hkx (by rw [hpar]; exact hhx)
  intro i x y hi hy hx
  rw [List.getElem?_set] at hy hx
  by_cases h1 : hole = i
  · subst h1
    have hne : ¬ hole = (hole - 1) / 2 := by omega
    simp only [hlen, if_true, Option.some.injEq] at hy
    simp only [hne, if_false] at hx
    subst hy
    exact le_trans (hl hole x _ hi hhx hx) hhk
  · simp only [h1, if_false] at hy
    by_cases h2 : hole = (i - 1) / 2
    · simp only [h2.symm, hlen, if_true, Option.some.injEq] at hx
      subst hx
      exact hmin i y hi h2.symm hy
    · simp only [h2, if_false] at hx
      exact hl i x y hi hy hx

/-- The first loop of `std::__adjust_heap` keeps the heap, ends with the hole at a
position below which nothing is left to compare, and keeps the elements. -/
theorem adjustHeapLoop_spec (key : α → κ) (comp : α → α → Bool)
    (hcomp : ∀ a b, comp a b = true ↔ key b < key a) (value : α) (len : Nat) :
    ∀ (fuel : Nat) (l : List α) (hole : Nat), l.length = len → IsHeap key l →
      hole < len → len - hole ≤ fuel →
      IsHeap key (adjustHeapLoop comp value len fuel l hole).1 ∧
      (adjustHeapLoop comp value len fuel l hole).1.length = len ∧
      (adjustHeapLoop comp value len fuel l hole).2 < len ∧
      (len - 1) / 2 ≤ (adjustHeapLoop comp value len fuel l hole).2 ∧
      (((adjustHeapLoop comp value len fuel l hole).1.set
        (adjustHeapLoop comp value len fuel l hole).2 value).Perm (l.set hole value)) := by
  intro fuel
  induction fuel with
  | zero =>
    intro l hole hlen hl hh hf
    omega
  | succ fuel ih =>
    intro l hole hlen hl hh hf
    unfold adjustHeapLoop
    by_cases hcond : hole < (len - 1) / 2
    · rw [if_pos hcond]
      have hr : 2 * (hole + 1) < l.length := by omega
      have hlft : 2 * (hole + 1) - 1 < l.length := by omega
      have hrx : l[2 * (hole + 1)]? = some l[2 * (hole + 1)] := List.getElem?_eq_getElem hr
      have hlx : l[2 * (hole + 1) - 1]? = some l[2 * (hole + 1) - 1] :=
        List.getElem?_eq_getElem hlft
      have children : ∀ i, 0 < i → (i - 1) / 2 = hole →
          i = 2 * (hole + 1) ∨ i = 2 * (hole + 1) - 1 := by
        intro i hi hp
        omega
      simp only [getD_of_getElem? l _ value _ hrx, getD_of_getElem? l _ value _ hlx]
      by_cases hc : comp l[2 * (hole + 1)] l[2 * (hole + 1) - 1] = true
      · simp only [hc, if_true]
        rw [getD_of_getElem? l _ value _ hlx]
        have hlt : key l[2 * (hole + 1) - 1] < key l[2 * (hole + 1)] := (hcomp _ _).mp hc
        have hstep : IsHeap key (l.set hole l[2 * (hole + 1) - 1]) := by
          refine hl.set_child key l hole _ hlft (by omega) (by omega) ?_
          intro i y hi hp hy
          rcases children i hi hp with rfl | rfl
          · rw [hrx] at hy
            cases hy
            exact le_of_lt hlt
          · rw [hlx] at hy
            cases hy
            exact le_refl _
        obtain ⟨r1, r2, r3, r4, r5⟩ := ih (l.set hole l[2 * (hole + 1) - 1])
          (2 * (hole + 1) - 1) (by simpa using hlen) hstep (by omega) (by omega)
        exact ⟨r1, r2, r3, r4,
          r5.trans (set_set_perm value _ l hole _ (by omega) (by omega) hlx)⟩
      · have hc' : comp l[2 * (hole + 1)] l[2 * (hole + 1) - 1] = false := by
          simpa using hc
        simp only [hc', Bool.false_eq_true, if_false]
        rw [getD_of_getElem? l _ value _ hrx]
        have hle : key l[2 * (hole + 1)] ≤ key l[2 * (hole + 1) - 1] := by
          have : ¬ key l[2 * (hole + 1) - 1] < key l[2 * (hole + 1)] := by
            rw [← hcomp]
            simp [hc']
          exact not_lt.mp this
        have hstep : IsHeap key (l.set hole l[2 * (hole + 1)]) := by
          refine hl.set_child key l hole _ hr (by omega) (by omega) ?_
          intro i y hi hp hy
          rcases children i hi hp with rfl | rfl
          · rw [hrx] at hy
            cases hy
            exact le_refl _
          · rw [hlx] at hy
            cases hy
            exact hle
        obtain ⟨r1, r2, r3, r4, r5⟩ := ih (l.set hole l[2 * (hole + 1)])
          (2 * (hole + 1)) (by simpa using hlen) hstep (by omega) (by omega)
        exact ⟨r1, r2, r3, r4,
          r5.trans (set_set_perm value _ l hole _ (by omega) (by omega) hrx)⟩
    · rw [if_neg hcond]
      exact ⟨hl, hlen, hh, by omega, List.Perm.refl _⟩

/-- The function `std::__adjust_heap` on a heap, from the root: the result is a heap
that holds `value` instead of the old first element. -/
theorem adjustHeap_spec (key : α → κ) (comp : α → α → Bool)
    (hcomp : ∀ a b, comp a b = true ↔ key b < key a) (value : α) (l : List α)
    (hl : IsHeap key l) (hpos : 0 < l.length) :
    IsHeap key (adjustHeap comp l 0 l.length value) ∧
    (adjustHeap comp l 0 l.length value).Perm (l.set 0 value) := by
  obtain ⟨r1, r2, r3, r4, r5⟩ :=
    adjustHeapLoop_spec key comp hcomp value l.length l.length l 0 rfl hl hpos (by omega)
  unfold adjustHeap pushHeapAt
  generalize adjustHeapLoop comp value l.length l.length l 0 = r at r1 r2 r3 r4 r5
  obtain ⟨l1, h1⟩ := r
  simp only at r1 r2 r3 r4 r5 ⊢
  by_cases hcond : l.length % 2 = 0 ∧ h1 = (l.length - 2) / 2
  · rw [if_pos hcond]
    simp only
    obtain ⟨heven, hh1⟩ := hcond
    have hk : 2 * (h1 + 1) - 1 < l1.length := by omega
    have hkx : l1[2 * (h1 + 1) - 1]? = some l1[2 * (h1 + 1) - 1] :=
      List.getElem?_eq_getElem hk
    rw [getD_of_getElem? l1 _ value _ hkx]
    have hstep : IsHeap key (l1.set h1 l1[2 * (h1 + 1) - 1]) := by
      refine r1.set_child key l1 h1 _ hk (by omega) (by omega) ?_
      intro i y hi hp hy
      have hil := (List.getElem?_eq_some.mp hy).1
      have : i = 2 * (h1 + 1) - 1 := by omega
      subst this
      rw [hkx] at hy
      cases hy
      exact le_refl _
    have hinv : HoleInv key value (l1.set h1 l1[2 * (h1 + 1) - 1]) (2 * (h1 + 1) - 1) := by
      refine HoleInv.of_isHeap_leaf key value _ _ hstep ?_
      intro i hi hp
      simp only [List.length_set]
      omega
    obtain ⟨p1, p2⟩ := pushHeapLoop_spec key comp hcomp value (2 * (h1 + 1) - 1)
      (l1.set h1 l1[2 * (h1 + 1) - 1]) (2 * (h1 + 1) - 1) (le_refl _)
      (by simpa using hk) hinv
    exact ⟨p1, p2.trans ((set_set_perm value _ l1 h1 _ (by omega) (by omega) hkx).trans r5)⟩
  · rw [if_neg hcond]
    simp only
    have hinv : HoleInv key value l1 h1 := by
      refine HoleInv.of_isHeap_leaf key value _ _ r1 ?_
      intro i hi hp
      by_contra hlt
      apply hcond
      omega
    obtain ⟨p1, p2⟩ := pushHeapLoop_spec key comp hcomp value h1 l1 h1 (le_refl _)
      (by omega) hinv
    exact ⟨p1, p2.trans r5⟩

theorem isHeap_nil (key : α → κ) : IsHeap key ([] : List α) := by
  intro i x y _ hy _
  simp at hy

/-- Member `priority_queue::push` keeps the heap and adds the element. -/
theorem pqPush_spec (key : α → κ) (comp : α → α → Bool)
    (hcomp : ∀ a b, comp a b = true ↔ key b < key a) (l : List α) (x : α)
    (hl : IsHeap key l) :
    IsHeap key (pqPush comp l x) ∧ (pqPush comp l x).Perm (x :: l) := by
  have hinv : HoleInv key x (l ++ [x]) l.length := by
    refine ⟨?_, ?_, ?_⟩
    · intro i a b hi hne1 hne2 hb ha
      have hb1 := (List.getElem?_eq_some.mp hb).1
      have ha1 := (List.getElem?_eq_some.mp ha).1
      simp only [List.length_append, List.length_singleton] at hb1 ha1
      rw [List.getElem?_append_left (by omega)] at hb ha
      exact hl i a b hi hb ha
    · intro i y hi hp hy
      have hy1 := (List.getElem?_eq_some.mp hy).1
      simp only [List.length_append, List.length_singleton] at hy1
      omega
    · intro i a b hi hp _ hb _
      have hb1 := (List.getElem?_eq_some.mp hb).1
      simp only [List.length_append, List.length_singleton] at hb1
      omega
  obtain ⟨p1, p2⟩ := pushHeapLoop_spec key comp hcomp x l.length (l ++ [x]) l.length
    (le_refl _) (by simp) hinv
  have hset : (l ++ [x]).set l.length x = l ++ [x] := by
    apply List.ext_getElem?
    intro j
    rw [List.getElem?_set]
    by_cases hj : l.length = j
    · subst hj
      simp
    · simp [hj]
  rw [hset] at p2
  exact ⟨p1, p2.trans (List.perm_append_singleton x l)⟩

/-- Member `priority_queue::pop` keeps the heap and removes the first element. -/
theorem pqPop_spec (key : α → κ) (comp : α → α → Bool)
    (hcomp : ∀ a b, comp a b = true ↔ key b < key a) (l : List α) (top : α)
    (hl : IsHeap key l) (htop : pqTop l = some top) :
    IsHeap key (pqPop comp l) ∧ (top :: pqPop comp l).Perm l := by
  unfold pqTop at htop
  unfold pqPop
  cases hlast : l.getLast? with
  | none =>
    rw [List.getLast?_eq_none_iff] at hlast
    subst hlast
    simp at htop
  | some value =>
    simp only
    have hcat : l.dropLast ++ [value] = l := List.dropLast_append_getLast? value hlast
    by_cases hlen : l.length > 1
    · rw [if_pos hlen]
      have hdl : l.dropLast.length = l.length - 1 := by simp
      have hpos : 0 < l.dropLast.length := by omega
      obtain ⟨p1, p2⟩ := adjustHeap_spec key comp hcomp value l.dropLast
        (hl.dropLast key l) hpos
      rw [hdl] at p1 p2
      refine ⟨p1, ?_⟩
      cases hm : l.dropLast with
      | nil => rw [hm] at hpos; simp at hpos
      | cons t m =>
        rw [hm] at p2 hcat
        rw [← hcat] at htop
        simp only [List.cons_append, List.head?_cons, Option.some.injEq] at htop
        subst htop
        simp only [List.set_cons_zero] at p2
        exact ((p2.cons t).trans ((List.perm_append_singleton value m).symm.cons t)).trans
          (List.Perm.of_eq hcat)
    · rw [if_neg hlen]
      cases l with
      | nil => simp at htop
      | cons t m =>
        have hm : m = [] := by
          cases m with
          | nil => rfl
          | cons _ _ => simp at hlen
        subst hm
        simp only [List.head?_cons, Option.some.injEq] at htop
        subst htop
        exact ⟨isHeap_nil key, by simp⟩

end heap

end stdlib

/-! ## SJF -/

namespace stdlib

/-- After `std::__push_heap` the first element is the pushed value or the old
first element. -/
theorem pushHeapLoop_head {α : Type} (comp : α → α → Bool) (value : α) :
    ∀ (fuel : Nat) (l : List α) (hole : Nat), hole < l.length →
      (pushHeapLoop comp 0 value fuel l hole)[0]? = some value ∨
      (0 < hole ∧ (pushHeapLoop comp 0 value fuel l hole)[0]? = l[0]?) := by
  intro fuel
  induction fuel with
  | zero =>
    intro l hole hlen
    unfold pushHeapLoop
    by_cases h0 : hole = 0
    · subst h0
      exact Or.inl (by simp [List.getElem?_set, hlen])
    · exact Or.inr ⟨by omega, by simp [List.getElem?_set, h0]⟩
  | succ fuel ih =>
    intro l hole hlen
    unfold pushHeapLoop
    simp only
    split
    · rename_i hcond
      simp only [Bool.and_eq_true, decide_eq_true_eq] at hcond
      have hpos : 0 < hole := hcond.1
      rcases ih (l.set hole (l.getD ((hole - 1) / 2) value)) ((hole - 1) / 2)
        (by simp only [List.length_set]; omega) with h | ⟨_, h⟩
      · exact Or.inl h
      · refine Or.inr ⟨hpos, ?_⟩
        rw [h, List.getElem?_set]
        simp [Nat.ne_of_gt hpos]
    · by_cases h0 : hole = 0
      · subst h0
        exact Or.inl (by simp [List.getElem?_set, hlen])
      · exact Or.inr ⟨by omega, by simp [List.getElem?_set, h0]⟩

/-- After `priority_queue::push(x)` the top is `x` or the old top. -/
theorem pqPush_top {α : Type} (comp : α → α → Bool) (l : List α) (x : α) :
    pqTop (pqPush comp l x) = some x ∨ pqTop (pqPush comp l x) = pqTop l := by
  unfold pqTop pqPush pushHeapAt
  rw [List.head?_eq_getElem?, List.head?_eq_getElem?]
  rcases pushHeapLoop_head comp x l.length (l ++ [x]) l.length (by simp) with h | ⟨hpos, h⟩
  · exact Or.inl h
  · refine Or.inr ?_
    rw [h, List.getElem?_append_left hpos]

end stdlib

namespace sjf

theorem sjf_comp_key (a b : Process) :
    ProcessComparator a b = true ↔ key b < key a := by
  unfold ProcessComparator key
  rw [Prod.Lex.lt_iff]
  simp only [ofLex_toLex]
  by_cases h : a.executionTime = b.executionTime
  · simp [h]
  · simp only [h, if_false, decide_eq_true_eq, gt_iff_lt]
    constructor
    · intro hlt
      exact Or.inl hlt
    · rintro (hlt | ⟨he, _⟩)
      · exact hlt
      · exact absurd he.symm h

theorem sjf_key_le_iff (a b : Process) :
    key a ≤ key b ↔ a.executionTime < b.executionTime ∨
      (a.executionTime = b.executionTime ∧ a.pid ≤ b.pid) := by
  unfold key
  rw [Prod.Lex.le_iff]

/-- The inner loop of `SJF::scheduleProcess`: it moves a prefix of the process
queue, all of it arrived, into the running heap; what stays in front of the
queue has not arrived; the new top is the old top or a moved process. -/
theorem sjf_drain_spec (t : Int) :
    ∀ (queue running : List Process), stdlib.IsHeap key running →
      ∃ moved, queue = moved ++ (drain t running queue).2 ∧
        (drain t running queue).1.Perm (running ++ moved) ∧
        (∀ q ∈ moved, q.arrivalTime ≤ t) ∧
        (∀ q, (drain t running queue).2.head? = some q → t < q.arrivalTime) ∧
        stdlib.IsHeap key (drain t running queue).1 ∧
        (stdlib.pqTop (drain t running queue).1 = stdlib.pqTop running ∨
          ∃ q ∈ moved, stdlib.pqTop (drain t running queue).1 = some q) := by
  intro queue
  induction queue with
  | nil =>
    intro running hr
    exact ⟨[], by simp [drain], by simp [drain], by simp, by simp [drain], hr, Or.inl rfl⟩
  | cons p rest ih =>
    intro running hr
    by_cases hp : p.arrivalTime ≤ t
    · have hd : drain t running (p :: rest) =
          drain t (stdlib.pqPush ProcessComparator running p) rest := by
        simp [drain, hp]
      obtain ⟨hh, hperm⟩ := stdlib.pqPush_spec key ProcessComparator sjf_comp_key running p hr
      obtain ⟨moved, h1, h2, h3, h4, h5, h6⟩ := ih _ hh
      rw [hd]
      refine ⟨p :: moved, by rw [List.cons_append, ← h1], ?_, ?_, h4, h5, ?_⟩
      · refine h2.trans ((hperm.append_right moved).trans ?_)
        simpa using (@List.perm_middle _ p running moved).symm
      · intro q hq
        rcases List.mem_cons.mp hq with rfl | hq
        · exact hp
        · exact h3 q hq
      · rcases h6 with h6 | ⟨q, hq, h6⟩
        · rcases stdlib.pqPush_top ProcessComparator running p with h7 | h7
          · exact Or.inr ⟨p, List.mem_cons_self _ _, by rw [h6, h7]⟩
          · exact Or.inl (by rw [h6, h7])
        · exact Or.inr ⟨q, List.mem_cons_of_mem _ hq, h6⟩
    · have hd : drain t running (p :: rest) = (running, p :: rest) := by
        simp [drain, hp]
      rw [hd]
      refine ⟨[], by simp, by simp, by simp, ?_, hr, Or.inl rfl⟩
      intro q hq
      simp only [List.head?_cons, Option.some.injEq] at hq
      subst hq
      exact not_le.mp hp

end sjf

namespace sjf

theorem sjf_core_key (a b : Process) (h : core a = core b) : key a = key b := by
  unfold core at h
  unfold key
  simp only [Prod.mk.injEq] at h
  rw [h.1, h.2.2]

/-- The first statement of the loop body: afterwards the running heap has a top. -/
theorem sjf_loadIfEmpty_spec (s : SJF) (hinv : Inv s) (hc : loopCond s = true) :
    ∃ top1, stdlib.pqTop (loadIfEmpty s).mRunningProcess = some top1 ∧
      Inv (loadIfEmpty s) ∧
      (loadIfEmpty s).mRunningProcess ++ (loadIfEmpty s).mProcessList =
        s.mRunningProcess ++ s.mProcessList ∧
      (loadIfEmpty s).mTimer = s.mTimer ∧
      (loadIfEmpty s).mFinishedProcesses = s.mFinishedProcesses ∧
      (s.mRunningProcess = [] → ∀ q ∈ s.mProcessList, top1.arrivalTime ≤ q.arrivalTime) ∧
      (s.mRunningProcess ≠ [] → top1 ∈ s.mRunningProcess) ∧
      (∀ q ∈ (loadIfEmpty s).mRunningProcess, q ∈ s.mRunningProcess ∨ q = top1) := by
  obtain ⟨hheap, hsorted⟩ := hinv
  by_cases hr : s.mRunningProcess = []
  · cases hq : s.mProcessList with
    | nil => simp [loopCond, hr, hq] at hc
    | cons f rest =>
      have hl : loadIfEmpty s =
          { s with mRunningProcess := [f], mProcessList := rest } := by
        simp [loadIfEmpty, hr, hq, stdlib.pqPush, stdlib.pushHeapAt, stdlib.pushHeapLoop]
      rw [hl]
      rw [hq] at hsorted
      refine ⟨f, rfl, ⟨?_, (List.pairwise_cons.mp hsorted).2⟩, by simp [hr], rfl, rfl,
        ?_, ?_, ?_⟩
      · intro i x y hi hy _
        cases i with
        | zero => omega
        | succ i => simp at hy
      · intro _ q hq'
        rcases List.mem_cons.mp hq' with rfl | hq'
        · exact le_refl _
        · exact (List.pairwise_cons.mp hsorted).1 q hq'
      · intro h
        exact absurd hr h
      · intro q hq'
        exact Or.inr (by simpa using hq')
  · obtain ⟨r, rs, hrs⟩ := List.exists_cons_of_ne_nil hr
    have hl : loadIfEmpty s = s := by
      simp [loadIfEmpty, hrs]
    rw [hl]
    refine ⟨r, by simp [stdlib.pqTop, hrs], ⟨hheap, hsorted⟩, rfl, rfl, rfl, ?_, ?_, ?_⟩
    · intro h
      exact absurd h hr
    · intro _
      rw [hrs]
      exact List.mem_cons_self _ _
    · intro q hq
      exact Or.inl hq

theorem sjf_pairwise_head_lt (t : Int) (l : List Process)
    (hs : l.Pairwise (fun a b => a.arrivalTime ≤ b.arrivalTime))
    (hh : ∀ q, l.head? = some q → t < q.arrivalTime) : ∀ q ∈ l, t < q.arrivalTime := by
  cases l with
  | nil => intro q hq; cases hq
  | cons f rest =>
    intro q hq
    have hf : t < f.arrivalTime := hh f rfl
    rcases List.mem_cons.mp hq with rfl | hq
    · exact hf
    · exact lt_of_lt_of_le hf ((List.pairwise_cons.mp hs).1 q hq)

/-- One iteration of the outer loop of `SJF::scheduleProcess` from a state that
satisfies `Inv`: exactly one process `p` is finished; `top1` is the top of the
running heap after the first statement. -/
theorem sjf_loopBody_spec (s : SJF) (hinv : Inv s) (hc : loopCond s = true) :
    ∃ p top1,
      (loopBody s).mFinishedProcesses = s.mFinishedProcesses ++ [p] ∧
      Inv (loopBody s) ∧
      ((p :: ((loopBody s).mRunningProcess ++ (loopBody s).mProcessList)).map core).Perm
        ((s.mRunningProcess ++ s.mProcessList).map core) ∧
      (loopBody s).mTimer = p.finishedTime ∧
      p.finishedTime = p.startingTime + p.executionTime ∧
      p.arrivalTime ≤ p.startingTime ∧
      (∀ q ∈ s.mRunningProcess ++ s.mProcessList,
        q.arrivalTime ≤ p.startingTime → key p ≤ key q) ∧
      p.startingTime = max s.mTimer top1.arrivalTime ∧
      top1 ∈ s.mRunningProcess ++ s.mProcessList ∧
      (s.mRunningProcess = [] → ∀ q ∈ s.mProcessList, top1.arrivalTime ≤ q.arrivalTime) ∧
      (s.mRunningProcess ≠ [] → top1 ∈ s.mRunningProcess) ∧
      (∀ q ∈ (loopBody s).mRunningProcess,
        q ∈ s.mRunningProcess ∨ q.arrivalTime ≤ p.startingTime) := by
  obtain ⟨top1, ht1, ⟨hheap1, hsorted1⟩, hlive1, htimer1, hfin1, hmin1, hmem1, hrun1⟩ :=
    sjf_loadIfEmpty_spec s hinv hc
  unfold loopBody
  generalize loadIfEmpty s = s1 at ht1 hheap1 hsorted1 hlive1 htimer1 hfin1 hrun1 ⊢
  -- the timer after the second statement
  have hs2 : syncTimer s1 = { s1 with mTimer := max s1.mTimer top1.arrivalTime } := by
    unfold syncTimer
    rw [ht1]
    by_cases hlt : s1.mTimer < top1.arrivalTime
    · simp [hlt, max_eq_right (le_of_lt hlt)]
    · simp only [hlt, if_false]
      rw [max_eq_left (not_lt.mp hlt)]
  rw [hs2]
  obtain ⟨moved, hq3, hperm3, hmoved, hhead3, hheap3, htop3⟩ :=
    sjf_drain_spec (max s1.mTimer top1.arrivalTime) s1.mProcessList s1.mRunningProcess hheap1
  have hsorted3 : (drain (max s1.mTimer top1.arrivalTime) s1.mRunningProcess
      s1.mProcessList).2.Pairwise (fun a b => a.arrivalTime ≤ b.arrivalTime) := by
    rw [hq3] at hsorted1
    exact (List.pairwise_append.mp hsorted1).2.1
  have hlate := sjf_pairwise_head_lt _ _ hsorted3 hhead3
  unfold drainArrived
  simp only
  generalize drain (max s1.mTimer top1.arrivalTime) s1.mRunningProcess s1.mProcessList = d
    at hq3 hperm3 hhead3 hheap3 htop3 hsorted3 hlate ⊢
  obtain ⟨run3, queue3⟩ := d
  simp only at hq3 hperm3 hhead3 hheap3 htop3 hsorted3 hlate ⊢
  -- the top of the heap after the inner loop
  have hne1 : top1 ∈ s1.mRunningProcess := by
    unfold stdlib.pqTop at ht1
    exact List.mem_of_mem_head? ht1
  obtain ⟨top3, ht3, harr3⟩ : ∃ top3, stdlib.pqTop run3 = some top3 ∧
      top3.arrivalTime ≤ max s1.mTimer top1.arrivalTime := by
    rcases htop3 with h | ⟨q, hq, h⟩
    · exact ⟨top1, by rw [h, ht1], le_max_right _ _⟩
    · exact ⟨q, h, hmoved q hq⟩
  obtain ⟨hheap4, hperm4⟩ :=
    stdlib.pqPop_spec key ProcessComparator sjf_comp_key run3 top3 hheap3 ht3
  have hrt :
      runTop
        { s1 with
          mTimer := max s1.mTimer top1.arrivalTime
          mRunningProcess := run3
          mProcessList := queue3 } =
      { s1 with
        mTimer := max s1.mTimer top1.arrivalTime + top3.executionTime
        mRunningProcess := stdlib.pqPop ProcessComparator run3
        mProcessList := queue3
        mFinishedProcesses := s1.mFinishedProcesses ++
          [{ top3 with
             startingTime := max s1.mTimer top1.arrivalTime
             finishedTime := max s1.mTimer top1.arrivalTime + top3.executionTime }] } := by
    simp [runTop, ht3]
  rw [hrt]
  simp only
  have hmem3 : ∀ q, q ∈ run3 ↔ q ∈ s1.mRunningProcess ∨ q ∈ moved := by
    intro q
    rw [hperm3.mem_iff, List.mem_append]
  refine ⟨{ top3 with
            startingTime := max s1.mTimer top1.arrivalTime
            finishedTime := max s1.mTimer top1.arrivalTime + top3.executionTime },
    top1, by rw [hfin1], ⟨hheap4, hsorted3⟩, ?_, rfl, rfl, harr3, ?_,
    by rw [htimer1], ?_, hmin1, hmem1, ?_⟩
  · -- the processes are kept
    have h1 : (top3 :: (stdlib.pqPop ProcessComparator run3 ++ queue3)).Perm
        (s1.mRunningProcess ++ s1.mProcessList) := by
      have : (top3 :: stdlib.pqPop ProcessComparator run3 ++ queue3).Perm
          (s1.mRunningProcess ++ moved ++ queue3) :=
        (hperm4.trans hperm3).append_right queue3
      rw [hq3]
      simpa [List.append_assoc] using this
    rw [← hlive1]
    have h2 := h1.map core
    simpa [core] using h2
  · -- the dispatched process has the smallest key among the arrived ones
    intro q hq harr
    simp only at harr
    rw [← hlive1, hq3, ← List.append_assoc, List.mem_append] at hq
    rcases hq with hq | hq
    · have hq' : q ∈ run3 := by
        rw [hmem3]
        exact List.mem_append.mp hq
      have := stdlib.IsHeap.head_le key run3 hheap3 top3
        (by rw [← List.head?_eq_getElem?]; exact ht3) q hq'
      exact this
    · exact absurd harr (not_le.mpr (hlate q hq))
  · rw [← hlive1]
    exact List.mem_append_left _ hne1
  · intro q hq
    have hq' : q ∈ run3 := hperm4.subset (List.mem_cons_of_mem _ hq)
    rcases (hmem3 q).mp hq' with h | h
    · rcases hrun1 q h with h' | h'
      · exact Or.inl h'
      · exact Or.inr (by rw [h']; exact le_max_right _ _)
    · exact Or.inr (hmoved q h)

end sjf

namespace sjf

theorem sjf_append_diff_self {α : Type} [DecidableEq α] (l₁ l₂ : List α) :
    (l₁ ++ l₂).diff l₁ = l₂ := by
  induction l₁ with
  | nil => simp
  | cons a l ih => simp [List.diff_cons, ih]

/-- With `fin` finished and `live` still to run, the pending processes at
position `fin.length` are the live ones. -/
theorem sjf_pending_full (processes fin live : List Process)
    (h : ((fin ++ live).map core).Perm (processes.map core)) :
    (pending processes fin fin.length).Perm (live.map core) := by
  unfold pending
  rw [List.take_length]
  have h1 := (h.symm.diff_right (fin.map core))
  rw [List.map_append, sjf_append_diff_self] at h1
  exact h1

theorem sjf_pending_take (processes fin rest : List Process) (k : Nat)
    (hk : k ≤ fin.length) : pending processes (fin ++ rest) k = pending processes fin k := by
  unfold pending
  rw [List.take_append_of_le_length hk]

theorem sjf_exists_min_arrival (l : List Process) (hl : l ≠ []) :
    ∃ x ∈ l, ∀ y ∈ l, x.arrivalTime ≤ y.arrivalTime := by
  induction l with
  | nil => exact absurd rfl hl
  | cons a t ih =>
    by_cases ht : t = []
    · subst ht
      exact ⟨a, List.mem_cons_self _ _, fun y hy => by simp at hy; rw [hy]⟩
    · obtain ⟨x, hx, hmin⟩ := ih ht
      by_cases hax : a.arrivalTime ≤ x.arrivalTime
      · refine ⟨a, List.mem_cons_self _ _, ?_⟩
        intro y hy
        rcases List.mem_cons.mp hy with rfl | hy
        · exact le_refl _
        · exact le_trans hax (hmin y hy)
      · refine ⟨x, List.mem_cons_of_mem _ hx, ?_⟩
        intro y hy
        rcases List.mem_cons.mp hy with rfl | hy
        · exact le_of_lt (not_le.mp hax)
        · exact hmin y hy

/-- One iteration of the outer loop keeps `Reach`. -/
theorem sjf_reach_step (processes : List Process) (s : SJF) (hr : Reach processes s)
    (hc : loopCond s = true) : Reach processes (loopBody s) := by
  obtain ⟨hinv, hperm, htimer, hmin, hstart⟩ := hr
  obtain ⟨p, top1, hfin, hinv', hperm', htimer', hfinish, harr, hkey, hst, htop, hmin1,
    hmem1, hrun⟩ := sjf_loopBody_spec s hinv hc
  have hpend := sjf_pending_full processes s.mFinishedProcesses _ hperm
  have hidx : ∀ k, k < s.mFinishedProcesses.length →
      (s.mFinishedProcesses ++ [p])[k]? = s.mFinishedProcesses[k]? := by
    intro k hk
    exact List.getElem?_append_left hk
  have hlast : ∀ k q, (s.mFinishedProcesses ++ [p])[k]? = some q →
      ¬ k < s.mFinishedProcesses.length → k = s.mFinishedProcesses.length ∧ q = p := by
    intro k q hq hk
    have hlen := (List.getElem?_eq_some.mp hq).1
    simp only [List.length_append, List.length_singleton] at hlen
    have hk' : k = s.mFinishedProcesses.length := by omega
    subst hk'
    simp at hq
    exact ⟨rfl, hq.symm⟩
  have hlive : ∀ c ∈ pending processes s.mFinishedProcesses s.mFinishedProcesses.length,
      ∃ q ∈ s.mRunningProcess ++ s.mProcessList, core q = c := by
    intro c hc'
    obtain ⟨q, hq, hqc⟩ := List.mem_map.mp (hpend.subset hc')
    exact ⟨q, hq, hqc⟩
  refine ⟨hinv', ?_, ?_, ?_, ?_⟩
  · -- the processes are kept
    rw [hfin]
    have h1 : ((s.mFinishedProcesses ++ [p] ++
        ((loopBody s).mRunningProcess ++ (loopBody s).mProcessList)).map core).Perm
        ((s.mFinishedProcesses ++ (s.mRunningProcess ++ s.mProcessList)).map core) := by
      simp only [List.map_append, List.append_assoc, List.singleton_append]
      exact List.Perm.append_left _ (by simpa using hperm')
    exact h1.trans hperm
  · -- the timer is the last finish time
    rw [hfin, htimer']
    simp
  · -- DispatchedMin
    rw [hfin]
    intro k q hq
    by_cases hk : k < s.mFinishedProcesses.length
    · rw [hidx k hk] at hq
      rw [sjf_pending_take _ _ _ _ (le_of_lt hk)]
      exact hmin k q hq
    · obtain ⟨rfl, rfl⟩ := hlast k q hq hk
      rw [sjf_pending_take _ _ _ _ (le_refl _)]
      refine ⟨harr, ?_⟩
      intro c hc' hca
      obtain ⟨q, hq', rfl⟩ := hlive c hc'
      have := (sjf_key_le_iff _ q).mp (hkey q hq' hca)
      simpa [core] using this
  · -- the start times, when no execution time is negative
    intro hexec
    obtain ⟨hK, hS⟩ := hstart hexec
    have hpexec : 0 ≤ p.executionTime := by
      have h1 : core p ∈ (s.mRunningProcess ++ s.mProcessList).map core :=
        hperm'.subset (by simp)
      have h2 : core p ∈ processes.map core :=
        hperm.subset (by
          rw [List.map_append]
          exact List.mem_append_right _ h1)
      obtain ⟨q0, hq0, hcq⟩ := List.mem_map.mp h2
      have := hexec q0 hq0
      simp only [core, Prod.mk.injEq] at hcq
      rw [← hcq.2.2]
      exact this
    have hts : s.mTimer ≤ p.startingTime := by
      rw [hst]
      exact le_max_left _ _
    refine ⟨?_, ?_⟩
    · intro q hq
      rw [htimer', hfinish]
      rcases hrun q hq with h | h
      · have := hK q h
        omega
      · omega
    · rw [hfin]
      intro k q prev hq hprev
      by_cases hk : k < s.mFinishedProcesses.length
      · rw [hidx k hk] at hq
        rw [sjf_pending_take _ _ _ _ (le_of_lt hk)]
        have hprev' : (0 :: s.mFinishedProcesses.map (fun q => q.finishedTime))[k]? =
            some prev := by
          rw [List.map_append, ← List.cons_append,
            List.getElem?_append_left (by simp; omega)] at hprev
          exact hprev
        exact hS k q prev hq hprev'
      · obtain ⟨rfl, rfl⟩ := hlast k q hq hk
        rw [sjf_pending_take _ _ _ _ (le_refl _)]
        have hprev' : prev = s.mTimer := by
          rw [List.map_append, ← List.cons_append,
            List.getElem?_append_left (by simp), htimer] at hprev
          simpa using hprev.symm
        subst hprev'
        refine ⟨hfinish, ?_⟩
        by_cases hrn : s.mRunningProcess = []
        · refine ⟨top1.arrivalTime, ⟨core top1, hpend.symm.subset
            (List.mem_map_of_mem _ htop), rfl⟩, ?_, hst⟩
          intro c hc'
          obtain ⟨q, hq', rfl⟩ := hlive c hc'
          rw [hrn, List.nil_append] at hq'
          exact hmin1 hrn q hq'
        · have hlne : s.mRunningProcess ++ s.mProcessList ≠ [] := by
            simp [hrn]
          obtain ⟨x, hx, hxmin⟩ := sjf_exists_min_arrival _ hlne
          refine ⟨x.arrivalTime, ⟨core x, hpend.symm.subset (List.mem_map_of_mem _ hx), rfl⟩,
            ?_, ?_⟩
          · intro c hc'
            obtain ⟨q, hq', rfl⟩ := hlive c hc'
            exact hxmin q hq'
          · have h1 := hK top1 (hmem1 hrn)
            have h2 := hxmin top1 htop
            rw [hst, max_eq_left h1, max_eq_left (le_trans h2 h1)]

theorem sjf_reach_steps (processes : List Process) :
    ∀ (n : Nat) (s : SJF), Reach processes s → Reach processes (steps n s) := by
  intro n
  induction n with
  | zero => intro s hr; exact hr
  | succ n ih =>
    intro s hr
    unfold steps
    by_cases hc : loopCond s = true
    · rw [if_pos hc]
      exact ih _ (sjf_reach_step processes s hr hc)
    · rw [if_neg hc]
      exact hr

end sjf

namespace sjf

theorem sjf_notAfter_iff (a b : Process) :
    notAfter a b ↔ a.arrivalTime < b.arrivalTime ∨
      (a.arrivalTime = b.arrivalTime ∧ a.pid ≤ b.pid) := by
  unfold notAfter processCompare
  by_cases h : b.arrivalTime = a.arrivalTime
  · simp [h]
  · simp only [h, if_false, decide_eq_false_iff_not, not_lt]
    constructor
    · intro hle
      exact Or.inl (lt_of_le_of_ne hle (fun e => h e.symm))
    · rintro (hlt | ⟨he, _⟩)
      · exact le_of_lt hlt
      · exact absurd he.symm h

theorem sjf_notAfter_total : IsTotal Process notAfter :=
  ⟨fun a b => by
    rw [sjf_notAfter_iff, sjf_notAfter_iff]
    rcases lt_trichotomy a.arrivalTime b.arrivalTime with h | h | h
    · exact Or.inl (Or.inl h)
    · rcases le_total a.pid b.pid with hp | hp
      · exact Or.inl (Or.inr ⟨h, hp⟩)
      · exact Or.inr (Or.inr ⟨h.symm, hp⟩)
    · exact Or.inr (Or.inl h)⟩

theorem sjf_notAfter_trans : IsTrans Process notAfter :=
  ⟨fun a b c => by
    rw [sjf_notAfter_iff, sjf_notAfter_iff, sjf_notAfter_iff]
    rintro (h1 | ⟨h1, h1p⟩) (h2 | ⟨h2, h2p⟩)
    · exact Or.inl (lt_trans h1 h2)
    · exact Or.inl (h2 ▸ h1)
    · exact Or.inl (h1 ▸ h2)
    · exact Or.inr ⟨h1.trans h2, le_trans h1p h2p⟩⟩

theorem sjf_mem_diff {α : Type} [DecidableEq α] (a : α) (l₁ l₂ : List α)
    (h1 : a ∈ l₁) (h2 : a ∉ l₂) : a ∈ l₁.diff l₂ :=
  List.mem_diff_of_mem h1 h2

/-- The state built by the constructor satisfies `Reach`. -/
theorem sjf_reach_ctor (processes : List Process) : Reach processes (SJF.ctor processes) := by
  have hperm : (sortProcesses processes).Perm processes := List.perm_insertionSort _ _
  have hsorted : (sortProcesses processes).Pairwise notAfter :=
    @List.sorted_insertionSort _ notAfter _ sjf_notAfter_total sjf_notAfter_trans _
  refine ⟨⟨stdlib.isHeap_nil key, ?_⟩, ?_, rfl, ?_, ?_⟩
  · refine hsorted.imp ?_
    intro a b hab
    rcases (sjf_notAfter_iff a b).mp hab with h | ⟨h, _⟩
    · exact le_of_lt h
    · exact le_of_eq h
  · simpa [SJF.ctor] using hperm.map core
  · intro k p hp
    simp [SJF.ctor] at hp
  · intro _
    refine ⟨?_, ?_⟩
    · intro q hq
      simp [SJF.ctor] at hq
    · intro k p prev hp
      simp [SJF.ctor] at hp

/-- The outer loop ends within as many iterations as there are processes left. -/
theorem sjf_steps_done :
    ∀ (n : Nat) (s : SJF), Inv s → s.mRunningProcess.length + s.mProcessList.length ≤ n →
      loopCond (steps n s) = false := by
  intro n
  induction n with
  | zero =>
    intro s _ hlen
    have h1 : s.mRunningProcess = [] := List.eq_nil_of_length_eq_zero (by omega)
    have h2 : s.mProcessList = [] := List.eq_nil_of_length_eq_zero (by omega)
    simp [steps, loopCond, h1, h2]
  | succ n ih =>
    intro s hinv hlen
    unfold steps
    by_cases hc : loopCond s = true
    · rw [if_pos hc]
      obtain ⟨p, top1, -, hinv', hperm', -⟩ := sjf_loopBody_spec s hinv hc
      have hl := hperm'.length_eq
      simp only [List.map_cons, List.length_cons, List.length_map, List.length_append] at hl
      exact ih _ hinv' (by omega)
    · rw [if_neg hc]
      simpa using hc

theorem sjf_map_finalize (processes fin : List Process) (k : Nat) :
    pending processes (fin.map finalize) k = pending processes fin k := by
  unfold pending
  rw [← List.map_take, List.map_map]
  rfl

theorem sjf_dispatchedMin_finalize (processes fin : List Process)
    (h : DispatchedMin processes fin) : DispatchedMin processes (fin.map finalize) := by
  intro k p hp
  rw [List.getElem?_map] at hp
  cases hq : fin[k]? with
  | none => rw [hq] at hp; cases hp
  | some q =>
    rw [hq] at hp
    simp only [Option.map_some', Option.some.injEq] at hp
    subst hp
    rw [sjf_map_finalize]
    exact h k q hq

theorem sjf_dispatchedStart_finalize (processes fin : List Process)
    (h : DispatchedStart processes fin) : DispatchedStart processes (fin.map finalize) := by
  intro k p prev hp hprev
  rw [List.getElem?_map] at hp
  cases hq : fin[k]? with
  | none => rw [hq] at hp; cases hp
  | some q =>
    rw [hq] at hp
    simp only [Option.map_some', Option.some.injEq] at hp
    subst hp
    rw [sjf_map_finalize]
    have hprev' : (0 :: fin.map (fun q => q.finishedTime))[k]? = some prev := by
      rw [List.map_map] at hprev
      exact hprev
    exact h k q prev hq hprev'

/-- The result of `SJF::scheduleProcess` on the state built by the constructor. -/
theorem sjf_scheduleProcess_spec (processes : List Process) :
    loopCond (SJF.ctor processes).scheduleProcess = false ∧
    ((SJF.ctor processes).scheduleProcess.mFinishedProcesses.map core).Perm
      (processes.map core) ∧
    DispatchedMin processes (SJF.ctor processes).scheduleProcess.mFinishedProcesses ∧
    ((∀ p ∈ processes, 0 ≤ p.executionTime) →
      DispatchedStart processes (SJF.ctor processes).scheduleProcess.mFinishedProcesses) := by
  have hreach := sjf_reach_ctor processes
  have hdone := sjf_steps_done
    ((SJF.ctor processes).mRunningProcess.length + (SJF.ctor processes).mProcessList.length)
    (SJF.ctor processes) hreach.1 (le_refl _)
  obtain ⟨-, hperm, -, hmin, hstart⟩ := sjf_reach_steps processes
    ((SJF.ctor processes).mRunningProcess.length + (SJF.ctor processes).mProcessList.length)
    (SJF.ctor processes) hreach
  unfold SJF.scheduleProcess
  simp only
  generalize steps
    ((SJF.ctor processes).mRunningProcess.length + (SJF.ctor processes).mProcessList.length)
    (SJF.ctor processes) = sN at hdone hperm hmin hstart ⊢
  have hempty : sN.mRunningProcess = [] ∧ sN.mProcessList = [] := by
    simpa [loopCond] using hdone
  refine ⟨by simpa [loopCond] using hdone, ?_, sjf_dispatchedMin_finalize _ _ hmin,
    fun hexec => sjf_dispatchedStart_finalize _ _ (hstart hexec).2⟩
  simp only [hempty.1, hempty.2, List.append_nil] at hperm
  rw [List.map_map]
  exact hperm

end sjf

/-- C6: for every process list (distinct ids or not) the loop of
`SJF::scheduleProcess` ends with the finished list holding exactly the input
processes (as pid, arrival time, execution time), and each dispatched process
has already arrived (arrivalTime ≤ its startingTime) and has the lexicographically
smallest (executionTime, pid) among the input processes that have arrivalTime ≤ that
startingTime and were not dispatched before it; equal execution times are broken in
favour of the lower id.  The last conjunct says the same with the processes not yet
run counted with multiplicity. -/
theorem sjf_dispatch_shortest_arrived (processes : List sjf.Process) :
    sjf.loopCond (sjf.SJF.ctor processes).scheduleProcess = false ∧
    ((sjf.SJF.ctor processes).scheduleProcess.mFinishedProcesses.map sjf.core).Perm
      (processes.map sjf.core) ∧
    (∀ k p, (sjf.SJF.ctor processes).scheduleProcess.mFinishedProcesses[k]? = some p →
      p.arrivalTime ≤ p.startingTime ∧
      ∀ q ∈ processes,
        q.pid ∉ ((sjf.SJF.ctor processes).scheduleProcess.mFinishedProcesses.take k).map
          (fun r => r.pid) →
        q.arrivalTime ≤ p.startingTime →
        p.executionTime < q.executionTime ∨
          (p.executionTime = q.executionTime ∧ p.pid ≤ q.pid)) ∧
    sjf.DispatchedMin processes (sjf.SJF.ctor processes).scheduleProcess.mFinishedProcesses := by
  obtain ⟨h1, h2, h3, -⟩ := sjf.sjf_scheduleProcess_spec processes
  refine ⟨h1, h2, ?_, h3⟩
  intro k p hp
  obtain ⟨ha, hb⟩ := h3 k p hp
  refine ⟨ha, ?_⟩
  intro q hq hnot harr
  have hmem : sjf.core q ∈ sjf.pending processes
      (sjf.SJF.ctor processes).scheduleProcess.mFinishedProcesses k := by
    have hnc : sjf.core q ∉
        ((sjf.SJF.ctor processes).scheduleProcess.mFinishedProcesses.take k).map sjf.core := by
      intro hc
      obtain ⟨r, hr, hrc⟩ := List.mem_map.mp hc
      apply hnot
      refine List.mem_map.mpr ⟨r, hr, ?_⟩
      simp only [sjf.core, Prod.mk.injEq] at hrc
      exact hrc.1
    unfold sjf.pending
    exact sjf.sjf_mem_diff _ _ _ (List.mem_map_of_mem _ hq) hnc
  exact hb (sjf.core q) hmem harr

/-- The statement of C6 on the list of `main`: the second process dispatched is
process 2 (arrival 3, execution time 2), started at time 7. -/
theorem sjf_dispatch_shortest_arrived_witness :
    (sjf.SJF.ctor sjf.mainProcessList).scheduleProcess.mFinishedProcesses[1]? =
      some { pid := 2, arrivalTime := 3, executionTime := 2, startingTime := 7,
             finishedTime := 9, waitingTime := 4, turnAroundTime := 6 } ∧
    (3 : Int) ≤ 7 :=
  ⟨by decide,
    ((sjf_dispatch_shortest_arrived sjf.mainProcessList).2.2.1 1
      { pid := 2, arrivalTime := 3, executionTime := 2, startingTime := 7,
        finishedTime := 9, waitingTime := 4, turnAroundTime := 6 } (by decide)).1⟩

/-- C7 as stated fails: on the list (0, arrival 0, execution time 10), (1, 1, -20),
(2, 2, 5), (3, 8, 1), whose arrival times are non-negative, the third process
dispatched is process 3 and starts at 8, although the previous process finished at
-10 and the smallest arrival time among the processes not yet run (2 and 3) is 2. -/
theorem sjf_start_not_as_stated_negative_burst :
    (∀ p ∈ [sjf.Process.init 0 0 10, sjf.Process.init 1 1 (-20), sjf.Process.init 2 2 5,
        sjf.Process.init 3 8 1], 0 ≤ p.arrivalTime) ∧
    (sjf.SJF.ctor [sjf.Process.init 0 0 10, sjf.Process.init 1 1 (-20),
        sjf.Process.init 2 2 5, sjf.Process.init 3 8 1]).scheduleProcess.mFinishedProcesses.map
      (fun p => (p.pid, p.startingTime, p.finishedTime))
      = [(0, 0, 10), (1, 10, -10), (3, 8, 9), (2, 9, 14)] ∧
    sjf.pending [sjf.Process.init 0 0 10, sjf.Process.init 1 1 (-20), sjf.Process.init 2 2 5,
        sjf.Process.init 3 8 1]
      (sjf.SJF.ctor [sjf.Process.init 0 0 10, sjf.Process.init 1 1 (-20),
        sjf.Process.init 2 2 5, sjf.Process.init 3 8 1]).scheduleProcess.mFinishedProcesses 2
      = [(2, 2, 5), (3, 8, 1)] ∧
    ¬ sjf.DispatchedStart [sjf.Process.init 0 0 10, sjf.Process.init 1 1 (-20),
        sjf.Process.init 2 2 5, sjf.Process.init 3 8 1]
      (sjf.SJF.ctor [sjf.Process.init 0 0 10, sjf.Process.init 1 1 (-20),
        sjf.Process.init 2 2 5, sjf.Process.init 3 8 1]).scheduleProcess.mFinishedProcesses := by
  have hpend : sjf.pending [sjf.Process.init 0 0 10, sjf.Process.init 1 1 (-20),
        sjf.Process.init 2 2 5, sjf.Process.init 3 8 1]
      (sjf.SJF.ctor [sjf.Process.init 0 0 10, sjf.Process.init 1 1 (-20),
        sjf.Process.init 2 2 5, sjf.Process.init 3 8 1]).scheduleProcess.mFinishedProcesses 2
      = [(2, 2, 5), (3, 8, 1)] := by decide
  refine ⟨by decide, by decide, hpend, ?_⟩
  intro h
  obtain ⟨-, m, ⟨c, hc, hcm⟩, hleast, hstart⟩ := h 2
    { pid := 3, arrivalTime := 8, executionTime := 1, startingTime := 8,
      finishedTime := 9, waitingTime := 0, turnAroundTime := 1 } (-10) (by decide) (by decide)
  rw [hpend] at hc hleast
  have h2 : m ≤ 2 := hleast (2, 2, 5) (by simp)
  have h3 : m = 2 ∨ m = 8 := by
    simp only [List.mem_cons, List.mem_singleton] at hc
    rcases hc with rfl | hc
    · exact Or.inl hcm.symm
    · rcases hc with rfl | hc
      · exact Or.inr hcm.symm
      · cases hc
  simp only at hstart
  rcases h3 with rfl | rfl
  · simp at hstart
  · omega

/-- C7 (amended): for every process list without a negative execution time (the
arrival times may have any sign), the loop of `SJF::scheduleProcess` ends with the
finished list holding exactly the input processes, and the k-th process dispatched
starts at the later of the finish time of the process
dispatched before it (0 for the first) and the smallest arrivalTime among the
processes not yet run, and finishes at that start time plus its executionTime; so
an idle CPU moves the clock exactly to the earliest pending arrival. -/
theorem sjf_start_times (processes : List sjf.Process)
    (hexec : ∀ p ∈ processes, 0 ≤ p.executionTime) :
    sjf.loopCond (sjf.SJF.ctor processes).scheduleProcess = false ∧
    ((sjf.SJF.ctor processes).scheduleProcess.mFinishedProcesses.map sjf.core).Perm
      (processes.map sjf.core) ∧
    ∀ k p prev, (sjf.SJF.ctor processes).scheduleProcess.mFinishedProcesses[k]? = some p →
      (0 :: (sjf.SJF.ctor processes).scheduleProcess.mFinishedProcesses.map
        (fun q => q.finishedTime))[k]? = some prev →
      p.finishedTime = p.startingTime + p.executionTime ∧
      ∃ m, (∃ c ∈ sjf.pending processes
              (sjf.SJF.ctor processes).scheduleProcess.mFinishedProcesses k, c.2.1 = m) ∧
        (∀ c ∈ sjf.pending processes
              (sjf.SJF.ctor processes).scheduleProcess.mFinishedProcesses k, m ≤ c.2.1) ∧
        p.startingTime = max prev m := by
  obtain ⟨h1, h2, -, h4⟩ := sjf.sjf_scheduleProcess_spec processes
  exact ⟨h1, h2, h4 hexec⟩

/-- The statement of C7 (amended) on the list of `main`: the first process
dispatched is process 0, and it finishes at its start time 2 plus its execution
time 5. -/
theorem sjf_start_times_witness :
    (∀ p ∈ sjf.mainProcessList, 0 ≤ p.executionTime) ∧
    (7 : Int) = 2 + 5 :=
  ⟨by decide,
    ((sjf_start_times sjf.mainProcessList (by decide)).2.2 0
      { pid := 0, arrivalTime := 2, executionTime := 5, startingTime := 2,
        finishedTime := 7, waitingTime := 0, turnAroundTime := 5 } 0
      (by decide) (by decide)).1⟩

/-! ## SRTF -/

namespace srtf

theorem srtf_comp_key (a b : Process) :
    TempBurstTimeCompare a b = true ↔ key b < key a := by
  unfold TempBurstTimeCompare key
  simp

/-- The guarded admission loop of SRTF: it moves a prefix of the process
queue, all of it arriving now, into the running heap; the process left in front of
the queue does not arrive now. -/
theorem srtf_drain_spec (t : Int) :
    ∀ (queue running : List Process), stdlib.IsHeap key running →
      ∃ moved, queue = moved ++ (guarded.drain t running queue).2.1 ∧
        (guarded.drain t running queue).1.Perm (running ++ moved) ∧
        (∀ q ∈ moved, q.arrivalTime = t) ∧
        (∀ q, (guarded.drain t running queue).2.1.head? = some q → q.arrivalTime ≠ t) ∧
        stdlib.IsHeap key (guarded.drain t running queue).1 := by
  intro queue
  induction queue with
  | nil =>
    intro running hr
    exact ⟨[], by simp [guarded.drain], by simp [guarded.drain], by simp, by simp [guarded.drain], hr⟩
  | cons p rest ih =>
    intro running hr
    by_cases hp : t = p.arrivalTime
    · have hd : guarded.drain t running (p :: rest) =
          guarded.drain t (stdlib.pqPush TempBurstTimeCompare running p) rest := by
        simp [guarded.drain, hp]
      obtain ⟨hh, hperm⟩ :=
        stdlib.pqPush_spec key TempBurstTimeCompare srtf_comp_key running p hr
      obtain ⟨moved, h1, h2, h3, h4, h5⟩ := ih _ hh
      rw [hd]
      refine ⟨p :: moved, by rw [List.cons_append, ← h1], ?_, ?_, h4, h5⟩
      · refine h2.trans ((hperm.append_right moved).trans ?_)
        simpa using (@List.perm_middle _ p running moved).symm
      · intro q hq
        rcases List.mem_cons.mp hq with rfl | hq
        · exact hp.symm
        · exact h3 q hq
    · have hd : guarded.drain t running (p :: rest) = (running, p :: rest, 0) := by
        simp [guarded.drain, hp]
      rw [hd]
      refine ⟨[], by simp, by simp, by simp, ?_, hr⟩
      intro q hq
      simp only [List.head?_cons, Option.some.injEq] at hq
      subst hq
      exact fun e => hp e.symm

/-- The admission loop keeps `Reach`; afterwards every queued process arrives
later than the current time. -/
theorem srtf_reach_drainArrived (processes : List Process) (s : SRTF)
    (hr : Reach processes s) :
    Reach processes (guarded.drainArrived s) ∧
    (guarded.drainArrived s).mTimeCounter = s.mTimeCounter ∧
    (guarded.drainArrived s).mTimeQuantum = s.mTimeQuantum ∧
    (guarded.drainArrived s).mGantChart = s.mGantChart ∧
    (guarded.drainArrived s).mFinishedProcesses = s.mFinishedProcesses ∧
    (∀ q ∈ (guarded.drainArrived s).mProcessList, s.mTimeCounter < q.arrivalTime) ∧
    ((guarded.drainArrived s).mRunningProcessList ≠ [] → loopCond s = true) := by
  obtain ⟨hheap, hsorted, hlate, harr, hperm⟩ := hr
  obtain ⟨moved, hq, hp, hmoved, hhead, hheap'⟩ :=
    srtf_drain_spec s.mTimeCounter s.mProcessList s.mRunningProcessList hheap
  unfold guarded.drainArrived
  simp only
  generalize guarded.drain s.mTimeCounter s.mRunningProcessList s.mProcessList = d
    at hq hp hhead hheap' ⊢
  obtain ⟨run', queue', g⟩ := d
  simp only at hq hp hhead hheap' ⊢
  have hsorted' : queue'.Pairwise (fun a b => a.arrivalTime ≤ b.arrivalTime) := by
    rw [hq] at hsorted
    exact (List.pairwise_append.mp hsorted).2.1
  have hlate' : ∀ q ∈ queue', s.mTimeCounter < q.arrivalTime := by
    cases queue' with
    | nil => intro q hq'; cases hq'
    | cons f rest =>
      have hf1 : f.arrivalTime ≠ s.mTimeCounter := hhead f rfl
      have hf2 : s.mTimeCounter ≤ f.arrivalTime :=
        hlate f (by rw [hq]; exact List.mem_append_right _ (List.mem_cons_self _ _))
      have hf : s.mTimeCounter < f.arrivalTime := lt_of_le_of_ne hf2 (fun e => hf1 e.symm)
      intro q hq'
      rcases List.mem_cons.mp hq' with rfl | hq'
      · exact hf
      · exact lt_of_lt_of_le hf ((List.pairwise_cons.mp hsorted').1 q hq')
  refine ⟨⟨hheap', hsorted', fun q hq' => le_of_lt (hlate' q hq'), ?_, ?_⟩, trivial, trivial,
    trivial, trivial, hlate', ?_⟩
  · intro q hq'
    rcases List.mem_append.mp (hp.subset hq') with h | h
    · exact harr q h
    · exact le_of_eq (hmoved q h)
  · have h1 : (run' ++ queue').Perm (s.mRunningProcessList ++ s.mProcessList) := by
      rw [hq, ← List.append_assoc]
      exact hp.append_right queue'
    refine List.Perm.trans ?_ hperm
    simp only [List.map_append]
    exact List.Perm.append_left _ (by simpa using h1.map core)
  · intro hne
    unfold loopCond
    by_cases hrn : s.mRunningProcessList = []
    · have hm : moved ≠ [] := by
        intro hm
        rw [hrn, hm] at hp
        exact hne (List.Perm.eq_nil hp)
      have : s.mProcessList ≠ [] := by
        rw [hq]
        simp [hm]
      simp [this]
    · simp [hrn]

end srtf

namespace srtf

/-- The dispatch of the top process `cur`: `cur2` is the process after its tick. -/
theorem srtf_dispatch_some (s : SRTF) (cur : Process)
    (htop : stdlib.pqTop s.mRunningProcessList = some cur) :
    ∃ cur2, core cur2 = core cur ∧
      cur2.tempBurstTime = cur.tempBurstTime - s.mTimeQuantum ∧
      ((cur2.tempBurstTime = 0 ∧
        dispatch s =
          { s with
            mRunningProcessList := stdlib.pqPop TempBurstTimeCompare s.mRunningProcessList
            mFinishedProcesses := s.mFinishedProcesses ++
              [{ cur2 with finishingTime := s.mTimeCounter + 1 }]
            mGantChart := s.mGantChart ++ [(cur.pid, s.mTimeCounter)]
            mTimeCounter := s.mTimeCounter + 1 }) ∨
       (cur2.tempBurstTime ≠ 0 ∧
        dispatch s =
          { s with
            mRunningProcessList := stdlib.pqPush TempBurstTimeCompare
              (stdlib.pqPop TempBurstTimeCompare s.mRunningProcessList) cur2
            mGantChart := s.mGantChart ++ [(cur.pid, s.mTimeCounter)]
            mTimeCounter := s.mTimeCounter + 1 })) := by
  by_cases hinit : cur.init = false
  · refine ⟨{ cur with tempBurstTime := cur.tempBurstTime - s.mTimeQuantum,
                       startingTime := s.mTimeCounter, init := true }, rfl, rfl, ?_⟩
    by_cases hz : cur.tempBurstTime - s.mTimeQuantum = 0
    · exact Or.inl ⟨hz, by simp [dispatch, htop, hinit, hz]⟩
    · exact Or.inr ⟨hz, by simp [dispatch, htop, hinit, hz]⟩
  · refine ⟨{ cur with tempBurstTime := cur.tempBurstTime - s.mTimeQuantum }, rfl, rfl, ?_⟩
    by_cases hz : cur.tempBurstTime - s.mTimeQuantum = 0
    · exact Or.inl ⟨hz, by simp [dispatch, htop, hinit, hz]⟩
    · exact Or.inr ⟨hz, by simp [dispatch, htop, hinit, hz]⟩

/-- The dispatch keeps `Reach` when every queued process arrives later than the
current time, and appends the trace event of the top process. -/
theorem srtf_reach_dispatch (processes : List Process) (s : SRTF)
    (hr : Reach processes s) (hlate : ∀ q ∈ s.mProcessList, s.mTimeCounter < q.arrivalTime) :
    Reach processes (dispatch s) ∧
    (∀ cur, stdlib.pqTop s.mRunningProcessList = some cur →
      (dispatch s).mGantChart = s.mGantChart ++ [(cur.pid, s.mTimeCounter)]) := by
  obtain ⟨hheap, hsorted, -, harr, hperm⟩ := hr
  cases htop : stdlib.pqTop s.mRunningProcessList with
  | none =>
    have hd : dispatch s = { s with mTimeCounter := s.mTimeCounter + 1 } := by
      simp [dispatch, htop]
    rw [hd]
    refine ⟨⟨hheap, hsorted, ?_, ?_, hperm⟩, ?_⟩
    · intro q hq
      have := hlate q hq
      simp only
      omega
    · intro q hq
      have := harr q hq
      simp only
      omega
    · intro cur hcur
      cases hcur
  | some cur =>
    obtain ⟨hheap', hpop⟩ := stdlib.pqPop_spec key TempBurstTimeCompare srtf_comp_key
      s.mRunningProcessList cur hheap htop
    have hcurmem : cur ∈ s.mRunningProcessList := hpop.subset (List.mem_cons_self _ _)
    obtain ⟨cur2, hcore, -, hcase⟩ := srtf_dispatch_some s cur htop
    have harr2 : cur2.arrivalTime = cur.arrivalTime := by
      simp only [core, Prod.mk.injEq] at hcore
      exact hcore.2.1
    rcases hcase with ⟨-, hd⟩ | ⟨-, hd⟩
    · rw [hd]
      refine ⟨⟨hheap', hsorted, ?_, ?_, ?_⟩, ?_⟩
      · intro q hq
        have := hlate q hq
        simp only
        omega
      · intro q hq
        have := harr q (hpop.subset (List.mem_cons_of_mem _ hq))
        simp only
        omega
      · refine List.Perm.trans ?_ hperm
        simp only [List.map_append, List.append_assoc, List.map_cons, List.map_nil,
          List.singleton_append]
        refine List.Perm.append_left _ ?_
        have h1 := (hpop.map core).append_right (s.mProcessList.map core)
        have h2 : core { cur2 with finishingTime := s.mTimeCounter + 1 } = core cur := by
          rw [← hcore]
          rfl
        rw [h2]
        simpa using h1
      · intro c hc
        cases hc
        rfl
    · rw [hd]
      obtain ⟨hheap'', hpush⟩ := stdlib.pqPush_spec key TempBurstTimeCompare srtf_comp_key
        (stdlib.pqPop TempBurstTimeCompare s.mRunningProcessList) cur2 hheap'
      refine ⟨⟨hheap'', hsorted, ?_, ?_, ?_⟩, ?_⟩
      · intro q hq
        have := hlate q hq
        simp only
        omega
      · intro q hq
        simp only
        rcases List.mem_cons.mp (hpush.subset hq) with rfl | hq'
        · have := harr cur hcurmem
          omega
        · have := harr q (hpop.subset (List.mem_cons_of_mem _ hq'))
          omega
      · refine List.Perm.trans ?_ hperm
        simp only [List.map_append]
        refine List.Perm.append_left _ (List.Perm.append_right _ ?_)
        have h1 := hpush.map core
        rw [List.map_cons, hcore] at h1
        exact h1.trans (by simpa using hpop.map core)
      · intro c hc
        cases hc
        rfl

/-- One iteration of the outer loop keeps `Reach`. -/
theorem srtf_reach_loopBody (processes : List Process) (s : SRTF)
    (hr : Reach processes s) : Reach processes (guarded.loopBody s) := by
  obtain ⟨h1, h2, -, -, -, h6, -⟩ := srtf_reach_drainArrived processes s hr
  exact (srtf_reach_dispatch processes (guarded.drainArrived s) h1 (by rw [h2]; exact h6)).1

theorem srtf_reach_steps (processes : List Process) :
    ∀ (n : Nat) (s : SRTF), Reach processes s → Reach processes (guarded.steps n s) := by
  intro n
  induction n with
  | zero => intro s hr; exact hr
  | succ n ih =>
    intro s hr
    unfold guarded.steps
    by_cases hc : loopCond s = true
    · rw [if_pos hc]
      exact ih _ (srtf_reach_loopBody processes s hr)
    · rw [if_neg hc]
      exact hr

/-- The state built by the constructor satisfies `Reach` when no arrival time is
negative. -/
theorem srtf_reach_ctor (processes : List Process)
    (hwf : ∀ p ∈ processes, 0 ≤ p.arrivalTime) : Reach processes (SRTF.ctor processes) := by
  have hperm : (sortProcesses processes).Perm processes := List.perm_insertionSort _ _
  have hsorted : (sortProcesses processes).Pairwise notAfter :=
    @List.sorted_insertionSort _ notAfter _
      ⟨fun a b => by
        unfold notAfter compare
        simp only [decide_eq_false_iff_not, not_lt]
        exact le_total _ _⟩
      ⟨fun a b c => by
        unfold notAfter compare
        simp only [decide_eq_false_iff_not, not_lt]
        exact fun h1 h2 => le_trans h1 h2⟩ _
  refine ⟨stdlib.isHeap_nil key, ?_, ?_, ?_, ?_⟩
  · refine hsorted.imp ?_
    intro a b hab
    unfold notAfter compare at hab
    simpa using hab
  · intro q hq
    exact hwf q (hperm.subset hq)
  · intro q hq
    simp [SRTF.ctor] at hq
  · simpa [SRTF.ctor] using hperm.map core

end srtf

/-- In a run of the guarded loop of SRTF on a process list without a negative
arrival time, take any iteration `n` of the outer loop in which a process `cur` is
on top of the running heap after the admission loop.  That iteration is the
dispatch of `cur`: it appends the trace event (cur.pid, t), t being the clock, and
the remaining time of `cur` just before the tick is less than or equal to the
remaining time of every process that is not finished (running or still queued) and
has arrivalTime ≤ t.  Finished, running and queued processes together are the
input. -/
theorem srtf_iteration_min_remaining (processes : List srtf.Process)
    (hwf : ∀ p ∈ processes, 0 ≤ p.arrivalTime) (n : Nat) (cur : srtf.Process)
    (htop : stdlib.pqTop (srtf.guarded.atDispatch processes n).mRunningProcessList = some cur) :
    srtf.guarded.steps (n + 1) (srtf.SRTF.ctor processes) =
      srtf.dispatch (srtf.guarded.atDispatch processes n) ∧
    (srtf.dispatch (srtf.guarded.atDispatch processes n)).mGantChart =
      (srtf.guarded.atDispatch processes n).mGantChart ++
        [(cur.pid, (srtf.guarded.atDispatch processes n).mTimeCounter)] ∧
    (∀ q ∈ (srtf.guarded.atDispatch processes n).mRunningProcessList ++
          (srtf.guarded.atDispatch processes n).mProcessList,
      q.arrivalTime ≤ (srtf.guarded.atDispatch processes n).mTimeCounter →
      cur.tempBurstTime ≤ q.tempBurstTime) ∧
    (((srtf.guarded.atDispatch processes n).mFinishedProcesses ++
        ((srtf.guarded.atDispatch processes n).mRunningProcessList ++
          (srtf.guarded.atDispatch processes n).mProcessList)).map srtf.core).Perm
      (processes.map srtf.core) := by
  have hreach := srtf.srtf_reach_steps processes n _ (srtf.srtf_reach_ctor processes hwf)
  obtain ⟨h1, h2, -, -, -, h6, h7⟩ := srtf.srtf_reach_drainArrived processes _ hreach
  have hne : (srtf.guarded.atDispatch processes n).mRunningProcessList ≠ [] := by
    intro he
    rw [he] at htop
    cases htop
  have hcond : srtf.loopCond (srtf.guarded.steps n (srtf.SRTF.ctor processes)) = true := h7 hne
  refine ⟨?_, ?_, ?_, h1.2.2.2.2⟩
  · rw [srtf.srtf_steps_add n 1]
    simp [srtf.guarded.steps, hcond, srtf.guarded.loopBody, srtf.guarded.atDispatch]
  · exact (srtf.srtf_reach_dispatch processes _ h1 (by
      intro q hq
      have := h6 q hq
      rw [h2]
      exact this)).2 cur htop
  · intro q hq harr
    rcases List.mem_append.mp hq with hq | hq
    · exact stdlib.IsHeap.head_le srtf.key _ h1.1 cur
        (by rw [← List.head?_eq_getElem?]; exact htop) q hq
    · have := h6 q hq
      unfold srtf.guarded.atDispatch at harr
      rw [h2] at harr
      omega

/-- The trace after `n + 1` iterations is the trace after `n` iterations, followed
by the event of iteration `n` when that iteration dispatches a process. -/
theorem srtf_gantt_succ (processes : List srtf.Process) (n : Nat) :
    (srtf.guarded.steps (n + 1) (srtf.SRTF.ctor processes)).mGantChart =
      (srtf.guarded.steps n (srtf.SRTF.ctor processes)).mGantChart ∨
    ∃ cur, stdlib.pqTop (srtf.guarded.atDispatch processes n).mRunningProcessList = some cur ∧
      (srtf.guarded.steps (n + 1) (srtf.SRTF.ctor processes)).mGantChart =
        (srtf.guarded.steps n (srtf.SRTF.ctor processes)).mGantChart ++
          [(cur.pid, (srtf.guarded.atDispatch processes n).mTimeCounter)] := by
  rw [srtf.srtf_steps_add n 1]
  by_cases hc : srtf.loopCond (srtf.guarded.steps n (srtf.SRTF.ctor processes)) = true
  · have h1 : srtf.guarded.steps 1 (srtf.guarded.steps n (srtf.SRTF.ctor processes)) =
        srtf.dispatch (srtf.guarded.atDispatch processes n) := by
      simp [srtf.guarded.steps, hc, srtf.guarded.loopBody, srtf.guarded.atDispatch]
    have h2 : (srtf.guarded.atDispatch processes n).mGantChart =
        (srtf.guarded.steps n (srtf.SRTF.ctor processes)).mGantChart := rfl
    rw [h1, ← h2]
    cases htop : stdlib.pqTop (srtf.guarded.atDispatch processes n).mRunningProcessList with
    | none =>
      left
      simp [srtf.dispatch, htop]
    | some cur =>
      right
      obtain ⟨cur2, -, -, hcase⟩ := srtf.srtf_dispatch_some _ cur htop
      refine ⟨cur, rfl, ?_⟩
      rcases hcase with ⟨-, hd⟩ | ⟨-, hd⟩ <;> rw [hd]
  · left
    have hc' : srtf.loopCond (srtf.guarded.steps n (srtf.SRTF.ctor processes)) = false := by
      simpa using hc
    rw [srtf.srtf_steps_of_loopCond_false 1 _ hc']

/-- For every process list without a negative arrival time, every event (p, t)
of the trace that the guarded loop of SRTF has produced after any number `n` of
iterations was appended by an earlier iteration `m` that dispatched the
top `cur` of the running heap at clock t, p being the id of `cur`; the remaining
time of `cur` just before that tick is less than or equal to the remaining time of
every process that was not finished (running or still queued) and had
arrivalTime ≤ t.  Finished, running and queued processes together are the input. -/
theorem srtf_guarded_min_remaining (processes : List srtf.Process)
    (hwf : ∀ p ∈ processes, 0 ≤ p.arrivalTime) (n : Nat) (e : Int × Int)
    (he : e ∈ (srtf.guarded.steps n (srtf.SRTF.ctor processes)).mGantChart) :
    ∃ m cur, m < n ∧
      stdlib.pqTop (srtf.guarded.atDispatch processes m).mRunningProcessList = some cur ∧
      e = (cur.pid, (srtf.guarded.atDispatch processes m).mTimeCounter) ∧
      (∀ q ∈ (srtf.guarded.atDispatch processes m).mRunningProcessList ++
            (srtf.guarded.atDispatch processes m).mProcessList,
        q.arrivalTime ≤ (srtf.guarded.atDispatch processes m).mTimeCounter →
        cur.tempBurstTime ≤ q.tempBurstTime) ∧
      (((srtf.guarded.atDispatch processes m).mFinishedProcesses ++
          ((srtf.guarded.atDispatch processes m).mRunningProcessList ++
            (srtf.guarded.atDispatch processes m).mProcessList)).map srtf.core).Perm
        (processes.map srtf.core) := by
  induction n with
  | zero =>
    simp [srtf.guarded.steps, srtf.SRTF.ctor] at he
  | succ n ih =>
    rcases srtf_gantt_succ processes n with h | ⟨cur, htop, h⟩
    · rw [h] at he
      obtain ⟨m, c, hm, hrest⟩ := ih he
      exact ⟨m, c, by omega, hrest⟩
    · rw [h, List.mem_append, List.mem_singleton] at he
      rcases he with he | he
      · obtain ⟨m, c, hm, hrest⟩ := ih he
        exact ⟨m, c, by omega, hrest⟩
      · obtain ⟨-, -, h3, h4⟩ := srtf_iteration_min_remaining processes hwf n cur htop
        exact ⟨n, cur, by omega, htop, he, h3, h4⟩

/-! ## Round-Robin -/

namespace round_robin

/-- The inner loop of `RoundRobin::scheduleProcess` splits the process queue into
the processes it moves, all of them arrived, and the rest. -/
theorem rr_drain_spec (t : Int) (queue : List Process) :
    queue = (drain t queue).1 ++ (drain t queue).2 ∧
    (∀ q ∈ (drain t queue).1, q.arrivalTime ≤ t) ∧
    (∀ q, (drain t queue).2.head? = some q → t < q.arrivalTime) := by
  induction queue with
  | nil => simp [drain]
  | cons p rest ih =>
    by_cases hp : t ≥ p.arrivalTime
    · obtain ⟨h1, h2, h3⟩ := ih
      have hd : drain t (p :: rest) = (p :: (drain t rest).1, (drain t rest).2) := by
        simp [drain, hp]
      rw [hd]
      refine ⟨by simp only [List.cons_append]; rw [← h1], ?_, h3⟩
      intro q hq
      rcases List.mem_cons.mp hq with rfl | hq
      · exact hp
      · exact h2 q hq
    · have hd : drain t (p :: rest) = ([], p :: rest) := by
        simp [drain, hp]
      rw [hd]
      refine ⟨by simp, by simp, ?_⟩
      intro q hq
      simp only [List.head?_cons, Option.some.injEq] at hq
      subst hq
      exact not_le.mp hp

/-- The dispatch of the front process `cur`: `cur2` is the process after its time
slice; it is finished when its remaining time is 0 and goes to the back of the
running queue otherwise. -/
theorem rr_dispatch_cons (s : RoundRobin) (cur : Process) (rest : List Process)
    (h : s.mRunningProcessList = cur :: rest) :
    ∃ cur2, core cur2 = core cur ∧
      (dispatch s).mProcessList = s.mProcessList ∧
      (dispatch s).mGantChart = s.mGantChart ++ [(cur.pid, s.mTimeCounter)] ∧
      (dispatch s).mRunningProcessList =
        rest ++ (if cur2.tempBurstTime = 0 then [] else [cur2]) ∧
      (dispatch s).mFinishedProcesses =
        s.mFinishedProcesses ++
          (if cur2.tempBurstTime = 0 then
            [{ cur2 with finishingTime := (dispatch s).mTimeCounter }] else []) := by
  unfold dispatch
  rw [h]
  simp only
  by_cases hinit : cur.init = false <;>
  by_cases hlt : cur.tempBurstTime < s.mTimeQuantum
  · refine ⟨{ cur with startingTime := s.mTimeCounter, init := true, tempBurstTime := 0 },
      rfl, ?_⟩
    simp [hinit, hlt]
  · by_cases hz : cur.tempBurstTime - s.mTimeQuantum = 0
    · refine ⟨{ cur with startingTime := s.mTimeCounter, init := true,
                         tempBurstTime := cur.tempBurstTime - s.mTimeQuantum }, rfl, ?_⟩
      simp [hinit, hlt, hz]
    · refine ⟨{ cur with startingTime := s.mTimeCounter, init := true,
                         tempBurstTime := cur.tempBurstTime - s.mTimeQuantum }, rfl, ?_⟩
      simp [hinit, hlt, hz]
  · refine ⟨{ cur with tempBurstTime := 0 }, rfl, ?_⟩
    simp [hinit, hlt]
  · by_cases hz : cur.tempBurstTime - s.mTimeQuantum = 0
    · refine ⟨{ cur with tempBurstTime := cur.tempBurstTime - s.mTimeQuantum }, rfl, ?_⟩
      simp [hinit, hlt, hz]
    · refine ⟨{ cur with tempBurstTime := cur.tempBurstTime - s.mTimeQuantum }, rfl, ?_⟩
      simp [hinit, hlt, hz]

theorem rr_dispatch_nil (s : RoundRobin) (h : s.mRunningProcessList = []) :
    dispatch s = { s with mTimeCounter := s.mTimeCounter + s.mTimeQuantum } := by
  unfold dispatch
  rw [h]

end round_robin

/-- C10: one iteration of the loop of `RoundRobin::scheduleProcess`, from any state,
changes the ready queue only as a FIFO queue: the processes `moved` from the front
of the process queue (all arrived) are appended at the back; if the queue is then
empty it stays empty (idle iteration); otherwise its front `cur` is removed and,
if and only if its remaining time after the time slice is not 0, the updated
process is appended last (else it goes to the finished list).  Hence the processes
that were waiting behind the front form a prefix of the new ready queue: their
relative order is unchanged and neither a new arrival nor the preempted process
gets in front of them. -/
theorem round_robin_ready_fifo (s : round_robin.RoundRobin) :
    ∃ moved,
      s.mProcessList = moved ++ (round_robin.loopBody s).mProcessList ∧
      (∀ q ∈ moved, q.arrivalTime ≤ s.mTimeCounter) ∧
      (s.mRunningProcessList ++ moved = [] →
        (round_robin.loopBody s).mRunningProcessList = [] ∧
        (round_robin.loopBody s).mFinishedProcesses = s.mFinishedProcesses ∧
        (round_robin.loopBody s).mGantChart = s.mGantChart) ∧
      (∀ cur rest, s.mRunningProcessList ++ moved = cur :: rest →
        ∃ cur2, round_robin.core cur2 = round_robin.core cur ∧
          (round_robin.loopBody s).mGantChart = s.mGantChart ++ [(cur.pid, s.mTimeCounter)] ∧
          (round_robin.loopBody s).mRunningProcessList =
            rest ++ (if cur2.tempBurstTime = 0 then [] else [cur2]) ∧
          (round_robin.loopBody s).mFinishedProcesses =
            s.mFinishedProcesses ++
              (if cur2.tempBurstTime = 0 then
                [{ cur2 with finishingTime := (round_robin.loopBody s).mTimeCounter }]
              else [])) ∧
      s.mRunningProcessList.tail <+: (round_robin.loopBody s).mRunningProcessList := by
  obtain ⟨h1, h2, -⟩ := round_robin.rr_drain_spec s.mTimeCounter s.mProcessList
  refine ⟨(round_robin.drain s.mTimeCounter s.mProcessList).1, ?_, h2, ?_, ?_, ?_⟩
  · cases hrun : (round_robin.drainArrived s).mRunningProcessList with
    | nil =>
      unfold round_robin.loopBody
      rw [round_robin.rr_dispatch_nil _ hrun]
      exact h1
    | cons cur rest =>
      obtain ⟨cur2, -, hq, -⟩ := round_robin.rr_dispatch_cons _ cur rest hrun
      unfold round_robin.loopBody
      rw [hq]
      exact h1
  · intro hnil
    have hrun : (round_robin.drainArrived s).mRunningProcessList = [] := hnil
    unfold round_robin.loopBody
    rw [round_robin.rr_dispatch_nil _ hrun]
    exact ⟨hrun, rfl, rfl⟩
  · intro cur rest hcons
    have hrun : (round_robin.drainArrived s).mRunningProcessList = cur :: rest := hcons
    obtain ⟨cur2, hc, -, hg, hr, hf⟩ := round_robin.rr_dispatch_cons _ cur rest hrun
    exact ⟨cur2, hc, hg, hr, hf⟩
  · cases hrun : (round_robin.drainArrived s).mRunningProcessList with
    | nil =>
      have hnil : s.mRunningProcessList ++
          (round_robin.drain s.mTimeCounter s.mProcessList).1 = [] := hrun
      have : s.mRunningProcessList = [] := (List.append_eq_nil.mp hnil).1
      rw [this]
      exact List.nil_prefix
    | cons cur rest =>
      obtain ⟨cur2, -, -, -, hr, -⟩ := round_robin.rr_dispatch_cons _ cur rest hrun
      unfold round_robin.loopBody
      rw [hr]
      have hcons : s.mRunningProcessList ++
          (round_robin.drain s.mTimeCounter s.mProcessList).1 = cur :: rest := hrun
      cases hs : s.mRunningProcessList with
      | nil => exact List.nil_prefix
      | cons c w =>
        rw [hs, List.cons_append] at hcons
        have hrest : rest = w ++ (round_robin.drain s.mTimeCounter s.mProcessList).1 :=
          (List.cons.inj hcons).2.symm
        rw [hrest, List.tail_cons, List.append_assoc]
        exact List.prefix_append _ _

/-- The statement of C10 at the state that the scenario of C4 reaches after one
iteration: process 1 is at the front, process 0 was preempted behind it; the next
iteration dispatches process 1 and appends it behind process 0. -/
theorem round_robin_ready_fifo_witness :
    (round_robin.steps 1 (round_robin.RoundRobin.ctor
        [round_robin.Process.init4 0 0 3 3,
          round_robin.Process.init4 1 0 3 3])).mRunningProcessList.map
      (fun p => (p.pid, p.tempBurstTime)) = [(1, 3), (0, 2)] ∧
    (round_robin.loopBody (round_robin.steps 1 (round_robin.RoundRobin.ctor
        [round_robin.Process.init4 0 0 3 3,
          round_robin.Process.init4 1 0 3 3]))).mRunningProcessList.map
      (fun p => (p.pid, p.tempBurstTime)) = [(0, 2), (1, 2)] ∧
    ∃ moved,
      (round_robin.steps 1 (round_robin.RoundRobin.ctor
        [round_robin.Process.init4 0 0 3 3,
          round_robin.Process.init4 1 0 3 3])).mProcessList =
        moved ++ (round_robin.loopBody (round_robin.steps 1 (round_robin.RoundRobin.ctor
          [round_robin.Process.init4 0 0 3 3,
            round_robin.Process.init4 1 0 3 3]))).mProcessList :=
  ⟨by decide, by decide,
    (round_robin_ready_fifo (round_robin.steps 1 (round_robin.RoundRobin.ctor
        [round_robin.Process.init4 0 0 3 3, round_robin.Process.init4 1 0 3 3]))).imp
      (fun _ h => h.1)⟩

/-! ## The common loop of the tick-based engines -/

/-! ## Properties of the common loop -/

namespace tick

theorem tick_slice_core (t : Int) (p : Proc) : core (slice t p).1 = core p := by
  unfold slice core
  by_cases hi : p.init = false <;> by_cases hlt : p.tempBurstTime < 1 <;> simp [hi, hlt]

theorem tick_finish_core (r : Proc × Int) : core (finish r) = core r.1 := rfl

theorem tick_slice_pid (t : Int) (p : Proc) : (slice t p).1.pid = p.pid := by
  have := tick_slice_core t p
  simp only [core, Prod.mk.injEq] at this
  exact this.1

theorem tick_slice_arrival (t : Int) (p : Proc) :
    (slice t p).1.arrivalTime = p.arrivalTime := by
  have := tick_slice_core t p
  simp only [core, Prod.mk.injEq] at this
  exact this.2.1

theorem tick_slice_burst (t : Int) (p : Proc) :
    (slice t p).1.burstTime = p.burstTime := by
  have := tick_slice_core t p
  simp only [core, Prod.mk.injEq] at this
  exact this.2.2

/-- A time slice of a process with at least one unit left: one unit is granted
and the clock moves by one. -/
theorem tick_slice_pos (t : Int) (p : Proc) (h : 1 ≤ p.tempBurstTime) :
    (slice t p).1.tempBurstTime = p.tempBurstTime - 1 ∧ (slice t p).2 = t + 1 := by
  unfold slice
  have hlt : ¬ p.tempBurstTime < 1 := not_lt.mpr h
  by_cases hi : p.init = false <;> simp [hi, hlt]

/-- A time slice of a process with no negative remaining time: the clock does not
go back and the remaining time stays non-negative. -/
theorem tick_slice_nonneg (t : Int) (p : Proc) (h : 0 ≤ p.tempBurstTime) :
    0 ≤ (slice t p).1.tempBurstTime ∧ t ≤ (slice t p).2 := by
  unfold slice
  by_cases hi : p.init = false <;> by_cases hlt : p.tempBurstTime < 1 <;>
    simp [hi, hlt] <;> omega

/-- After a time slice the process is marked as started; its starting time is
the clock of its first dispatch. -/
theorem tick_slice_init (t : Int) (p : Proc) :
    (slice t p).1.init = true ∧
    (p.init = false → (slice t p).1.startingTime = t) ∧
    (p.init = true → (slice t p).1.startingTime = p.startingTime) := by
  unfold slice
  by_cases hi : p.init = false <;> by_cases hlt : p.tempBurstTime < 1 <;> simp [hi, hlt]

/-- One iteration keeps the processes. -/
theorem tick_step_conserved (input : List (Int × Int × Int)) (a b : State)
    (h : Step a b) (hc : Conserved input a) : Conserved input b := by
  unfold Conserved at hc ⊢
  cases h with
  | idle hready hhead hq hr hf hg ht =>
    rw [hq, hr, hf]
    rw [hready] at hc
    exact hc
  | run moved rest cur others moved2 rest2 hq hm hp hq2 hm2 hbq hg ht hfin =>
    refine List.Perm.trans ?_ hc
    have hlive : ((a.ready ++ a.queue).map core).Perm
        ((cur :: (others ++ moved2) ++ rest2).map core) := by
      rw [hq, hq2, ← List.append_assoc, ← List.append_assoc]
      have := (hp.append_right moved2).append_right rest2
      simpa using this.map core
    rw [hbq]
    simp only [List.map_append]
    rcases hfin with ⟨-, hf, hr⟩ | ⟨-, hf, hr⟩
    · rw [hf]
      simp only [List.map_append, List.map_cons, List.map_nil, List.append_assoc,
        List.singleton_append, tick_finish_core, tick_slice_core]
      refine List.Perm.append_left _ ?_
      refine List.Perm.trans ?_ (by simpa using hlive.symm)
      exact (List.Perm.cons _ ((hr.map core).append_right _)).trans (by simp)
    · rw [hf]
      refine List.Perm.append_left _ ?_
      refine List.Perm.trans ?_ (by simpa using hlive.symm)
      have := (hr.map core).append_right (rest2.map core)
      simpa [tick_slice_core] using this

end tick

namespace tick

/-- Where the processes of the new state come from, in a `run` iteration. -/
theorem tick_run_members (a b : State) (moved : List Proc) (cur : Proc)
    (others moved2 : List Proc)
    (hp : (a.ready ++ moved).Perm (cur :: others))
    (hfin :
      ((slice a.t cur).1.tempBurstTime = 0 ∧
        b.finished = a.finished ++ [finish (slice a.t cur)] ∧
        b.ready.Perm (others ++ moved2)) ∨
      ((slice a.t cur).1.tempBurstTime ≠ 0 ∧
        b.finished = a.finished ∧
        b.ready.Perm ((slice a.t cur).1 :: (others ++ moved2)))) :
    (cur ∈ a.ready ∨ cur ∈ moved) ∧
    (∀ p ∈ others, p ∈ a.ready ∨ p ∈ moved) ∧
    (∀ p ∈ b.ready, (p = (slice a.t cur).1 ∧ (slice a.t cur).1.tempBurstTime ≠ 0) ∨
      p ∈ others ∨ p ∈ moved2) ∧
    (∀ p ∈ b.finished, p ∈ a.finished ∨
      (p = finish (slice a.t cur) ∧ (slice a.t cur).1.tempBurstTime = 0)) ∧
    (∀ p ∈ a.finished, p ∈ b.finished) ∧
    (∀ p ∈ others, p ∈ b.ready) ∧
    ((slice a.t cur).1 ∈ b.ready ∨ finish (slice a.t cur) ∈ b.finished) := by
  have hcur : cur ∈ a.ready ++ moved := hp.symm.subset (List.mem_cons_self _ _)
  have hoth : ∀ p ∈ others, p ∈ a.ready ++ moved :=
    fun p h => hp.symm.subset (List.mem_cons_of_mem _ h)
  refine ⟨List.mem_append.mp hcur, fun p h => List.mem_append.mp (hoth p h), ?_, ?_, ?_, ?_, ?_⟩
  · intro p h
    rcases hfin with ⟨-, -, hr⟩ | ⟨hne, -, hr⟩
    · exact Or.inr (List.mem_append.mp (hr.subset h))
    · rcases List.mem_cons.mp (hr.subset h) with rfl | h'
      · exact Or.inl ⟨rfl, hne⟩
      · exact Or.inr (List.mem_append.mp h')
  · intro p h
    rcases hfin with ⟨hz, hf, -⟩ | ⟨-, hf, -⟩
    · rw [hf] at h
      rcases List.mem_append.mp h with h' | h'
      · exact Or.inl h'
      · exact Or.inr ⟨by simpa using h', hz⟩
    · rw [hf] at h
      exact Or.inl h
  · intro p h
    rcases hfin with ⟨-, hf, -⟩ | ⟨-, hf, -⟩
    · rw [hf]
      exact List.mem_append_left _ h
    · rw [hf]
      exact h
  · intro p h
    rcases hfin with ⟨-, -, hr⟩ | ⟨-, -, hr⟩
    · exact hr.symm.subset (List.mem_append_left _ h)
    · exact hr.symm.subset (List.mem_cons_of_mem _ (List.mem_append_left _ h))
  · rcases hfin with ⟨-, hf, -⟩ | ⟨-, -, hr⟩
    · right
      rw [hf]
      simp
    · left
      exact hr.symm.subset (List.mem_cons_self _ _)

/-- One iteration keeps `Arrived`. -/
theorem tick_step_arrived (a b : State) (h : Step a b) (ha : Arrived a) : Arrived b := by
  obtain ⟨h1, h2, h3⟩ := ha
  cases h with
  | idle hready hhead hq hr hf hg ht =>
    refine ⟨?_, ?_, ?_⟩
    · intro p hp
      rw [hr, hq] at hp
      exact h1 p (List.mem_append_right _ (by simpa using hp))
    · intro p hp
      rw [hr] at hp
      cases hp
    · intro e he
      rw [hg] at he
      obtain ⟨p, hp, hpe⟩ := h3 e he
      rw [hready] at hp
      exact ⟨p, by rw [hr, hf]; exact hp, hpe⟩
  | run moved rest cur others moved2 rest2 hq hm hp hq2 hm2 hbq hg ht hfin =>
    obtain ⟨m1, m2, m3, m4, m5, m6, m7⟩ := tick_run_members a b moved cur others moved2 hp hfin
    have hmq : ∀ p ∈ moved, p ∈ a.queue := fun p h => by
      rw [hq]; exact List.mem_append_left _ h
    have hm2q : ∀ p ∈ moved2, p ∈ a.queue := fun p h => by
      rw [hq, hq2]; exact List.mem_append_right _ (List.mem_append_left _ h)
    have hr2q : ∀ p ∈ rest2, p ∈ a.queue := fun p h => by
      rw [hq, hq2]; exact List.mem_append_right _ (List.mem_append_right _ h)
    have hlive : ∀ p, p ∈ a.ready ∨ p ∈ moved → p ∈ a.ready ++ a.queue := by
      intro p h
      rcases h with h | h
      · exact List.mem_append_left _ h
      · exact List.mem_append_right _ (hmq p h)
    have harr : ∀ p, p ∈ a.ready ∨ p ∈ moved → p.arrivalTime ≤ a.t := by
      intro p h
      rcases h with h | h
      · exact h2 p h
      · exact hm p h
    have hcur0 : 0 ≤ cur.tempBurstTime := h1 cur (hlive cur m1)
    obtain ⟨hs0, hst⟩ := tick_slice_nonneg a.t cur hcur0
    refine ⟨?_, ?_, ?_⟩
    · intro p hp'
      rcases List.mem_append.mp hp' with hp' | hp'
      · rcases m3 p hp' with ⟨rfl, -⟩ | hp'' | hp''
        · exact hs0
        · exact h1 p (hlive p (m2 p hp''))
        · exact h1 p (List.mem_append_right _ (hm2q p hp''))
      · rw [hbq] at hp'
        exact h1 p (List.mem_append_right _ (hr2q p hp'))
    · intro p hp'
      rw [ht]
      rcases m3 p hp' with ⟨rfl, -⟩ | hp'' | hp''
      · rw [tick_slice_arrival]
        exact le_trans (harr cur m1) hst
      · exact le_trans (harr p (m2 p hp'')) hst
      · exact hm2 p hp''
    · have himg : ∀ p, p ∈ a.ready ∨ p ∈ moved → ∃ p' ∈ b.ready ++ b.finished,
          p'.pid = p.pid ∧ p'.arrivalTime = p.arrivalTime := by
        intro p hp'
        have hmem : p ∈ cur :: others := hp.subset (List.mem_append.mpr hp')
        rcases List.mem_cons.mp hmem with rfl | hmem
        · rcases m7 with h7 | h7
          · exact ⟨_, List.mem_append_left _ h7, tick_slice_pid _ _, tick_slice_arrival _ _⟩
          · exact ⟨_, List.mem_append_right _ h7, tick_slice_pid _ _,
              tick_slice_arrival _ _⟩
        · exact ⟨p, List.mem_append_left _ (m6 p hmem), rfl, rfl⟩
      intro e he
      rw [hg] at he
      rcases List.mem_append.mp he with he | he
      · obtain ⟨p, hp', hpid, harr'⟩ := h3 e he
        rcases List.mem_append.mp hp' with hp' | hp'
        · obtain ⟨p', hp'', e1, e2⟩ := himg p (Or.inl hp')
          exact ⟨p', hp'', by rw [e1, hpid], by rw [e2]; exact harr'⟩
        · exact ⟨p, List.mem_append_right _ (m5 p hp'), hpid, harr'⟩
      · simp only [List.mem_singleton] at he
        subst he
        obtain ⟨p', hp'', e1, e2⟩ := himg cur m1
        exact ⟨p', hp'', e1, by rw [e2]; exact harr cur m1⟩

/-- One iteration keeps `Started`. -/
theorem tick_step_started (a b : State) (h : Step a b) (ha : Arrived a)
    (hs : Started a) : Started b := by
  obtain ⟨-, h2, -⟩ := ha
  obtain ⟨s1, s2⟩ := hs
  cases h with
  | idle hready hhead hq hr hf hg ht =>
    refine ⟨?_, ?_⟩
    · intro p hp
      rw [hr, hq, hf] at hp
      rw [hready] at s1
      exact s1 p hp
    · intro p hp
      rw [hf] at hp
      exact s2 p hp
  | run moved rest cur others moved2 rest2 hq hm hp hq2 hm2 hbq hg ht hfin =>
    obtain ⟨m1, m2, m3, m4, m5, m6, m7⟩ := tick_run_members a b moved cur others moved2 hp hfin
    have hmq : ∀ p ∈ moved, p ∈ a.queue := fun p h => by
      rw [hq]; exact List.mem_append_left _ h
    have hm2q : ∀ p ∈ moved2, p ∈ a.queue := fun p h => by
      rw [hq, hq2]; exact List.mem_append_right _ (List.mem_append_left _ h)
    have hr2q : ∀ p ∈ rest2, p ∈ a.queue := fun p h => by
      rw [hq, hq2]; exact List.mem_append_right _ (List.mem_append_right _ h)
    have hall : ∀ p, p ∈ a.ready ∨ p ∈ moved → p ∈ a.finished ++ (a.ready ++ a.queue) := by
      intro p h
      rcases h with h | h
      · exact List.mem_append_right _ (List.mem_append_left _ h)
      · exact List.mem_append_right _ (List.mem_append_right _ (hmq p h))
    have hcurarr : cur.arrivalTime ≤ a.t := by
      rcases m1 with h | h
      · exact h2 cur h
      · exact hm cur h
    obtain ⟨i1, i2, i3⟩ := tick_slice_init a.t cur
    have hsl : (slice a.t cur).1.arrivalTime ≤ (slice a.t cur).1.startingTime := by
      rw [tick_slice_arrival]
      by_cases hi : cur.init = false
      · rw [i2 hi]
        exact hcurarr
      · have hi' : cur.init = true := by simpa using hi
        rw [i3 hi']
        exact s1 cur (hall cur m1) hi'
    refine ⟨?_, ?_⟩
    · intro p hp' hinit
      rcases List.mem_append.mp hp' with hp' | hp'
      · rcases m4 p hp' with hp'' | ⟨rfl, -⟩
        · exact s1 p (List.mem_append_left _ hp'') hinit
        · exact hsl
      · rcases List.mem_append.mp hp' with hp' | hp'
        · rcases m3 p hp' with ⟨rfl, -⟩ | hp'' | hp''
          · exact hsl
          · exact s1 p (hall p (m2 p hp'')) hinit
          · exact s1 p (List.mem_append_right _ (List.mem_append_right _ (hm2q p hp''))) hinit
        · rw [hbq] at hp'
          exact s1 p (List.mem_append_right _ (List.mem_append_right _ (hr2q p hp'))) hinit
    · intro p hp'
      rcases m4 p hp' with hp'' | ⟨rfl, -⟩
      · exact s2 p hp''
      · exact i1

end tick

namespace tick

theorem tick_work_append (i : Int) (l₁ l₂ : List Proc) :
    work i (l₁ ++ l₂) = work i l₁ + work i l₂ := by
  induction l₁ with
  | nil => simp [work]
  | cons p l ih => simp [work, ih, add_assoc]

theorem tick_work_perm (i : Int) (l₁ l₂ : List Proc) (h : l₁.Perm l₂) :
    work i l₁ = work i l₂ := by
  induction h with
  | nil => rfl
  | cons p _ ih => simp [work, ih]
  | swap p q l => simp only [work]; omega
  | trans _ _ ih1 ih2 => exact ih1.trans ih2

theorem tick_work_fresh (i : Int) (l : List Proc)
    (h : ∀ p ∈ l, p.tempBurstTime = p.burstTime) : work i l = 0 := by
  induction l with
  | nil => rfl
  | cons p l ih =>
    have hp := h p (List.mem_cons_self _ _)
    simp [work, hp, ih (fun q hq => h q (List.mem_cons_of_mem _ hq))]

/-- One iteration keeps `Work`. -/
theorem tick_step_work (a b : State) (h : Step a b) (hw : Work a) : Work b := by
  obtain ⟨w1, w2, w3, w4, w5⟩ := hw
  cases h with
  | idle hready hhead hq hr hf hg ht =>
    refine ⟨?_, ?_, ?_, ?_, ?_⟩
    · rw [hq]; exact w1
    · intro p hp; rw [hr] at hp; cases hp
    · intro p hp
      rw [hf] at hp
      obtain ⟨x1, x2, x3⟩ := w3 p hp
      exact ⟨x1, x2, by rw [ht]; omega⟩
    · intro e he
      rw [hg] at he
      have := w4 e he
      rw [ht]; omega
    · intro i
      rw [hg, hr, hf, w5 i, hready]
  | run moved rest cur others moved2 rest2 hq hm hp hq2 hm2 hbq hg ht hfin =>
    obtain ⟨m1, m2, m3, m4, m5, m6, m7⟩ := tick_run_members a b moved cur others moved2 hp hfin
    have hmq : ∀ p ∈ moved, p ∈ a.queue := fun p h => by
      rw [hq]; exact List.mem_append_left _ h
    have hm2q : ∀ p ∈ moved2, p ∈ a.queue := fun p h => by
      rw [hq, hq2]; exact List.mem_append_right _ (List.mem_append_left _ h)
    have hr2q : ∀ p ∈ rest2, p ∈ a.queue := fun p h => by
      rw [hq, hq2]; exact List.mem_append_right _ (List.mem_append_right _ h)
    -- what is known about a process that is ready after the admission
    have hlive : ∀ p, p ∈ a.ready ∨ p ∈ moved → 1 ≤ p.tempBurstTime ∧
        p.tempBurstTime ≤ p.burstTime ∧
        p.arrivalTime + (p.burstTime - p.tempBurstTime) ≤ a.t := by
      intro p h
      rcases h with h | h
      · exact w2 p h
      · obtain ⟨x1, x2⟩ := w1 p (hmq p h)
        have := hm p h
        exact ⟨by omega, by omega, by omega⟩
    obtain ⟨c1, c2, c3⟩ := hlive cur m1
    obtain ⟨s1, s2⟩ := tick_slice_pos a.t cur c1
    have sb := tick_slice_burst a.t cur
    have sa := tick_slice_arrival a.t cur
    refine ⟨?_, ?_, ?_, ?_, ?_⟩
    · intro p hp'
      rw [hbq] at hp'
      exact w1 p (hr2q p hp')
    · intro p hp'
      rw [ht, s2]
      rcases m3 p hp' with ⟨rfl, hne⟩ | hp'' | hp''
      · rw [s1] at hne
        rw [s1, sb, sa]
        exact ⟨by omega, by omega, by omega⟩
      · obtain ⟨x1, x2, x3⟩ := hlive p (m2 p hp'')
        exact ⟨x1, x2, by omega⟩
      · obtain ⟨x1, x2⟩ := w1 p (hm2q p hp'')
        have := hm2 p hp''
        rw [s2] at this
        exact ⟨by omega, by omega, by omega⟩
    · intro p hp'
      rw [ht, s2]
      rcases m4 p hp' with hp'' | ⟨rfl, hz⟩
      · obtain ⟨x1, x2, x3⟩ := w3 p hp''
        exact ⟨x1, x2, by omega⟩
      · rw [s1] at hz
        refine ⟨?_, ?_, ?_⟩
        · show (slice a.t cur).1.tempBurstTime = 0
          rw [s1]; exact hz
        · show (slice a.t cur).1.arrivalTime + (slice a.t cur).1.burstTime ≤ (slice a.t cur).2
          rw [sa, sb, s2]; omega
        · show (slice a.t cur).2 ≤ a.t + 1
          rw [s2]
    · intro e he
      rw [hg] at he
      rw [ht, s2]
      rcases List.mem_append.mp he with he | he
      · have := w4 e he
        omega
      · simp only [List.mem_singleton] at he
        subst he
        simp
    · intro i
      have hold : work i (a.finished ++ a.ready) =
          work i a.finished + (work i [cur] + work i others) := by
        have h1 : work i (a.ready ++ moved) = work i (cur :: others) :=
          tick_work_perm i _ _ hp
        have h2 : work i moved = 0 :=
          tick_work_fresh i moved (fun p h => (w1 p (hmq p h)).1)
        rw [tick_work_append] at h1 ⊢
        have h3 : work i (cur :: others) = work i [cur] + work i others := by
          simp [work]
        omega
      have hm20 : work i moved2 = 0 :=
        tick_work_fresh i moved2 (fun p h => (w1 p (hm2q p h)).1)
      have hnew : work i (b.finished ++ b.ready) =
          work i a.finished + (work i [(slice a.t cur).1] + work i others) := by
        rcases hfin with ⟨-, hf, hr⟩ | ⟨-, hf, hr⟩
        · rw [hf, tick_work_append, tick_work_append, tick_work_perm i _ _ hr,
            tick_work_append, hm20]
          have : work i [finish (slice a.t cur)] = work i [(slice a.t cur).1] := rfl
          rw [this]; omega
        · rw [hf, tick_work_append, tick_work_perm i _ _ hr]
          have : work i ((slice a.t cur).1 :: (others ++ moved2)) =
              work i [(slice a.t cur).1] + (work i others + work i moved2) := by
            simp [work, tick_work_append]
          rw [this, hm20]; omega
      have hone : work i [(slice a.t cur).1] =
          work i [cur] + (if cur.pid = i then 1 else 0) := by
        simp only [work, tick_slice_pid, sb, s1]
        by_cases hpi : cur.pid = i
        · simp [hpi]; omega
        · simp [hpi]
      have hcount : (((b.gantt.map Prod.fst).count i : Nat) : Int) =
          ((a.gantt.map Prod.fst).count i : Int) + (if cur.pid = i then 1 else 0) := by
        rw [hg, List.map_append, List.count_append]
        by_cases hpi : cur.pid = i
        · simp [hpi]
        · have : List.count i [cur.pid] = 0 :=
            List.count_eq_zero_of_not_mem (by simpa using fun e => hpi e.symm)
          simp [hpi, this]
      rw [hcount, w5 i, hnew, hold, hone]
      omega

theorem tick_nodup_disjoint (l₁ l₂ : List Proc)
    (h : ((l₁ ++ l₂).map (fun p => p.pid)).Nodup) (p q : Proc) (hp : p ∈ l₁)
    (hq : q ∈ l₂) : p.pid ≠ q.pid := by
  rw [List.map_append, List.nodup_append] at h
  intro he
  exact h.2.2 (List.mem_map_of_mem _ hp) (by rw [he]; exact List.mem_map_of_mem _ hq)

/-- One iteration keeps `Last` when the ids are distinct. -/
theorem tick_step_last (a b : State) (h : Step a b) (hw : Work a)
    (hnd : ((a.finished ++ (a.ready ++ a.queue)).map (fun p => p.pid)).Nodup)
    (hl : Last a) : Last b := by
  obtain ⟨w1, w2, w3, w4, w5⟩ := hw
  cases h with
  | idle hready hhead hq hr hf hg ht =>
    intro p hp
    rw [hf] at hp
    rw [hg]
    exact hl p hp
  | run moved rest cur others moved2 rest2 hq hm hp hq2 hm2 hbq hg ht hfin =>
    obtain ⟨m1, m2, m3, m4, m5, m6, m7⟩ := tick_run_members a b moved cur others moved2 hp hfin
    have hcurlive : cur ∈ a.ready ++ a.queue := by
      rcases m1 with h | h
      · exact List.mem_append_left _ h
      · exact List.mem_append_right _ (by rw [hq]; exact List.mem_append_left _ h)
    have c1 : 1 ≤ cur.tempBurstTime := by
      rcases m1 with h | h
      · exact (w2 cur h).1
      · obtain ⟨x1, x2⟩ := w1 cur (by rw [hq]; exact List.mem_append_left _ h)
        omega
    obtain ⟨s1, s2⟩ := tick_slice_pos a.t cur c1
    intro p hp'
    rw [hg]
    rcases m4 p hp' with hp'' | ⟨rfl, hz⟩
    · obtain ⟨l1, l2⟩ := hl p hp''
      refine ⟨List.mem_append_left _ l1, ?_⟩
      intro e he hpid
      rcases List.mem_append.mp he with he | he
      · exact l2 e he hpid
      · simp only [List.mem_singleton] at he
        subst he
        exact absurd hpid.symm (tick_nodup_disjoint _ _ hnd p cur hp'' hcurlive)
    · refine ⟨?_, ?_⟩
      · apply List.mem_append_right
        have h1 : (finish (slice a.t cur)).pid = cur.pid := tick_slice_pid _ _
        have h2 : (finish (slice a.t cur)).finishingTime = a.t + 1 := s2
        rw [h1, h2]
        simp
      · intro e he _
        have h2 : (finish (slice a.t cur)).finishingTime = a.t + 1 := s2
        rw [h2]
        rcases List.mem_append.mp he with he | he
        · have := w4 e he
          omega
        · simp only [List.mem_singleton] at he
          subst he
          simp

theorem tick_gap_nonneg (t : Int) (q : List Proc) : 0 ≤ gap t q := by
  unfold gap
  induction q with
  | nil => simp
  | cons x l ih => simp only [List.map_cons, List.foldr_cons]; exact le_max_of_le_right ih

theorem tick_mem_le_gap (t : Int) (q : List Proc) (x : Proc) (hx : x ∈ q) :
    x.arrivalTime - t ≤ gap t q := by
  unfold gap
  induction q with
  | nil => cases hx
  | cons y l ih =>
    simp only [List.map_cons, List.foldr_cons]
    rcases List.mem_cons.mp hx with rfl | hx
    · exact le_max_left _ _
    · exact le_max_of_le_right (ih hx)

theorem tick_gap_le (t : Int) (q : List Proc) (B : Int) (hB : 0 ≤ B)
    (h : ∀ x ∈ q, x.arrivalTime - t ≤ B) : gap t q ≤ B := by
  unfold gap
  induction q with
  | nil => simpa using hB
  | cons y l ih =>
    simp only [List.map_cons, List.foldr_cons]
    exact max_le (h y (List.mem_cons_self _ _)) (ih (fun x hx => h x (List.mem_cons_of_mem _ hx)))

/-- While a process is unfinished, the remaining time is positive. -/
theorem tick_remaining_pos (a : State) (hw : Work a) (hne : a.ready ++ a.queue ≠ []) :
    1 ≤ remaining a := by
  obtain ⟨w1, w2, -⟩ := hw
  have hall : ∀ p ∈ a.ready ++ a.queue, 1 ≤ p.tempBurstTime := by
    intro p hp
    rcases List.mem_append.mp hp with h | h
    · exact (w2 p h).1
    · obtain ⟨x1, x2⟩ := w1 p h
      omega
  unfold remaining
  generalize a.ready ++ a.queue = l at hne hall
  cases l with
  | nil => exact absurd rfl hne
  | cons p l =>
    have h1 := hall p (List.mem_cons_self _ _)
    have h2 : 0 ≤ (l.map (fun p => p.tempBurstTime)).sum := by
      apply List.sum_nonneg
      intro x hx
      obtain ⟨q, hq, rfl⟩ := List.mem_map.mp hx
      have := hall q (List.mem_cons_of_mem _ hq)
      omega
    simp only [List.map_cons, List.sum_cons]
    omega

/-- Every iteration that starts with an unfinished process lowers the potential. -/
theorem tick_step_potential (a b : State) (h : Step a b) (hw : Work a)
    (hne : a.ready ++ a.queue ≠ []) : potential b + 1 ≤ potential a := by
  obtain ⟨w1, w2, w3, w4, w5⟩ := hw
  unfold potential
  cases h with
  | idle hready hhead hq hr hf hg ht =>
    have hrem : remaining b = remaining a := by
      unfold remaining
      rw [hr, hq, hready]
    rw [hrem, hq, ht]
    rw [hready, List.nil_append] at hne
    obtain ⟨f, tl, hft⟩ := List.exists_cons_of_ne_nil hne
    have hf1 : a.t < f.arrivalTime := hhead f (by rw [hft]; rfl)
    have hf2 := tick_mem_le_gap a.t a.queue f (by rw [hft]; exact List.mem_cons_self _ _)
    have := tick_gap_le (a.t + 1) a.queue (gap a.t a.queue - 1) (by omega) (by
      intro x hx
      have := tick_mem_le_gap a.t a.queue x hx
      omega)
    omega
  | run moved rest cur others moved2 rest2 hq hm hp hq2 hm2 hbq hg ht hfin =>
    have c1 : 1 ≤ cur.tempBurstTime := by
      have hcur : cur ∈ a.ready ++ moved := hp.symm.subset (List.mem_cons_self _ _)
      rcases List.mem_append.mp hcur with h | h
      · exact (w2 cur h).1
      · obtain ⟨x1, x2⟩ := w1 cur (by rw [hq]; exact List.mem_append_left _ h)
        omega
    obtain ⟨s1, s2⟩ := tick_slice_pos a.t cur c1
    have hsum : ∀ l₁ l₂ : List Proc, l₁.Perm l₂ →
        (l₁.map (fun p => p.tempBurstTime)).sum = (l₂.map (fun p => p.tempBurstTime)).sum :=
      fun l₁ l₂ h => (h.map _).sum_eq
    have hrema : remaining a = cur.tempBurstTime +
        ((others ++ moved2 ++ rest2).map (fun p => p.tempBurstTime)).sum := by
      unfold remaining
      have : (a.ready ++ a.queue).Perm (cur :: (others ++ moved2 ++ rest2)) := by
        rw [hq, hq2, ← List.append_assoc, ← List.append_assoc]
        have := (hp.append_right moved2).append_right rest2
        simpa using this
      rw [hsum _ _ this]
      simp
    have hremb : remaining b + 1 = cur.tempBurstTime +
        ((others ++ moved2 ++ rest2).map (fun p => p.tempBurstTime)).sum := by
      unfold remaining
      rw [hbq]
      rcases hfin with ⟨hz, -, hr⟩ | ⟨-, -, hr⟩
      · rw [hsum _ _ (hr.append_right rest2)]
        rw [s1] at hz
        omega
      · rw [hsum _ _ (hr.append_right rest2)]
        simp only [List.cons_append, List.map_cons, List.sum_cons, s1]
        omega
    have hgap : gap b.t b.queue ≤ gap a.t a.queue := by
      rw [hbq, ht, s2]
      apply tick_gap_le _ _ _ (tick_gap_nonneg _ _)
      intro x hx
      have := tick_mem_le_gap a.t a.queue x (by
        rw [hq, hq2]; exact List.mem_append_right _ (List.mem_append_right _ hx))
      omega
    omega

theorem tick_potential_nonneg (a : State) (hw : Work a) : 0 ≤ potential a := by
  unfold potential
  have h1 := tick_gap_nonneg a.t a.queue
  by_cases hne : a.ready ++ a.queue = []
  · unfold remaining
    rw [hne]
    simpa using h1
  · have := tick_remaining_pos a hw hne
    omega

end tick

namespace tick

/-! ### The state before the first iteration, and whole runs -/

theorem tick_init_conserved (a : State) (hr : a.ready = []) (hf : a.finished = []) :
    Conserved (a.queue.map core) a := by
  unfold Conserved
  rw [hr, hf]
  exact List.Perm.refl _

theorem tick_conserved_perm (input input2 : List (Int × Int × Int)) (a : State)
    (hc : Conserved input a) (hp : input.Perm input2) : Conserved input2 a :=
  List.Perm.trans hc hp

theorem tick_init_arrived (a : State) (hr : a.ready = []) (hg : a.gantt = [])
    (h : ∀ p ∈ a.queue, 0 ≤ p.tempBurstTime) : Arrived a := by
  refine ⟨?_, ?_, ?_⟩
  · intro p hp
    rw [hr] at hp
    exact h p hp
  · intro p hp
    rw [hr] at hp
    cases hp
  · intro e he
    rw [hg] at he
    cases he

theorem tick_init_started (a : State) (hr : a.ready = []) (hf : a.finished = [])
    (h : ∀ p ∈ a.queue, p.init = false) : Started a := by
  refine ⟨?_, ?_⟩
  · intro p hp hi
    rw [hr, hf] at hp
    rw [h p hp] at hi
    cases hi
  · intro p hp
    rw [hf] at hp
    cases hp

theorem tick_init_work (a : State) (hr : a.ready = []) (hf : a.finished = [])
    (hg : a.gantt = [])
    (h : ∀ p ∈ a.queue, p.tempBurstTime = p.burstTime ∧ 1 ≤ p.burstTime) : Work a := by
  refine ⟨h, ?_, ?_, ?_, ?_⟩
  · intro p hp
    rw [hr] at hp
    cases hp
  · intro p hp
    rw [hf] at hp
    cases hp
  · intro e he
    rw [hg] at he
    cases he
  · intro i
    rw [hg, hr, hf]
    rfl

theorem tick_init_last (a : State) (hf : a.finished = []) : Last a := by
  intro p hp
  rw [hf] at hp
  cases hp

/-- The ids of the processes of a state are distinct when those of the input are. -/
theorem tick_conserved_nodup (input : List (Int × Int × Int)) (a : State)
    (hc : Conserved input a) (hnd : (input.map Prod.fst).Nodup) :
    ((a.finished ++ (a.ready ++ a.queue)).map (fun p => p.pid)).Nodup := by
  have h1 : ((a.finished ++ (a.ready ++ a.queue)).map (fun p => p.pid)) =
      ((a.finished ++ (a.ready ++ a.queue)).map core).map Prod.fst := by
    rw [List.map_map]
    rfl
  rw [h1]
  exact (List.Perm.nodup_iff (List.Perm.map _ hc)).mpr hnd

/-- A run keeps `Arrived` and `Started`. -/
theorem tick_run_safe (a b : State) (h : Relation.ReflTransGen Step a b)
    (ha : Arrived a) (hs : Started a) : Arrived b ∧ Started b := by
  induction h with
  | refl => exact ⟨ha, hs⟩
  | tail _ hbc ih => exact ⟨tick_step_arrived _ _ hbc ih.1, tick_step_started _ _ hbc ih.1 ih.2⟩

/-- A run keeps `Conserved` and `Arrived`. -/
theorem tick_run_arrived (input : List (Int × Int × Int)) (a b : State)
    (h : Relation.ReflTransGen Step a b) (hc : Conserved input a) (ha : Arrived a) :
    Conserved input b ∧ Arrived b := by
  induction h with
  | refl => exact ⟨hc, ha⟩
  | tail _ hbc ih => exact ⟨tick_step_conserved _ _ _ hbc ih.1, tick_step_arrived _ _ hbc ih.2⟩

/-- A run keeps `Conserved` and `Work`. -/
theorem tick_run_work (input : List (Int × Int × Int)) (a b : State)
    (h : Relation.ReflTransGen Step a b) (hc : Conserved input a) (hw : Work a) :
    Conserved input b ∧ Work b := by
  induction h with
  | refl => exact ⟨hc, hw⟩
  | tail _ hbc ih => exact ⟨tick_step_conserved _ _ _ hbc ih.1, tick_step_work _ _ hbc ih.2⟩

/-- A run on distinct ids keeps `Last`. -/
theorem tick_run_last (input : List (Int × Int × Int)) (hnd : (input.map Prod.fst).Nodup)
    (a b : State) (h : Relation.ReflTransGen Step a b) (hc : Conserved input a)
    (hw : Work a) (hl : Last a) : Last b := by
  induction h with
  | refl => exact hl
  | tail hab hbc ih =>
    obtain ⟨c1, c2⟩ := tick_run_work input a _ hab hc hw
    exact tick_step_last _ _ hbc c2 (tick_conserved_nodup input _ c1 hnd) ih

theorem tick_work_nodup (l : List Proc) (hnd : (l.map (fun p => p.pid)).Nodup)
    (p : Proc) (hp : p ∈ l) : work p.pid l = p.burstTime - p.tempBurstTime := by
  induction l with
  | nil => cases hp
  | cons q l ih =>
    rw [List.map_cons, List.nodup_cons] at hnd
    rcases List.mem_cons.mp hp with rfl | hp'
    · have h0 : work p.pid l = 0 := by
        have hno : ∀ x ∈ l, x.pid ≠ p.pid := by
          intro x hx e
          exact hnd.1 (by rw [← e]; exact List.mem_map_of_mem _ hx)
        clear ih hp hnd
        induction l with
        | nil => rfl
        | cons x l ih2 =>
          simp only [work]
          rw [if_neg (hno x (List.mem_cons_self _ _)),
            ih2 (fun y hy => hno y (List.mem_cons_of_mem _ hy))]
          rfl
      simp [work, h0]
    · have hne : q.pid ≠ p.pid := by
        intro e
        exact hnd.1 (by rw [e]; exact List.mem_map_of_mem _ hp')
      simp only [work]
      rw [if_neg hne, ih hnd.2 hp']
      omega

/-- When nothing is left to run, each id of the input has as many trace events
as its burst time. -/
theorem tick_final_count (input : List (Int × Int × Int)) (a : State)
    (hc : Conserved input a) (hw : Work a) (hnd : (input.map Prod.fst).Nodup)
    (hr : a.ready = []) (hq : a.queue = []) :
    ∀ c ∈ input, ((a.gantt.map Prod.fst).count c.1 : Int) = c.2.2 := by
  intro c hcin
  have hnd2 := tick_conserved_nodup input a hc hnd
  unfold Conserved at hc
  rw [hr, hq] at hc hnd2
  simp only [List.append_nil] at hc hnd2
  obtain ⟨p, hp, rfl⟩ := List.mem_map.mp ((List.Perm.mem_iff hc).mpr hcin)
  obtain ⟨_, _, w3, _, w5⟩ := hw
  have h5 := w5 p.pid
  rw [hr, List.append_nil, tick_work_nodup _ hnd2 p hp, (w3 p hp).1] at h5
  simp only [core]
  rw [h5]
  omega

/-- Every trace event belongs to a process of the input that has arrived. -/
theorem tick_arrived_event (input : List (Int × Int × Int)) (a : State)
    (hc : Conserved input a) (ha : Arrived a) :
    ∀ e ∈ a.gantt, ∃ c ∈ input, c.1 = e.1 ∧ c.2.1 ≤ e.2 := by
  intro e he
  obtain ⟨p, hp, h1, h2⟩ := ha.2.2 e he
  refine ⟨core p, ?_, h1, h2⟩
  apply (List.Perm.mem_iff hc).mp
  apply List.mem_map_of_mem
  rcases List.mem_append.mp hp with h | h
  · exact List.mem_append_right _ (List.mem_append_left _ h)
  · exact List.mem_append_left _ h

/-- One iteration moves the clock by one and appends at most one event, stamped
with the clock before the iteration. -/
theorem tick_step_unit (a b : State) (h : Step a b) (hw : Work a) :
    b.t = a.t + 1 ∧ (b.gantt = a.gantt ∨ ∃ i, b.gantt = a.gantt ++ [(i, a.t)]) := by
  obtain ⟨w1, w2, _, _, _⟩ := hw
  cases h with
  | idle hready hhead hq hr hf hg ht => exact ⟨ht, Or.inl hg⟩
  | run moved rest cur others moved2 rest2 hq hm hp hq2 hm2 hbq hg ht hfin =>
    have hmem : cur ∈ a.ready ++ moved := (List.Perm.mem_iff hp).mpr (List.mem_cons_self _ _)
    have c1 : 1 ≤ cur.tempBurstTime := by
      rcases List.mem_append.mp hmem with h | h
      · exact (w2 cur h).1
      · obtain ⟨x1, x2⟩ := w1 cur (by rw [hq]; exact List.mem_append_left _ h)
        omega
    exact ⟨by rw [ht]; exact (tick_slice_pos a.t cur c1).2, Or.inr ⟨cur.pid, hg⟩⟩

end tick

namespace tick

/-- What a run that started with everything queued has reached when nothing is
left to run: every process of the input is finished with no remaining time and
not before its arrival plus its burst; with distinct ids, each id has as many
trace events as its burst, the last of them one tick before its finishing time. -/
theorem tick_final (input : List (Int × Int × Int)) (a0 a : State)
    (h : Relation.ReflTransGen Step a0 a) (hc : Conserved input a0) (hw : Work a0)
    (hl : Last a0) (hr : a.ready = []) (hq : a.queue = []) :
    (a.finished.map core).Perm input ∧
    (∀ p ∈ a.finished, p.tempBurstTime = 0 ∧
      p.arrivalTime + p.burstTime ≤ p.finishingTime) ∧
    ((input.map Prod.fst).Nodup →
      (∀ c ∈ input, ((a.gantt.map Prod.fst).count c.1 : Int) = c.2.2) ∧ Last a) := by
  obtain ⟨c1, c2⟩ := tick_run_work input a0 a h hc hw
  refine ⟨?_, ?_, ?_⟩
  · have h1 := c1
    unfold Conserved at h1
    rw [hr, hq] at h1
    simpa using h1
  · intro p hp
    exact ⟨(c2.2.2.1 p hp).1, (c2.2.2.1 p hp).2.1⟩
  · intro hnd
    exact ⟨tick_final_count input a c1 c2 hnd hr hq, tick_run_last input hnd a0 a h hc hw hl⟩

/-- After a run that started with everything queued, every finished process
finished not before its arrival plus its burst. -/
theorem tick_run_finished (input : List (Int × Int × Int)) (a0 a : State)
    (h : Relation.ReflTransGen Step a0 a) (hc : Conserved input a0) (hw : Work a0) :
    ∀ p ∈ a.finished, p.arrivalTime + p.burstTime ≤ p.finishingTime := by
  intro p hp
  exact ((tick_run_work input a0 a h hc hw).2.2.2.1 p hp).2.1

/-- After a run from a state without remaining times below zero, every trace
event belongs to an input process that had arrived; when no `init` was set
before the run, every process that has been dispatched started after its
arrival. -/
theorem tick_run_dispatch (input : List (Int × Int × Int)) (a0 a : State)
    (h : Relation.ReflTransGen Step a0 a) (hc : Conserved input a0) (ha : Arrived a0) :
    (∀ e ∈ a.gantt, ∃ c ∈ input, c.1 = e.1 ∧ c.2.1 ≤ e.2) ∧
    (Started a0 → ∀ p ∈ a.finished, p.arrivalTime ≤ p.startingTime) := by
  obtain ⟨c1, c2⟩ := tick_run_arrived input a0 a h hc ha
  refine ⟨tick_arrived_event input a c1 c2, ?_⟩
  intro hs p hp
  obtain ⟨s1, s2⟩ := (tick_run_safe a0 a h ha hs).2
  exact s1 p (List.mem_append_left _ hp) (s2 p hp)

end tick

/-! ## Round-Robin as an instance of the common loop -/

namespace round_robin

/-- The dispatch of the front process `cur`, seen through the view. -/
theorem rr_dispatch_view (s : RoundRobin) (cur : Process) (rest : List Process)
    (h : s.mRunningProcessList = cur :: rest) (hq : s.mTimeQuantum = 1) :
    (dispatch s).mTimeCounter = (tick.slice s.mTimeCounter (view cur)).2 ∧
    (dispatch s).mGantChart = s.mGantChart ++ [(cur.pid, s.mTimeCounter)] ∧
    (dispatch s).mProcessList = s.mProcessList ∧
    (dispatch s).mTimeQuantum = 1 ∧
    (((tick.slice s.mTimeCounter (view cur)).1.tempBurstTime = 0 ∧
        (dispatch s).mFinishedProcesses.map view =
          s.mFinishedProcesses.map view ++
            [tick.finish (tick.slice s.mTimeCounter (view cur))] ∧
        (dispatch s).mRunningProcessList = rest) ∨
      ((tick.slice s.mTimeCounter (view cur)).1.tempBurstTime ≠ 0 ∧
        (dispatch s).mFinishedProcesses = s.mFinishedProcesses ∧
        (dispatch s).mRunningProcessList.map view =
          rest.map view ++ [(tick.slice s.mTimeCounter (view cur)).1])) := by
  unfold dispatch tick.slice tick.finish
  rw [h]
  simp only [hq]
  by_cases hinit : cur.init = false <;>
  by_cases hlt : cur.tempBurstTime < 1 <;>
  by_cases hz : cur.tempBurstTime - 1 = 0 <;>
  simp [view, hinit, hlt, hz]

/-- One iteration of the loop of `RoundRobin::scheduleProcess` is a step of the
common loop. -/
theorem rr_refines (s : RoundRobin) (hq : s.mTimeQuantum = 1) :
    tick.Step (abs s) (abs (loopBody s)) ∧ (loopBody s).mTimeQuantum = 1 := by
  obtain ⟨h1, h2, h3⟩ := rr_drain_spec s.mTimeCounter s.mProcessList
  unfold loopBody
  have hd : drainArrived s =
      { s with
        mRunningProcessList := s.mRunningProcessList ++ (drain s.mTimeCounter s.mProcessList).1
        mProcessList := (drain s.mTimeCounter s.mProcessList).2 } := rfl
  generalize drain s.mTimeCounter s.mProcessList = d at h1 h2 h3 hd
  obtain ⟨moved, rest⟩ := d
  simp only at h1 h2 h3 hd
  cases hrun : s.mRunningProcessList ++ moved with
  | nil =>
    have hr0 : s.mRunningProcessList = [] := (List.append_eq_nil.mp hrun).1
    have hm0 : moved = [] := (List.append_eq_nil.mp hrun).2
    have hdisp := rr_dispatch_nil (drainArrived s) (by rw [hd]; exact hrun)
    rw [hdisp, hd]
    refine ⟨tick.Step.idle _ _ ?_ ?_ ?_ ?_ rfl rfl ?_, hq⟩
    · simp [abs, hr0]
    · intro q hq'
      simp only [abs, List.head?_map] at hq'
      rw [h1, hm0, List.nil_append] at hq'
      cases hf : rest.head? with
      | none => rw [hf] at hq'; cases hq'
      | some f =>
        rw [hf] at hq'
        simp only [Option.map_some', Option.some.injEq] at hq'
        subst hq'
        exact h3 f hf
    · simp only [abs]
      rw [h1, hm0, List.nil_append]
    · simp [abs, hrun]
    · simp [abs, hq]
  | cons cur others =>
    have hq1 : (drainArrived s).mTimeQuantum = 1 := by rw [hd]; exact hq
    obtain ⟨d1, d2, d3, d4, d5⟩ := rr_dispatch_view (drainArrived s) cur others
      (by rw [hd]; exact hrun) hq1
    have ht : (drainArrived s).mTimeCounter = s.mTimeCounter := by rw [hd]
    have hg : (drainArrived s).mGantChart = s.mGantChart := by rw [hd]
    have hf : (drainArrived s).mFinishedProcesses = s.mFinishedProcesses := by rw [hd]
    have hpl : (drainArrived s).mProcessList = rest := by rw [hd]
    rw [ht] at d1 d2 d5
    rw [hg] at d2
    rw [hf] at d5
    rw [hpl] at d3
    refine ⟨tick.Step.run _ _ (moved.map view) (rest.map view) (view cur) (others.map view)
      [] (rest.map view) ?_ ?_ ?_ (by simp) (by simp) ?_ ?_ ?_ ?_, d4⟩
    · simp only [abs]
      rw [h1, List.map_append]
    · intro q hq'
      obtain ⟨p, hp, rfl⟩ := List.mem_map.mp hq'
      exact h2 p hp
    · have : (abs s).ready ++ moved.map view = (cur :: others).map view := by
        simp only [abs]
        rw [← List.map_append, hrun]
      rw [this]
      exact List.Perm.refl _
    · simp only [abs]
      rw [d3]
    · simp only [abs]
      rw [d2]
      rfl
    · simp only [abs]
      rw [d1]
    · simp only [abs, List.append_nil]
      rcases d5 with ⟨hz, e1, e2⟩ | ⟨hz, e1, e2⟩
      · exact Or.inl ⟨hz, e1, by rw [e2]⟩
      · refine Or.inr ⟨hz, by rw [e1], ?_⟩
        rw [e2]
        exact List.perm_append_singleton _ _

end round_robin

namespace round_robin

/-- The views of the states of a run of the Round-Robin loop form a run of the
common loop. -/
theorem rr_run : ∀ (n : Nat) (s : RoundRobin), s.mTimeQuantum = 1 →
    Relation.ReflTransGen tick.Step (abs s) (abs (steps n s)) ∧
      (steps n s).mTimeQuantum = 1 := by
  intro n
  induction n with
  | zero => intro s hq; exact ⟨Relation.ReflTransGen.refl, hq⟩
  | succ n ih =>
    intro s hq
    unfold steps
    by_cases hc : loopCond s = true
    · rw [if_pos hc]
      obtain ⟨r1, r2⟩ := rr_refines s hq
      obtain ⟨i1, i2⟩ := ih _ r2
      exact ⟨Relation.ReflTransGen.head r1 i1, i2⟩
    · rw [if_neg hc]
      exact ⟨Relation.ReflTransGen.refl, hq⟩

theorem rr_loopCond (s : RoundRobin) :
    loopCond s = true ↔ (abs s).ready ++ (abs s).queue ≠ [] := by
  unfold loopCond abs
  cases h1 : s.mProcessList <;> cases h2 : s.mRunningProcessList <;> simp

/-- The loop of `RoundRobin::scheduleProcess` ends within `potential` iterations. -/
theorem rr_terminates : ∀ (n : Nat) (s : RoundRobin), s.mTimeQuantum = 1 →
    tick.Work (abs s) → tick.potential (abs s) ≤ (n : Int) →
    loopCond (steps n s) = false := by
  intro n
  induction n with
  | zero =>
    intro s _ hw hp
    by_cases hc : loopCond s = true
    · have h1 := tick.tick_remaining_pos _ hw ((rr_loopCond s).mp hc)
      have h2 := tick.tick_gap_nonneg (abs s).t (abs s).queue
      unfold tick.potential at hp
      simp only [Nat.cast_zero] at hp
      omega
    · simpa [steps] using hc
  | succ n ih =>
    intro s hq hw hp
    unfold steps
    by_cases hc : loopCond s = true
    · rw [if_pos hc]
      obtain ⟨r1, r2⟩ := rr_refines s hq
      have h1 := tick.tick_step_potential _ _ r1 hw ((rr_loopCond s).mp hc)
      apply ih _ r2 (tick.tick_step_work _ _ r1 hw)
      push_cast at hp
      omega
    · rw [if_neg hc]
      simpa using hc

theorem rr_sort_perm (l : List Process) : (sortProcesses l).Perm l :=
  List.perm_insertionSort _ _

/-- The members that identify a process of the input. -/
theorem rr_core_view (p : Process) :
    tick.core (view p) = (p.pid, p.arrivalTime, p.burstTime) := rfl

theorem rr_ctor_conserved (processes : List Process) :
    tick.Conserved (processes.map (fun p => (p.pid, p.arrivalTime, p.burstTime)))
      (abs (RoundRobin.ctor processes)) := by
  have h := tick.tick_init_conserved (abs (RoundRobin.ctor processes)) rfl rfl
  apply tick.tick_conserved_perm _ _ _ h
  show (((sortProcesses processes).map view).map tick.core).Perm _
  rw [List.map_map]
  exact List.Perm.map _ (rr_sort_perm processes)

theorem rr_ctor_work (processes : List Process)
    (hwf : ∀ p ∈ processes, p.tempBurstTime = p.burstTime ∧ 1 ≤ p.burstTime) :
    tick.Work (abs (RoundRobin.ctor processes)) := by
  apply tick.tick_init_work _ rfl rfl rfl
  intro q hq
  obtain ⟨p, hp, rfl⟩ := List.mem_map.mp hq
  exact hwf p ((List.Perm.mem_iff (rr_sort_perm processes)).mp hp)

theorem rr_ctor_arrived (processes : List Process)
    (hwf : ∀ p ∈ processes, 0 ≤ p.tempBurstTime) :
    tick.Arrived (abs (RoundRobin.ctor processes)) := by
  apply tick.tick_init_arrived _ rfl rfl
  intro q hq
  obtain ⟨p, hp, rfl⟩ := List.mem_map.mp hq
  exact hwf p ((List.Perm.mem_iff (rr_sort_perm processes)).mp hp)

theorem rr_ctor_started (processes : List Process)
    (hwf : ∀ p ∈ processes, p.init = false) :
    tick.Started (abs (RoundRobin.ctor processes)) := by
  apply tick.tick_init_started _ rfl rfl
  intro q hq
  obtain ⟨p, hp, rfl⟩ := List.mem_map.mp hq
  exact hwf p ((List.Perm.mem_iff (rr_sort_perm processes)).mp hp)

/-- The loop ends and `scheduleProcess` returns, for every fuel from `potential`
on; the state it returns is the final state with the report members filled in. -/
theorem rr_returns (processes : List Process)
    (hwf : ∀ p ∈ processes, p.tempBurstTime = p.burstTime ∧ 1 ≤ p.burstTime)
    (fuel : Nat)
    (hfuel : (tick.potential (abs (RoundRobin.ctor processes))).toNat ≤ fuel) :
    loopCond (steps fuel (RoundRobin.ctor processes)) = false ∧
    RoundRobin.scheduleProcess fuel (RoundRobin.ctor processes) =
      some { steps fuel (RoundRobin.ctor processes) with
        mFinishedProcesses :=
          (steps fuel (RoundRobin.ctor processes)).mFinishedProcesses.map finalize } := by
  have hc := rr_terminates fuel (RoundRobin.ctor processes) rfl (rr_ctor_work processes hwf)
    (by omega)
  refine ⟨hc, ?_⟩
  unfold RoundRobin.scheduleProcess
  simp [hc]

end round_robin

namespace round_robin

theorem rr_input_ids (processes : List Process) :
    (processes.map (fun p => (p.pid, p.arrivalTime, p.burstTime))).map Prod.fst =
      processes.map (fun p => p.pid) := by
  rw [List.map_map]
  rfl

theorem rr_finalize_view (p : Process) : view (finalize p) = view p := rfl

/-- The result of `RoundRobin::scheduleProcess` on a list of processes with
`tempBurstTime = burstTime ≥ 1`. -/
theorem rr_final (processes : List Process)
    (hwf : ∀ p ∈ processes, p.tempBurstTime = p.burstTime ∧ 1 ≤ p.burstTime)
    (fuel : Nat)
    (hfuel : (tick.potential (abs (RoundRobin.ctor processes))).toNat ≤ fuel) :
    ∃ r, RoundRobin.scheduleProcess fuel (RoundRobin.ctor processes) = some r ∧
      (r.mFinishedProcesses.map (fun p => (p.pid, p.arrivalTime, p.burstTime))).Perm
        (processes.map (fun p => (p.pid, p.arrivalTime, p.burstTime))) ∧
      (∀ p ∈ r.mFinishedProcesses, p.tempBurstTime = 0 ∧
        p.arrivalTime + p.burstTime ≤ p.finishingTime ∧
        p.turnAroundTime = p.finishingTime - p.arrivalTime ∧
        p.waitingTime = p.turnAroundTime - p.burstTime) ∧
      ((processes.map (fun p => p.pid)).Nodup →
        (∀ p ∈ processes, ((r.mGantChart.map Prod.fst).count p.pid : Int) = p.burstTime) ∧
        (∀ p ∈ r.mFinishedProcesses, (p.pid, p.finishingTime - 1) ∈ r.mGantChart ∧
          ∀ e ∈ r.mGantChart, e.1 = p.pid → e.2 < p.finishingTime)) := by
  obtain ⟨hc, hsp⟩ := rr_returns processes hwf fuel hfuel
  obtain ⟨hrun, -⟩ := rr_run fuel (RoundRobin.ctor processes) rfl
  have hnil : (abs (steps fuel (RoundRobin.ctor processes))).ready ++
      (abs (steps fuel (RoundRobin.ctor processes))).queue = [] := by
    by_contra hne
    rw [(rr_loopCond _).mpr hne] at hc
    cases hc
  obtain ⟨f1, f2, f3⟩ := tick.tick_final _ _ _ hrun (rr_ctor_conserved processes)
    (rr_ctor_work processes hwf) (tick.tick_init_last _ rfl)
    (List.append_eq_nil.mp hnil).1 (List.append_eq_nil.mp hnil).2
  refine ⟨_, hsp, ?_, ?_, ?_⟩
  · simp only [List.map_map]
    have e : (abs (steps fuel (RoundRobin.ctor processes))).finished.map tick.core =
        (steps fuel (RoundRobin.ctor processes)).mFinishedProcesses.map
          ((fun p => (p.pid, p.arrivalTime, p.burstTime)) ∘ finalize) := by
      simp only [abs, List.map_map]
      rfl
    rw [← e]
    exact f1
  · intro p hp
    obtain ⟨q, hq, rfl⟩ := List.mem_map.mp hp
    obtain ⟨g1, g2⟩ := f2 (view q) (List.mem_map_of_mem _ hq)
    exact ⟨g1, g2, rfl, rfl⟩
  · intro hnd
    obtain ⟨g1, g2⟩ := f3 (by rw [rr_input_ids]; exact hnd)
    refine ⟨?_, ?_⟩
    · intro p hp
      exact g1 _ (List.mem_map_of_mem (fun p => (p.pid, p.arrivalTime, p.burstTime)) hp)
    · intro p hp
      obtain ⟨q, hq, rfl⟩ := List.mem_map.mp hp
      exact g2 (view q) (List.mem_map_of_mem _ hq)

/-- The iteration that follows the first `n` moves the clock by one and appends
at most one event, stamped with the clock before the iteration. -/
theorem rr_unit (processes : List Process)
    (hwf : ∀ p ∈ processes, p.tempBurstTime = p.burstTime ∧ 1 ≤ p.burstTime) (n : Nat) :
    (loopBody (steps n (RoundRobin.ctor processes))).mTimeCounter =
      (steps n (RoundRobin.ctor processes)).mTimeCounter + 1 ∧
    ((loopBody (steps n (RoundRobin.ctor processes))).mGantChart =
        (steps n (RoundRobin.ctor processes)).mGantChart ∨
      ∃ i, (loopBody (steps n (RoundRobin.ctor processes))).mGantChart =
        (steps n (RoundRobin.ctor processes)).mGantChart ++
          [(i, (steps n (RoundRobin.ctor processes)).mTimeCounter)]) := by
  obtain ⟨hrun, hq⟩ := rr_run n (RoundRobin.ctor processes) rfl
  obtain ⟨-, hw⟩ := tick.tick_run_work _ _ _ hrun (rr_ctor_conserved processes)
    (rr_ctor_work processes hwf)
  exact tick.tick_step_unit _ _ (rr_refines _ hq).1 hw

/-- No dispatch before the arrival, after any number of iterations, when no
remaining time of the input is negative. -/
theorem rr_dispatch_after_arrival (processes : List Process)
    (hwf : ∀ p ∈ processes, 0 ≤ p.tempBurstTime) (n : Nat) :
    (∀ e ∈ (steps n (RoundRobin.ctor processes)).mGantChart,
      ∃ p ∈ processes, p.pid = e.1 ∧ p.arrivalTime ≤ e.2) ∧
    ((∀ p ∈ processes, p.init = false) →
      ∀ p ∈ (steps n (RoundRobin.ctor processes)).mFinishedProcesses,
        p.arrivalTime ≤ p.startingTime) := by
  obtain ⟨hrun, -⟩ := rr_run n (RoundRobin.ctor processes) rfl
  obtain ⟨d1, d2⟩ := tick.tick_run_dispatch _ _ _ hrun (rr_ctor_conserved processes)
    (rr_ctor_arrived processes hwf)
  refine ⟨?_, ?_⟩
  · intro e he
    obtain ⟨c, hc, h1, h2⟩ := d1 e he
    obtain ⟨p, hp, rfl⟩ := List.mem_map.mp hc
    exact ⟨p, hp, h1, h2⟩
  · intro hinit p hp
    exact d2 (rr_ctor_started processes hinit) (view p) (List.mem_map_of_mem _ hp)

end round_robin

/-! ## The plain priority engine as an instance of the common loop -/

namespace priority_preemptive

theorem pp_comp_key (a b : Process) :
    PriorityCompare a b = true ↔ key b < key a := by
  unfold PriorityCompare key
  rw [Prod.Lex.lt_iff]
  simp only [ofLex_toLex]
  by_cases h : a.priority = b.priority
  · simp [h]
  · simp only [h, if_false, decide_eq_true_eq, gt_iff_lt]
    constructor
    · intro hlt
      exact Or.inl hlt
    · rintro (hlt | ⟨he, _⟩)
      · exact hlt
      · exact absurd he.symm h

/-- The inner loop of `PriorityPreemptive::scheduleProcess`: it moves a front part
of the process queue, all of it arrived, into the running heap; the process left in
front of the queue has not arrived. -/
theorem pp_drain_spec (t : Int) :
    ∀ (queue running : List Process), stdlib.IsHeap key running →
      ∃ moved, queue = moved ++ (drain t running queue).2 ∧
        (drain t running queue).1.Perm (running ++ moved) ∧
        (∀ q ∈ moved, q.arrivalTime ≤ t) ∧
        (∀ q, (drain t running queue).2.head? = some q → t < q.arrivalTime) ∧
        stdlib.IsHeap key (drain t running queue).1 := by
  intro queue
  induction queue with
  | nil =>
    intro running hr
    exact ⟨[], by simp [drain], by simp [drain], by simp, by simp [drain], hr⟩
  | cons p rest ih =>
    intro running hr
    by_cases hp : t ≥ p.arrivalTime
    · have hd : drain t running (p :: rest) =
          drain t (stdlib.pqPush PriorityCompare running p) rest := by
        simp [drain, hp]
      obtain ⟨hh, hperm⟩ :=
        stdlib.pqPush_spec key PriorityCompare pp_comp_key running p hr
      obtain ⟨moved, h1, h2, h3, h4, h5⟩ := ih _ hh
      rw [hd]
      refine ⟨p :: moved, by rw [List.cons_append, ← h1], ?_, ?_, h4, h5⟩
      · refine h2.trans ((hperm.append_right moved).trans ?_)
        simpa using (@List.perm_middle _ p running moved).symm
      · intro q hq
        rcases List.mem_cons.mp hq with rfl | hq
        · exact hp
        · exact h3 q hq
    · have hd : drain t running (p :: rest) = (running, p :: rest) := by
        simp [drain, hp]
      rw [hd]
      refine ⟨[], by simp, by simp, by simp, ?_, hr⟩
      intro q hq
      simp only [List.head?_cons, Option.some.injEq] at hq
      subst hq
      omega

/-- The dispatch of the top process `cur`, seen through the view. -/
theorem pp_dispatch_view (s : PriorityPreemptive) (cur : Process)
    (h : stdlib.pqTop s.mRunningProcessList = some cur) (hq : s.mTimeQuantum = 1) :
    (dispatch s).mTimeCounter = (tick.slice s.mTimeCounter (view cur)).2 ∧
    (dispatch s).mGantChart = s.mGantChart ++ [(cur.pid, s.mTimeCounter)] ∧
    (dispatch s).mProcessList = s.mProcessList ∧
    (dispatch s).mTimeQuantum = 1 ∧
    (((tick.slice s.mTimeCounter (view cur)).1.tempBurstTime = 0 ∧
        (dispatch s).mFinishedProcesses.map view =
          s.mFinishedProcesses.map view ++
            [tick.finish (tick.slice s.mTimeCounter (view cur))] ∧
        (dispatch s).mFinishedProcesses.map core =
          s.mFinishedProcesses.map core ++ [core cur] ∧
        (dispatch s).mRunningProcessList =
          stdlib.pqPop PriorityCompare s.mRunningProcessList) ∨
      ((tick.slice s.mTimeCounter (view cur)).1.tempBurstTime ≠ 0 ∧
        (dispatch s).mFinishedProcesses = s.mFinishedProcesses ∧
        ∃ cur2, view cur2 = (tick.slice s.mTimeCounter (view cur)).1 ∧
          core cur2 = core cur ∧
          (dispatch s).mRunningProcessList =
            stdlib.pqPush PriorityCompare
              (stdlib.pqPop PriorityCompare s.mRunningProcessList) cur2)) := by
  unfold dispatch tick.slice tick.finish
  rw [h]
  simp only [hq]
  by_cases hinit : cur.init = false <;>
  by_cases hlt : cur.tempBurstTime < 1 <;>
  by_cases hz : cur.tempBurstTime - 1 = 0 <;>
  simp [view, core, hinit, hlt, hz]
  all_goals refine ⟨_, ?_, ?_, rfl⟩ <;> simp

end priority_preemptive

namespace priority_preemptive

/-- One iteration of the loop of `PriorityPreemptive::scheduleProcess` is a step of
the common loop, and keeps `Inv`. -/
theorem pp_refines (s : PriorityPreemptive) (hinv : Inv s) :
    tick.Step (abs s) (abs (loopBody s)) ∧ Inv (loopBody s) ∧
    (((loopBody s).mFinishedProcesses ++
        ((loopBody s).mRunningProcessList ++ (loopBody s).mProcessList)).map core).Perm
      ((s.mFinishedProcesses ++ (s.mRunningProcessList ++ s.mProcessList)).map core) := by
  obtain ⟨hheap, hsorted, hq⟩ := hinv
  obtain ⟨moved, h1, h2, h3, h4, h5⟩ :=
    pp_drain_spec s.mTimeCounter s.mProcessList s.mRunningProcessList hheap
  unfold loopBody
  have hd : drainArrived s =
      { s with
        mRunningProcessList := (drain s.mTimeCounter s.mRunningProcessList s.mProcessList).1
        mProcessList := (drain s.mTimeCounter s.mRunningProcessList s.mProcessList).2 } := rfl
  generalize drain s.mTimeCounter s.mRunningProcessList s.mProcessList = d at h1 h2 h4 h5 hd
  obtain ⟨run3, rest⟩ := d
  simp only at h1 h2 h4 h5 hd
  have hsorted2 : rest.Pairwise (fun a b => a.arrivalTime ≤ b.arrivalTime) := by
    rw [h1] at hsorted
    exact (List.pairwise_append.mp hsorted).2.1
  cases htop : stdlib.pqTop run3 with
  | none =>
    have hr3 : run3 = [] := by
      unfold stdlib.pqTop at htop
      exact List.head?_eq_none_iff.mp htop
    subst hr3
    have hnil : s.mRunningProcessList ++ moved = [] := List.Perm.eq_nil h2.symm
    have hr0 : s.mRunningProcessList = [] := (List.append_eq_nil.mp hnil).1
    have hm0 : moved = [] := (List.append_eq_nil.mp hnil).2
    have hdisp : dispatch (drainArrived s) =
        { drainArrived s with mTimeCounter := (drainArrived s).mTimeCounter + 1 } := by
      unfold dispatch
      rw [hd]
      simp only [htop, hq]
    rw [hdisp, hd]
    refine ⟨tick.Step.idle _ _ ?_ ?_ ?_ ?_ rfl rfl rfl, ?_, ?_⟩
    · simp [abs, hr0]
    · intro q hq'
      simp only [abs, List.head?_map] at hq'
      rw [h1, hm0, List.nil_append] at hq'
      cases hf : rest.head? with
      | none => rw [hf] at hq'; cases hq'
      | some f =>
        rw [hf] at hq'
        simp only [Option.map_some', Option.some.injEq] at hq'
        subst hq'
        exact h4 f hf
    · simp only [abs]
      rw [h1, hm0, List.nil_append]
    · simp [abs]
    · exact ⟨stdlib.isHeap_nil key, hsorted2, hq⟩
    · simp only
      rw [hr0, h1, hm0]
      exact List.Perm.refl _
  | some cur =>
    obtain ⟨hheap4, hperm4⟩ :=
      stdlib.pqPop_spec key PriorityCompare pp_comp_key run3 cur h5 htop
    have hq1 : (drainArrived s).mTimeQuantum = 1 := by rw [hd]; exact hq
    obtain ⟨d1, d2, d3, d4, d5⟩ := pp_dispatch_view (drainArrived s) cur
      (by rw [hd]; exact htop) hq1
    have ht : (drainArrived s).mTimeCounter = s.mTimeCounter := by rw [hd]
    have hg : (drainArrived s).mGantChart = s.mGantChart := by rw [hd]
    have hf : (drainArrived s).mFinishedProcesses = s.mFinishedProcesses := by rw [hd]
    have hpl : (drainArrived s).mProcessList = rest := by rw [hd]
    have hrl : (drainArrived s).mRunningProcessList = run3 := by rw [hd]
    rw [ht] at d1 d2 d5
    rw [hg] at d2
    rw [hf, hrl] at d5
    rw [hpl] at d3
    refine ⟨tick.Step.run _ _ (moved.map view) (rest.map view) (view cur)
      ((stdlib.pqPop PriorityCompare run3).map view)
      [] (rest.map view) ?_ ?_ ?_ (by simp) (by simp) ?_ ?_ ?_ ?_, ?_, ?_⟩
    · simp only [abs]
      rw [h1, List.map_append]
    · intro q hq'
      obtain ⟨p, hp, rfl⟩ := List.mem_map.mp hq'
      exact h3 p hp
    · have e : (abs s).ready ++ moved.map view =
          (s.mRunningProcessList ++ moved).map view := by
        simp only [abs]
        rw [← List.map_append]
      rw [e, ← List.map_cons]
      exact List.Perm.map _ (h2.symm.trans hperm4.symm)
    · simp only [abs]
      rw [d3]
    · simp only [abs]
      rw [d2]
      rfl
    · simp only [abs]
      rw [d1]
    · simp only [abs, List.append_nil]
      rcases d5 with ⟨hz, e1, _, e2⟩ | ⟨hz, e1, cur2, e2, _, e3⟩
      · exact Or.inl ⟨hz, e1, by rw [e2]⟩
      · refine Or.inr ⟨hz, by rw [e1], ?_⟩
        rw [e3, ← e2, ← List.map_cons]
        exact List.Perm.map _
          (stdlib.pqPush_spec key PriorityCompare pp_comp_key _ cur2 hheap4).2
    · refine ⟨?_, by rw [d3]; exact hsorted2, d4⟩
      rcases d5 with ⟨_, _, _, e2⟩ | ⟨_, _, cur2, _, _, e3⟩
      · rw [e2]
        exact hheap4
      · rw [e3]
        exact (stdlib.pqPush_spec key PriorityCompare pp_comp_key _ cur2 hheap4).1
    · have hold : (s.mFinishedProcesses ++ (s.mRunningProcessList ++ s.mProcessList)).Perm
          (s.mFinishedProcesses ++ (cur :: stdlib.pqPop PriorityCompare run3 ++ rest)) := by
        rw [h1, ← List.append_assoc s.mRunningProcessList]
        exact List.Perm.append_left _
          (List.Perm.append_right _ (h2.symm.trans hperm4.symm))
      refine List.Perm.trans ?_ (hold.map core).symm
      rw [d3]
      rcases d5 with ⟨_, _, e1, e2⟩ | ⟨_, e1, cur2, _, ec, e3⟩
      · rw [e2, List.map_append, e1, List.map_append, List.map_append, List.map_append,
          List.map_cons, List.append_assoc, List.singleton_append]
        rfl
      · rw [e1, e3, List.map_append, List.map_append, List.map_append, List.map_append,
          List.map_cons, ← ec, ← List.map_cons]
        exact List.Perm.append_left _ (List.Perm.append_right _ (List.Perm.map _
          (stdlib.pqPush_spec key PriorityCompare pp_comp_key _ cur2 hheap4).2))

/-- The views of the states of a run of the plain priority loop form a run of the
common loop. -/
theorem pp_run : ∀ (n : Nat) (s : PriorityPreemptive), Inv s →
    Relation.ReflTransGen tick.Step (abs s) (abs (steps n s)) ∧ Inv (steps n s) := by
  intro n
  induction n with
  | zero => intro s hq; exact ⟨Relation.ReflTransGen.refl, hq⟩
  | succ n ih =>
    intro s hq
    unfold steps
    by_cases hc : loopCond s = true
    · rw [if_pos hc]
      obtain ⟨r1, r2, _⟩ := pp_refines s hq
      obtain ⟨i1, i2⟩ := ih _ r2
      exact ⟨Relation.ReflTransGen.head r1 i1, i2⟩
    · rw [if_neg hc]
      exact ⟨Relation.ReflTransGen.refl, hq⟩

theorem pp_loopCond (s : PriorityPreemptive) :
    loopCond s = true ↔ (abs s).ready ++ (abs s).queue ≠ [] := by
  unfold loopCond abs
  cases h1 : s.mProcessList <;> cases h2 : s.mRunningProcessList <;> simp

/-- The loop of `PriorityPreemptive::scheduleProcess` ends within `potential`
iterations. -/
theorem pp_terminates : ∀ (n : Nat) (s : PriorityPreemptive), Inv s →
    tick.Work (abs s) → tick.potential (abs s) ≤ (n : Int) →
    loopCond (steps n s) = false := by
  intro n
  induction n with
  | zero =>
    intro s _ hw hp
    by_cases hc : loopCond s = true
    · have h1 := tick.tick_remaining_pos _ hw ((pp_loopCond s).mp hc)
      have h2 := tick.tick_gap_nonneg (abs s).t (abs s).queue
      unfold tick.potential at hp
      simp only [Nat.cast_zero] at hp
      omega
    · simpa [steps] using hc
  | succ n ih =>
    intro s hq hw hp
    unfold steps
    by_cases hc : loopCond s = true
    · rw [if_pos hc]
      obtain ⟨r1, r2, _⟩ := pp_refines s hq
      have h1 := tick.tick_step_potential _ _ r1 hw ((pp_loopCond s).mp hc)
      apply ih _ r2 (tick.tick_step_work _ _ r1 hw)
      push_cast at hp
      omega
    · rw [if_neg hc]
      simpa using hc

end priority_preemptive

namespace priority_preemptive

theorem pp_sort_perm (l : List Process) : (sortProcesses l).Perm l :=
  List.perm_insertionSort _ _

theorem pp_sort_sorted (l : List Process) :
    (sortProcesses l).Pairwise (fun a b => a.arrivalTime ≤ b.arrivalTime) := by
  have hsorted : (sortProcesses l).Pairwise notAfter :=
    @List.sorted_insertionSort _ notAfter _
      ⟨fun a b => by
        unfold notAfter compare
        simp only [decide_eq_false_iff_not, not_lt]
        exact le_total _ _⟩
      ⟨fun a b c => by
        unfold notAfter compare
        simp only [decide_eq_false_iff_not, not_lt]
        exact fun h1 h2 => le_trans h1 h2⟩ _
  refine hsorted.imp ?_
  intro a b hab
  unfold notAfter compare at hab
  simpa using hab

/-- The members of the queue that the constructor loads. -/
theorem pp_ctor_mem (processes : List Process) (q : Process)
    (hq : q ∈ (PriorityPreemptive.ctor processes).mProcessList) :
    ∃ p ∈ processes, q = { p with tempBurstTime := p.burstTime } := by
  obtain ⟨p, hp, rfl⟩ := List.mem_map.mp hq
  exact ⟨p, (pp_sort_perm processes).subset hp, rfl⟩

theorem pp_inv_ctor (processes : List Process) : Inv (PriorityPreemptive.ctor processes) := by
  refine ⟨stdlib.isHeap_nil key, ?_, rfl⟩
  show ((sortProcesses processes).map _).Pairwise _
  rw [List.pairwise_map]
  exact pp_sort_sorted processes

theorem pp_ctor_conserved (processes : List Process) :
    tick.Conserved (processes.map (fun p => (p.pid, p.arrivalTime, p.burstTime)))
      (abs (PriorityPreemptive.ctor processes)) := by
  have h := tick.tick_init_conserved (abs (PriorityPreemptive.ctor processes)) rfl rfl
  apply tick.tick_conserved_perm _ _ _ h
  show ((((sortProcesses processes).map _).map view).map tick.core).Perm _
  rw [List.map_map, List.map_map]
  exact List.Perm.map _ (pp_sort_perm processes)

theorem pp_ctor_core (processes : List Process) :
    (((PriorityPreemptive.ctor processes).mFinishedProcesses ++
      ((PriorityPreemptive.ctor processes).mRunningProcessList ++
        (PriorityPreemptive.ctor processes).mProcessList)).map core).Perm
      (processes.map core) := by
  show (([] ++ ([] ++ (sortProcesses processes).map _)).map core).Perm _
  rw [List.nil_append, List.nil_append, List.map_map]
  exact List.Perm.map _ (pp_sort_perm processes)

theorem pp_ctor_work (processes : List Process)
    (hwf : ∀ p ∈ processes, 1 ≤ p.burstTime) :
    tick.Work (abs (PriorityPreemptive.ctor processes)) := by
  apply tick.tick_init_work _ rfl rfl rfl
  intro q hq
  obtain ⟨q2, hq2, rfl⟩ := List.mem_map.mp hq
  obtain ⟨p, hp, rfl⟩ := pp_ctor_mem processes q2 hq2
  exact ⟨rfl, hwf p hp⟩

theorem pp_ctor_arrived (processes : List Process)
    (hwf : ∀ p ∈ processes, 0 ≤ p.burstTime) :
    tick.Arrived (abs (PriorityPreemptive.ctor processes)) := by
  apply tick.tick_init_arrived _ rfl rfl
  intro q hq
  obtain ⟨q2, hq2, rfl⟩ := List.mem_map.mp hq
  obtain ⟨p, hp, rfl⟩ := pp_ctor_mem processes q2 hq2
  exact hwf p hp

theorem pp_ctor_started (processes : List Process)
    (hwf : ∀ p ∈ processes, p.init = false) :
    tick.Started (abs (PriorityPreemptive.ctor processes)) := by
  apply tick.tick_init_started _ rfl rfl
  intro q hq
  obtain ⟨q2, hq2, rfl⟩ := List.mem_map.mp hq
  obtain ⟨p, hp, rfl⟩ := pp_ctor_mem processes q2 hq2
  exact hwf p hp

/-- The loop ends and `scheduleProcess` returns, for every fuel from `potential`
on; the state it returns is the final state with the report members filled in. -/
theorem pp_returns (processes : List Process)
    (hwf : ∀ p ∈ processes, 1 ≤ p.burstTime) (fuel : Nat)
    (hfuel : (tick.potential (abs (PriorityPreemptive.ctor processes))).toNat ≤ fuel) :
    loopCond (steps fuel (PriorityPreemptive.ctor processes)) = false ∧
    PriorityPreemptive.scheduleProcess fuel (PriorityPreemptive.ctor processes) =
      some { steps fuel (PriorityPreemptive.ctor processes) with
        mFinishedProcesses :=
          (steps fuel (PriorityPreemptive.ctor processes)).mFinishedProcesses.map
            finalize } := by
  have hc := pp_terminates fuel (PriorityPreemptive.ctor processes) (pp_inv_ctor processes)
    (pp_ctor_work processes hwf) (by omega)
  refine ⟨hc, ?_⟩
  unfold PriorityPreemptive.scheduleProcess
  simp [hc]

/-- Finished, running and queued processes together are the input, after any
number of iterations. -/
theorem pp_steps_core : ∀ (n : Nat) (s : PriorityPreemptive), Inv s →
    (((steps n s).mFinishedProcesses ++
      ((steps n s).mRunningProcessList ++ (steps n s).mProcessList)).map core).Perm
      ((s.mFinishedProcesses ++ (s.mRunningProcessList ++ s.mProcessList)).map core) := by
  intro n
  induction n with
  | zero => intro s _; exact List.Perm.refl _
  | succ n ih =>
    intro s hinv
    unfold steps
    by_cases hc : loopCond s = true
    · rw [if_pos hc]
      obtain ⟨_, r2, r3⟩ := pp_refines s hinv
      exact (ih _ r2).trans r3
    · rw [if_neg hc]

theorem pp_steps_of_loopCond_false (n : Nat) (s : PriorityPreemptive)
    (h : loopCond s = false) : steps n s = s := by
  cases n with
  | zero => rfl
  | succ n => simp [steps, h]

theorem pp_steps_add (n k : Nat) (s : PriorityPreemptive) :
    steps (n + k) s = steps k (steps n s) := by
  induction n generalizing s with
  | zero => simp [steps]
  | succ n ih =>
    rw [Nat.succ_add]
    by_cases h : loopCond s = true
    · simp [steps, h, ih]
    · have h2 : loopCond s = false := by simpa using h
      simp [steps, h2, pp_steps_of_loopCond_false]

end priority_preemptive

namespace priority_preemptive

theorem pp_input_ids (processes : List Process) :
    (processes.map (fun p => (p.pid, p.arrivalTime, p.burstTime))).map Prod.fst =
      processes.map (fun p => p.pid) := by
  rw [List.map_map]
  rfl

theorem pp_finalize_view (p : Process) : view (finalize p) = view p := rfl

/-- The result of the plain `PriorityPreemptive::scheduleProcess` on a list of processes with
`burstTime ≥ 1`. -/
theorem pp_final (processes : List Process)
    (hwf : ∀ p ∈ processes, 1 ≤ p.burstTime)
    (fuel : Nat)
    (hfuel : (tick.potential (abs (PriorityPreemptive.ctor processes))).toNat ≤ fuel) :
    ∃ r, PriorityPreemptive.scheduleProcess fuel (PriorityPreemptive.ctor processes) = some r ∧
      (r.mFinishedProcesses.map (fun p => (p.pid, p.arrivalTime, p.burstTime))).Perm
        (processes.map (fun p => (p.pid, p.arrivalTime, p.burstTime))) ∧
      (∀ p ∈ r.mFinishedProcesses, p.tempBurstTime = 0 ∧
        p.arrivalTime + p.burstTime ≤ p.finishingTime ∧
        p.turnAroundTime = p.finishingTime - p.arrivalTime ∧
        p.waitingTime = p.turnAroundTime - p.burstTime) ∧
      ((processes.map (fun p => p.pid)).Nodup →
        (∀ p ∈ processes, ((r.mGantChart.map Prod.fst).count p.pid : Int) = p.burstTime) ∧
        (∀ p ∈ r.mFinishedProcesses, (p.pid, p.finishingTime - 1) ∈ r.mGantChart ∧
          ∀ e ∈ r.mGantChart, e.1 = p.pid → e.2 < p.finishingTime)) := by
  obtain ⟨hc, hsp⟩ := pp_returns processes hwf fuel hfuel
  obtain ⟨hrun, -⟩ := pp_run fuel (PriorityPreemptive.ctor processes) (pp_inv_ctor processes)
  have hnil : (abs (steps fuel (PriorityPreemptive.ctor processes))).ready ++
      (abs (steps fuel (PriorityPreemptive.ctor processes))).queue = [] := by
    by_contra hne
    rw [(pp_loopCond _).mpr hne] at hc
    cases hc
  obtain ⟨f1, f2, f3⟩ := tick.tick_final _ _ _ hrun (pp_ctor_conserved processes)
    (pp_ctor_work processes hwf) (tick.tick_init_last _ rfl)
    (List.append_eq_nil.mp hnil).1 (List.append_eq_nil.mp hnil).2
  refine ⟨_, hsp, ?_, ?_, ?_⟩
  · simp only [List.map_map]
    have e : (abs (steps fuel (PriorityPreemptive.ctor processes))).finished.map tick.core =
        (steps fuel (PriorityPreemptive.ctor processes)).mFinishedProcesses.map
          ((fun p => (p.pid, p.arrivalTime, p.burstTime)) ∘ finalize) := by
      simp only [abs, List.map_map]
      rfl
    rw [← e]
    exact f1
  · intro p hp
    obtain ⟨q, hq, rfl⟩ := List.mem_map.mp hp
    obtain ⟨g1, g2⟩ := f2 (view q) (List.mem_map_of_mem _ hq)
    exact ⟨g1, g2, rfl, rfl⟩
  · intro hnd
    obtain ⟨g1, g2⟩ := f3 (by rw [pp_input_ids]; exact hnd)
    refine ⟨?_, ?_⟩
    · intro p hp
      exact g1 _ (List.mem_map_of_mem (fun p => (p.pid, p.arrivalTime, p.burstTime)) hp)
    · intro p hp
      obtain ⟨q, hq, rfl⟩ := List.mem_map.mp hp
      exact g2 (view q) (List.mem_map_of_mem _ hq)

/-- The iteration that follows the first `n` moves the clock by one and appends
at most one event, stamped with the clock before the iteration. -/
theorem pp_unit (processes : List Process)
    (hwf : ∀ p ∈ processes, 1 ≤ p.burstTime) (n : Nat) :
    (loopBody (steps n (PriorityPreemptive.ctor processes))).mTimeCounter =
      (steps n (PriorityPreemptive.ctor processes)).mTimeCounter + 1 ∧
    ((loopBody (steps n (PriorityPreemptive.ctor processes))).mGantChart =
        (steps n (PriorityPreemptive.ctor processes)).mGantChart ∨
      ∃ i, (loopBody (steps n (PriorityPreemptive.ctor processes))).mGantChart =
        (steps n (PriorityPreemptive.ctor processes)).mGantChart ++
          [(i, (steps n (PriorityPreemptive.ctor processes)).mTimeCounter)]) := by
  obtain ⟨hrun, hq⟩ := pp_run n (PriorityPreemptive.ctor processes) (pp_inv_ctor processes)
  obtain ⟨-, hw⟩ := tick.tick_run_work _ _ _ hrun (pp_ctor_conserved processes)
    (pp_ctor_work processes hwf)
  exact tick.tick_step_unit _ _ (pp_refines _ hq).1 hw

/-- No dispatch before the arrival, after any number of iterations, when no
remaining time of the input is negative. -/
theorem pp_dispatch_after_arrival (processes : List Process)
    (hwf : ∀ p ∈ processes, 0 ≤ p.burstTime) (n : Nat) :
    (∀ e ∈ (steps n (PriorityPreemptive.ctor processes)).mGantChart,
      ∃ p ∈ processes, p.pid = e.1 ∧ p.arrivalTime ≤ e.2) ∧
    ((∀ p ∈ processes, p.init = false) →
      ∀ p ∈ (steps n (PriorityPreemptive.ctor processes)).mFinishedProcesses,
        p.arrivalTime ≤ p.startingTime) := by
  obtain ⟨hrun, -⟩ := pp_run n (PriorityPreemptive.ctor processes) (pp_inv_ctor processes)
  obtain ⟨d1, d2⟩ := tick.tick_run_dispatch _ _ _ hrun (pp_ctor_conserved processes)
    (pp_ctor_arrived processes hwf)
  refine ⟨?_, ?_⟩
  · intro e he
    obtain ⟨c, hc, h1, h2⟩ := d1 e he
    obtain ⟨p, hp, rfl⟩ := List.mem_map.mp hc
    exact ⟨p, hp, h1, h2⟩
  · intro hinit p hp
    exact d2 (pp_ctor_started processes hinit) (view p) (List.mem_map_of_mem _ hp)

end priority_preemptive

/-! ## The dispatch rule of the plain priority engine -/

/-- Iteration `n` of the loop of the plain priority engine, when the running heap is
not empty after the admission loop: the iteration dispatches the top `cur` of the
heap and appends the event (id of `cur`, t); `cur` has arrived, and its (priority,
pid) is lexicographically least among the running and queued processes that have
arrived.  Finished, running and queued processes together are the input. -/
theorem pp_iteration_min_priority (processes : List priority_preemptive.Process)
    (hwf : ∀ p ∈ processes, 0 ≤ p.burstTime) (n : Nat)
    (cur : priority_preemptive.Process)
    (htop : stdlib.pqTop (priority_preemptive.atDispatch processes n).mRunningProcessList =
      some cur) :
    priority_preemptive.steps (n + 1) (priority_preemptive.PriorityPreemptive.ctor processes) =
      priority_preemptive.dispatch (priority_preemptive.atDispatch processes n) ∧
    (priority_preemptive.dispatch (priority_preemptive.atDispatch processes n)).mGantChart =
      (priority_preemptive.atDispatch processes n).mGantChart ++
        [(cur.pid, (priority_preemptive.atDispatch processes n).mTimeCounter)] ∧
    cur.arrivalTime ≤ (priority_preemptive.atDispatch processes n).mTimeCounter ∧
    (∀ q ∈ (priority_preemptive.atDispatch processes n).mRunningProcessList ++
          (priority_preemptive.atDispatch processes n).mProcessList,
      q.arrivalTime ≤ (priority_preemptive.atDispatch processes n).mTimeCounter →
      cur.priority < q.priority ∨ (cur.priority = q.priority ∧ cur.pid ≤ q.pid)) ∧
    (((priority_preemptive.atDispatch processes n).mFinishedProcesses ++
        ((priority_preemptive.atDispatch processes n).mRunningProcessList ++
          (priority_preemptive.atDispatch processes n).mProcessList)).map
        priority_preemptive.core).Perm
      (processes.map priority_preemptive.core) := by
  obtain ⟨hrun, hinv⟩ := priority_preemptive.pp_run n _
    (priority_preemptive.pp_inv_ctor processes)
  obtain ⟨-, harr⟩ := tick.tick_run_arrived _ _ _ hrun
    (priority_preemptive.pp_ctor_conserved processes)
    (priority_preemptive.pp_ctor_arrived processes hwf)
  have hcore := (priority_preemptive.pp_steps_core n _
    (priority_preemptive.pp_inv_ctor processes)).trans
    (priority_preemptive.pp_ctor_core processes)
  unfold priority_preemptive.atDispatch at htop ⊢
  rw [priority_preemptive.pp_steps_add n 1]
  generalize priority_preemptive.steps n
    (priority_preemptive.PriorityPreemptive.ctor processes) = s at hinv harr hcore htop ⊢
  obtain ⟨hheap, hsorted, hq⟩ := hinv
  obtain ⟨moved, h1, h2, h3, h4, h5⟩ :=
    priority_preemptive.pp_drain_spec s.mTimeCounter s.mProcessList s.mRunningProcessList hheap
  have hd : priority_preemptive.drainArrived s =
      { s with
        mRunningProcessList :=
          (priority_preemptive.drain s.mTimeCounter s.mRunningProcessList s.mProcessList).1
        mProcessList :=
          (priority_preemptive.drain s.mTimeCounter s.mRunningProcessList
            s.mProcessList).2 } := rfl
  generalize priority_preemptive.drain s.mTimeCounter s.mRunningProcessList s.mProcessList = d
    at h1 h2 h4 h5 hd
  obtain ⟨run3, rest⟩ := d
  simp only at h1 h2 h4 h5 hd
  rw [hd] at htop
  simp only at htop
  have hcur : cur ∈ run3 := by
    unfold stdlib.pqTop at htop
    exact List.mem_of_mem_head? htop
  have hlate : ∀ q ∈ rest, s.mTimeCounter < q.arrivalTime := by
    intro q hq'
    have hs2 : rest.Pairwise (fun a b => a.arrivalTime ≤ b.arrivalTime) := by
      rw [h1] at hsorted
      exact (List.pairwise_append.mp hsorted).2.1
    cases hrest : rest with
    | nil => rw [hrest] at hq'; cases hq'
    | cons f tl =>
      have hf := h4 f (by rw [hrest]; rfl)
      rw [hrest] at hq' hs2
      rcases List.mem_cons.mp hq' with rfl | hq''
      · exact hf
      · have := (List.pairwise_cons.mp hs2).1 q hq''
        omega
  have harrived : ∀ q ∈ run3, q.arrivalTime ≤ s.mTimeCounter := by
    intro q hq'
    rcases List.mem_append.mp (h2.subset hq') with h | h
    · exact harr.2.1 (priority_preemptive.view q) (List.mem_map_of_mem _ h)
    · exact h3 q h
  have hcond : priority_preemptive.loopCond s = true := by
    have hmem := h2.subset hcur
    unfold priority_preemptive.loopCond
    rcases List.mem_append.mp hmem with h | h
    · cases hr : s.mRunningProcessList with
      | nil => rw [hr] at h; cases h
      | cons _ _ => simp
    · have : s.mProcessList ≠ [] := by
        rw [h1]
        intro he
        rw [(List.append_eq_nil.mp he).1] at h
        cases h
      cases hr : s.mProcessList with
      | nil => exact absurd hr this
      | cons _ _ => simp
  refine ⟨?_, ?_, ?_, ?_, ?_⟩
  · simp [priority_preemptive.steps, hcond, priority_preemptive.loopBody]
  · have hv := (priority_preemptive.pp_dispatch_view (priority_preemptive.drainArrived s) cur
      (by rw [hd]; exact htop) (by rw [hd]; exact hq)).2.1
    exact hv
  · rw [hd]
    exact harrived cur hcur
  · rw [hd]
    simp only
    intro q hq' hqa
    rcases List.mem_append.mp hq' with hq'' | hq''
    · have hle := stdlib.IsHeap.head_le priority_preemptive.key _ h5 cur
        (by rw [← List.head?_eq_getElem?]; exact htop) q hq''
      unfold priority_preemptive.key at hle
      rw [Prod.Lex.le_iff] at hle
      simpa using hle
    · have := hlate q hq''
      omega
  · rw [hd]
    simp only
    refine List.Perm.trans (List.Perm.map _ ?_) hcore
    rw [h1, ← List.append_assoc s.mRunningProcessList]
    exact List.Perm.append_left _ (List.Perm.append_right _ h2)

/-- The trace after `n + 1` iterations is the trace after `n` iterations, followed
by the event of iteration `n` when that iteration dispatches a process. -/
theorem pp_gantt_succ (processes : List priority_preemptive.Process) (n : Nat) :
    (priority_preemptive.steps (n + 1)
        (priority_preemptive.PriorityPreemptive.ctor processes)).mGantChart =
      (priority_preemptive.steps n
        (priority_preemptive.PriorityPreemptive.ctor processes)).mGantChart ∨
    ∃ cur, stdlib.pqTop (priority_preemptive.atDispatch processes n).mRunningProcessList =
        some cur ∧
      (priority_preemptive.steps (n + 1)
          (priority_preemptive.PriorityPreemptive.ctor processes)).mGantChart =
        (priority_preemptive.steps n
          (priority_preemptive.PriorityPreemptive.ctor processes)).mGantChart ++
          [(cur.pid, (priority_preemptive.atDispatch processes n).mTimeCounter)] := by
  rw [priority_preemptive.pp_steps_add n 1]
  obtain ⟨-, hinv⟩ := priority_preemptive.pp_run n _
    (priority_preemptive.pp_inv_ctor processes)
  by_cases hc : priority_preemptive.loopCond (priority_preemptive.steps n
      (priority_preemptive.PriorityPreemptive.ctor processes)) = true
  · have h1 : priority_preemptive.steps 1 (priority_preemptive.steps n
          (priority_preemptive.PriorityPreemptive.ctor processes)) =
        priority_preemptive.dispatch (priority_preemptive.atDispatch processes n) := by
      simp [priority_preemptive.steps, hc, priority_preemptive.loopBody,
        priority_preemptive.atDispatch]
    have h2 : (priority_preemptive.atDispatch processes n).mGantChart =
        (priority_preemptive.steps n
          (priority_preemptive.PriorityPreemptive.ctor processes)).mGantChart := rfl
    have h3 : (priority_preemptive.atDispatch processes n).mTimeQuantum = 1 := hinv.2.2
    rw [h1, ← h2]
    cases htop : stdlib.pqTop (priority_preemptive.atDispatch processes n).mRunningProcessList with
    | none =>
      left
      simp [priority_preemptive.dispatch, htop]
    | some cur =>
      right
      exact ⟨cur, rfl, (priority_preemptive.pp_dispatch_view _ cur htop h3).2.1⟩
  · left
    have hc2 : priority_preemptive.loopCond (priority_preemptive.steps n
        (priority_preemptive.PriorityPreemptive.ctor processes)) = false := by
      simpa using hc
    rw [priority_preemptive.pp_steps_of_loopCond_false 1 _ hc2]

/-- C11: for every process list without a negative burst time, every event (p, t)
of the trace that the plain `PriorityPreemptive::scheduleProcess` has produced
after any number `n` of iterations of its loop was appended by an earlier iteration
`m` that dispatched the top `cur` of the running heap at clock t, p being the id of
`cur`; `cur` has arrivalTime ≤ t, and against every process `q` that is not finished
(running or still queued) and has arrivalTime ≤ t, `cur` has the lower priority
number, or the same priority and an id that is not higher.  Finished, running and
queued processes together are the input. -/
theorem priority_dispatch_min_priority_pid (processes : List priority_preemptive.Process)
    (hwf : ∀ p ∈ processes, 0 ≤ p.burstTime) (n : Nat) (e : Int × Int)
    (he : e ∈ (priority_preemptive.steps n
      (priority_preemptive.PriorityPreemptive.ctor processes)).mGantChart) :
    ∃ m cur, m < n ∧
      stdlib.pqTop (priority_preemptive.atDispatch processes m).mRunningProcessList =
        some cur ∧
      e = (cur.pid, (priority_preemptive.atDispatch processes m).mTimeCounter) ∧
      cur.arrivalTime ≤ (priority_preemptive.atDispatch processes m).mTimeCounter ∧
      (∀ q ∈ (priority_preemptive.atDispatch processes m).mRunningProcessList ++
            (priority_preemptive.atDispatch processes m).mProcessList,
        q.arrivalTime ≤ (priority_preemptive.atDispatch processes m).mTimeCounter →
        cur.priority < q.priority ∨ (cur.priority = q.priority ∧ cur.pid ≤ q.pid)) ∧
      (((priority_preemptive.atDispatch processes m).mFinishedProcesses ++
          ((priority_preemptive.atDispatch processes m).mRunningProcessList ++
            (priority_preemptive.atDispatch processes m).mProcessList)).map
          priority_preemptive.core).Perm
        (processes.map priority_preemptive.core) := by
  induction n with
  | zero =>
    simp [priority_preemptive.steps, priority_preemptive.PriorityPreemptive.ctor] at he
  | succ n ih =>
    rcases pp_gantt_succ processes n with h | ⟨cur, htop, h⟩
    · rw [h] at he
      obtain ⟨m, c, hm, hrest⟩ := ih he
      exact ⟨m, c, by omega, hrest⟩
    · rw [h, List.mem_append, List.mem_singleton] at he
      rcases he with he | he
      · obtain ⟨m, c, hm, hrest⟩ := ih he
        exact ⟨m, c, by omega, hrest⟩
      · obtain ⟨-, -, h3, h4, h5⟩ := pp_iteration_min_priority processes hwf n cur htop
        exact ⟨n, cur, by omega, htop, he, h3, h4, h5⟩

/-- The statement of C11 on the process list of `main` for the event (0, 2): the
process 0 (priority 1, arrival 2) is dispatched at time 2 in front of process 1
(priority 1) and process 2 (priority 2). -/
theorem priority_dispatch_min_priority_pid_witness :
    (∀ p ∈ priority_preemptive.mainProcessList, 0 ≤ p.burstTime) ∧
    ((0, 2) : Int × Int) ∈ (priority_preemptive.steps 3
      (priority_preemptive.PriorityPreemptive.ctor
        priority_preemptive.mainProcessList)).mGantChart ∧
    ∃ m cur, m < 3 ∧
      stdlib.pqTop (priority_preemptive.atDispatch
        priority_preemptive.mainProcessList m).mRunningProcessList = some cur ∧
      ((0, 2) : Int × Int) = (cur.pid, (priority_preemptive.atDispatch
        priority_preemptive.mainProcessList m).mTimeCounter) :=
  ⟨by decide, by decide,
    (priority_dispatch_min_priority_pid priority_preemptive.mainProcessList
      (by decide) 3 (0, 2) (by decide)).imp
      (fun _ h => h.imp (fun _ h2 => ⟨h2.1, h2.2.1, h2.2.2.1⟩))⟩

/-! ## SRTF as an instance of the common loop -/

namespace srtf

/-- The dispatch of the top process `cur` with a positive remaining time, seen
through the view. -/
theorem srtf_dispatch_view (s : SRTF) (cur : Process)
    (h : stdlib.pqTop s.mRunningProcessList = some cur) (hq : s.mTimeQuantum = 1)
    (h1 : 1 ≤ cur.tempBurstTime) :
    (dispatch s).mTimeCounter = (tick.slice s.mTimeCounter (view cur)).2 ∧
    (dispatch s).mGantChart = s.mGantChart ++ [(cur.pid, s.mTimeCounter)] ∧
    (dispatch s).mProcessList = s.mProcessList ∧
    (dispatch s).mTimeQuantum = 1 ∧
    (((tick.slice s.mTimeCounter (view cur)).1.tempBurstTime = 0 ∧
        (dispatch s).mFinishedProcesses.map view =
          s.mFinishedProcesses.map view ++
            [tick.finish (tick.slice s.mTimeCounter (view cur))] ∧
        (dispatch s).mRunningProcessList =
          stdlib.pqPop TempBurstTimeCompare s.mRunningProcessList) ∨
      ((tick.slice s.mTimeCounter (view cur)).1.tempBurstTime ≠ 0 ∧
        (dispatch s).mFinishedProcesses = s.mFinishedProcesses ∧
        ∃ cur2, view cur2 = (tick.slice s.mTimeCounter (view cur)).1 ∧
          (dispatch s).mRunningProcessList =
            stdlib.pqPush TempBurstTimeCompare
              (stdlib.pqPop TempBurstTimeCompare s.mRunningProcessList) cur2)) := by
  have hlt : ¬ cur.tempBurstTime < 1 := by omega
  unfold dispatch tick.slice tick.finish
  rw [h]
  simp only [hq]
  by_cases hinit : cur.init = false <;>
  by_cases hz : cur.tempBurstTime - 1 = 0 <;>
  simp [view, hinit, hlt, hz]
  all_goals (refine ⟨_, ?_, rfl⟩; simp)

/-- One iteration of the guarded loop of SRTF, from a state in which
every unfinished process has a positive remaining time, is a step of the common
loop. -/
theorem srtf_refines (processes : List Process) (s : SRTF) (hr : Reach processes s)
    (hq : s.mTimeQuantum = 1) (hw : tick.Work (abs s)) :
    tick.Step (abs s) (abs (guarded.loopBody s)) ∧ (guarded.loopBody s).mTimeQuantum = 1 := by
  obtain ⟨hheap, hsorted, hlate, harr, -⟩ := hr
  obtain ⟨moved, h1, h2, h3, h4, h5⟩ :=
    srtf_drain_spec s.mTimeCounter s.mProcessList s.mRunningProcessList hheap
  unfold guarded.loopBody
  have hd : guarded.drainArrived s =
      { s with
        mRunningProcessList := (guarded.drain s.mTimeCounter s.mRunningProcessList s.mProcessList).1
        mProcessList := (guarded.drain s.mTimeCounter s.mRunningProcessList s.mProcessList).2.1
        frontOnEmpty := s.frontOnEmpty +
          (guarded.drain s.mTimeCounter s.mRunningProcessList s.mProcessList).2.2 } := rfl
  generalize guarded.drain s.mTimeCounter s.mRunningProcessList s.mProcessList = d at h1 h2 h4 h5 hd
  obtain ⟨run3, rest, k⟩ := d
  simp only at h1 h2 h4 h5 hd
  cases htop : stdlib.pqTop run3 with
  | none =>
    have hr3 : run3 = [] := by
      unfold stdlib.pqTop at htop
      exact List.head?_eq_none_iff.mp htop
    subst hr3
    have hnil : s.mRunningProcessList ++ moved = [] := List.Perm.eq_nil h2.symm
    have hr0 : s.mRunningProcessList = [] := (List.append_eq_nil.mp hnil).1
    have hm0 : moved = [] := (List.append_eq_nil.mp hnil).2
    have hdisp : dispatch (guarded.drainArrived s) =
        { guarded.drainArrived s with mTimeCounter := (guarded.drainArrived s).mTimeCounter + 1 } := by
      unfold dispatch
      rw [hd]
      simp only [htop]
    rw [hdisp, hd]
    refine ⟨tick.Step.idle _ _ ?_ ?_ ?_ ?_ rfl rfl rfl, hq⟩
    · simp [abs, hr0]
    · intro q hq'
      simp only [abs, List.head?_map] at hq'
      rw [h1, hm0, List.nil_append] at hq'
      cases hf : rest.head? with
      | none => rw [hf] at hq'; cases hq'
      | some f =>
        rw [hf] at hq'
        simp only [Option.map_some', Option.some.injEq] at hq'
        subst hq'
        have hne := h4 f hf
        have hge := hlate f (by
          rw [h1, hm0, List.nil_append]
          exact List.mem_of_mem_head? hf)
        show s.mTimeCounter < f.arrivalTime
        omega
    · simp only [abs]
      rw [h1, hm0, List.nil_append]
    · simp [abs]
  | some cur =>
    obtain ⟨hheap4, hperm4⟩ :=
      stdlib.pqPop_spec key TempBurstTimeCompare srtf_comp_key run3 cur h5 htop
    have hcur : cur ∈ s.mRunningProcessList ++ moved :=
      h2.subset (hperm4.subset (List.mem_cons_self _ _))
    have hc1 : 1 ≤ cur.tempBurstTime := by
      obtain ⟨w1, w2, -, -, -⟩ := hw
      rcases List.mem_append.mp hcur with hm | hm
      · exact (w2 (view cur) (List.mem_map_of_mem _ hm)).1
      · have := w1 (view cur) (List.mem_map_of_mem _ (by
          rw [h1]
          exact List.mem_append_left _ hm))
        have e1 : (view cur).tempBurstTime = cur.tempBurstTime := rfl
        have e2 : (view cur).burstTime = cur.burstTime := rfl
        omega
    have hq1 : (guarded.drainArrived s).mTimeQuantum = 1 := by rw [hd]; exact hq
    obtain ⟨d1, d2, d3, d4, d5⟩ := srtf_dispatch_view (guarded.drainArrived s) cur
      (by rw [hd]; exact htop) hq1 hc1
    have ht : (guarded.drainArrived s).mTimeCounter = s.mTimeCounter := by rw [hd]
    have hg : (guarded.drainArrived s).mGantChart = s.mGantChart := by rw [hd]
    have hf : (guarded.drainArrived s).mFinishedProcesses = s.mFinishedProcesses := by rw [hd]
    have hpl : (guarded.drainArrived s).mProcessList = rest := by rw [hd]
    have hrl : (guarded.drainArrived s).mRunningProcessList = run3 := by rw [hd]
    rw [ht] at d1 d2 d5
    rw [hg] at d2
    rw [hf, hrl] at d5
    rw [hpl] at d3
    refine ⟨tick.Step.run _ _ (moved.map view) (rest.map view) (view cur)
      ((stdlib.pqPop TempBurstTimeCompare run3).map view)
      [] (rest.map view) ?_ ?_ ?_ (by simp) (by simp) ?_ ?_ ?_ ?_, d4⟩
    · simp only [abs]
      rw [h1, List.map_append]
    · intro q hq'
      obtain ⟨p, hp, rfl⟩ := List.mem_map.mp hq'
      exact le_of_eq (h3 p hp)
    · have e : (abs s).ready ++ moved.map view =
          (s.mRunningProcessList ++ moved).map view := by
        simp only [abs]
        rw [← List.map_append]
      rw [e, ← List.map_cons]
      exact List.Perm.map _ (h2.symm.trans hperm4.symm)
    · simp only [abs]
      rw [d3]
    · simp only [abs]
      rw [d2]
      rfl
    · simp only [abs]
      rw [d1]
    · simp only [abs, List.append_nil]
      rcases d5 with ⟨hz, e1, e2⟩ | ⟨hz, e1, cur2, e2, e3⟩
      · exact Or.inl ⟨hz, e1, by rw [e2]⟩
      · refine Or.inr ⟨hz, by rw [e1], ?_⟩
        rw [e3, ← e2, ← List.map_cons]
        exact List.Perm.map _
          (stdlib.pqPush_spec key TempBurstTimeCompare srtf_comp_key _ cur2 hheap4).2

/-- The views of the states of a run of the SRTF loop form a run of the common
loop. -/
theorem srtf_run (processes : List Process) : ∀ (n : Nat) (s : SRTF), Reach processes s →
    s.mTimeQuantum = 1 → tick.Work (abs s) →
    Relation.ReflTransGen tick.Step (abs s) (abs (guarded.steps n s)) ∧
      (guarded.steps n s).mTimeQuantum = 1 := by
  intro n
  induction n with
  | zero => intro s _ hq _; exact ⟨Relation.ReflTransGen.refl, hq⟩
  | succ n ih =>
    intro s hr hq hw
    unfold guarded.steps
    by_cases hc : loopCond s = true
    · rw [if_pos hc]
      obtain ⟨r1, r2⟩ := srtf_refines processes s hr hq hw
      obtain ⟨i1, i2⟩ := ih _ (srtf_reach_loopBody processes s hr) r2
        (tick.tick_step_work _ _ r1 hw)
      exact ⟨Relation.ReflTransGen.head r1 i1, i2⟩
    · rw [if_neg hc]
      exact ⟨Relation.ReflTransGen.refl, hq⟩

theorem srtf_loopCond (s : SRTF) :
    loopCond s = true ↔ (abs s).ready ++ (abs s).queue ≠ [] := by
  unfold loopCond abs
  cases h1 : s.mProcessList <;> cases h2 : s.mRunningProcessList <;> simp

/-- The guarded loop of SRTF ends within `potential` iterations. -/
theorem srtf_terminates (processes : List Process) : ∀ (n : Nat) (s : SRTF),
    Reach processes s → s.mTimeQuantum = 1 →
    tick.Work (abs s) → tick.potential (abs s) ≤ (n : Int) →
    loopCond (guarded.steps n s) = false := by
  intro n
  induction n with
  | zero =>
    intro s _ _ hw hp
    by_cases hc : loopCond s = true
    · have h1 := tick.tick_remaining_pos _ hw ((srtf_loopCond s).mp hc)
      have h2 := tick.tick_gap_nonneg (abs s).t (abs s).queue
      unfold tick.potential at hp
      simp only [Nat.cast_zero] at hp
      omega
    · simpa [guarded.steps] using hc
  | succ n ih =>
    intro s hr hq hw hp
    unfold guarded.steps
    by_cases hc : loopCond s = true
    · rw [if_pos hc]
      obtain ⟨r1, r2⟩ := srtf_refines processes s hr hq hw
      have h1 := tick.tick_step_potential _ _ r1 hw ((srtf_loopCond s).mp hc)
      apply ih _ (srtf_reach_loopBody processes s hr) r2 (tick.tick_step_work _ _ r1 hw)
      push_cast at hp
      omega
    · rw [if_neg hc]
      simpa using hc

theorem srtf_sort_perm (l : List Process) : (sortProcesses l).Perm l :=
  List.perm_insertionSort _ _

theorem srtf_ctor_conserved (processes : List Process) :
    tick.Conserved (processes.map (fun p => (p.pid, p.arrivalTime, p.burstTime)))
      (abs (SRTF.ctor processes)) := by
  have h := tick.tick_init_conserved (abs (SRTF.ctor processes)) rfl rfl
  apply tick.tick_conserved_perm _ _ _ h
  show (((sortProcesses processes).map view).map tick.core).Perm _
  rw [List.map_map]
  exact List.Perm.map _ (srtf_sort_perm processes)

theorem srtf_ctor_work (processes : List Process)
    (hwf : ∀ p ∈ processes, p.tempBurstTime = p.burstTime ∧ 1 ≤ p.burstTime) :
    tick.Work (abs (SRTF.ctor processes)) := by
  apply tick.tick_init_work _ rfl rfl rfl
  intro q hq
  obtain ⟨p, hp, rfl⟩ := List.mem_map.mp hq
  exact hwf p ((List.Perm.mem_iff (srtf_sort_perm processes)).mp hp)

/-- The loop ends and `scheduleProcess` returns, for every fuel from `potential`
on; the state it returns is the final state with the report members filled in. -/
theorem srtf_returns (processes : List Process)
    (harr : ∀ p ∈ processes, 0 ≤ p.arrivalTime)
    (hwf : ∀ p ∈ processes, p.tempBurstTime = p.burstTime ∧ 1 ≤ p.burstTime)
    (fuel : Nat)
    (hfuel : (tick.potential (abs (SRTF.ctor processes))).toNat ≤ fuel) :
    loopCond (guarded.steps fuel (SRTF.ctor processes)) = false ∧
    guarded.scheduleProcess fuel (SRTF.ctor processes) =
      some { guarded.steps fuel (SRTF.ctor processes) with
        mFinishedProcesses :=
          (guarded.steps fuel (SRTF.ctor processes)).mFinishedProcesses.map finalize } := by
  have hc := srtf_terminates processes fuel (SRTF.ctor processes)
    (srtf_reach_ctor processes harr) rfl (srtf_ctor_work processes hwf) (by omega)
  refine ⟨hc, ?_⟩
  unfold guarded.scheduleProcess
  simp [hc]

end srtf

namespace srtf

theorem srtf_input_ids (processes : List Process) :
    (processes.map (fun p => (p.pid, p.arrivalTime, p.burstTime))).map Prod.fst =
      processes.map (fun p => p.pid) := by
  rw [List.map_map]
  rfl

theorem srtf_finalize_view (p : Process) : view (finalize p) = view p := rfl

/-- The result of the routine with the guarded loop on a list of processes with
`tempBurstTime = burstTime ≥ 1` and no negative arrival time. -/
theorem srtf_final (processes : List Process)
    (harr : ∀ p ∈ processes, 0 ≤ p.arrivalTime)
    (hwf : ∀ p ∈ processes, p.tempBurstTime = p.burstTime ∧ 1 ≤ p.burstTime)
    (fuel : Nat)
    (hfuel : (tick.potential (abs (SRTF.ctor processes))).toNat ≤ fuel) :
    ∃ r, guarded.scheduleProcess fuel (SRTF.ctor processes) = some r ∧
      (r.mFinishedProcesses.map (fun p => (p.pid, p.arrivalTime, p.burstTime))).Perm
        (processes.map (fun p => (p.pid, p.arrivalTime, p.burstTime))) ∧
      (∀ p ∈ r.mFinishedProcesses, p.tempBurstTime = 0 ∧
        p.arrivalTime + p.burstTime ≤ p.finishingTime ∧
        p.turnAroundTime = p.finishingTime - p.arrivalTime ∧
        p.waitingTime = p.turnAroundTime - p.burstTime) ∧
      ((processes.map (fun p => p.pid)).Nodup →
        (∀ p ∈ processes, ((r.mGantChart.map Prod.fst).count p.pid : Int) = p.burstTime) ∧
        (∀ p ∈ r.mFinishedProcesses, (p.pid, p.finishingTime - 1) ∈ r.mGantChart ∧
          ∀ e ∈ r.mGantChart, e.1 = p.pid → e.2 < p.finishingTime)) := by
  obtain ⟨hc, hsp⟩ := srtf_returns processes harr hwf fuel hfuel
  obtain ⟨hrun, -⟩ := srtf_run processes fuel (SRTF.ctor processes)
    (srtf_reach_ctor processes harr) rfl (srtf_ctor_work processes hwf)
  have hnil : (abs (guarded.steps fuel (SRTF.ctor processes))).ready ++
      (abs (guarded.steps fuel (SRTF.ctor processes))).queue = [] := by
    by_contra hne
    rw [(srtf_loopCond _).mpr hne] at hc
    cases hc
  obtain ⟨f1, f2, f3⟩ := tick.tick_final _ _ _ hrun (srtf_ctor_conserved processes)
    (srtf_ctor_work processes hwf) (tick.tick_init_last _ rfl)
    (List.append_eq_nil.mp hnil).1 (List.append_eq_nil.mp hnil).2
  refine ⟨_, hsp, ?_, ?_, ?_⟩
  · simp only [List.map_map]
    have e : (abs (guarded.steps fuel (SRTF.ctor processes))).finished.map tick.core =
        (guarded.steps fuel (SRTF.ctor processes)).mFinishedProcesses.map
          ((fun p => (p.pid, p.arrivalTime, p.burstTime)) ∘ finalize) := by
      simp only [abs, List.map_map]
      rfl
    rw [← e]
    exact f1
  · intro p hp
    obtain ⟨q, hq, rfl⟩ := List.mem_map.mp hp
    obtain ⟨g1, g2⟩ := f2 (view q) (List.mem_map_of_mem _ hq)
    exact ⟨g1, g2, rfl, rfl⟩
  · intro hnd
    obtain ⟨g1, g2⟩ := f3 (by rw [srtf_input_ids]; exact hnd)
    refine ⟨?_, ?_⟩
    · intro p hp
      exact g1 _ (List.mem_map_of_mem (fun p => (p.pid, p.arrivalTime, p.burstTime)) hp)
    · intro p hp
      obtain ⟨q, hq, rfl⟩ := List.mem_map.mp hp
      exact g2 (view q) (List.mem_map_of_mem _ hq)

end srtf

/-! ## The bucketed priority engine: the class `RunningProcess` -/

namespace round_robin_priority

theorem rrp_flatten_replicate (L : List (List Process)) (k : Nat) :
    (L ++ List.replicate k []).flatten = L.flatten := by
  induction k with
  | zero => simp
  | succ k ih =>
    rw [List.replicate_succ', ← List.append_assoc, List.flatten_append, ih]
    simp

theorem rrp_flatten_set (x : Process) : ∀ (L : List (List Process)) (n : Nat),
    n < L.length → (L.set n (L.getD n [] ++ [x])).flatten.Perm (L.flatten ++ [x]) := by
  intro L
  induction L with
  | nil => intro n hn; simp at hn
  | cons b L ih =>
    intro n hn
    cases n with
    | zero =>
      simp only [List.set_cons_zero, List.getD_cons_zero, List.flatten_cons,
        List.append_assoc]
      exact List.Perm.append_left _ List.perm_append_comm
    | succ n =>
      simp only [List.set_cons_succ, List.getD_cons_succ, List.flatten_cons,
        List.append_assoc]
      exact List.Perm.append_left _ (ih n (by simpa using hn))

/-- The buckets after `addProcess`, by index. -/
theorem rrp_getD_set (L : List (List Process)) (n : Nat) (hn : n < L.length)
    (b : List Process) (j : Nat) :
    (L.set n b).getD j [] = if j = n then b else L.getD j [] := by
  rw [List.getD_eq_getElem?_getD, List.getD_eq_getElem?_getD, List.getElem?_set]
  by_cases h : n = j
  · subst h
    simp [hn]
  · have h2 : ¬ j = n := fun e => h e.symm
    simp [h, h2]

theorem rrp_getD_pad (L : List (List Process)) (k j : Nat) :
    (L ++ List.replicate k []).getD j [] = L.getD j [] := by
  rw [List.getD_eq_getElem?_getD, List.getD_eq_getElem?_getD]
  by_cases h : j < L.length
  · rw [List.getElem?_append_left h]
  · have h1 : L[j]? = none := List.getElem?_eq_none (by omega)
    rw [List.getElem?_append_right (by omega), h1, List.getElem?_replicate]
    split <;> rfl

/-- The first part of `Wf`, with `getD`. -/
theorem rrp_indexed_iff (L : List (List Process)) :
    (∀ (j : Nat) (q : List Process) (p : Process),
      L[j]? = some q → p ∈ q → p.priority = (j : Int)) ↔
    (∀ (j : Nat) (p : Process), p ∈ L.getD j [] → p.priority = (j : Int)) := by
  constructor
  · intro h j p hp
    rw [List.getD_eq_getElem?_getD] at hp
    cases hj : L[j]? with
    | none => rw [hj] at hp; cases hp
    | some q =>
      rw [hj] at hp
      exact h j q p hj hp
  · intro h j q p hj hp
    apply h j p
    rw [List.getD_eq_getElem?_getD, hj]
    exact hp

/-- Method `addProcess` with a priority that is not negative: it returns, the
process goes to the back of the queue of its priority, every other queue is
unchanged, and the count grows by one. -/
theorem rrp_addProcess_spec (r : RunningProcess) (p : Process) (hp : 0 ≤ p.priority) :
    ∃ r2, r.addProcess p = some (r2, r.processCount + 1) ∧
      r2.processCount = r.processCount + 1 ∧
      (∀ j, r2.mProcessList.getD j [] =
        if j = p.priority.toNat then r.mProcessList.getD j [] ++ [p]
        else r.mProcessList.getD j []) ∧
      r2.stored.Perm (r.stored ++ [p]) := by
  have hlt : ¬ p.priority < 0 := by omega
  have hlen : p.priority.toNat <
      (r.mProcessList ++ List.replicate
        (p.priority.toNat + 1 - r.mProcessList.length) []).length := by
    simp only [List.length_append, List.length_replicate]
    omega
  refine ⟨RunningProcess.mk
      ((r.mProcessList ++ List.replicate
        (p.priority.toNat + 1 - r.mProcessList.length) []).set p.priority.toNat
        ((r.mProcessList ++ List.replicate
          (p.priority.toNat + 1 - r.mProcessList.length) []).getD p.priority.toNat [] ++ [p]))
      (r.processCount + 1),
    by simp only [RunningProcess.addProcess, hlt, if_false], rfl, ?_, ?_⟩
  · intro j
    simp only
    rw [rrp_getD_set _ _ hlen, rrp_getD_pad, rrp_getD_pad]
    by_cases hj : j = p.priority.toNat
    · rw [if_pos hj, if_pos hj, hj]
    · rw [if_neg hj, if_neg hj]
  · unfold RunningProcess.stored
    simp only
    refine (rrp_flatten_set p _ _ hlen).trans ?_
    rw [rrp_flatten_replicate]

/-- Method `addProcess` keeps `Wf`. -/
theorem rrp_addProcess_wf (r r2 : RunningProcess) (p : Process) (k : Int)
    (hp : 0 ≤ p.priority) (hwf : r.Wf) (h : r.addProcess p = some (r2, k)) : r2.Wf := by
  obtain ⟨r3, h1, h2, h3, h4⟩ := rrp_addProcess_spec r p hp
  rw [h1] at h
  simp only [Option.some.injEq, Prod.mk.injEq] at h
  obtain ⟨rfl, -⟩ := h
  obtain ⟨w1, w2⟩ := hwf
  refine ⟨(rrp_indexed_iff _).mpr ?_, ?_⟩
  · intro j x hx
    rw [h3 j] at hx
    by_cases hj : j = p.priority.toNat
    · rw [if_pos hj] at hx
      rcases List.mem_append.mp hx with hx | hx
      · exact (rrp_indexed_iff _).mp w1 j x hx
      · simp only [List.mem_singleton] at hx
        subst hx
        rw [hj]
        omega
    · rw [if_neg hj] at hx
      exact (rrp_indexed_iff _).mp w1 j x hx
  · rw [h2, w2, h4.length_eq]
    simp

/-- The loop of `getProcess` on queues that are not all empty: it finds the first
queue `k` that is not empty, returns its front and leaves every other queue and the
rest of queue `k` as they are; the returned process is the first of the stored
processes. -/
theorem rrp_getProcessLoop_spec : ∀ (L : List (List Process)), L.flatten ≠ [] →
    ∃ (k : Nat) (p : Process) (ps : List Process), L[k]? = some (p :: ps) ∧
      (∀ j, j < k → L[j]? = some []) ∧
      getProcessLoop L = some (p, L.set k ps) ∧
      L.flatten = p :: (L.set k ps).flatten := by
  intro L
  induction L with
  | nil => intro h; exact absurd rfl h
  | cons b L ih =>
    intro h
    cases b with
    | nil =>
      obtain ⟨k, p, ps, h1, h2, h3, h4⟩ := ih (by simpa using h)
      refine ⟨k + 1, p, ps, by simpa using h1, ?_, ?_, ?_⟩
      · intro j hj
        cases j with
        | zero => simp
        | succ j => simpa using h2 j (by omega)
      · simp [getProcessLoop, h3]
      · simpa using h4
    | cons p ps =>
      exact ⟨0, p, ps, by simp, by intro j hj; omega, rfl, rfl⟩

end round_robin_priority

namespace round_robin_priority

theorem rrp_wf_ctor : RunningProcess.ctor.Wf := by
  refine ⟨?_, rfl⟩
  intro j q p hq
  simp [RunningProcess.ctor] at hq

theorem rrp_empty_iff (r : RunningProcess) (hwf : r.Wf) :
    r.empty = true ↔ r.stored = [] := by
  unfold RunningProcess.empty
  rw [decide_eq_true_eq, hwf.2]
  constructor
  · intro h
    exact List.length_eq_zero.mp (by exact_mod_cast h)
  · intro h
    rw [h]
    rfl

/-- Method `getProcess` on a structure that stores a process: the first queue `k`
that is not empty loses its front `p`, which is returned; nothing else changes
apart from the count.  `p` is the first of the stored processes and its priority
is `k`. -/
theorem rrp_getProcess_spec (r : RunningProcess) (hwf : r.Wf) (hne : r.stored ≠ []) :
    ∃ (k : Nat) (p : Process) (ps : List Process),
      r.mProcessList[k]? = some (p :: ps) ∧
      (∀ j, j < k → r.mProcessList[j]? = some []) ∧
      r.getProcess = (p, RunningProcess.mk (r.mProcessList.set k ps) (r.processCount - 1)) ∧
      r.stored = p :: r.getProcess.2.stored ∧
      r.getProcess.2.Wf ∧
      p.priority = (k : Int) := by
  obtain ⟨k, p, ps, h1, h2, h3, h4⟩ := rrp_getProcessLoop_spec r.mProcessList hne
  have hg : r.getProcess =
      (p, RunningProcess.mk (r.mProcessList.set k ps) (r.processCount - 1)) := by
    unfold RunningProcess.getProcess
    rw [h3]
  refine ⟨k, p, ps, h1, h2, hg, ?_, ?_, hwf.1 k _ p h1 (List.mem_cons_self _ _)⟩
  · rw [hg]
    exact h4
  · rw [hg]
    refine ⟨?_, ?_⟩
    · intro j q x hq hx
      simp only at hq
      rw [List.getElem?_set] at hq
      by_cases hkj : k = j
      · subst hkj
        rw [if_pos rfl] at hq
        split at hq
        · simp only [Option.some.injEq] at hq
          subst hq
          exact hwf.1 k _ x h1 (List.mem_cons_of_mem _ hx)
        · cases hq
      · rw [if_neg hkj] at hq
        exact hwf.1 j q x hq hx
    · show r.processCount - 1 = (((r.mProcessList.set k ps).flatten.length : Nat) : Int)
      have hl : r.stored.length = (r.mProcessList.set k ps).flatten.length + 1 := by
        unfold RunningProcess.stored
        rw [h4]
        rfl
      have h5 := hwf.2
      rw [hl] at h5
      push_cast at h5
      omega

/-- The inner loop of the bucketed `PriorityPreemptive::scheduleProcess`, when no
queued process has a negative priority: it returns, having moved a front part of
the process queue, all of it arrived, into the running structure; the process left
in front of the queue has not arrived. -/
theorem rrp_drain_spec (t : Int) : ∀ (queue : List Process) (running : RunningProcess),
    running.Wf → (∀ p ∈ queue, 0 ≤ p.priority) →
    ∃ run3 rest moved, drain t running queue = some (run3, rest) ∧
      queue = moved ++ rest ∧
      run3.stored.Perm (running.stored ++ moved) ∧ run3.Wf ∧
      (∀ q ∈ moved, q.arrivalTime ≤ t) ∧
      (∀ q, rest.head? = some q → t < q.arrivalTime) := by
  intro queue
  induction queue with
  | nil =>
    intro running hwf _
    exact ⟨running, [], [], rfl, rfl, by simp, hwf, by simp, by simp⟩
  | cons p rest ih =>
    intro running hwf hpr
    by_cases hp : t ≥ p.arrivalTime
    · obtain ⟨r2, a1, -, -, a4⟩ :=
        rrp_addProcess_spec running p (hpr p (List.mem_cons_self _ _))
      have hwf2 := rrp_addProcess_wf running r2 p _ (hpr p (List.mem_cons_self _ _)) hwf a1
      obtain ⟨run3, rest2, moved, b1, b2, b3, b4, b5, b6⟩ :=
        ih r2 hwf2 (fun q hq => hpr q (List.mem_cons_of_mem _ hq))
      refine ⟨run3, rest2, p :: moved, ?_, by rw [List.cons_append, ← b2], ?_, b4, ?_, b6⟩
      · simp only [drain, hp, if_true, a1, Option.bind_some]
        exact b1
      · refine b3.trans ((a4.append_right moved).trans ?_)
        simp
      · intro q hq
        rcases List.mem_cons.mp hq with rfl | hq
        · exact hp
        · exact b5 q hq
    · refine ⟨running, p :: rest, [], by simp [drain, hp], rfl, by simp, hwf, by simp, ?_⟩
      intro q hq
      simp only [List.head?_cons, Option.some.injEq] at hq
      subst hq
      omega

/-- The loop that runs before a preempted process is stored again, when no queued
process has a negative priority: it returns, having moved a front part of the
process queue into the running structure; a moved process has arrived by the last
value of the loop variable. -/
theorem rrp_drainDuring_spec : ∀ (n : Nat) (i : Int) (running : RunningProcess)
    (queue : List Process), running.Wf → (∀ p ∈ queue, 0 ≤ p.priority) →
    ∃ run3 rest moved, drainDuring n i running queue = some (run3, rest) ∧
      queue = moved ++ rest ∧
      run3.stored.Perm (running.stored ++ moved) ∧ run3.Wf ∧
      (∀ q ∈ moved, q.arrivalTime < i + (n : Int)) := by
  intro n
  induction n with
  | zero =>
    intro i running queue hwf _
    exact ⟨running, queue, [], rfl, rfl, by simp, hwf, by simp⟩
  | succ n ih =>
    intro i running queue hwf hpr
    cases queue with
    | nil =>
      obtain ⟨run3, rest2, moved, b1, b2, b3, b4, b5⟩ := ih (i + 1) running [] hwf hpr
      refine ⟨run3, rest2, moved, by simp only [drainDuring]; exact b1, b2, b3, b4, ?_⟩
      intro q hq
      have := b5 q hq
      push_cast
      omega
    | cons p rest =>
      by_cases hp : i ≥ p.arrivalTime
      · obtain ⟨r2, a1, -, -, a4⟩ :=
          rrp_addProcess_spec running p (hpr p (List.mem_cons_self _ _))
        have hwf2 :=
          rrp_addProcess_wf running r2 p _ (hpr p (List.mem_cons_self _ _)) hwf a1
        obtain ⟨run3, rest2, moved, b1, b2, b3, b4, b5⟩ :=
          ih (i + 1) r2 rest hwf2 (fun q hq => hpr q (List.mem_cons_of_mem _ hq))
        refine ⟨run3, rest2, p :: moved, ?_, by rw [List.cons_append, ← b2], ?_, b4, ?_⟩
        · simp only [drainDuring, hp, if_true, a1, Option.bind_some]
          exact b1
        · refine b3.trans ((a4.append_right moved).trans ?_)
          simp
        · intro q hq
          push_cast
          rcases List.mem_cons.mp hq with rfl | hq
          · omega
          · have := b5 q hq
            omega
      · obtain ⟨run3, rest2, moved, b1, b2, b3, b4, b5⟩ :=
          ih (i + 1) running (p :: rest) hwf hpr
        refine ⟨run3, rest2, moved, ?_, b2, b3, b4, ?_⟩
        · simp only [drainDuring, hp, if_false]
          exact b1
        · intro q hq
          have := b5 q hq
          push_cast
          omega

end round_robin_priority

/-! ## The bucketed priority engine as an instance of the common loop -/

namespace round_robin_priority

/-- The non-idle branch of the dispatch with time quantum 1, in terms of the
process `cur2` after its time slice and the clock `t2` after it. -/
theorem rrp_dispatch_eq (s : PriorityPreemptive)
    (hempty : s.mRunningProcessList.empty = false) (hq : s.mTimeQuantum = 1) :
    ∃ (cur2 : Process) (t2 : Int),
      view cur2 = (tick.slice s.mTimeCounter (view s.mRunningProcessList.getProcess.1)).1 ∧
      t2 = (tick.slice s.mTimeCounter (view s.mRunningProcessList.getProcess.1)).2 ∧
      cur2.priority = s.mRunningProcessList.getProcess.1.priority ∧
      dispatch s =
        if cur2.tempBurstTime = 0 then
          some { s with
            mRunningProcessList := s.mRunningProcessList.getProcess.2
            mGantChart := s.mGantChart ++
              [(s.mRunningProcessList.getProcess.1.pid, s.mTimeCounter)]
            mTimeCounter := t2
            mFinishedProcesses := s.mFinishedProcesses ++ [{ cur2 with finishingTime := t2 }] }
        else
          (drainDuring 2 (t2 - 1) s.mRunningProcessList.getProcess.2 s.mProcessList).bind
            (fun x => (x.1.addProcess cur2).map
              (fun y => { s with
                mRunningProcessList := y.1
                mProcessList := x.2
                mGantChart := s.mGantChart ++
                  [(s.mRunningProcessList.getProcess.1.pid, s.mTimeCounter)]
                mTimeCounter := t2 })) := by
  unfold dispatch tick.slice
  simp only [hempty, hq]
  generalize s.mRunningProcessList.getProcess = g
  obtain ⟨p, g2⟩ := g
  by_cases hinit : p.init = false
  · by_cases hlt : p.tempBurstTime < 1
    · refine ⟨{ p with startingTime := s.mTimeCounter, init := true, tempBurstTime := 0 },
        s.mTimeCounter + p.tempBurstTime, ?_, ?_, rfl, ?_⟩ <;>
      simp [view, hinit, hlt]
    · refine ⟨{ p with startingTime := s.mTimeCounter, init := true,
                       tempBurstTime := p.tempBurstTime - 1 },
        s.mTimeCounter + 1, ?_, ?_, rfl, ?_⟩ <;>
      simp [view, hinit, hlt]
  · by_cases hlt : p.tempBurstTime < 1
    · refine ⟨{ p with tempBurstTime := 0 },
        s.mTimeCounter + p.tempBurstTime, ?_, ?_, rfl, ?_⟩ <;>
      simp [view, hinit, hlt]
    · refine ⟨{ p with tempBurstTime := p.tempBurstTime - 1 },
        s.mTimeCounter + 1, ?_, ?_, rfl, ?_⟩ <;>
      simp [view, hinit, hlt]

end round_robin_priority

namespace round_robin_priority

theorem rrp_view_finishing (p : Process) (t : Int) :
    view { p with finishingTime := t } = { view p with finishingTime := t } := rfl

/-- One iteration of the loop of the bucketed `PriorityPreemptive::scheduleProcess`,
when no queued process has a negative priority: it returns, it is a step of the
common loop, and it keeps `Inv`. -/
theorem rrp_refines (s : PriorityPreemptive) (hinv : Inv s) :
    ∃ s2, loopBody s = some s2 ∧ tick.Step (abs s) (abs s2) ∧ Inv s2 := by
  obtain ⟨hwf, hpr, hsorted, hq⟩ := hinv
  obtain ⟨run3, rest, moved, a1, a2, a3, a4, a5, a6⟩ :=
    rrp_drain_spec s.mTimeCounter s.mProcessList s.mRunningProcessList hwf hpr
  have hda : drainArrived s =
      some { s with mRunningProcessList := run3, mProcessList := rest } := by
    unfold drainArrived
    rw [a1]
    rfl
  have hpr1 : ∀ p ∈ rest, 0 ≤ p.priority := by
    intro p hp
    exact hpr p (by rw [a2]; exact List.mem_append_right _ hp)
  have hsorted1 : rest.Pairwise (fun a b => a.arrivalTime ≤ b.arrivalTime) := by
    rw [a2] at hsorted
    exact (List.pairwise_append.mp hsorted).2.1
  unfold loopBody
  rw [hda, Option.some_bind]
  by_cases hst : run3.stored = []
  · have hempty : run3.empty = true := (rrp_empty_iff run3 a4).mpr hst
    have hnil : s.mRunningProcessList.stored ++ moved = [] := by
      rw [hst] at a3
      exact List.Perm.eq_nil a3.symm
    have hr0 : s.mRunningProcessList.stored = [] := (List.append_eq_nil.mp hnil).1
    have hm0 : moved = [] := (List.append_eq_nil.mp hnil).2
    refine ⟨{ s with
        mRunningProcessList := run3
        mProcessList := rest
        mTimeCounter := s.mTimeCounter + 1 }, ?_, ?_, ⟨a4, hpr1, hsorted1, hq⟩⟩
    · unfold dispatch
      simp only [hempty, if_true, hq]
    · refine tick.Step.idle _ _ ?_ ?_ ?_ ?_ rfl rfl rfl
      · simp [abs, hr0]
      · intro q hq'
        simp only [abs, List.head?_map] at hq'
        rw [a2, hm0, List.nil_append] at hq'
        cases hf : rest.head? with
        | none => rw [hf] at hq'; cases hq'
        | some f =>
          rw [hf] at hq'
          simp only [Option.map_some', Option.some.injEq] at hq'
          subst hq'
          exact a6 f hf
      · simp only [abs]
        rw [a2, hm0, List.nil_append]
      · simp [abs, hst]
  · have hempty : run3.empty = false := by
      cases he : run3.empty with
      | false => rfl
      | true => exact absurd ((rrp_empty_iff _ a4).mp he) hst
    obtain ⟨k, p, ps, -, -, g3, g4, g5, g6⟩ := rrp_getProcess_spec run3 a4 hst
    obtain ⟨cur2, t2, v1, v2, v3, hd⟩ := rrp_dispatch_eq
      { s with mRunningProcessList := run3, mProcessList := rest } hempty hq
    simp only at v1 v2 v3 hd
    have hg1 : run3.getProcess.1 = p := by rw [g3]
    rw [hg1] at v1 v2 v3 hd
    generalize run3.getProcess.2 = g at g4 g5 hd
    have hperm1 : ((abs s).ready ++ moved.map view).Perm (view p :: g.stored.map view) := by
      have e : (abs s).ready ++ moved.map view =
          (s.mRunningProcessList.stored ++ moved).map view := by
        simp only [abs]
        rw [← List.map_append]
      rw [e, ← List.map_cons, ← g4]
      exact List.Perm.map _ a3.symm
    have hmoved : ∀ q ∈ moved.map view, q.arrivalTime ≤ (abs s).t := by
      intro q hq'
      obtain ⟨x, hx, rfl⟩ := List.mem_map.mp hq'
      exact a5 x hx
    have hqueue : (abs s).queue = moved.map view ++ rest.map view := by
      simp only [abs]
      rw [a2, List.map_append]
    by_cases hz : cur2.tempBurstTime = 0
    · rw [if_pos hz] at hd
      refine ⟨_, hd, ?_, ⟨g5, hpr1, hsorted1, hq⟩⟩
      refine tick.Step.run _ _ (moved.map view) (rest.map view) (view p)
        (g.stored.map view) [] (rest.map view) hqueue hmoved hperm1 (by simp) (by simp)
        rfl rfl ?_ ?_
      · simp only [abs]
        exact v2
      · refine Or.inl ⟨?_, ?_, ?_⟩
        · show (tick.slice s.mTimeCounter (view p)).1.tempBurstTime = 0
          rw [← v1]
          exact hz
        · show (s.mFinishedProcesses ++ [{ cur2 with finishingTime := t2 }]).map view =
            s.mFinishedProcesses.map view ++
              [tick.finish (tick.slice s.mTimeCounter (view p))]
          rw [List.map_append, List.map_cons, List.map_nil, rrp_view_finishing, v1, v2]
          rfl
        · simp [abs]
    · rw [if_neg hz] at hd
      obtain ⟨run4, rest2, moved2, b1, b2, b3, b4, b5⟩ :=
        rrp_drainDuring_spec 2 (t2 - 1) g rest g5 hpr1
      have hc2 : 0 ≤ cur2.priority := by
        rw [v3, g6]
        exact Int.natCast_nonneg k
      obtain ⟨r5, c1, -, -, c4⟩ := rrp_addProcess_spec run4 cur2 hc2
      have hwf5 := rrp_addProcess_wf run4 r5 cur2 _ hc2 b4 c1
      rw [b1, Option.some_bind, c1, Option.map_some'] at hd
      simp only at hd
      have hpr2 : ∀ x ∈ rest2, 0 ≤ x.priority := by
        intro x hx
        exact hpr1 x (by rw [b2]; exact List.mem_append_right _ hx)
      have hsorted2 : rest2.Pairwise (fun a b => a.arrivalTime ≤ b.arrivalTime) := by
        rw [b2] at hsorted1
        exact (List.pairwise_append.mp hsorted1).2.1
      refine ⟨_, hd, ?_, ⟨hwf5, hpr2, hsorted2, hq⟩⟩
      refine tick.Step.run _ _ (moved.map view) (rest.map view) (view p)
        (g.stored.map view) (moved2.map view) (rest2.map view) hqueue hmoved hperm1
        (by rw [b2, List.map_append]) ?_ rfl rfl ?_ ?_
      · intro q hq'
        obtain ⟨x, hx, rfl⟩ := List.mem_map.mp hq'
        have := b5 x hx
        have e : (abs s).t = s.mTimeCounter := rfl
        rw [e, ← v2]
        show x.arrivalTime ≤ t2
        push_cast at this
        omega
      · simp only [abs]
        exact v2
      · refine Or.inr ⟨?_, rfl, ?_⟩
        · show (tick.slice s.mTimeCounter (view p)).1.tempBurstTime ≠ 0
          rw [← v1]
          exact hz
        · show (r5.stored.map view).Perm
            ((tick.slice s.mTimeCounter (view p)).1 ::
              (g.stored.map view ++ moved2.map view))
          rw [← v1, ← List.map_append, ← List.map_cons]
          refine List.Perm.map _ (c4.trans ?_)
          refine (List.perm_append_singleton _ _).trans ?_
          exact List.Perm.cons _ b3

end round_robin_priority

namespace round_robin_priority

/-- The loop of the bucketed engine returns after any number of iterations when no
queued process has a negative priority, and the views of its states form a run of
the common loop. -/
theorem rrp_run : ∀ (n : Nat) (s : PriorityPreemptive), Inv s →
    ∃ s2, steps n s = some s2 ∧
      Relation.ReflTransGen tick.Step (abs s) (abs s2) ∧ Inv s2 := by
  intro n
  induction n with
  | zero => intro s hinv; exact ⟨s, rfl, Relation.ReflTransGen.refl, hinv⟩
  | succ n ih =>
    intro s hinv
    unfold steps
    by_cases hc : loopCond s = true
    · rw [if_pos hc]
      obtain ⟨s1, r1, r2, r3⟩ := rrp_refines s hinv
      obtain ⟨s2, i1, i2, i3⟩ := ih s1 r3
      refine ⟨s2, ?_, Relation.ReflTransGen.head r2 i2, i3⟩
      rw [r1, Option.some_bind]
      exact i1
    · rw [if_neg hc]
      exact ⟨s, rfl, Relation.ReflTransGen.refl, hinv⟩

theorem rrp_loopCond (s : PriorityPreemptive) (hwf : s.mRunningProcessList.Wf) :
    loopCond s = true ↔ (abs s).ready ++ (abs s).queue ≠ [] := by
  unfold loopCond abs
  cases he : s.mRunningProcessList.empty with
  | true =>
    have h0 := (rrp_empty_iff _ hwf).mp he
    cases h1 : s.mProcessList <;> simp [h0]
  | false =>
    have h0 : s.mRunningProcessList.stored ≠ [] := by
      intro h
      rw [(rrp_empty_iff _ hwf).mpr h] at he
      cases he
    simp [h0]

/-- The loop of the bucketed `PriorityPreemptive::scheduleProcess` ends within
`potential` iterations. -/
theorem rrp_terminates : ∀ (n : Nat) (s : PriorityPreemptive), Inv s →
    tick.Work (abs s) → tick.potential (abs s) ≤ (n : Int) →
    ∃ s2, steps n s = some s2 ∧ loopCond s2 = false := by
  intro n
  induction n with
  | zero =>
    intro s hinv hw hp
    refine ⟨s, rfl, ?_⟩
    by_cases hc : loopCond s = true
    · have h1 := tick.tick_remaining_pos _ hw ((rrp_loopCond s hinv.1).mp hc)
      have h2 := tick.tick_gap_nonneg (abs s).t (abs s).queue
      unfold tick.potential at hp
      simp only [Nat.cast_zero] at hp
      omega
    · simpa using hc
  | succ n ih =>
    intro s hinv hw hp
    unfold steps
    by_cases hc : loopCond s = true
    · rw [if_pos hc]
      obtain ⟨s1, r1, r2, r3⟩ := rrp_refines s hinv
      have h1 := tick.tick_step_potential _ _ r2 hw ((rrp_loopCond s hinv.1).mp hc)
      obtain ⟨s2, i1, i2⟩ := ih s1 r3 (tick.tick_step_work _ _ r2 hw) (by
        push_cast at hp
        omega)
      refine ⟨s2, ?_, i2⟩
      rw [r1, Option.some_bind]
      exact i1
    · rw [if_neg hc]
      exact ⟨s, rfl, by simpa using hc⟩

theorem rrp_sort_perm (l : List Process) : (sortProcesses l).Perm l :=
  List.perm_insertionSort _ _

theorem rrp_sort_sorted (l : List Process) :
    (sortProcesses l).Pairwise (fun a b => a.arrivalTime ≤ b.arrivalTime) := by
  have hsorted : (sortProcesses l).Pairwise notAfter :=
    @List.sorted_insertionSort _ notAfter _
      ⟨fun a b => by
        unfold notAfter compare
        simp only [decide_eq_false_iff_not, not_lt]
        exact le_total _ _⟩
      ⟨fun a b c => by
        unfold notAfter compare
        simp only [decide_eq_false_iff_not, not_lt]
        exact fun h1 h2 => le_trans h1 h2⟩ _
  refine hsorted.imp ?_
  intro a b hab
  unfold notAfter compare at hab
  simpa using hab

/-- The members of the queue that the constructor loads. -/
theorem rrp_ctor_mem (processes : List Process) (q : Process)
    (hq : q ∈ (PriorityPreemptive.ctor processes).mProcessList) :
    ∃ p ∈ processes, q = { p with tempBurstTime := p.burstTime } := by
  obtain ⟨p, hp, rfl⟩ := List.mem_map.mp hq
  exact ⟨p, (rrp_sort_perm processes).subset hp, rfl⟩

theorem rrp_inv_ctor (processes : List Process)
    (hpr : ∀ p ∈ processes, 0 ≤ p.priority) : Inv (PriorityPreemptive.ctor processes) := by
  refine ⟨rrp_wf_ctor, ?_, ?_, rfl⟩
  · intro q hq
    obtain ⟨p, hp, rfl⟩ := rrp_ctor_mem processes q hq
    exact hpr p hp
  · show ((sortProcesses processes).map _).Pairwise _
    rw [List.pairwise_map]
    exact rrp_sort_sorted processes

theorem rrp_ctor_conserved (processes : List Process) :
    tick.Conserved (processes.map (fun p => (p.pid, p.arrivalTime, p.burstTime)))
      (abs (PriorityPreemptive.ctor processes)) := by
  have h := tick.tick_init_conserved (abs (PriorityPreemptive.ctor processes)) rfl rfl
  apply tick.tick_conserved_perm _ _ _ h
  show ((((sortProcesses processes).map _).map view).map tick.core).Perm _
  rw [List.map_map, List.map_map]
  exact List.Perm.map _ (rrp_sort_perm processes)

theorem rrp_ctor_work (processes : List Process)
    (hwf : ∀ p ∈ processes, 1 ≤ p.burstTime) :
    tick.Work (abs (PriorityPreemptive.ctor processes)) := by
  apply tick.tick_init_work _ rfl rfl rfl
  intro q hq
  obtain ⟨q2, hq2, rfl⟩ := List.mem_map.mp hq
  obtain ⟨p, hp, rfl⟩ := rrp_ctor_mem processes q2 hq2
  exact ⟨rfl, hwf p hp⟩

theorem rrp_ctor_arrived (processes : List Process)
    (hwf : ∀ p ∈ processes, 0 ≤ p.burstTime) :
    tick.Arrived (abs (PriorityPreemptive.ctor processes)) := by
  apply tick.tick_init_arrived _ rfl rfl
  intro q hq
  obtain ⟨q2, hq2, rfl⟩ := List.mem_map.mp hq
  obtain ⟨p, hp, rfl⟩ := rrp_ctor_mem processes q2 hq2
  exact hwf p hp

theorem rrp_ctor_started (processes : List Process)
    (hwf : ∀ p ∈ processes, p.init = false) :
    tick.Started (abs (PriorityPreemptive.ctor processes)) := by
  apply tick.tick_init_started _ rfl rfl
  intro q hq
  obtain ⟨q2, hq2, rfl⟩ := List.mem_map.mp hq
  obtain ⟨p, hp, rfl⟩ := rrp_ctor_mem processes q2 hq2
  exact hwf p hp

/-- The loop ends and `scheduleProcess` returns, for every fuel from `potential`
on; the state it returns is the final state with the report members filled in. -/
theorem rrp_returns (processes : List Process)
    (hpr : ∀ p ∈ processes, 0 ≤ p.priority)
    (hwf : ∀ p ∈ processes, 1 ≤ p.burstTime) (fuel : Nat)
    (hfuel : (tick.potential (abs (PriorityPreemptive.ctor processes))).toNat ≤ fuel) :
    ∃ s2, steps fuel (PriorityPreemptive.ctor processes) = some s2 ∧
      loopCond s2 = false ∧
      PriorityPreemptive.scheduleProcess fuel (PriorityPreemptive.ctor processes) =
        some { s2 with mFinishedProcesses := s2.mFinishedProcesses.map finalize } := by
  obtain ⟨s2, h1, h2⟩ := rrp_terminates fuel (PriorityPreemptive.ctor processes)
    (rrp_inv_ctor processes hpr) (rrp_ctor_work processes hwf) (by omega)
  refine ⟨s2, h1, h2, ?_⟩
  unfold PriorityPreemptive.scheduleProcess
  rw [h1, Option.some_bind]
  simp [h2]

end round_robin_priority

namespace round_robin_priority

theorem rrp_input_ids (processes : List Process) :
    (processes.map (fun p => (p.pid, p.arrivalTime, p.burstTime))).map Prod.fst =
      processes.map (fun p => p.pid) := by
  rw [List.map_map]
  rfl

/-- The result of the bucketed `PriorityPreemptive::scheduleProcess` on a list of
processes with `burstTime ≥ 1` and no negative priority. -/
theorem rrp_final (processes : List Process)
    (hpr : ∀ p ∈ processes, 0 ≤ p.priority)
    (hwf : ∀ p ∈ processes, 1 ≤ p.burstTime)
    (fuel : Nat)
    (hfuel : (tick.potential (abs (PriorityPreemptive.ctor processes))).toNat ≤ fuel) :
    ∃ r, PriorityPreemptive.scheduleProcess fuel (PriorityPreemptive.ctor processes) =
        some r ∧
      (r.mFinishedProcesses.map (fun p => (p.pid, p.arrivalTime, p.burstTime))).Perm
        (processes.map (fun p => (p.pid, p.arrivalTime, p.burstTime))) ∧
      (∀ p ∈ r.mFinishedProcesses, p.tempBurstTime = 0 ∧
        p.arrivalTime + p.burstTime ≤ p.finishingTime ∧
        p.turnAroundTime = p.finishingTime - p.arrivalTime ∧
        p.waitingTime = p.turnAroundTime - p.burstTime) ∧
      ((processes.map (fun p => p.pid)).Nodup →
        (∀ p ∈ processes, ((r.mGantChart.map Prod.fst).count p.pid : Int) = p.burstTime) ∧
        (∀ p ∈ r.mFinishedProcesses, (p.pid, p.finishingTime - 1) ∈ r.mGantChart ∧
          ∀ e ∈ r.mGantChart, e.1 = p.pid → e.2 < p.finishingTime)) := by
  obtain ⟨s2, hst, hc, hsp⟩ := rrp_returns processes hpr hwf fuel hfuel
  obtain ⟨s3, hst3, hrun, hinv⟩ := rrp_run fuel (PriorityPreemptive.ctor processes)
    (rrp_inv_ctor processes hpr)
  rw [hst] at hst3
  simp only [Option.some.injEq] at hst3
  subst hst3
  have hnil : (abs s2).ready ++ (abs s2).queue = [] := by
    by_contra hne
    rw [(rrp_loopCond _ hinv.1).mpr hne] at hc
    cases hc
  obtain ⟨f1, f2, f3⟩ := tick.tick_final _ _ _ hrun (rrp_ctor_conserved processes)
    (rrp_ctor_work processes hwf) (tick.tick_init_last _ rfl)
    (List.append_eq_nil.mp hnil).1 (List.append_eq_nil.mp hnil).2
  refine ⟨_, hsp, ?_, ?_, ?_⟩
  · simp only [List.map_map]
    have e : (abs s2).finished.map tick.core =
        s2.mFinishedProcesses.map
          ((fun p => (p.pid, p.arrivalTime, p.burstTime)) ∘ finalize) := by
      simp only [abs, List.map_map]
      rfl
    rw [← e]
    exact f1
  · intro p hp
    obtain ⟨q, hq, rfl⟩ := List.mem_map.mp hp
    obtain ⟨g1, g2⟩ := f2 (view q) (List.mem_map_of_mem _ hq)
    exact ⟨g1, g2, rfl, rfl⟩
  · intro hnd
    obtain ⟨g1, g2⟩ := f3 (by rw [rrp_input_ids]; exact hnd)
    refine ⟨?_, ?_⟩
    · intro p hp
      exact g1 _ (List.mem_map_of_mem (fun p => (p.pid, p.arrivalTime, p.burstTime)) hp)
    · intro p hp
      obtain ⟨q, hq, rfl⟩ := List.mem_map.mp hp
      exact g2 (view q) (List.mem_map_of_mem _ hq)

/-- The first `n` iterations return, and the iteration that follows them returns,
moves the clock by one and appends at most one event, stamped with the clock
before the iteration. -/
theorem rrp_unit (processes : List Process)
    (hpr : ∀ p ∈ processes, 0 ≤ p.priority)
    (hwf : ∀ p ∈ processes, 1 ≤ p.burstTime) (n : Nat) :
    ∃ s s2, steps n (PriorityPreemptive.ctor processes) = some s ∧ loopBody s = some s2 ∧
      s2.mTimeCounter = s.mTimeCounter + 1 ∧
      (s2.mGantChart = s.mGantChart ∨
        ∃ i, s2.mGantChart = s.mGantChart ++ [(i, s.mTimeCounter)]) := by
  obtain ⟨s, hst, hrun, hinv⟩ := rrp_run n (PriorityPreemptive.ctor processes)
    (rrp_inv_ctor processes hpr)
  obtain ⟨-, hw⟩ := tick.tick_run_work _ _ _ hrun (rrp_ctor_conserved processes)
    (rrp_ctor_work processes hwf)
  obtain ⟨s2, h1, h2, -⟩ := rrp_refines s hinv
  exact ⟨s, s2, hst, h1, tick.tick_step_unit _ _ h2 hw⟩

/-- No dispatch before the arrival, after any number of iterations, when no burst
time and no priority of the input is negative. -/
theorem rrp_dispatch_after_arrival (processes : List Process)
    (hpr : ∀ p ∈ processes, 0 ≤ p.priority)
    (hwf : ∀ p ∈ processes, 0 ≤ p.burstTime) (n : Nat) :
    ∃ s, steps n (PriorityPreemptive.ctor processes) = some s ∧
      (∀ e ∈ s.mGantChart, ∃ p ∈ processes, p.pid = e.1 ∧ p.arrivalTime ≤ e.2) ∧
      ((∀ p ∈ processes, p.init = false) →
        ∀ p ∈ s.mFinishedProcesses, p.arrivalTime ≤ p.startingTime) := by
  obtain ⟨s, hst, hrun, -⟩ := rrp_run n (PriorityPreemptive.ctor processes)
    (rrp_inv_ctor processes hpr)
  obtain ⟨d1, d2⟩ := tick.tick_run_dispatch _ _ _ hrun (rrp_ctor_conserved processes)
    (rrp_ctor_arrived processes hwf)
  refine ⟨s, hst, ?_, ?_⟩
  · intro e he
    obtain ⟨c, hc, h1, h2⟩ := d1 e he
    obtain ⟨p, hp, rfl⟩ := List.mem_map.mp hc
    exact ⟨p, hp, h1, h2⟩
  · intro hinit p hp
    exact d2 (rrp_ctor_started processes hinit) (view p) (List.mem_map_of_mem _ hp)

end round_robin_priority

/-! ## The running structure of the bucketed priority engine -/

/-- The loop that runs before a preempted process is stored again moves at most
one process for each value of its loop variable. -/
theorem rrp_drainDuring_length : ∀ (n : Nat) (i : Int)
    (running : round_robin_priority.RunningProcess)
    (queue : List round_robin_priority.Process)
    (r : round_robin_priority.RunningProcess × List round_robin_priority.Process),
    round_robin_priority.drainDuring n i running queue = some r →
    queue.length ≤ r.2.length + n := by
  intro n
  induction n with
  | zero =>
    intro i running queue r h
    simp only [round_robin_priority.drainDuring, Option.some.injEq] at h
    subst h
    simp
  | succ n ih =>
    intro i running queue r h
    cases queue with
    | nil => simp
    | cons p rest =>
      by_cases hp : i ≥ p.arrivalTime
      · simp only [round_robin_priority.drainDuring, hp, if_true] at h
        cases ha : running.addProcess p with
        | none => rw [ha] at h; cases h
        | some x =>
          rw [ha, Option.some_bind] at h
          have := ih (i + 1) x.1 rest r h
          simp only [List.length_cons]
          omega
      · simp only [round_robin_priority.drainDuring, hp, if_false] at h
        have := ih (i + 1) running (p :: rest) r h
        omega

/-- C12: `RunningProcess::getProcess` on a structure that is not empty (and is well
formed: every stored process sits in the queue of its priority and `processCount`
is the number of stored processes, which the constructor gives and `addProcess`
and `getProcess` keep) finds the lowest index `k` of a queue that is not empty,
returns the front `p` of that queue and removes it, leaving every other queue and
the rest of queue `k` as they are and lowering the count by one; no stored process
has a smaller priority value than `p`.  `addProcess` of a process with a priority
that is not negative puts it at the back of the queue of its priority and changes
no other queue, so processes of one priority leave in the order they were added. -/
theorem bucket_getProcess_front_of_lowest (r : round_robin_priority.RunningProcess)
    (hwf : r.Wf) (hne : r.empty = false) :
    ∃ (k : Nat) (p : round_robin_priority.Process) (ps : List round_robin_priority.Process),
      r.mProcessList[k]? = some (p :: ps) ∧
      (∀ j, j < k → r.mProcessList[j]? = some []) ∧
      r.getProcess =
        (p, round_robin_priority.RunningProcess.mk (r.mProcessList.set k ps)
          (r.processCount - 1)) ∧
      r.getProcess.2.Wf ∧
      (∀ q ∈ r.stored, p.priority ≤ q.priority) ∧
      (∀ x : round_robin_priority.Process, 0 ≤ x.priority →
        ∃ r2, r.addProcess x = some (r2, r.processCount + 1) ∧ r2.Wf ∧
          ∀ j, r2.mProcessList.getD j [] =
            if j = x.priority.toNat then r.mProcessList.getD j [] ++ [x]
            else r.mProcessList.getD j []) := by
  have hst : r.stored ≠ [] := by
    intro h
    rw [(round_robin_priority.rrp_empty_iff r hwf).mpr h] at hne
    cases hne
  obtain ⟨k, p, ps, g1, g2, g3, -, g5, g6⟩ :=
    round_robin_priority.rrp_getProcess_spec r hwf hst
  refine ⟨k, p, ps, g1, g2, g3, g5, ?_, ?_⟩
  · intro q hq
    unfold round_robin_priority.RunningProcess.stored at hq
    obtain ⟨b, hb, hqb⟩ := List.mem_flatten.mp hq
    obtain ⟨j, hj⟩ := List.getElem?_of_mem hb
    have hqj := hwf.1 j b q hj hqb
    rw [g6, hqj]
    by_contra hlt
    have hjk : j < k := by omega
    rw [g2 j hjk] at hj
    simp only [Option.some.injEq] at hj
    subst hj
    cases hqb
  · intro x hx
    obtain ⟨r2, a1, -, a3, -⟩ := round_robin_priority.rrp_addProcess_spec r x hx
    exact ⟨r2, a1, round_robin_priority.rrp_addProcess_wf r r2 x _ hx hwf a1, a3⟩

/-- The statement of C12 on the structure with an empty queue 0 and the processes
1 and 0, in this order, in queue 1: `getProcess` returns process 1. -/
theorem bucket_getProcess_front_of_lowest_witness :
    (round_robin_priority.RunningProcess.mk
      [[], [round_robin_priority.Process.init4 1 0 1 10,
        round_robin_priority.Process.init4 0 2 1 5]] 2).empty = false ∧
    ∃ (k : Nat) (p : round_robin_priority.Process) (ps : List round_robin_priority.Process),
      (round_robin_priority.RunningProcess.mk
        [[], [round_robin_priority.Process.init4 1 0 1 10,
          round_robin_priority.Process.init4 0 2 1 5]] 2).mProcessList[k]? =
        some (p :: ps) :=
  ⟨by decide,
    (bucket_getProcess_front_of_lowest
      (round_robin_priority.RunningProcess.mk
        [[], [round_robin_priority.Process.init4 1 0 1 10,
          round_robin_priority.Process.init4 0 2 1 5]] 2)
      ⟨by
        intro j q p hq hp
        rcases j with _ | _ | j
        · simp at hq
          subst hq
          cases hp
        · simp at hq
          subst hq
          simp at hp
          rcases hp with rfl | rfl <;> rfl
        · simp at hq, rfl⟩
      (by decide)).imp
      (fun _ h => h.imp (fun _ h2 => h2.imp (fun _ h3 => h3.1)))⟩

/-- C13 fails on the code: on the processes (0, arrival 0, priority 1, burst 2),
(1, 1, 1, 1), (2, 1, 1, 1) the first iteration dispatches process 0 and preempts it
at clock 1; processes 1 and 2 have both arrived by then, but the loop before the
re-insertion moves process 1 only, and process 0 is stored again behind it while
process 2 is still in the process queue.  Process 0 then runs at time 2, in front
of process 2, which runs at time 3.  In general the loop moves at most as many
processes as it has iterations (two, for the time quantum 1). -/
theorem bucket_requeue_leaves_arrived_process :
    (round_robin_priority.steps 1 (round_robin_priority.PriorityPreemptive.ctor
        [round_robin_priority.Process.init4 0 0 1 2,
          round_robin_priority.Process.init4 1 1 1 1,
          round_robin_priority.Process.init4 2 1 1 1])).map
      (fun s => (s.mTimeCounter, s.mProcessList.map (fun p => (p.pid, p.arrivalTime)),
        s.mRunningProcessList.mProcessList.map (fun b => b.map (fun p => p.pid)))) =
      some (1, [(2, 1)], [[], [1, 0]]) ∧
    (round_robin_priority.PriorityPreemptive.scheduleProcess 4
        (round_robin_priority.PriorityPreemptive.ctor
          [round_robin_priority.Process.init4 0 0 1 2,
            round_robin_priority.Process.init4 1 1 1 1,
            round_robin_priority.Process.init4 2 1 1 1])).map
      (fun r => r.mGantChart) = some [(0, 0), (1, 1), (0, 2), (2, 3)] ∧
    (∀ (n : Nat) (i : Int) (running : round_robin_priority.RunningProcess)
      (queue : List round_robin_priority.Process)
      (r : round_robin_priority.RunningProcess × List round_robin_priority.Process),
      round_robin_priority.drainDuring n i running queue = some r →
      queue.length ≤ r.2.length + n) :=
  ⟨by decide, by decide, rrp_drainDuring_length⟩

/-! ## The reports of the non-preemptive engines -/

theorem fcfs_processLoop_metrics (t : Int) (l : List fcfs.Process) :
    ∀ p ∈ (fcfs.processLoop t l).2,
      p.turnAroundTime = p.finishedTime - p.arrivalTime ∧
      p.waitingTime = p.turnAroundTime - p.executionTime ∧
      p.arrivalTime ≤ p.startingTime ∧
      p.finishedTime = p.startingTime + p.executionTime := by
  induction l generalizing t with
  | nil => intro p hp; simp [fcfs.processLoop] at hp
  | cons q rest ih =>
    intro p hp
    rw [fcfs.fcfs_processLoop_cons, List.mem_cons] at hp
    rcases hp with rfl | hp
    · unfold fcfs.processOne
      by_cases h : t < q.arrivalTime
      · simp [h]
      · simp only [h, if_false]
        refine ⟨trivial, trivial, ?_, trivial⟩
        omega
    · exact ih _ p hp

/-- The processes that `SJF::scheduleProcess` reports, when no execution time is
negative: each started after its arrival and finished its execution time later,
and the last loop filled in the turnaround and waiting time. -/
theorem sjf_report_metrics (processes : List sjf.Process)
    (hs : ∀ p ∈ processes, 0 ≤ p.executionTime) :
    ∀ p ∈ (sjf.SJF.ctor processes).scheduleProcess.mFinishedProcesses,
      p.turnAroundTime = p.finishedTime - p.arrivalTime ∧
      p.waitingTime = p.turnAroundTime - p.executionTime ∧
      p.arrivalTime ≤ p.startingTime ∧
      p.finishedTime = p.startingTime + p.executionTime := by
  obtain ⟨-, -, hmin, hstart⟩ := sjf.sjf_scheduleProcess_spec processes
  have hst := hstart hs
  intro p hp
  obtain ⟨k, hk⟩ := List.getElem?_of_mem hp
  have hklt : k < (sjf.SJF.ctor processes).scheduleProcess.mFinishedProcesses.length :=
    (List.getElem?_eq_some.mp hk).1
  have hprev : ∃ prev, (0 :: (sjf.SJF.ctor processes).scheduleProcess.mFinishedProcesses.map
      (fun q => q.finishedTime))[k]? = some prev := by
    have hlt : k < (0 :: (sjf.SJF.ctor processes).scheduleProcess.mFinishedProcesses.map
        (fun q => q.finishedTime)).length := by
      simp only [List.length_cons, List.length_map]
      omega
    exact ⟨_, List.getElem?_eq_getElem hlt⟩
  obtain ⟨prev, hprev⟩ := hprev
  have h3 := (hmin k p hk).1
  have h4 := (hst k p prev hk hprev).1
  have hfin : ∃ q, p = sjf.finalize q := by
    have hp2 : p ∈ (sjf.steps ((sjf.SJF.ctor processes).mRunningProcess.length +
        (sjf.SJF.ctor processes).mProcessList.length)
        (sjf.SJF.ctor processes)).mFinishedProcesses.map sjf.finalize := hp
    obtain ⟨q, -, rfl⟩ := List.mem_map.mp hp2
    exact ⟨q, rfl⟩
  obtain ⟨q, rfl⟩ := hfin
  exact ⟨rfl, rfl, h3, h4⟩

/-- C14: every process that FCFS reports (the queue after `FCFS::process`, for any
process list) and every process that SJF reports (the finished list after
`SJF::scheduleProcess`, for any process list without a negative execution time)
has turnAroundTime = finishedTime - arrivalTime, turnAroundTime = waitingTime +
executionTime and waitingTime ≥ 0. -/
theorem nonpreemptive_report_metrics (fp : List fcfs.Process) (sp : List sjf.Process)
    (hs : ∀ p ∈ sp, 0 ≤ p.executionTime) :
    (∀ p ∈ (fcfs.FCFS.ctor fp).process.mProcessQueue,
      p.turnAroundTime = p.finishedTime - p.arrivalTime ∧
      p.turnAroundTime = p.waitingTime + p.executionTime ∧ 0 ≤ p.waitingTime) ∧
    (∀ p ∈ (sjf.SJF.ctor sp).scheduleProcess.mFinishedProcesses,
      p.turnAroundTime = p.finishedTime - p.arrivalTime ∧
      p.turnAroundTime = p.waitingTime + p.executionTime ∧ 0 ≤ p.waitingTime) := by
  refine ⟨?_, ?_⟩
  · intro p hp
    obtain ⟨h1, h2, h3, h4⟩ := fcfs_processLoop_metrics _ _ p hp
    exact ⟨h1, by omega, by omega⟩
  · intro p hp
    obtain ⟨h1, h2, h3, h4⟩ := sjf_report_metrics sp hs p hp
    exact ⟨h1, by omega, by omega⟩

/-- The statement of C14 on the process lists of the two `main` functions. -/
theorem nonpreemptive_report_metrics_witness :
    (∀ p ∈ sjf.mainProcessList, 0 ≤ p.executionTime) ∧
    (∀ p ∈ (fcfs.FCFS.ctor fcfs.mainProcessList).process.mProcessQueue,
      p.turnAroundTime = p.finishedTime - p.arrivalTime ∧
      p.turnAroundTime = p.waitingTime + p.executionTime ∧ 0 ≤ p.waitingTime) ∧
    (∀ p ∈ (sjf.SJF.ctor sjf.mainProcessList).scheduleProcess.mFinishedProcesses,
      p.turnAroundTime = p.finishedTime - p.arrivalTime ∧
      p.turnAroundTime = p.waitingTime + p.executionTime ∧ 0 ≤ p.waitingTime) :=
  ⟨by decide, nonpreemptive_report_metrics fcfs.mainProcessList sjf.mainProcessList
    (by decide)⟩

/-- C19: for every process list, the queue that `FCFS::process` leaves and
`FCFS::print` renders, and the finished list that `SJF::scheduleProcess` leaves and
`SJF::print` renders, hold the processes of the input, each as often as the input
holds it (compared by pid, arrival time and execution time, the members that the
engines do not write); the queue that the FCFS constructor builds is a permutation
of the input records themselves. -/
theorem nonpreemptive_report_is_permutation (fp : List fcfs.Process)
    (sp : List sjf.Process) :
    (fcfs.FCFS.ctor fp).mProcessQueue.Perm fp ∧
    ((fcfs.FCFS.ctor fp).process.mProcessQueue.map
      (fun p => (p.pid, p.arrivalTime, p.executionTime))).Perm
      (fp.map (fun p => (p.pid, p.arrivalTime, p.executionTime))) ∧
    (fcfs.FCFS.ctor fp).process.mProcessQueue.length = fp.length ∧
    ((sjf.SJF.ctor sp).scheduleProcess.mFinishedProcesses.map sjf.core).Perm
      (sp.map sjf.core) ∧
    (sjf.SJF.ctor sp).scheduleProcess.mFinishedProcesses.length = sp.length := by
  have h1 := (fcfs.fcfs_ctor_queue fp).1
  have h2 : ((fcfs.FCFS.ctor fp).process.mProcessQueue.map
      (fun p => (p.pid, p.arrivalTime, p.executionTime))).Perm
      (fp.map (fun p => (p.pid, p.arrivalTime, p.executionTime))) := by
    have e : (fcfs.FCFS.ctor fp).process.mProcessQueue =
        (fcfs.processLoop (fcfs.FCFS.ctor fp).mTimer (fcfs.FCFS.ctor fp).mProcessQueue).2 := rfl
    rw [e, fcfs.fcfs_processLoop_core]
    exact List.Perm.map _ h1
  have h3 := (sjf.sjf_scheduleProcess_spec sp).2.1
  refine ⟨h1, h2, ?_, h3, ?_⟩
  · have := h2.length_eq
    simpa using this
  · have := h3.length_eq
    simpa using this

/-! ## The reports of the tick-based engines -/

/-- C16: for process lists with burstTime ≥ 1 and distinct ids (and
tempBurstTime = burstTime for Round-Robin, whose constructor does not set it, and
priority ≥ 0 for the bucketed engine, whose `addProcess` does not return on a
negative priority), `scheduleProcess` of Round-Robin, of the plain and of the
bucketed priority engine returns for every iteration bound from `potential` on, and
in the trace it returns the number of events with the id of a process is the burst
time of that process.  Every iteration of the loop moves the clock by exactly one
and appends at most one event, stamped with the clock before the iteration, so
each event stands for one unit of time. -/
theorem quantum_engines_events_equal_burst
    (rp : List round_robin.Process) (pp : List priority_preemptive.Process)
    (bp : List round_robin_priority.Process)
    (hr : ∀ p ∈ rp, p.tempBurstTime = p.burstTime ∧ 1 ≤ p.burstTime)
    (hrid : (rp.map (fun p => p.pid)).Nodup)
    (hp : ∀ p ∈ pp, 1 ≤ p.burstTime)
    (hpid : (pp.map (fun p => p.pid)).Nodup)
    (hb : ∀ p ∈ bp, 1 ≤ p.burstTime ∧ 0 ≤ p.priority)
    (hbid : (bp.map (fun p => p.pid)).Nodup)
    (fuel : Nat)
    (hfr : (tick.potential (round_robin.abs (round_robin.RoundRobin.ctor rp))).toNat ≤ fuel)
    (hfp : (tick.potential (priority_preemptive.abs
      (priority_preemptive.PriorityPreemptive.ctor pp))).toNat ≤ fuel)
    (hfb : (tick.potential (round_robin_priority.abs
      (round_robin_priority.PriorityPreemptive.ctor bp))).toNat ≤ fuel) :
    (∃ r, round_robin.RoundRobin.scheduleProcess fuel (round_robin.RoundRobin.ctor rp) =
        some r ∧
      ∀ p ∈ rp, ((r.mGantChart.map Prod.fst).count p.pid : Int) = p.burstTime) ∧
    (∀ n,
      (round_robin.loopBody (round_robin.steps n
          (round_robin.RoundRobin.ctor rp))).mTimeCounter =
        (round_robin.steps n (round_robin.RoundRobin.ctor rp)).mTimeCounter + 1 ∧
      ((round_robin.loopBody (round_robin.steps n
            (round_robin.RoundRobin.ctor rp))).mGantChart =
          (round_robin.steps n (round_robin.RoundRobin.ctor rp)).mGantChart ∨
        ∃ i, (round_robin.loopBody (round_robin.steps n
            (round_robin.RoundRobin.ctor rp))).mGantChart =
          (round_robin.steps n (round_robin.RoundRobin.ctor rp)).mGantChart ++
            [(i, (round_robin.steps n (round_robin.RoundRobin.ctor rp)).mTimeCounter)])) ∧
    (∃ r, priority_preemptive.PriorityPreemptive.scheduleProcess fuel
        (priority_preemptive.PriorityPreemptive.ctor pp) = some r ∧
      ∀ p ∈ pp, ((r.mGantChart.map Prod.fst).count p.pid : Int) = p.burstTime) ∧
    (∀ n,
      (priority_preemptive.loopBody (priority_preemptive.steps n
          (priority_preemptive.PriorityPreemptive.ctor pp))).mTimeCounter =
        (priority_preemptive.steps n
          (priority_preemptive.PriorityPreemptive.ctor pp)).mTimeCounter + 1 ∧
      ((priority_preemptive.loopBody (priority_preemptive.steps n
            (priority_preemptive.PriorityPreemptive.ctor pp))).mGantChart =
          (priority_preemptive.steps n
            (priority_preemptive.PriorityPreemptive.ctor pp)).mGantChart ∨
        ∃ i, (priority_preemptive.loopBody (priority_preemptive.steps n
            (priority_preemptive.PriorityPreemptive.ctor pp))).mGantChart =
          (priority_preemptive.steps n
            (priority_preemptive.PriorityPreemptive.ctor pp)).mGantChart ++
            [(i, (priority_preemptive.steps n
              (priority_preemptive.PriorityPreemptive.ctor pp)).mTimeCounter)])) ∧
    (∃ r, round_robin_priority.PriorityPreemptive.scheduleProcess fuel
        (round_robin_priority.PriorityPreemptive.ctor bp) = some r ∧
      ∀ p ∈ bp, ((r.mGantChart.map Prod.fst).count p.pid : Int) = p.burstTime) ∧
    (∀ n, ∃ s s2,
      round_robin_priority.steps n (round_robin_priority.PriorityPreemptive.ctor bp) =
        some s ∧
      round_robin_priority.loopBody s = some s2 ∧
      s2.mTimeCounter = s.mTimeCounter + 1 ∧
      (s2.mGantChart = s.mGantChart ∨
        ∃ i, s2.mGantChart = s.mGantChart ++ [(i, s.mTimeCounter)])) := by
  refine ⟨?_, ?_, ?_, ?_, ?_, ?_⟩
  · obtain ⟨r, h1, -, -, h4⟩ := round_robin.rr_final rp hr fuel hfr
    exact ⟨r, h1, (h4 hrid).1⟩
  · intro n
    exact round_robin.rr_unit rp hr n
  · obtain ⟨r, h1, -, -, h4⟩ := priority_preemptive.pp_final pp hp fuel hfp
    exact ⟨r, h1, (h4 hpid).1⟩
  · intro n
    exact priority_preemptive.pp_unit pp hp n
  · obtain ⟨r, h1, -, -, h4⟩ := round_robin_priority.rrp_final bp
      (fun p hp' => (hb p hp').2) (fun p hp' => (hb p hp').1) fuel hfb
    exact ⟨r, h1, (h4 hbid).1⟩
  · intro n
    exact round_robin_priority.rrp_unit bp (fun p hp' => (hb p hp').2)
      (fun p hp' => (hb p hp').1) n

/-- The statement of C16 on the process lists of the three `main`
functions, with the iteration bound 72. -/
theorem quantum_engines_events_equal_burst_witness :
    (∀ p ∈ [round_robin.Process.init4 1 0 10 10, round_robin.Process.init4 2 1 9 9,
        round_robin.Process.init4 3 2 5 5, round_robin.Process.init4 4 3 4 4,
        round_robin.Process.init4 5 40 4 4],
      p.tempBurstTime = p.burstTime ∧ 1 ≤ p.burstTime) ∧
    (∀ p ∈ priority_preemptive.mainProcessList, 1 ≤ p.burstTime) ∧
    (∀ p ∈ round_robin_priority.mainProcessList, 1 ≤ p.burstTime ∧ 0 ≤ p.priority) ∧
    (∃ r, round_robin.RoundRobin.scheduleProcess 72 (round_robin.RoundRobin.ctor
        [round_robin.Process.init4 1 0 10 10, round_robin.Process.init4 2 1 9 9,
          round_robin.Process.init4 3 2 5 5, round_robin.Process.init4 4 3 4 4,
          round_robin.Process.init4 5 40 4 4]) = some r ∧
      ∀ p ∈ [round_robin.Process.init4 1 0 10 10, round_robin.Process.init4 2 1 9 9,
          round_robin.Process.init4 3 2 5 5, round_robin.Process.init4 4 3 4 4,
          round_robin.Process.init4 5 40 4 4],
        ((r.mGantChart.map Prod.fst).count p.pid : Int) = p.burstTime) :=
  ⟨by decide, by decide, by decide,
    (quantum_engines_events_equal_burst
      [round_robin.Process.init4 1 0 10 10, round_robin.Process.init4 2 1 9 9,
        round_robin.Process.init4 3 2 5 5, round_robin.Process.init4 4 3 4 4,
        round_robin.Process.init4 5 40 4 4]
      priority_preemptive.mainProcessList round_robin_priority.mainProcessList
      (by decide) (by decide) (by decide) (by decide) (by decide) (by decide) 72
      (by decide) (by decide) (by decide)).1⟩

/-! ## Arrival before dispatch, and the initial remaining time -/

/-- C18 as amended: when no remaining time of the input is negative
(tempBurstTime ≥ 0 for Round-Robin, burstTime ≥ 0 for the priority engines, whose
constructors copy it) and, for the bucketed engine, no priority is negative (so
that the loop returns), every event (p, t) of the trace after any number `n` of
iterations of the loop of Round-Robin, of the plain and of the bucketed priority
engine carries the id of an input process with arrivalTime ≤ t; if moreover
`init` is false in every input record, every finished process has
startingTime ≥ arrivalTime. -/
theorem quantum_engines_dispatch_after_arrival
    (rp : List round_robin.Process) (pp : List priority_preemptive.Process)
    (bp : List round_robin_priority.Process)
    (hr : ∀ p ∈ rp, 0 ≤ p.tempBurstTime)
    (hp : ∀ p ∈ pp, 0 ≤ p.burstTime)
    (hb : ∀ p ∈ bp, 0 ≤ p.burstTime ∧ 0 ≤ p.priority) (n : Nat) :
    ((∀ e ∈ (round_robin.steps n (round_robin.RoundRobin.ctor rp)).mGantChart,
        ∃ p ∈ rp, p.pid = e.1 ∧ p.arrivalTime ≤ e.2) ∧
      ((∀ p ∈ rp, p.init = false) →
        ∀ p ∈ (round_robin.steps n (round_robin.RoundRobin.ctor rp)).mFinishedProcesses,
          p.arrivalTime ≤ p.startingTime)) ∧
    ((∀ e ∈ (priority_preemptive.steps n
          (priority_preemptive.PriorityPreemptive.ctor pp)).mGantChart,
        ∃ p ∈ pp, p.pid = e.1 ∧ p.arrivalTime ≤ e.2) ∧
      ((∀ p ∈ pp, p.init = false) →
        ∀ p ∈ (priority_preemptive.steps n
            (priority_preemptive.PriorityPreemptive.ctor pp)).mFinishedProcesses,
          p.arrivalTime ≤ p.startingTime)) ∧
    (∃ s, round_robin_priority.steps n
        (round_robin_priority.PriorityPreemptive.ctor bp) = some s ∧
      (∀ e ∈ s.mGantChart, ∃ p ∈ bp, p.pid = e.1 ∧ p.arrivalTime ≤ e.2) ∧
      ((∀ p ∈ bp, p.init = false) →
        ∀ p ∈ s.mFinishedProcesses, p.arrivalTime ≤ p.startingTime)) :=
  ⟨round_robin.rr_dispatch_after_arrival rp hr n,
    priority_preemptive.pp_dispatch_after_arrival pp hp n,
    round_robin_priority.rrp_dispatch_after_arrival bp (fun p h => (hb p h).2)
      (fun p h => (hb p h).1) n⟩

/-- The statement of C18 as amended on the process lists of the three `main`
functions after 30 iterations, where `init` is false in every record. -/
theorem quantum_engines_dispatch_after_arrival_witness :
    (∀ p ∈ [round_robin.Process.init4 1 0 10 10, round_robin.Process.init4 2 1 9 9,
        round_robin.Process.init4 3 2 5 5, round_robin.Process.init4 4 3 4 4,
        round_robin.Process.init4 5 40 4 4], 0 ≤ p.tempBurstTime) ∧
    (∀ p ∈ priority_preemptive.mainProcessList, 0 ≤ p.burstTime) ∧
    (∀ p ∈ round_robin_priority.mainProcessList, 0 ≤ p.burstTime ∧ 0 ≤ p.priority) ∧
    (∀ p ∈ priority_preemptive.mainProcessList, p.init = false) ∧
    (∀ e ∈ (priority_preemptive.steps 30 (priority_preemptive.PriorityPreemptive.ctor
          priority_preemptive.mainProcessList)).mGantChart,
        ∃ p ∈ priority_preemptive.mainProcessList, p.pid = e.1 ∧ p.arrivalTime ≤ e.2) ∧
    (∀ p ∈ (priority_preemptive.steps 30 (priority_preemptive.PriorityPreemptive.ctor
          priority_preemptive.mainProcessList)).mFinishedProcesses,
        p.arrivalTime ≤ p.startingTime) :=
  ⟨by decide, by decide, by decide, by decide,
    (quantum_engines_dispatch_after_arrival
      [round_robin.Process.init4 1 0 10 10, round_robin.Process.init4 2 1 9 9,
        round_robin.Process.init4 3 2 5 5, round_robin.Process.init4 4 3 4 4,
        round_robin.Process.init4 5 40 4 4]
      priority_preemptive.mainProcessList round_robin_priority.mainProcessList
      (by decide) (by decide) (by decide) 30).2.1.1,
    (quantum_engines_dispatch_after_arrival
      [round_robin.Process.init4 1 0 10 10, round_robin.Process.init4 2 1 9 9,
        round_robin.Process.init4 3 2 5 5, round_robin.Process.init4 4 3 4 4,
        round_robin.Process.init4 5 40 4 4]
      priority_preemptive.mainProcessList round_robin_priority.mainProcessList
      (by decide) (by decide) (by decide) 30).2.1.2 (by decide)⟩

/-- C18 fails as stated.  On the Round-Robin processes (id 0, arrival 0, burst and
remaining time -5) and (id 1, arrival 0, burst and remaining time 1) the dispatch
of process 0 moves the clock from 0 to -5, and process 1 is dispatched and started
at time -5, before its arrival at 0; the plain priority engine does the same on
(id 0, arrival 0, priority 0, burst -5), (id 1, arrival 0, priority 1, burst 1).
On the single Round-Robin process (id 0, arrival 5, burst 1) given with `init`
true and startingTime 0, the finished process keeps the starting time 0, before
its arrival at 5. -/
theorem quantum_engines_dispatch_before_arrival :
    (round_robin.RoundRobin.scheduleProcess 2 (round_robin.RoundRobin.ctor
        [round_robin.Process.init4 0 0 (-5) (-5), round_robin.Process.init4 1 0 1 1])).map
      (fun r => (r.mGantChart,
        r.mFinishedProcesses.map (fun p => (p.pid, p.arrivalTime, p.startingTime)))) =
      some ([(0, 0), (1, -5)], [(0, 0, 0), (1, 0, -5)]) ∧
    (priority_preemptive.PriorityPreemptive.scheduleProcess 2
        (priority_preemptive.PriorityPreemptive.ctor
          [priority_preemptive.Process.init4 0 0 0 (-5),
            priority_preemptive.Process.init4 1 0 1 1])).map
      (fun r => (r.mGantChart,
        r.mFinishedProcesses.map (fun p => (p.pid, p.arrivalTime, p.startingTime)))) =
      some ([(0, 0), (1, -5)], [(0, 0, 0), (1, 0, -5)]) ∧
    (round_robin.RoundRobin.scheduleProcess 6 (round_robin.RoundRobin.ctor
        [round_robin.Process.mk 0 5 1 1 0 0 0 0 true])).map
      (fun r => (r.mGantChart,
        r.mFinishedProcesses.map (fun p => (p.pid, p.arrivalTime, p.startingTime)))) =
      some ([(0, 5)], [(0, 5, 0)]) :=
  ⟨by decide, by decide, by decide⟩

/-! ## Constructors: order, empty input, no validation -/

theorem rrp_steps_of_loopCond_false (n : Nat) (s : round_robin_priority.PriorityPreemptive)
    (h : round_robin_priority.loopCond s = false) :
    round_robin_priority.steps n s = some s := by
  cases n with
  | zero => rfl
  | succ n => simp [round_robin_priority.steps, h]

/-- C22 fails on the code for SRTF, Round-Robin and the two priority engines.  The
constructors of FCFS and SJF sort with `processCompare`, and the queue they build is
ordered by arrival time with ties in ascending id, for every input.  The other four
constructors sort with `compare`, which looks at the arrival time only: a list that
is already in arrival order is left as it is, so the two processes (id 1, arrival 0)
and (id 0, arrival 0) stay in this order in all four queues, and Round-Robin
dispatches process 1 at time 0 and process 0 at time 1. -/
theorem constructors_tie_order :
    (∀ l : List fcfs.Process, (fcfs.FCFS.ctor l).mProcessQueue.Pairwise
      (fun a b => a.arrivalTime < b.arrivalTime ∨
        (a.arrivalTime = b.arrivalTime ∧ a.pid ≤ b.pid))) ∧
    (∀ l : List sjf.Process, (sjf.SJF.ctor l).mProcessList.Pairwise
      (fun a b => a.arrivalTime < b.arrivalTime ∨
        (a.arrivalTime = b.arrivalTime ∧ a.pid ≤ b.pid))) ∧
    (∀ l : List srtf.Process, l.Pairwise (fun a b => a.arrivalTime ≤ b.arrivalTime) →
      (srtf.SRTF.ctor l).mProcessList = l) ∧
    (∀ l : List round_robin.Process,
      l.Pairwise (fun a b => a.arrivalTime ≤ b.arrivalTime) →
      (round_robin.RoundRobin.ctor l).mProcessList = l) ∧
    (∀ l : List priority_preemptive.Process,
      l.Pairwise (fun a b => a.arrivalTime ≤ b.arrivalTime) →
      (priority_preemptive.PriorityPreemptive.ctor l).mProcessList.map (fun p => p.pid) =
        l.map (fun p => p.pid)) ∧
    (∀ l : List round_robin_priority.Process,
      l.Pairwise (fun a b => a.arrivalTime ≤ b.arrivalTime) →
      (round_robin_priority.PriorityPreemptive.ctor l).mProcessList.map (fun p => p.pid) =
        l.map (fun p => p.pid)) ∧
    (srtf.SRTF.ctor [srtf.Process.init4 1 0 1 1,
      srtf.Process.init4 0 0 1 1]).mProcessList.map (fun p => p.pid) = [1, 0] ∧
    (round_robin.RoundRobin.ctor [round_robin.Process.init4 1 0 1 1,
      round_robin.Process.init4 0 0 1 1]).mProcessList.map (fun p => p.pid) = [1, 0] ∧
    (priority_preemptive.PriorityPreemptive.ctor [priority_preemptive.Process.init4 1 0 1 1,
      priority_preemptive.Process.init4 0 0 1 1]).mProcessList.map (fun p => p.pid) =
        [1, 0] ∧
    (round_robin_priority.PriorityPreemptive.ctor
      [round_robin_priority.Process.init4 1 0 1 1,
        round_robin_priority.Process.init4 0 0 1 1]).mProcessList.map (fun p => p.pid) =
        [1, 0] ∧
    (round_robin.RoundRobin.scheduleProcess 2 (round_robin.RoundRobin.ctor
      [round_robin.Process.init4 1 0 1 1, round_robin.Process.init4 0 0 1 1])).map
      (fun r => r.mGantChart) = some [(1, 0), (0, 1)] := by
  refine ⟨?_, ?_, ?_, ?_, ?_, ?_, by decide, by decide, by decide, by decide, by decide⟩
  · intro l
    refine (fcfs.fcfs_ctor_queue l).2.imp ?_
    intro a b hab
    exact (fcfs.fcfs_notAfter_iff a b).mp hab
  · intro l
    have hsorted : (sjf.sortProcesses l).Pairwise sjf.notAfter :=
      @List.sorted_insertionSort _ sjf.notAfter _ sjf.sjf_notAfter_total
        sjf.sjf_notAfter_trans _
    refine hsorted.imp ?_
    intro a b hab
    exact (sjf.sjf_notAfter_iff a b).mp hab
  · intro l hl
    apply List.Sorted.insertionSort_eq
    refine hl.imp ?_
    intro a b hab
    unfold srtf.notAfter srtf.compare
    simpa using hab
  · intro l hl
    apply List.Sorted.insertionSort_eq
    refine hl.imp ?_
    intro a b hab
    unfold round_robin.notAfter round_robin.compare
    simpa using hab
  · intro l hl
    have h : priority_preemptive.sortProcesses l = l := by
      apply List.Sorted.insertionSort_eq
      refine hl.imp ?_
      intro a b hab
      unfold priority_preemptive.notAfter priority_preemptive.compare
      simpa using hab
    unfold priority_preemptive.PriorityPreemptive.ctor
    simp only [h, List.map_map]
    rfl
  · intro l hl
    have h : round_robin_priority.sortProcesses l = l := by
      apply List.Sorted.insertionSort_eq
      refine hl.imp ?_
      intro a b hab
      unfold round_robin_priority.notAfter round_robin_priority.compare
      simpa using hab
    unfold round_robin_priority.PriorityPreemptive.ctor
    simp only [h, List.map_map]
    rfl

/-- On the empty list the loop of `RoundRobin::scheduleProcess` runs no iteration. -/
theorem rr_empty_run (fuel : Nat) :
    round_robin.steps fuel (round_robin.RoundRobin.ctor []) =
      round_robin.RoundRobin.ctor [] ∧
    round_robin.RoundRobin.scheduleProcess fuel (round_robin.RoundRobin.ctor []) =
      some (round_robin.RoundRobin.mk [] [] [] [] 0 1) := by
  have h := round_robin.rr_steps_of_loopCond_false fuel (round_robin.RoundRobin.ctor [])
    (by decide)
  refine ⟨h, ?_⟩
  unfold round_robin.RoundRobin.scheduleProcess
  rw [h]
  decide

/-- On the empty list the loop of the plain `PriorityPreemptive::scheduleProcess`
runs no iteration. -/
theorem pp_empty_run (fuel : Nat) :
    priority_preemptive.steps fuel (priority_preemptive.PriorityPreemptive.ctor []) =
      priority_preemptive.PriorityPreemptive.ctor [] ∧
    priority_preemptive.PriorityPreemptive.scheduleProcess fuel
        (priority_preemptive.PriorityPreemptive.ctor []) =
      some (priority_preemptive.PriorityPreemptive.mk [] [] [] [] 0 1) := by
  have h := priority_preemptive.pp_steps_of_loopCond_false fuel
    (priority_preemptive.PriorityPreemptive.ctor []) (by decide)
  refine ⟨h, ?_⟩
  unfold priority_preemptive.PriorityPreemptive.scheduleProcess
  rw [h]
  decide

/-- On the empty list the loop of the bucketed `PriorityPreemptive::scheduleProcess`
runs no iteration. -/
theorem rrp_empty_run (fuel : Nat) :
    round_robin_priority.steps fuel (round_robin_priority.PriorityPreemptive.ctor []) =
      some (round_robin_priority.PriorityPreemptive.ctor []) ∧
    round_robin_priority.PriorityPreemptive.scheduleProcess fuel
        (round_robin_priority.PriorityPreemptive.ctor []) =
      some (round_robin_priority.PriorityPreemptive.mk []
        (round_robin_priority.RunningProcess.mk [] 0) [] [] 0 1) := by
  have h := rrp_steps_of_loopCond_false fuel
    (round_robin_priority.PriorityPreemptive.ctor []) (by decide)
  refine ⟨h, ?_⟩
  unfold round_robin_priority.PriorityPreemptive.scheduleProcess
  rw [h]
  decide

/-- `FCFS::process` keeps the number of processes in the queue. -/
theorem fcfs_process_length (l : List fcfs.Process) :
    (fcfs.FCFS.ctor l).process.mProcessQueue.length = l.length := by
  have e : (fcfs.FCFS.ctor l).process.mProcessQueue =
      (fcfs.processLoop (fcfs.FCFS.ctor l).mTimer (fcfs.FCFS.ctor l).mProcessQueue).2 := rfl
  have h := congrArg List.length (fcfs.fcfs_processLoop_core (fcfs.FCFS.ctor l).mTimer
    (fcfs.FCFS.ctor l).mProcessQueue)
  rw [List.length_map, List.length_map] at h
  rw [e, h]
  exact (fcfs.fcfs_ctor_queue l).1.length_eq

/-- C25 as amended: no engine validates its input.  For every process list,
whatever its arrival times, burst times and ids, each constructor loads every
record of the list into its queue (in the two priority engines with tempBurstTime
set to burstTime), and FCFS and SJF schedule and report as many processes as the
list holds. -/
theorem constructors_accept_every_list :
    (∀ l : List fcfs.Process, (fcfs.FCFS.ctor l).mProcessQueue.Perm l ∧
      (fcfs.FCFS.ctor l).process.mProcessQueue.length = l.length) ∧
    (∀ l : List sjf.Process, (sjf.SJF.ctor l).mProcessList.Perm l ∧
      (sjf.SJF.ctor l).scheduleProcess.mFinishedProcesses.length = l.length) ∧
    (∀ l : List srtf.Process, (srtf.SRTF.ctor l).mProcessList.Perm l) ∧
    (∀ l : List round_robin.Process, (round_robin.RoundRobin.ctor l).mProcessList.Perm l) ∧
    (∀ l : List priority_preemptive.Process,
      (priority_preemptive.PriorityPreemptive.ctor l).mProcessList.Perm
        (l.map (fun p => { p with tempBurstTime := p.burstTime }))) ∧
    (∀ l : List round_robin_priority.Process,
      (round_robin_priority.PriorityPreemptive.ctor l).mProcessList.Perm
        (l.map (fun p => { p with tempBurstTime := p.burstTime }))) := by
  refine ⟨?_, ?_, srtf.srtf_sort_perm, round_robin.rr_sort_perm, ?_, ?_⟩
  · intro l
    exact ⟨(fcfs.fcfs_ctor_queue l).1, fcfs_process_length l⟩
  · intro l
    refine ⟨List.perm_insertionSort _ _, ?_⟩
    have h := (sjf.sjf_scheduleProcess_spec l).2.1.length_eq
    simpa using h
  · intro l
    exact List.Perm.map _ (priority_preemptive.pp_sort_perm l)
  · intro l
    exact List.Perm.map _ (round_robin_priority.rrp_sort_perm l)

/-- C25 fails as stated: the list of two FCFS processes with the same id 0,
arrival time -3 and execution time 0 is not rejected; `FCFS::process` schedules
both (start and finish at 0, waiting time 3) and `FCFS::print` sums the waiting
and turnaround times to 6 and 6.  SJF does the same on this list, and Round-Robin
on two processes with the same id and burst time 0 produces a trace with two
events. -/
theorem invalid_input_is_scheduled :
    (fcfs.FCFS.ctor [fcfs.Process.init 0 (-3) 0,
        fcfs.Process.init 0 (-3) 0]).process.mProcessQueue.map
      (fun p => (p.pid, p.startingTime, p.finishedTime, p.waitingTime)) =
      [(0, 0, 0, 3), (0, 0, 0, 3)] ∧
    (fcfs.FCFS.ctor [fcfs.Process.init 0 (-3) 0,
        fcfs.Process.init 0 (-3) 0]).printSums = (6, 6) ∧
    (sjf.SJF.ctor [sjf.Process.init 0 (-3) 0,
        sjf.Process.init 0 (-3) 0]).scheduleProcess.mFinishedProcesses.map
      (fun p => (p.pid, p.startingTime, p.finishedTime, p.waitingTime)) =
      [(0, 0, 0, 3), (0, 0, 0, 3)] ∧
    (round_robin.RoundRobin.scheduleProcess 2 (round_robin.RoundRobin.ctor
        [round_robin.Process.init4 0 0 0 0, round_robin.Process.init4 0 0 0 0])).map
      (fun r => (r.mGantChart, r.mFinishedProcesses.length)) =
      some ([(0, 0), (0, 0)], 2) :=
  ⟨by decide, by decide, by decide, by decide⟩

/-! ## Runs to completion -/

namespace tick

theorem tick_foldr_max_nonneg (xs : List Int) : 0 ≤ xs.foldr max 0 := by
  induction xs with
  | nil => simp
  | cons x xs ih => exact le_max_of_le_right ih

theorem tick_le_foldr_max (xs : List Int) (x : Int) (hx : x ∈ xs) : x ≤ xs.foldr max 0 := by
  induction xs with
  | nil => cases hx
  | cons y xs ih =>
    rcases List.mem_cons.mp hx with rfl | h
    · exact le_max_left _ _
    · exact le_max_of_le_right (ih h)

theorem tick_foldr_max_le (xs : List Int) (B : Int) (hB : 0 ≤ B) (h : ∀ x ∈ xs, x ≤ B) :
    xs.foldr max 0 ≤ B := by
  induction xs with
  | nil => simpa using hB
  | cons y xs ih =>
    exact max_le (h y (List.mem_cons_self _ _))
      (ih (fun x hx => h x (List.mem_cons_of_mem _ hx)))

/-- The largest of the listed values (0 when none is positive) depends on the
members of the list only. -/
theorem tick_foldr_max_congr (xs ys : List Int) (h : ∀ v, v ∈ xs ↔ v ∈ ys) :
    xs.foldr max 0 = ys.foldr max 0 := by
  apply le_antisymm
  · exact tick_foldr_max_le xs _ (tick_foldr_max_nonneg ys)
      (fun x hx => tick_le_foldr_max ys x ((h x).mp hx))
  · exact tick_foldr_max_le ys _ (tick_foldr_max_nonneg xs)
      (fun x hx => tick_le_foldr_max xs x ((h x).mpr hx))

/-- The bound on the iterations before the first one: the remaining times of the
queue plus its latest arrival time. -/
theorem tick_potential_init (a : State) (hr : a.ready = []) (ht : a.t = 0) :
    potential a = (a.queue.map (fun p => p.tempBurstTime)).sum +
      (a.queue.map (fun p => p.arrivalTime)).foldr max 0 := by
  unfold potential remaining gap
  rw [hr, ht, List.nil_append]
  simp

/-- One iteration on a state with work left does not raise clock plus bound. -/
theorem tick_step_clock (a b : State) (h : Step a b) (hw : Work a)
    (hne : a.ready ++ a.queue ≠ []) : b.t + potential b ≤ a.t + potential a := by
  have h1 := (tick_step_unit a b h hw).1
  have h2 := tick_step_potential a b h hw hne
  omega

end tick

namespace round_robin

theorem rr_potential_ctor (processes : List Process)
    (hwf : ∀ p ∈ processes, p.tempBurstTime = p.burstTime) :
    tick.potential (abs (RoundRobin.ctor processes)) =
      (processes.map (fun p => p.burstTime)).sum +
        (processes.map (fun p => p.arrivalTime)).foldr max 0 := by
  rw [tick.tick_potential_init _ rfl rfl]
  have hperm := rr_sort_perm processes
  have e1 : ((abs (RoundRobin.ctor processes)).queue.map (fun p => p.tempBurstTime)) =
      (sortProcesses processes).map (fun p => p.tempBurstTime) := by
    simp only [abs, RoundRobin.ctor, List.map_map]
    rfl
  have e2 : ((abs (RoundRobin.ctor processes)).queue.map (fun p => p.arrivalTime)) =
      (sortProcesses processes).map (fun p => p.arrivalTime) := by
    simp only [abs, RoundRobin.ctor, List.map_map]
    rfl
  rw [e1, e2, (hperm.map _).sum_eq,
    tick.tick_foldr_max_congr _ _ (fun v => (hperm.map (fun p => p.arrivalTime)).mem_iff)]
  congr 1
  exact congrArg List.sum (List.map_congr_left (fun p hp => hwf p hp))

end round_robin

namespace srtf

theorem srtf_potential_ctor (processes : List Process)
    (hwf : ∀ p ∈ processes, p.tempBurstTime = p.burstTime) :
    tick.potential (abs (SRTF.ctor processes)) =
      (processes.map (fun p => p.burstTime)).sum +
        (processes.map (fun p => p.arrivalTime)).foldr max 0 := by
  rw [tick.tick_potential_init _ rfl rfl]
  have hperm := srtf_sort_perm processes
  have e1 : ((abs (SRTF.ctor processes)).queue.map (fun p => p.tempBurstTime)) =
      (sortProcesses processes).map (fun p => p.tempBurstTime) := by
    simp only [abs, SRTF.ctor, List.map_map]
    rfl
  have e2 : ((abs (SRTF.ctor processes)).queue.map (fun p => p.arrivalTime)) =
      (sortProcesses processes).map (fun p => p.arrivalTime) := by
    simp only [abs, SRTF.ctor, List.map_map]
    rfl
  rw [e1, e2, (hperm.map _).sum_eq,
    tick.tick_foldr_max_congr _ _ (fun v => (hperm.map (fun p => p.arrivalTime)).mem_iff)]
  congr 1
  exact congrArg List.sum (List.map_congr_left (fun p hp => hwf p hp))

end srtf

namespace priority_preemptive

theorem pp_potential_ctor (processes : List Process) :
    tick.potential (abs (PriorityPreemptive.ctor processes)) =
      (processes.map (fun p => p.burstTime)).sum +
        (processes.map (fun p => p.arrivalTime)).foldr max 0 := by
  rw [tick.tick_potential_init _ rfl rfl]
  have hperm := pp_sort_perm processes
  have e1 : ((abs (PriorityPreemptive.ctor processes)).queue.map (fun p => p.tempBurstTime)) =
      (sortProcesses processes).map (fun p => p.burstTime) := by
    simp only [abs, PriorityPreemptive.ctor, List.map_map]
    rfl
  have e2 : ((abs (PriorityPreemptive.ctor processes)).queue.map (fun p => p.arrivalTime)) =
      (sortProcesses processes).map (fun p => p.arrivalTime) := by
    simp only [abs, PriorityPreemptive.ctor, List.map_map]
    rfl
  rw [e1, e2, (hperm.map _).sum_eq,
    tick.tick_foldr_max_congr _ _ (fun v => (hperm.map (fun p => p.arrivalTime)).mem_iff)]

theorem pp_scheduleProcess_mono (n m : Nat) (s r : PriorityPreemptive) (hnm : n ≤ m)
    (h : PriorityPreemptive.scheduleProcess n s = some r) :
    PriorityPreemptive.scheduleProcess m s = some r := by
  obtain ⟨k, rfl⟩ := Nat.exists_eq_add_of_le hnm
  unfold PriorityPreemptive.scheduleProcess at h ⊢
  by_cases hc : loopCond (steps n s) = true
  · simp [hc] at h
  · have hc2 : loopCond (steps n s) = false := by simpa using hc
    rw [pp_steps_add, pp_steps_of_loopCond_false k _ hc2]
    exact h

end priority_preemptive

namespace round_robin_priority

theorem rrp_potential_ctor (processes : List Process) :
    tick.potential (abs (PriorityPreemptive.ctor processes)) =
      (processes.map (fun p => p.burstTime)).sum +
        (processes.map (fun p => p.arrivalTime)).foldr max 0 := by
  rw [tick.tick_potential_init _ rfl rfl]
  have hperm := rrp_sort_perm processes
  have e1 : ((abs (PriorityPreemptive.ctor processes)).queue.map (fun p => p.tempBurstTime)) =
      (sortProcesses processes).map (fun p => p.burstTime) := by
    simp only [abs, PriorityPreemptive.ctor, List.map_map]
    rfl
  have e2 : ((abs (PriorityPreemptive.ctor processes)).queue.map (fun p => p.arrivalTime)) =
      (sortProcesses processes).map (fun p => p.arrivalTime) := by
    simp only [abs, PriorityPreemptive.ctor, List.map_map]
    rfl
  rw [e1, e2, (hperm.map _).sum_eq,
    tick.tick_foldr_max_congr _ _ (fun v => (hperm.map (fun p => p.arrivalTime)).mem_iff)]

/-- Once the loop has ended, more iterations allowed change nothing. -/
theorem rrp_steps_stable : ∀ (n : Nat) (s s2 : PriorityPreemptive),
    steps n s = some s2 → loopCond s2 = false → ∀ k, steps (n + k) s = some s2 := by
  intro n
  induction n with
  | zero =>
    intro s s2 h hc k
    simp only [steps, Option.some.injEq] at h
    subst h
    rw [Nat.zero_add]
    cases k with
    | zero => rfl
    | succ k => simp [steps, hc]
  | succ n ih =>
    intro s s2 h hc k
    rw [Nat.succ_add]
    unfold steps at h ⊢
    by_cases hl : loopCond s = true
    · rw [if_pos hl] at h ⊢
      cases hb : loopBody s with
      | none => rw [hb] at h; cases h
      | some s1 =>
        rw [hb, Option.some_bind] at h
        rw [Option.some_bind]
        exact ih s1 s2 h hc k
    · rw [if_neg hl] at h ⊢
      exact h

theorem rrp_scheduleProcess_mono (n m : Nat) (s r : PriorityPreemptive) (hnm : n ≤ m)
    (h : PriorityPreemptive.scheduleProcess n s = some r) :
    PriorityPreemptive.scheduleProcess m s = some r := by
  obtain ⟨k, rfl⟩ := Nat.exists_eq_add_of_le hnm
  unfold PriorityPreemptive.scheduleProcess at h ⊢
  cases hs : steps n s with
  | none => rw [hs] at h; cases h
  | some s2 =>
    rw [hs, Option.some_bind] at h
    by_cases hc : loopCond s2 = true
    · simp [hc] at h
    · have hc2 : loopCond s2 = false := by simpa using hc
      rw [rrp_steps_stable n s s2 hs hc2 k, Option.some_bind]
      exact h

end round_robin_priority

namespace srtf

/-- The clock plus the bound on the iterations still to come does not grow along
the guarded loop of SRTF. -/
theorem srtf_clock (processes : List Process) : ∀ (n : Nat) (s : SRTF),
    Reach processes s → s.mTimeQuantum = 1 → tick.Work (abs s) →
    (guarded.steps n s).mTimeCounter + tick.potential (abs (guarded.steps n s)) ≤
      s.mTimeCounter + tick.potential (abs s) := by
  intro n
  induction n with
  | zero => intro s _ _ _; exact le_refl _
  | succ n ih =>
    intro s hr hq hw
    unfold guarded.steps
    by_cases hc : loopCond s = true
    · rw [if_pos hc]
      obtain ⟨r1, r2⟩ := srtf_refines processes s hr hq hw
      have h1 := tick.tick_step_clock _ _ r1 hw ((srtf_loopCond s).mp hc)
      have h2 := ih _ (srtf_reach_loopBody processes s hr) r2 (tick.tick_step_work _ _ r1 hw)
      have e1 : (abs (guarded.loopBody s)).t = (guarded.loopBody s).mTimeCounter := rfl
      have e2 : (abs s).t = s.mTimeCounter := rfl
      omega
    · rw [if_neg hc]

/-- Every iteration of the guarded loop of SRTF moves the clock by one. -/
theorem srtf_loopBody_clock (s : SRTF) :
    (guarded.loopBody s).mTimeCounter = s.mTimeCounter + 1 := by
  unfold guarded.loopBody dispatch
  cases h : stdlib.pqTop (guarded.drainArrived s).mRunningProcessList with
  | none => rfl
  | some cur => rfl

end srtf

/-- C26: for process lists with burstTime ≥ 1 (tempBurstTime = burstTime for
Round-Robin, whose constructor does not set it; priority ≥ 0 for the bucketed
engine), `scheduleProcess` of Round-Robin, of the plain and of the bucketed
priority engine returns one and the same state for every iteration bound from
(sum of the burst times) + (largest arrival time) on; the finished list of that
state holds every input process exactly as often as the input does, each with
remaining time 0 and a finishing time that was set, being at least arrivalTime +
burstTime. -/
theorem quantum_engines_run_to_completion
    (rp : List round_robin.Process) (pp : List priority_preemptive.Process)
    (bp : List round_robin_priority.Process)
    (hr : ∀ p ∈ rp, p.tempBurstTime = p.burstTime ∧ 1 ≤ p.burstTime)
    (hp : ∀ p ∈ pp, 1 ≤ p.burstTime)
    (hb : ∀ p ∈ bp, 1 ≤ p.burstTime ∧ 0 ≤ p.priority) :
    (∃ r,
      (∀ fuel, ((rp.map (fun p => p.burstTime)).sum +
          (rp.map (fun p => p.arrivalTime)).foldr max 0).toNat ≤ fuel →
        round_robin.RoundRobin.scheduleProcess fuel (round_robin.RoundRobin.ctor rp) =
          some r) ∧
      (r.mFinishedProcesses.map (fun p => (p.pid, p.arrivalTime, p.burstTime))).Perm
        (rp.map (fun p => (p.pid, p.arrivalTime, p.burstTime))) ∧
      ∀ p ∈ r.mFinishedProcesses, p.tempBurstTime = 0 ∧
        p.arrivalTime + p.burstTime ≤ p.finishingTime) ∧
    (∃ r,
      (∀ fuel, ((pp.map (fun p => p.burstTime)).sum +
          (pp.map (fun p => p.arrivalTime)).foldr max 0).toNat ≤ fuel →
        priority_preemptive.PriorityPreemptive.scheduleProcess fuel
          (priority_preemptive.PriorityPreemptive.ctor pp) = some r) ∧
      (r.mFinishedProcesses.map (fun p => (p.pid, p.arrivalTime, p.burstTime))).Perm
        (pp.map (fun p => (p.pid, p.arrivalTime, p.burstTime))) ∧
      ∀ p ∈ r.mFinishedProcesses, p.tempBurstTime = 0 ∧
        p.arrivalTime + p.burstTime ≤ p.finishingTime) ∧
    (∃ r,
      (∀ fuel, ((bp.map (fun p => p.burstTime)).sum +
          (bp.map (fun p => p.arrivalTime)).foldr max 0).toNat ≤ fuel →
        round_robin_priority.PriorityPreemptive.scheduleProcess fuel
          (round_robin_priority.PriorityPreemptive.ctor bp) = some r) ∧
      (r.mFinishedProcesses.map (fun p => (p.pid, p.arrivalTime, p.burstTime))).Perm
        (bp.map (fun p => (p.pid, p.arrivalTime, p.burstTime))) ∧
      ∀ p ∈ r.mFinishedProcesses, p.tempBurstTime = 0 ∧
        p.arrivalTime + p.burstTime ≤ p.finishingTime) := by
  refine ⟨?_, ?_, ?_⟩
  · obtain ⟨r, h1, h2, h3, -⟩ := round_robin.rr_final rp hr
      ((rp.map (fun p => p.burstTime)).sum +
        (rp.map (fun p => p.arrivalTime)).foldr max 0).toNat
      (by rw [round_robin.rr_potential_ctor rp (fun p h => (hr p h).1)])
    exact ⟨r, fun fuel hf => round_robin.rr_scheduleProcess_mono _ fuel _ r hf h1, h2,
      fun p h => ⟨(h3 p h).1, (h3 p h).2.1⟩⟩
  · obtain ⟨r, h1, h2, h3, -⟩ := priority_preemptive.pp_final pp hp
      ((pp.map (fun p => p.burstTime)).sum +
        (pp.map (fun p => p.arrivalTime)).foldr max 0).toNat
      (by rw [priority_preemptive.pp_potential_ctor pp])
    exact ⟨r, fun fuel hf => priority_preemptive.pp_scheduleProcess_mono _ fuel _ r hf h1, h2,
      fun p h => ⟨(h3 p h).1, (h3 p h).2.1⟩⟩
  · obtain ⟨r, h1, h2, h3, -⟩ := round_robin_priority.rrp_final bp
      (fun p h => (hb p h).2) (fun p h => (hb p h).1)
      ((bp.map (fun p => p.burstTime)).sum +
        (bp.map (fun p => p.arrivalTime)).foldr max 0).toNat
      (by rw [round_robin_priority.rrp_potential_ctor bp])
    exact ⟨r, fun fuel hf => round_robin_priority.rrp_scheduleProcess_mono _ fuel _ r hf h1,
      h2, fun p h => ⟨(h3 p h).1, (h3 p h).2.1⟩⟩

/-- The statement of C26 on the process lists of the three `main` functions: the
plain priority engine has returned within 72 iterations. -/
theorem quantum_engines_run_to_completion_witness :
    (∀ p ∈ [round_robin.Process.init4 1 0 10 10, round_robin.Process.init4 2 1 9 9,
        round_robin.Process.init4 3 2 5 5, round_robin.Process.init4 4 3 4 4,
        round_robin.Process.init4 5 40 4 4],
      p.tempBurstTime = p.burstTime ∧ 1 ≤ p.burstTime) ∧
    (∀ p ∈ priority_preemptive.mainProcessList, 1 ≤ p.burstTime) ∧
    (∀ p ∈ round_robin_priority.mainProcessList, 1 ≤ p.burstTime ∧ 0 ≤ p.priority) ∧
    ∃ r, priority_preemptive.PriorityPreemptive.scheduleProcess 72
        (priority_preemptive.PriorityPreemptive.ctor priority_preemptive.mainProcessList) =
          some r ∧
      ∀ p ∈ r.mFinishedProcesses, p.tempBurstTime = 0 ∧
        p.arrivalTime + p.burstTime ≤ p.finishingTime :=
  ⟨by decide, by decide, by decide,
    (quantum_engines_run_to_completion
      [round_robin.Process.init4 1 0 10 10, round_robin.Process.init4 2 1 9 9,
        round_robin.Process.init4 3 2 5 5, round_robin.Process.init4 4 3 4 4,
        round_robin.Process.init4 5 40 4 4]
      priority_preemptive.mainProcessList round_robin_priority.mainProcessList
      (by decide) (by decide) (by decide)).2.1.imp
      (fun _ h => ⟨h.1 72 (by decide), h.2.2⟩)⟩

/-- For a process list with arrivalTime ≥ 0 and tempBurstTime = burstTime ≥ 1,
the routine with the guarded loop of SRTF returns one and the same state for every
iteration bound from (sum of the burst times) + (largest arrival time) on; the finished list of that
state holds every input process exactly as often as the input does, and the clock
of that state is at most (largest arrival time) + (sum of the burst times). -/
theorem srtf_guarded_runs_to_completion (processes : List srtf.Process)
    (hwf : ∀ p ∈ processes,
      0 ≤ p.arrivalTime ∧ p.tempBurstTime = p.burstTime ∧ 1 ≤ p.burstTime) :
    ∃ r,
      (∀ fuel, ((processes.map (fun p => p.burstTime)).sum +
          (processes.map (fun p => p.arrivalTime)).foldr max 0).toNat ≤ fuel →
        srtf.guarded.scheduleProcess fuel (srtf.SRTF.ctor processes) = some r) ∧
      (r.mFinishedProcesses.map (fun p => (p.pid, p.arrivalTime, p.burstTime))).Perm
        (processes.map (fun p => (p.pid, p.arrivalTime, p.burstTime))) ∧
      r.mTimeCounter ≤ (processes.map (fun p => p.arrivalTime)).foldr max 0 +
        (processes.map (fun p => p.burstTime)).sum := by
  have harr : ∀ p ∈ processes, 0 ≤ p.arrivalTime := fun p h => (hwf p h).1
  have hw : ∀ p ∈ processes, p.tempBurstTime = p.burstTime ∧ 1 ≤ p.burstTime :=
    fun p h => (hwf p h).2
  have hpot := srtf.srtf_potential_ctor processes (fun p h => (hw p h).1)
  obtain ⟨r, h1, h2, -, -⟩ := srtf.srtf_final processes harr hw
    ((processes.map (fun p => p.burstTime)).sum +
      (processes.map (fun p => p.arrivalTime)).foldr max 0).toNat (by rw [hpot])
  refine ⟨r, fun fuel hf => srtf.srtf_scheduleProcess_mono _ fuel _ r hf h1, h2, ?_⟩
  obtain ⟨-, hret⟩ := srtf.srtf_returns processes harr hw
    ((processes.map (fun p => p.burstTime)).sum +
      (processes.map (fun p => p.arrivalTime)).foldr max 0).toNat (by rw [hpot])
  rw [hret] at h1
  simp only [Option.some.injEq] at h1
  subst h1
  have hc := srtf.srtf_clock processes
    ((processes.map (fun p => p.burstTime)).sum +
      (processes.map (fun p => p.arrivalTime)).foldr max 0).toNat
    (srtf.SRTF.ctor processes) (srtf.srtf_reach_ctor processes harr) rfl
    (srtf.srtf_ctor_work processes hw)
  obtain ⟨hrun, -⟩ := srtf.srtf_run processes
    ((processes.map (fun p => p.burstTime)).sum +
      (processes.map (fun p => p.arrivalTime)).foldr max 0).toNat
    (srtf.SRTF.ctor processes) (srtf.srtf_reach_ctor processes harr) rfl
    (srtf.srtf_ctor_work processes hw)
  have hnn := tick.tick_potential_nonneg _ (tick.tick_run_work _ _ _ hrun
    (srtf.srtf_ctor_conserved processes) (srtf.srtf_ctor_work processes hw)).2
  rw [hpot] at hc
  have e0 : (srtf.SRTF.ctor processes).mTimeCounter = 0 := rfl
  simp only
  omega

/-! ## The class `RunningProcess` under sequences of calls -/

namespace round_robin_priority

theorem rrp_getProcessLoop_none : ∀ (L : List (List Process)), L.flatten = [] →
    getProcessLoop L = none := by
  intro L
  induction L with
  | nil => intro _; rfl
  | cons b L ih =>
    intro h
    rw [List.flatten_cons, List.append_eq_nil] at h
    obtain ⟨hb, hL⟩ := h
    subst hb
    simp [getProcessLoop, ih hL]

/-- Method `getProcess` on a structure that stores nothing returns `Process()` and
changes nothing. -/
theorem rrp_getProcess_empty (r : RunningProcess) (h : r.stored = []) :
    r.getProcess = (Process.zero, r) := by
  unfold RunningProcess.getProcess
  rw [rrp_getProcessLoop_none r.mProcessList h]

/-- Method `addProcess` with a priority that is not negative: afterwards the vector
has as many queues as before, or one more than the priority if that is more. -/
theorem rrp_addProcess_length (r r2 : RunningProcess) (p : Process) (k : Int)
    (hp : 0 ≤ p.priority) (h : r.addProcess p = some (r2, k)) :
    r2.mProcessList.length = max r.mProcessList.length (p.priority.toNat + 1) := by
  have hlt : ¬ p.priority < 0 := by omega
  simp only [RunningProcess.addProcess, hlt, if_false, Option.some.injEq,
    Prod.mk.injEq] at h
  obtain ⟨rfl, -⟩ := h
  simp only [List.length_set, List.length_append, List.length_replicate]
  omega

/-- Method `getProcess` does not change the number of queues. -/
theorem rrp_getProcess_length (r : RunningProcess) (hwf : r.Wf) :
    r.getProcess.2.mProcessList.length = r.mProcessList.length := by
  by_cases h : r.stored = []
  · rw [rrp_getProcess_empty r h]
  · obtain ⟨k, p, ps, -, -, g3, -⟩ := rrp_getProcess_spec r hwf h
    rw [g3]
    simp

/-- Method `getProcess` keeps `Wf`. -/
theorem rrp_getProcess_wf (r : RunningProcess) (hwf : r.Wf) : r.getProcess.2.Wf := by
  by_cases h : r.stored = []
  · rw [rrp_getProcess_empty r h]
    exact hwf
  · obtain ⟨k, p, ps, -, -, -, -, g5, -⟩ := rrp_getProcess_spec r hwf h
    exact g5

/-- A sequence of calls that adds no negative priority returns; it keeps `Wf`, and
the number of queues afterwards is the number before, or one more than the highest
priority added if that is more. -/
theorem rrp_calls_spec : ∀ (cs : List Call) (r : RunningProcess), r.Wf → CallsValid cs →
    ∃ r2, r.calls cs = some r2 ∧ r2.Wf ∧
      r2.mProcessList.length = max r.mProcessList.length (highestAdded cs) := by
  intro cs
  induction cs with
  | nil =>
    intro r hwf _
    exact ⟨r, rfl, hwf, by simp [highestAdded]⟩
  | cons c cs ih =>
    intro r hwf hv
    have hv2 : CallsValid cs := fun p hp => hv p (List.mem_cons_of_mem _ hp)
    cases c with
    | addProcess p =>
      have hp : 0 ≤ p.priority := hv p (List.mem_cons_self _ _)
      obtain ⟨r1, a1, -⟩ := rrp_addProcess_spec r p hp
      have hwf1 := rrp_addProcess_wf r r1 p _ hp hwf a1
      have hl1 := rrp_addProcess_length r r1 p _ hp a1
      obtain ⟨r2, b1, b2, b3⟩ := ih r1 hwf1 hv2
      refine ⟨r2, ?_, b2, ?_⟩
      · simp only [RunningProcess.calls, RunningProcess.call, a1, Option.map_some',
          Option.some_bind]
        exact b1
      · rw [b3, hl1]
        simp only [highestAdded]
        omega
    | getProcess =>
      obtain ⟨r2, b1, b2, b3⟩ := ih r.getProcess.2 (rrp_getProcess_wf r hwf) hv2
      refine ⟨r2, ?_, b2, ?_⟩
      · simp only [RunningProcess.calls, RunningProcess.call, Option.some_bind]
        exact b1
      · rw [b3, rrp_getProcess_length r hwf]
        simp only [highestAdded]

end round_robin_priority

/-- C28: every sequence of `addProcess` and `getProcess` calls on a new
`RunningProcess` in which no added process has a negative priority returns, and
afterwards the number of queues is one more than the highest priority added (0 if
nothing was added).  Every `addProcess` of such a process, on any structure, leaves
the vector with more queues than the priority and the process in the queue of its
priority. -/
theorem bucket_count_is_highest_priority (cs : List round_robin_priority.Call)
    (hv : round_robin_priority.CallsValid cs) :
    (∃ r, round_robin_priority.RunningProcess.ctor.calls cs = some r ∧
      r.mProcessList.length = round_robin_priority.highestAdded cs) ∧
    (∀ (r : round_robin_priority.RunningProcess) (p : round_robin_priority.Process),
      0 ≤ p.priority →
      ∃ r2, r.addProcess p = some (r2, r.processCount + 1) ∧
        p.priority.toNat < r2.mProcessList.length ∧
        r2.mProcessList.length = max r.mProcessList.length (p.priority.toNat + 1) ∧
        p ∈ r2.mProcessList.getD p.priority.toNat []) := by
  refine ⟨?_, ?_⟩
  · obtain ⟨r, h1, -, h3⟩ := round_robin_priority.rrp_calls_spec cs _
      round_robin_priority.rrp_wf_ctor hv
    refine ⟨r, h1, ?_⟩
    rw [h3]
    simp [round_robin_priority.RunningProcess.ctor]
  · intro r p hp
    obtain ⟨r2, a1, -, a3, -⟩ := round_robin_priority.rrp_addProcess_spec r p hp
    have hl := round_robin_priority.rrp_addProcess_length r r2 p _ hp a1
    refine ⟨r2, a1, by omega, hl, ?_⟩
    rw [a3, if_pos rfl]
    simp

/-- The statement of C28 on the calls add (priority 3), get, add (priority 1),
get, get: the vector has 4 queues afterwards. -/
theorem bucket_count_is_highest_priority_witness :
    round_robin_priority.CallsValid
      [round_robin_priority.Call.addProcess (round_robin_priority.Process.init4 0 0 3 1),
        round_robin_priority.Call.getProcess,
        round_robin_priority.Call.addProcess (round_robin_priority.Process.init4 1 0 1 1),
        round_robin_priority.Call.getProcess, round_robin_priority.Call.getProcess] ∧
    ∃ r, round_robin_priority.RunningProcess.ctor.calls
        [round_robin_priority.Call.addProcess (round_robin_priority.Process.init4 0 0 3 1),
          round_robin_priority.Call.getProcess,
          round_robin_priority.Call.addProcess (round_robin_priority.Process.init4 1 0 1 1),
          round_robin_priority.Call.getProcess, round_robin_priority.Call.getProcess] =
        some r ∧
      r.mProcessList.length = 4 :=
  have hv : round_robin_priority.CallsValid
      [round_robin_priority.Call.addProcess (round_robin_priority.Process.init4 0 0 3 1),
        round_robin_priority.Call.getProcess,
        round_robin_priority.Call.addProcess (round_robin_priority.Process.init4 1 0 1 1),
        round_robin_priority.Call.getProcess, round_robin_priority.Call.getProcess] := by
    intro p hp
    simp at hp
    rcases hp with rfl | rfl <;> decide
  ⟨hv, (bucket_count_is_highest_priority _ hv).1⟩

/-- C29: every sequence of `addProcess` and `getProcess` calls on a new
`RunningProcess` in which no added process has a negative priority, `getProcess`
on a structure that stores nothing included, returns, and afterwards `processCount`
is the number of processes stored in the queues; so `empty()` is true exactly when
every queue is empty and `getSize()` is the number of stored processes.
`getProcess` on a structure that stores nothing returns `Process()` and changes
nothing. -/
theorem bucket_count_tracks_stored (cs : List round_robin_priority.Call)
    (hv : round_robin_priority.CallsValid cs) :
    (∃ r, round_robin_priority.RunningProcess.ctor.calls cs = some r ∧
      r.processCount = ((r.mProcessList.map List.length).sum : Nat) ∧
      (r.empty = true ↔ ∀ b ∈ r.mProcessList, b = []) ∧
      r.getSize = ((r.mProcessList.map List.length).sum : Nat)) ∧
    (∀ r : round_robin_priority.RunningProcess, (∀ b ∈ r.mProcessList, b = []) →
      r.getProcess = (round_robin_priority.Process.zero, r)) := by
  refine ⟨?_, ?_⟩
  · obtain ⟨r, h1, h2, -⟩ := round_robin_priority.rrp_calls_spec cs _
      round_robin_priority.rrp_wf_ctor hv
    have hc : r.processCount = ((r.mProcessList.map List.length).sum : Nat) := by
      rw [h2.2]
      unfold round_robin_priority.RunningProcess.stored
      rw [List.length_flatten]
    refine ⟨r, h1, hc, ?_, hc⟩
    rw [round_robin_priority.rrp_empty_iff r h2]
    unfold round_robin_priority.RunningProcess.stored
    exact List.flatten_eq_nil_iff
  · intro r h
    exact round_robin_priority.rrp_getProcess_empty r (List.flatten_eq_nil_iff.mpr h)

/-- The statement of C29 on the calls get, add (priority 2), add (priority 0), get:
one process is stored afterwards. -/
theorem bucket_count_tracks_stored_witness :
    round_robin_priority.CallsValid
      [round_robin_priority.Call.getProcess,
        round_robin_priority.Call.addProcess (round_robin_priority.Process.init4 0 0 2 1),
        round_robin_priority.Call.addProcess (round_robin_priority.Process.init4 1 0 0 1),
        round_robin_priority.Call.getProcess] ∧
    (round_robin_priority.RunningProcess.ctor.calls
        [round_robin_priority.Call.getProcess,
          round_robin_priority.Call.addProcess (round_robin_priority.Process.init4 0 0 2 1),
          round_robin_priority.Call.addProcess (round_robin_priority.Process.init4 1 0 0 1),
          round_robin_priority.Call.getProcess]).map
      (fun r => (r.processCount, r.mProcessList.map (fun b => b.map (fun p => p.pid)))) =
      some (1, [[], [], [0]]) ∧
    ∃ r, round_robin_priority.RunningProcess.ctor.calls
        [round_robin_priority.Call.getProcess,
          round_robin_priority.Call.addProcess (round_robin_priority.Process.init4 0 0 2 1),
          round_robin_priority.Call.addProcess (round_robin_priority.Process.init4 1 0 0 1),
          round_robin_priority.Call.getProcess] = some r ∧
      r.processCount = ((r.mProcessList.map List.length).sum : Nat) :=
  have hv : round_robin_priority.CallsValid
      [round_robin_priority.Call.getProcess,
        round_robin_priority.Call.addProcess (round_robin_priority.Process.init4 0 0 2 1),
        round_robin_priority.Call.addProcess (round_robin_priority.Process.init4 1 0 0 1),
        round_robin_priority.Call.getProcess] := by
    intro p hp
    simp at hp
    rcases hp with rfl | rfl <;> decide
  ⟨hv, by decide,
    (bucket_count_tracks_stored _ hv).1.imp (fun _ h => ⟨h.1, h.2.1⟩)⟩

/-! ## The averages of the print routines on an empty list -/

/-- C24 fails as stated: on the empty list `FCFS::print` and `RoundRobin::print`
evaluate both divisions with the divisor 0; what they write as averages is the
NaN of `0.0 / 0`, not a report of the empty case. -/
theorem print_divides_by_zero_on_empty :
    (fcfs.FCFS.ctor []).process.mProcessQueue.length = 0 ∧
    (fcfs.FCFS.ctor []).printAverages =
      (stdlib.divDouble 0 0, stdlib.divDouble 0 0) ∧
    stdlib.divDouble 0 0 = stdlib.DoubleValue.nan ∧
    round_robin.RoundRobin.printAverages 0 (round_robin.RoundRobin.ctor []) =
      some (stdlib.DoubleValue.nan, stdlib.DoubleValue.nan) :=
  ⟨by decide, by decide, by decide, by decide⟩

/-! ## The starting time and the first trace event -/

namespace tick

/-- A move keeps `First`, the distinctness of the ids, and `init` on the finished
processes. -/
theorem tick_move_first (a b : State) (h : Move a b)
    (hnd : ((a.finished ++ (a.ready ++ a.queue)).map (fun p => p.pid)).Nodup)
    (hf : First a) (hi : ∀ p ∈ a.finished, p.init = true) :
    First b ∧ ((b.finished ++ (b.ready ++ b.queue)).map (fun p => p.pid)).Nodup ∧
    (∀ p ∈ b.finished, p.init = true) := by
  obtain ⟨hmono, hcase⟩ := h
  rcases hcase with ⟨hg, hfin, hperm⟩ | ⟨cur, cur2, others, pa, pb, e1, e2, e3, e4, e5, hg⟩
  · refine ⟨?_, (List.Perm.nodup_iff (hperm.map _)).mpr hnd, by rw [hfin]; exact hi⟩
    intro p hp
    obtain ⟨f1, f2⟩ := hf p (hperm.subset hp)
    rw [hg]
    refine ⟨f1, fun hi2 => ?_⟩
    obtain ⟨g1, g2, g3⟩ := f2 hi2
    exact ⟨g1, g2, by omega⟩
  · have hnd2 := (List.Perm.nodup_iff (pa.map (fun p => p.pid))).mp hnd
    rw [List.map_cons, List.nodup_cons] at hnd2
    have hdiff : ∀ p ∈ others, p.pid ≠ cur.pid := by
      intro p hp' e
      exact hnd2.1 (by rw [← e]; exact List.mem_map_of_mem _ hp')
    obtain ⟨c1, c2⟩ := hf cur (pa.symm.subset (List.mem_cons_self _ _))
    refine ⟨?_, ?_, ?_⟩
    · intro p hpb
      rw [hg]
      rcases List.mem_cons.mp (pb.subset hpb) with rfl | hpo
      · refine ⟨fun hi2 => absurd hi2 (by rw [e2]; decide), fun _ => ?_⟩
        rw [e1]
        by_cases hci : cur.init = false
        · have hnone : a.gantt.find? (fun e => decide (e.1 = cur.pid)) = none := by
            rw [List.find?_eq_none]
            intro e he
            simpa using c1 hci e he
          rw [e3 hci]
          refine ⟨?_, ?_, hmono⟩
          · rw [List.find?_append, hnone]
            simp
          · intro e he hpid
            rcases List.mem_append.mp he with he | he
            · exact absurd hpid (c1 hci e he)
            · simp only [List.mem_singleton] at he
              subst he
              exact le_refl _
        · have hci2 : cur.init = true := by simpa using hci
          obtain ⟨g1, g2, g3⟩ := c2 hci2
          rw [e4 hci2]
          refine ⟨?_, ?_, by omega⟩
          · rw [List.find?_append, g1]
            rfl
          · intro e he hpid
            rcases List.mem_append.mp he with he | he
            · exact g2 e he hpid
            · simp only [List.mem_singleton] at he
              subst he
              exact g3
      · have hne := hdiff p hpo
        obtain ⟨f1, f2⟩ := hf p (pa.symm.subset (List.mem_cons_of_mem _ hpo))
        refine ⟨fun hi2 e he => ?_, fun hi2 => ?_⟩
        · rcases List.mem_append.mp he with he | he
          · exact f1 hi2 e he
          · simp only [List.mem_singleton] at he
            subst he
            exact fun e' => hne e'.symm
        · obtain ⟨g1, g2, g3⟩ := f2 hi2
          refine ⟨?_, ?_, by omega⟩
          · rw [List.find?_append, g1]
            rfl
          · intro e he hpid
            rcases List.mem_append.mp he with he | he
            · exact g2 e he hpid
            · simp only [List.mem_singleton] at he
              subst he
              exact absurd hpid.symm hne
    · apply (List.Perm.nodup_iff (pb.map (fun p => p.pid))).mpr
      rw [List.map_cons, List.nodup_cons, e1]
      exact hnd2
    · intro p hp
      rcases e5 with h | h
      · rw [h] at hp
        exact hi p hp
      · rw [h] at hp
        rcases List.mem_append.mp hp with hp | hp
        · exact hi p hp
        · simp only [List.mem_singleton] at hp
          subst hp
          exact e2

/-- A step of the common loop on a state without negative remaining times is a
move. -/
theorem tick_step_move (a b : State) (h : Step a b) (ha : Arrived a) : Move a b := by
  cases h with
  | idle hready hhead hq hr hf hg ht =>
    refine ⟨by omega, Or.inl ⟨hg, hf, ?_⟩⟩
    rw [hf, hr, hq, hready]
  | run moved rest cur others moved2 rest2 hq hm hp hq2 hm2 hbq hg ht hfin =>
    have hcurlive : cur ∈ a.ready ++ a.queue := by
      have := hp.symm.subset (List.mem_cons_self _ _)
      rcases List.mem_append.mp this with h | h
      · exact List.mem_append_left _ h
      · exact List.mem_append_right _ (by rw [hq]; exact List.mem_append_left _ h)
    have hmono : a.t ≤ b.t := by
      rw [ht]
      exact (tick_slice_nonneg a.t cur (ha.1 cur hcurlive)).2
    have hperm : (a.finished ++ (a.ready ++ a.queue)).Perm
        (cur :: (a.finished ++ (others ++ rest))) := by
      rw [hq, ← List.append_assoc a.ready]
      refine List.Perm.trans (List.Perm.append_left _ (List.Perm.append_right _ hp)) ?_
      simp only [List.cons_append]
      exact List.perm_middle
    obtain ⟨s1, s2, s3⟩ := tick_slice_init a.t cur
    have spid : (slice a.t cur).1.pid = cur.pid := tick_slice_pid _ _
    refine ⟨hmono, Or.inr ?_⟩
    rcases hfin with ⟨-, hf, hr⟩ | ⟨-, hf, hr⟩
    · refine ⟨cur, finish (slice a.t cur), a.finished ++ (others ++ rest), hperm, ?_,
        spid, s1, s2, s3, Or.inr hf, hg⟩
      rw [hf, hbq, hq2, List.append_assoc]
      refine List.Perm.trans (List.Perm.append_left _ (List.Perm.append_left _
        (List.Perm.append_right _ hr))) ?_
      rw [List.append_assoc others]
      simp only [List.singleton_append]
      exact List.perm_middle
    · refine ⟨cur, (slice a.t cur).1, a.finished ++ (others ++ rest), hperm, ?_,
        spid, s1, s2, s3, Or.inl hf, hg⟩
      rw [hf, hbq, hq2]
      refine List.Perm.trans (List.Perm.append_left _ (List.Perm.append_right _ hr)) ?_
      rw [List.cons_append, List.append_assoc others]
      exact List.perm_middle

/-- A run of the common loop from a state without negative remaining times is a
sequence of moves. -/
theorem tick_run_moves (input : List (Int × Int × Int)) (a b : State)
    (h : Relation.ReflTransGen Step a b) (hc : Conserved input a) (ha : Arrived a) :
    Relation.ReflTransGen Move a b := by
  induction h with
  | refl => exact Relation.ReflTransGen.refl
  | tail hab hbc ih =>
    exact Relation.ReflTransGen.tail ih
      (tick_step_move _ _ hbc (tick_run_arrived input a _ hab hc ha).2)

theorem tick_init_first (a : State) (hr : a.ready = []) (hf : a.finished = [])
    (hg : a.gantt = []) (h : ∀ p ∈ a.queue, p.init = false) : First a := by
  intro p hp
  rw [hr, hf] at hp
  have hi := h p hp
  refine ⟨fun _ e he => ?_, fun hi2 => ?_⟩
  · rw [hg] at he
    cases he
  · rw [hi] at hi2
    cases hi2

/-- A sequence of moves keeps `First`, the distinctness of the ids, and `init` on
the finished processes; it extends the trace. -/
theorem tick_moves_inv (a b : State) (h : Relation.ReflTransGen Move a b)
    (hnd : ((a.finished ++ (a.ready ++ a.queue)).map (fun p => p.pid)).Nodup)
    (hf : First a) (hi : ∀ p ∈ a.finished, p.init = true) :
    (First b ∧ ((b.finished ++ (b.ready ++ b.queue)).map (fun p => p.pid)).Nodup ∧
      (∀ p ∈ b.finished, p.init = true)) ∧
    ∃ ext, b.gantt = a.gantt ++ ext := by
  induction h with
  | refl => exact ⟨⟨hf, hnd, hi⟩, [], by simp⟩
  | tail _ hbc ih =>
    refine ⟨tick_move_first _ _ hbc ih.1.2.1 ih.1.1 ih.1.2.2, ?_⟩
    obtain ⟨ext, he⟩ := ih.2
    rcases hbc.2 with ⟨hg, -, -⟩ | ⟨cur, cur2, others, -, -, -, -, -, -, -, hg⟩
    · exact ⟨ext, by rw [hg, he]⟩
    · exact ⟨ext ++ [(cur.pid, _)], by rw [hg, he, List.append_assoc]⟩

/-- Under `First` a finished process has the timestamp of the first trace event with
its id as starting time, and no trace event with its id is earlier. -/
theorem tick_first_finished (a : State) (hf : First a) (hi : ∀ p ∈ a.finished, p.init = true) :
    ∀ p ∈ a.finished,
      a.gantt.find? (fun e => decide (e.1 = p.pid)) = some (p.pid, p.startingTime) ∧
      ∀ e ∈ a.gantt, e.1 = p.pid → p.startingTime ≤ e.2 := by
  intro p hp
  obtain ⟨g1, g2, -⟩ := (hf p (List.mem_append_left _ hp)).2 (hi p hp)
  exact ⟨g1, g2⟩

/-- Between two states with `First`, the later trace extending the earlier one, the
starting time is set once. -/
theorem tick_first_once (a b : State) (hg : ∃ ext, b.gantt = a.gantt ++ ext)
    (ha : First a) (hb : First b) : SetOnce a b := by
  intro p hp hpi q hq hpid
  obtain ⟨ext, he⟩ := hg
  obtain ⟨g1, -, -⟩ := (ha p hp).2 hpi
  have hfind : b.gantt.find? (fun e => decide (e.1 = p.pid)) = some (p.pid, p.startingTime) := by
    rw [he, List.find?_append, g1]
    rfl
  obtain ⟨f1, f2⟩ := hb q hq
  have hqi : q.init = true := by
    by_contra hne
    have hqf : q.init = false := by simpa using hne
    have hmem := List.mem_of_find?_eq_some hfind
    exact f1 hqf _ hmem hpid.symm
  obtain ⟨k1, -, -⟩ := f2 hqi
  rw [hpid, hfind] at k1
  simp only [Option.some.injEq, Prod.mk.injEq, true_and] at k1
  exact ⟨hqi, k1.symm⟩

/-- From a state with everything queued, no `init` set and distinct ids. -/
theorem tick_init_inv (input : List (Int × Int × Int)) (hnd : (input.map Prod.fst).Nodup)
    (a : State) (hc : Conserved input a) (hr : a.ready = []) (hf : a.finished = [])
    (hg : a.gantt = []) (hinit : ∀ p ∈ a.queue, p.init = false) :
    ((a.finished ++ (a.ready ++ a.queue)).map (fun p => p.pid)).Nodup ∧
    First a ∧ ∀ p ∈ a.finished, p.init = true := by
  refine ⟨tick_conserved_nodup input a hc hnd, tick_init_first a hr hf hg hinit, ?_⟩
  intro p hp
  rw [hf] at hp
  cases hp

/-- The states `a` and then `b` of a sequence of moves from a state `a0` with
everything queued, no `init` set and distinct ids: `First` holds in `a`, the
finished processes of `a` have the timestamp of the first trace event with their
id as starting time, and the starting time is set once between `a` and `b`. -/
theorem tick_moves_start (input : List (Int × Int × Int)) (hnd : (input.map Prod.fst).Nodup)
    (a0 a b : State) (h : Relation.ReflTransGen Move a0 a)
    (h2 : Relation.ReflTransGen Move a b) (hc : Conserved input a0)
    (hr : a0.ready = []) (hf : a0.finished = []) (hg : a0.gantt = [])
    (hinit : ∀ p ∈ a0.queue, p.init = false) :
    First a ∧
    (∀ p ∈ a.finished,
      a.gantt.find? (fun e => decide (e.1 = p.pid)) = some (p.pid, p.startingTime) ∧
      ∀ e ∈ a.gantt, e.1 = p.pid → p.startingTime ≤ e.2) ∧
    SetOnce a b := by
  obtain ⟨i1, i2, i3⟩ := tick_init_inv input hnd a0 hc hr hf hg hinit
  obtain ⟨⟨j1, j2, j3⟩, -⟩ := tick_moves_inv a0 a h i1 i2 i3
  obtain ⟨⟨k1, -, -⟩, kg⟩ := tick_moves_inv a b h2 j2 j1 j3
  exact ⟨j1, tick_first_finished a j1 j3, tick_first_once a b kg j1 k1⟩

end tick

/-! ## The starting time in the four tick-based engines -/

namespace round_robin

/-- Round-Robin: the states after `n` and after `m` further iterations. -/
theorem rr_start_first (processes : List Process)
    (hnd : (processes.map (fun p => p.pid)).Nodup)
    (hwf : ∀ p ∈ processes, p.init = false ∧ 0 ≤ p.tempBurstTime) (n m : Nat) :
    tick.First (abs (steps n (RoundRobin.ctor processes))) ∧
    (∀ p ∈ (steps n (RoundRobin.ctor processes)).mFinishedProcesses,
      (steps n (RoundRobin.ctor processes)).mGantChart.find? (fun e => decide (e.1 = p.pid)) =
        some (p.pid, p.startingTime) ∧
      ∀ e ∈ (steps n (RoundRobin.ctor processes)).mGantChart,
        e.1 = p.pid → p.startingTime ≤ e.2) ∧
    tick.SetOnce (abs (steps n (RoundRobin.ctor processes)))
      (abs (steps m (steps n (RoundRobin.ctor processes)))) := by
  have hc := rr_ctor_conserved processes
  have ha := rr_ctor_arrived processes (fun p hp => (hwf p hp).2)
  obtain ⟨run1, hq⟩ := rr_run n (RoundRobin.ctor processes) rfl
  obtain ⟨hc1, ha1⟩ := tick.tick_run_arrived _ _ _ run1 hc ha
  obtain ⟨run2, -⟩ := rr_run m _ hq
  have hinit : ∀ q ∈ (abs (RoundRobin.ctor processes)).queue, q.init = false := by
    intro q hq
    obtain ⟨p, hp, rfl⟩ := List.mem_map.mp hq
    exact (hwf p ((List.Perm.mem_iff (rr_sort_perm processes)).mp hp)).1
  obtain ⟨f1, f2, f3⟩ := tick.tick_moves_start _
    (by rw [rr_input_ids]; exact hnd) _ _ _
    (tick.tick_run_moves _ _ _ run1 hc ha) (tick.tick_run_moves _ _ _ run2 hc1 ha1)
    hc rfl rfl rfl hinit
  exact ⟨f1, fun p hp => f2 (view p) (List.mem_map_of_mem _ hp), f3⟩

end round_robin

namespace priority_preemptive

/-- Plain priority engine: the states after `n` and after `m` further iterations. -/
theorem pp_start_first (processes : List Process)
    (hnd : (processes.map (fun p => p.pid)).Nodup)
    (hwf : ∀ p ∈ processes, p.init = false ∧ 0 ≤ p.burstTime) (n m : Nat) :
    tick.First (abs (steps n (PriorityPreemptive.ctor processes))) ∧
    (∀ p ∈ (steps n (PriorityPreemptive.ctor processes)).mFinishedProcesses,
      (steps n (PriorityPreemptive.ctor processes)).mGantChart.find?
          (fun e => decide (e.1 = p.pid)) = some (p.pid, p.startingTime) ∧
      ∀ e ∈ (steps n (PriorityPreemptive.ctor processes)).mGantChart,
        e.1 = p.pid → p.startingTime ≤ e.2) ∧
    tick.SetOnce (abs (steps n (PriorityPreemptive.ctor processes)))
      (abs (steps m (steps n (PriorityPreemptive.ctor processes)))) := by
  have hc := pp_ctor_conserved processes
  have ha := pp_ctor_arrived processes (fun p hp => (hwf p hp).2)
  obtain ⟨run1, hq⟩ := pp_run n (PriorityPreemptive.ctor processes) (pp_inv_ctor processes)
  obtain ⟨hc1, ha1⟩ := tick.tick_run_arrived _ _ _ run1 hc ha
  obtain ⟨run2, -⟩ := pp_run m _ hq
  have hinit : ∀ q ∈ (abs (PriorityPreemptive.ctor processes)).queue, q.init = false := by
    intro q hq
    obtain ⟨q2, hq2, rfl⟩ := List.mem_map.mp hq
    obtain ⟨p, hp, rfl⟩ := pp_ctor_mem processes q2 hq2
    exact (hwf p hp).1
  obtain ⟨f1, f2, f3⟩ := tick.tick_moves_start _
    (by rw [pp_input_ids]; exact hnd) _ _ _
    (tick.tick_run_moves _ _ _ run1 hc ha) (tick.tick_run_moves _ _ _ run2 hc1 ha1)
    hc rfl rfl rfl hinit
  exact ⟨f1, fun p hp => f2 (view p) (List.mem_map_of_mem _ hp), f3⟩

end priority_preemptive

namespace round_robin_priority

/-- Bucketed priority engine: the loop returns after `n` and after `m` further
iterations, with the states as in the other engines. -/
theorem rrp_start_first (processes : List Process)
    (hnd : (processes.map (fun p => p.pid)).Nodup)
    (hwf : ∀ p ∈ processes, p.init = false ∧ 0 ≤ p.burstTime ∧ 0 ≤ p.priority) (n m : Nat) :
    ∃ s s2, steps n (PriorityPreemptive.ctor processes) = some s ∧ steps m s = some s2 ∧
      tick.First (abs s) ∧
      (∀ p ∈ s.mFinishedProcesses,
        s.mGantChart.find? (fun e => decide (e.1 = p.pid)) = some (p.pid, p.startingTime) ∧
        ∀ e ∈ s.mGantChart, e.1 = p.pid → p.startingTime ≤ e.2) ∧
      tick.SetOnce (abs s) (abs s2) := by
  have hc := rrp_ctor_conserved processes
  have ha := rrp_ctor_arrived processes (fun p hp => (hwf p hp).2.1)
  obtain ⟨s, hs, run1, hq⟩ := rrp_run n (PriorityPreemptive.ctor processes)
    (rrp_inv_ctor processes (fun p hp => (hwf p hp).2.2))
  obtain ⟨hc1, ha1⟩ := tick.tick_run_arrived _ _ _ run1 hc ha
  obtain ⟨s2, hs2, run2, -⟩ := rrp_run m s hq
  have hinit : ∀ q ∈ (abs (PriorityPreemptive.ctor processes)).queue, q.init = false := by
    intro q hq
    obtain ⟨q2, hq2, rfl⟩ := List.mem_map.mp hq
    obtain ⟨p, hp, rfl⟩ := rrp_ctor_mem processes q2 hq2
    exact (hwf p hp).1
  obtain ⟨f1, f2, f3⟩ := tick.tick_moves_start _
    (by rw [rrp_input_ids]; exact hnd) _ _ _
    (tick.tick_run_moves _ _ _ run1 hc ha) (tick.tick_run_moves _ _ _ run2 hc1 ha1)
    hc rfl rfl rfl hinit
  exact ⟨s, s2, hs, hs2, f1, fun p hp => f2 (view p) (List.mem_map_of_mem _ hp), f3⟩

end round_robin_priority

namespace srtf

/-- The dispatch of the top process `cur`, as far as the id, `init` and the
starting time go: `cur2` is the process that goes back to the heap or joins the
finished list. -/
theorem srtf_dispatch_start (s : SRTF) (cur : Process)
    (htop : stdlib.pqTop s.mRunningProcessList = some cur) :
    ∃ cur2, cur2.pid = cur.pid ∧ cur2.init = true ∧
      (cur.init = false → cur2.startingTime = s.mTimeCounter) ∧
      (cur.init = true → cur2.startingTime = cur.startingTime) ∧
      (dispatch s).mProcessList = s.mProcessList ∧
      (dispatch s).mGantChart = s.mGantChart ++ [(cur.pid, s.mTimeCounter)] ∧
      (dispatch s).mTimeCounter = s.mTimeCounter + 1 ∧
      (((dispatch s).mRunningProcessList =
          stdlib.pqPop TempBurstTimeCompare s.mRunningProcessList ∧
        (dispatch s).mFinishedProcesses = s.mFinishedProcesses ++ [cur2]) ∨
       ((dispatch s).mRunningProcessList = stdlib.pqPush TempBurstTimeCompare
          (stdlib.pqPop TempBurstTimeCompare s.mRunningProcessList) cur2 ∧
        (dispatch s).mFinishedProcesses = s.mFinishedProcesses)) := by
  by_cases hinit : cur.init = false
  · by_cases hz : cur.tempBurstTime - s.mTimeQuantum = 0
    · exact ⟨{ cur with tempBurstTime := cur.tempBurstTime - s.mTimeQuantum,
                         startingTime := s.mTimeCounter, init := true,
                         finishingTime := s.mTimeCounter + 1 },
        rfl, rfl, fun _ => rfl, fun h => absurd (hinit.symm.trans h) (by decide),
        by simp [dispatch, htop, hinit, hz], by simp [dispatch, htop, hinit, hz],
        by simp [dispatch, htop, hinit, hz], Or.inl (by simp [dispatch, htop, hinit, hz])⟩
    · exact ⟨{ cur with tempBurstTime := cur.tempBurstTime - s.mTimeQuantum,
                         startingTime := s.mTimeCounter, init := true },
        rfl, rfl, fun _ => rfl, fun h => absurd (hinit.symm.trans h) (by decide),
        by simp [dispatch, htop, hinit, hz], by simp [dispatch, htop, hinit, hz],
        by simp [dispatch, htop, hinit, hz], Or.inr (by simp [dispatch, htop, hinit, hz])⟩
  · have hi2 : cur.init = true := by simpa using hinit
    by_cases hz : cur.tempBurstTime - s.mTimeQuantum = 0
    · exact ⟨{ cur with tempBurstTime := cur.tempBurstTime - s.mTimeQuantum,
                         finishingTime := s.mTimeCounter + 1 },
        rfl, hi2, fun h => absurd h hinit, fun _ => rfl,
        by simp [dispatch, htop, hinit, hz], by simp [dispatch, htop, hinit, hz],
        by simp [dispatch, htop, hinit, hz], Or.inl (by simp [dispatch, htop, hinit, hz])⟩
    · exact ⟨{ cur with tempBurstTime := cur.tempBurstTime - s.mTimeQuantum },
        rfl, hi2, fun h => absurd h hinit, fun _ => rfl,
        by simp [dispatch, htop, hinit, hz], by simp [dispatch, htop, hinit, hz],
        by simp [dispatch, htop, hinit, hz], Or.inr (by simp [dispatch, htop, hinit, hz])⟩

/-- An iteration of the SRTF loop is a move, whatever the arrival and burst times
are, and keeps the running structure a heap. -/
theorem srtf_loopBody_move (s : SRTF) (hh : stdlib.IsHeap key s.mRunningProcessList) :
    tick.Move (abs s) (abs (guarded.loopBody s)) ∧
    stdlib.IsHeap key (guarded.loopBody s).mRunningProcessList := by
  obtain ⟨moved, hq, hp, -, -, hheap⟩ :=
    srtf_drain_spec s.mTimeCounter s.mProcessList s.mRunningProcessList hh
  have hd1 : (guarded.drainArrived s).mRunningProcessList =
      (guarded.drain s.mTimeCounter s.mRunningProcessList s.mProcessList).1 := rfl
  have hd2 : (guarded.drainArrived s).mProcessList =
      (guarded.drain s.mTimeCounter s.mRunningProcessList s.mProcessList).2.1 := rfl
  have hd3 : (guarded.drainArrived s).mTimeCounter = s.mTimeCounter := rfl
  have hd4 : (guarded.drainArrived s).mGantChart = s.mGantChart := rfl
  have hd5 : (guarded.drainArrived s).mFinishedProcesses = s.mFinishedProcesses := rfl
  rw [← hd1] at hp hheap
  rw [← hd2] at hq
  have hlive : (s.mRunningProcessList ++ s.mProcessList).Perm
      ((guarded.drainArrived s).mRunningProcessList ++ (guarded.drainArrived s).mProcessList) := by
    rw [hq, ← List.append_assoc]
    exact (hp.append_right _).symm
  unfold guarded.loopBody
  generalize guarded.drainArrived s = d at hp hheap hq hd3 hd4 hd5 hlive
  cases htop : stdlib.pqTop d.mRunningProcessList with
  | none =>
    have hnil : d.mRunningProcessList = [] := by
      cases hr : d.mRunningProcessList with
      | nil => rfl
      | cons x xs =>
        rw [hr] at htop
        simp [stdlib.pqTop] at htop
    have hdis : dispatch d = { d with mTimeCounter := d.mTimeCounter + 1 } := by
      simp [dispatch, htop]
    rw [hdis]
    refine ⟨⟨?_, Or.inl ⟨?_, ?_, ?_⟩⟩, hheap⟩
    · show s.mTimeCounter ≤ d.mTimeCounter + 1
      omega
    · show d.mGantChart = s.mGantChart
      exact hd4
    · show d.mFinishedProcesses.map view = s.mFinishedProcesses.map view
      rw [hd5]
    · show (d.mFinishedProcesses.map view ++
          (d.mRunningProcessList.map view ++ d.mProcessList.map view)).Perm
        (s.mFinishedProcesses.map view ++
          (s.mRunningProcessList.map view ++ s.mProcessList.map view))
      rw [hd5]
      simp only [← List.map_append]
      exact (List.Perm.append_left _ hlive.symm).map view
  | some cur =>
    obtain ⟨hheap2, hperm2⟩ :=
      stdlib.pqPop_spec key TempBurstTimeCompare srtf_comp_key _ cur hheap htop
    obtain ⟨cur2, e1, e2, e3, e4, k1, k2, k3, hcase⟩ := srtf_dispatch_start d cur htop
    have hall : ((abs s).finished ++ ((abs s).ready ++ (abs s).queue)).Perm
        (view cur :: (s.mFinishedProcesses.map view ++
          ((stdlib.pqPop TempBurstTimeCompare d.mRunningProcessList).map view ++
            d.mProcessList.map view))) := by
      show (s.mFinishedProcesses.map view ++
          (s.mRunningProcessList.map view ++ s.mProcessList.map view)).Perm _
      rw [← List.map_append, ← List.map_append, ← List.map_append, ← List.map_append,
        ← List.map_cons]
      apply List.Perm.map
      refine List.Perm.trans (List.Perm.append_left _ hlive) ?_
      refine List.Perm.trans (List.Perm.append_left _
        (List.Perm.append_right _ hperm2.symm)) ?_
      rw [List.cons_append]
      exact List.perm_middle
    have hmono : (abs s).t ≤ (abs (dispatch d)).t := by
      show s.mTimeCounter ≤ (dispatch d).mTimeCounter
      rw [k3]
      omega
    have hgantt : (abs (dispatch d)).gantt = (abs s).gantt ++ [((view cur).pid, (abs s).t)] := by
      show (dispatch d).mGantChart = s.mGantChart ++ [(cur.pid, s.mTimeCounter)]
      rw [k2, hd4, hd3]
    rcases hcase with ⟨hr, hf⟩ | ⟨hr, hf⟩
    · refine ⟨⟨hmono, Or.inr ⟨view cur, view cur2, _, hall, ?_, e1, e2, ?_, e4,
        Or.inr ?_, hgantt⟩⟩, by rw [hr]; exact hheap2⟩
      · show ((dispatch d).mFinishedProcesses.map view ++
            ((dispatch d).mRunningProcessList.map view ++
              (dispatch d).mProcessList.map view)).Perm _
        rw [hf, hr, k1, hd5, List.map_append, List.append_assoc]
        simp only [List.map_cons, List.map_nil, List.singleton_append]
        exact List.perm_middle
      · intro hi
        show cur2.startingTime = s.mTimeCounter
        rw [e3 hi, hd3]
      · show (dispatch d).mFinishedProcesses.map view = s.mFinishedProcesses.map view ++ [view cur2]
        rw [hf, hd5, List.map_append]
        rfl
    · obtain ⟨hheap3, hperm3⟩ :=
        stdlib.pqPush_spec key TempBurstTimeCompare srtf_comp_key _ cur2 hheap2
      refine ⟨⟨hmono, Or.inr ⟨view cur, view cur2, _, hall, ?_, e1, e2, ?_, e4,
        Or.inl ?_, hgantt⟩⟩, by rw [hr]; exact hheap3⟩
      · show ((dispatch d).mFinishedProcesses.map view ++
            ((dispatch d).mRunningProcessList.map view ++
              (dispatch d).mProcessList.map view)).Perm _
        rw [hf, hr, k1, hd5]
        refine List.Perm.trans (List.Perm.append_left _
          (List.Perm.append_right _ (hperm3.map view))) ?_
        rw [List.map_cons, List.cons_append]
        exact List.perm_middle
      · intro hi
        show cur2.startingTime = s.mTimeCounter
        rw [e3 hi, hd3]
      · show (dispatch d).mFinishedProcesses.map view = s.mFinishedProcesses.map view
        rw [hf, hd5]

/-- The views of the states of a run of the SRTF loop form a sequence of moves. -/
theorem srtf_moves : ∀ (n : Nat) (s : SRTF), stdlib.IsHeap key s.mRunningProcessList →
    Relation.ReflTransGen tick.Move (abs s) (abs (guarded.steps n s)) ∧
    stdlib.IsHeap key (guarded.steps n s).mRunningProcessList := by
  intro n
  induction n with
  | zero => intro s hh; exact ⟨Relation.ReflTransGen.refl, hh⟩
  | succ n ih =>
    intro s hh
    by_cases hc : loopCond s = true
    · have hs : guarded.steps (n + 1) s = guarded.steps n (guarded.loopBody s) := by simp [guarded.steps, hc]
      rw [hs]
      obtain ⟨m1, h1⟩ := srtf_loopBody_move s hh
      obtain ⟨m2, h2⟩ := ih _ h1
      exact ⟨Relation.ReflTransGen.head m1 m2, h2⟩
    · have hs : guarded.steps (n + 1) s = s := by simp [guarded.steps, hc]
      rw [hs]
      exact ⟨Relation.ReflTransGen.refl, hh⟩

/-- SRTF: the states after `n` and after `m` further iterations, for every input
with distinct ids and `init` not set. -/
theorem srtf_start_first (processes : List Process)
    (hnd : (processes.map (fun p => p.pid)).Nodup)
    (hwf : ∀ p ∈ processes, p.init = false) (n m : Nat) :
    tick.First (abs (guarded.steps n (SRTF.ctor processes))) ∧
    (∀ p ∈ (guarded.steps n (SRTF.ctor processes)).mFinishedProcesses,
      (guarded.steps n (SRTF.ctor processes)).mGantChart.find? (fun e => decide (e.1 = p.pid)) =
        some (p.pid, p.startingTime) ∧
      ∀ e ∈ (guarded.steps n (SRTF.ctor processes)).mGantChart,
        e.1 = p.pid → p.startingTime ≤ e.2) ∧
    tick.SetOnce (abs (guarded.steps n (SRTF.ctor processes)))
      (abs (guarded.steps m (guarded.steps n (SRTF.ctor processes)))) := by
  have hc := srtf_ctor_conserved processes
  obtain ⟨run1, hq⟩ := srtf_moves n (SRTF.ctor processes) (stdlib.isHeap_nil key)
  obtain ⟨run2, -⟩ := srtf_moves m _ hq
  have hinit : ∀ q ∈ (abs (SRTF.ctor processes)).queue, q.init = false := by
    intro q hq
    obtain ⟨p, hp, rfl⟩ := List.mem_map.mp hq
    exact hwf p ((List.Perm.mem_iff (srtf_sort_perm processes)).mp hp)
  obtain ⟨f1, f2, f3⟩ := tick.tick_moves_start _
    (by rw [srtf_input_ids]; exact hnd) _ _ _ run1 run2 hc rfl rfl rfl hinit
  exact ⟨f1, fun p hp => f2 (view p) (List.mem_map_of_mem _ hp), f3⟩

end srtf

namespace srtf

theorem srtf_result_members (fuel : Nat) (s r : SRTF)
    (h : guarded.scheduleProcess fuel s = some r) :
    r.mGantChart = (guarded.steps fuel s).mGantChart ∧
    r.mFinishedProcesses = (guarded.steps fuel s).mFinishedProcesses.map finalize := by
  unfold guarded.scheduleProcess at h
  simp only at h
  split at h
  · cases h
  · simp only [Option.some.injEq] at h
    subst h
    exact ⟨rfl, rfl⟩

end srtf

namespace round_robin

theorem rr_result_members (fuel : Nat) (s r : RoundRobin)
    (h : RoundRobin.scheduleProcess fuel s = some r) :
    r.mGantChart = (steps fuel s).mGantChart ∧
    r.mFinishedProcesses = (steps fuel s).mFinishedProcesses.map finalize := by
  unfold RoundRobin.scheduleProcess at h
  simp only at h
  split at h
  · cases h
  · simp only [Option.some.injEq] at h
    subst h
    exact ⟨rfl, rfl⟩

end round_robin

namespace priority_preemptive

theorem pp_result_members (fuel : Nat) (s r : PriorityPreemptive)
    (h : PriorityPreemptive.scheduleProcess fuel s = some r) :
    r.mGantChart = (steps fuel s).mGantChart ∧
    r.mFinishedProcesses = (steps fuel s).mFinishedProcesses.map finalize := by
  unfold PriorityPreemptive.scheduleProcess at h
  simp only at h
  split at h
  · cases h
  · simp only [Option.some.injEq] at h
    subst h
    exact ⟨rfl, rfl⟩

end priority_preemptive

namespace round_robin_priority

theorem rrp_result_members (fuel : Nat) (s r : PriorityPreemptive)
    (h : PriorityPreemptive.scheduleProcess fuel s = some r) :
    ∃ s2, steps fuel s = some s2 ∧ r.mGantChart = s2.mGantChart ∧
      r.mFinishedProcesses = s2.mFinishedProcesses.map finalize := by
  unfold PriorityPreemptive.scheduleProcess at h
  cases hs : steps fuel s with
  | none =>
    rw [hs] at h
    cases h
  | some s2 =>
    rw [hs, Option.some_bind] at h
    split at h
    · cases h
    · simp only [Option.some.injEq] at h
      subst h
      exact ⟨s2, rfl, rfl, rfl⟩

end round_robin_priority

/-! ## SRTF reads the front of the empty process queue -/

namespace srtf

/-- The guarded admission loop ends on an empty queue only with the count 1: the
loop of the source has then read the front of the empty queue. -/
theorem srtf_drain_front (t : Int) : ∀ (queue running : List Process),
    (guarded.drain t running queue).2.1 = [] → (guarded.drain t running queue).2.2 = 1 := by
  intro queue
  induction queue with
  | nil => intro running _; rfl
  | cons p rest ih =>
    intro running h
    by_cases hp : t = p.arrivalTime
    · have hd : guarded.drain t running (p :: rest) =
          guarded.drain t (stdlib.pqPush TempBurstTimeCompare running p) rest := by
        simp [guarded.drain, hp]
      rw [hd] at h ⊢
      exact ih _ h
    · have hd : guarded.drain t running (p :: rest) = (running, p :: rest, 0) := by
        simp [guarded.drain, hp]
      rw [hd] at h
      cases h

theorem srtf_loopBody_front (s : SRTF) :
    s.frontOnEmpty ≤ (guarded.loopBody s).frontOnEmpty ∧
    ((guarded.loopBody s).mProcessList = [] → s.frontOnEmpty + 1 ≤ (guarded.loopBody s).frontOnEmpty) := by
  have hq : (dispatch (guarded.drainArrived s)).mProcessList = (guarded.drainArrived s).mProcessList := by
    unfold dispatch
    split <;> rfl
  have hf : (dispatch (guarded.drainArrived s)).frontOnEmpty = (guarded.drainArrived s).frontOnEmpty := by
    unfold dispatch
    split <;> rfl
  have hd : (guarded.drainArrived s).frontOnEmpty =
      s.frontOnEmpty + (guarded.drain s.mTimeCounter s.mRunningProcessList s.mProcessList).2.2 := rfl
  have hdq : (guarded.drainArrived s).mProcessList =
      (guarded.drain s.mTimeCounter s.mRunningProcessList s.mProcessList).2.1 := rfl
  unfold guarded.loopBody
  rw [hq, hf, hd, hdq]
  refine ⟨Nat.le_add_right _ _, fun h => ?_⟩
  rw [srtf_drain_front _ _ _ h]

/-- The counter of the reads of the front of the empty queue never goes down, and
it has gone up when the loop has run and has ended. -/
theorem srtf_steps_front : ∀ (n : Nat) (s : SRTF),
    s.frontOnEmpty ≤ (guarded.steps n s).frontOnEmpty ∧
    (loopCond s = true → loopCond (guarded.steps n s) = false →
      s.frontOnEmpty + 1 ≤ (guarded.steps n s).frontOnEmpty) := by
  intro n
  induction n with
  | zero =>
    intro s
    refine ⟨le_refl _, fun h1 h2 => ?_⟩
    rw [show guarded.steps 0 s = s from rfl, h1] at h2
    cases h2
  | succ n ih =>
    intro s
    by_cases hc : loopCond s = true
    · have hs : guarded.steps (n + 1) s = guarded.steps n (guarded.loopBody s) := by simp [guarded.steps, hc]
      rw [hs]
      obtain ⟨b1, b2⟩ := srtf_loopBody_front s
      obtain ⟨i1, i2⟩ := ih (guarded.loopBody s)
      refine ⟨le_trans b1 i1, fun _ hend => ?_⟩
      by_cases hc2 : loopCond (guarded.loopBody s) = true
      · have := i2 hc2 hend
        omega
      · have hc3 : loopCond (guarded.loopBody s) = false := by simpa using hc2
        have hst : guarded.steps n (guarded.loopBody s) = guarded.loopBody s := by
          cases n with
          | zero => rfl
          | succ m => simp [guarded.steps, hc3]
        rw [hst]
        apply b2
        unfold loopCond at hc3
        simp only [Bool.or_eq_false_iff, Bool.not_eq_false', List.isEmpty_iff] at hc3
        exact hc3.1
    · have hs : guarded.steps (n + 1) s = s := by simp [guarded.steps, hc]
      rw [hs]
      exact ⟨le_refl _, fun h => absurd h hc⟩

end srtf

/-! ## SJF does not depend on the order of the input -/

namespace sjf

/-- Two lists with the same members, both ordered by a relation that is
antisymmetric on the members, are the same list. -/
theorem sjf_eq_of_perm_of_sorted {α : Type} (r : α → α → Prop) :
    ∀ (l₁ l₂ : List α), l₁.Perm l₂ → l₁.Pairwise r → l₂.Pairwise r →
      (∀ a ∈ l₁, ∀ b ∈ l₁, r a b → r b a → a = b) → l₁ = l₂ := by
  intro l₁
  induction l₁ with
  | nil => intro l₂ hp _ _ _; exact (List.Perm.nil_eq hp)
  | cons a l₁ ih =>
    intro l₂ hp h1 h2 anti
    cases l₂ with
    | nil => exact absurd (List.Perm.eq_nil hp) (by simp)
    | cons b l₂ =>
      have hab : a = b := by
        by_contra hne
        have ha : a ∈ l₂ := by
          rcases List.mem_cons.mp (hp.subset (List.mem_cons_self a l₁)) with h | h
          · exact absurd h hne
          · exact h
        have hb : b ∈ l₁ := by
          rcases List.mem_cons.mp (hp.symm.subset (List.mem_cons_self b l₂)) with h | h
          · exact absurd h.symm hne
          · exact h
        exact hne (anti a (List.mem_cons_self _ _) b (List.mem_cons_of_mem _ hb)
          ((List.pairwise_cons.mp h1).1 b hb) ((List.pairwise_cons.mp h2).1 a ha))
      subst hab
      rw [ih l₂ (List.Perm.cons_inv hp) (List.pairwise_cons.mp h1).2
        (List.pairwise_cons.mp h2).2
        (fun x hx y hy => anti x (List.mem_cons_of_mem _ hx) y (List.mem_cons_of_mem _ hy))]

/-- The sort of the constructor gives the same queue for two lists with the same
processes, when the ids are distinct. -/
theorem sjf_sort_perm_eq (l₁ l₂ : List Process) (hp : l₁.Perm l₂)
    (hnd : (l₁.map (fun p => p.pid)).Nodup) : sortProcesses l₁ = sortProcesses l₂ := by
  have hs1 : (sortProcesses l₁).Pairwise notAfter :=
    @List.sorted_insertionSort _ notAfter _ sjf_notAfter_total sjf_notAfter_trans _
  have hs2 : (sortProcesses l₂).Pairwise notAfter :=
    @List.sorted_insertionSort _ notAfter _ sjf_notAfter_total sjf_notAfter_trans _
  have hp1 : (sortProcesses l₁).Perm l₁ := List.perm_insertionSort _ _
  have hp2 : (sortProcesses l₂).Perm l₂ := List.perm_insertionSort _ _
  refine sjf_eq_of_perm_of_sorted notAfter _ _ (hp1.trans (hp.trans hp2.symm)) hs1 hs2 ?_
  intro a ha b hb hab hba
  have ha1 : a ∈ l₁ := hp1.subset ha
  have hb1 : b ∈ l₁ := hp1.subset hb
  have hpid : a.pid = b.pid := by
    rcases (sjf_notAfter_iff a b).mp hab with h | ⟨h, hle⟩
    · rcases (sjf_notAfter_iff b a).mp hba with h2 | ⟨h2, _⟩
      · omega
      · omega
    · rcases (sjf_notAfter_iff b a).mp hba with h2 | ⟨_, hle2⟩
      · omega
      · omega
  exact List.inj_on_of_nodup_map hnd ha1 hb1 hpid

end sjf

/-- C35: for two process lists with the same processes in any order and with
pairwise distinct ids, the SJF constructor builds the same queue, so
`SJF::scheduleProcess` ends in the same state: the same finished list in the same
order with the same starting, finishing, waiting and turnaround times. -/
theorem sjf_result_order_independent (l₁ l₂ : List sjf.Process) (hperm : l₁.Perm l₂)
    (hnd : (l₁.map (fun p => p.pid)).Nodup) :
    sjf.SJF.ctor l₁ = sjf.SJF.ctor l₂ ∧
    (sjf.SJF.ctor l₁).scheduleProcess = (sjf.SJF.ctor l₂).scheduleProcess ∧
    (sjf.SJF.ctor l₁).scheduleProcess.mFinishedProcesses =
      (sjf.SJF.ctor l₂).scheduleProcess.mFinishedProcesses := by
  have h : sjf.SJF.ctor l₁ = sjf.SJF.ctor l₂ := by
    unfold sjf.SJF.ctor
    rw [sjf.sjf_sort_perm_eq l₁ l₂ hperm hnd]
  exact ⟨h, by rw [h], by rw [h]⟩

/-- The statement of C35 on the process list of `main` and the same list in
reverse order; the finished list is the one of `main` in both cases. -/
theorem sjf_result_order_independent_witness :
    sjf.mainProcessList.Perm sjf.mainProcessList.reverse ∧
    (sjf.mainProcessList.map (fun p => p.pid)).Nodup ∧
    (sjf.SJF.ctor sjf.mainProcessList).scheduleProcess.mFinishedProcesses =
      (sjf.SJF.ctor sjf.mainProcessList.reverse).scheduleProcess.mFinishedProcesses ∧
    (sjf.SJF.ctor sjf.mainProcessList.reverse).scheduleProcess.mFinishedProcesses.map
      (fun p => (p.pid, p.startingTime, p.finishedTime)) =
      [(0, 2, 7), (2, 7, 9), (1, 9, 12), (3, 12, 16)] :=
  ⟨(List.reverse_perm _).symm, by decide,
    (sjf_result_order_independent sjf.mainProcessList sjf.mainProcessList.reverse
      (List.reverse_perm _).symm (by decide)).2.2, by decide⟩

/-! ## Round-Robin on processes that arrive together with equal burst times -/

namespace round_robin

/-- The dispatch of the front process `cur` with at least one unit left, time
quantum 1: the clock moves by 1, the event of `cur` is appended, and `cur` goes to
the back of the running queue with one unit less, or to the finished list with the
new clock as finishing time when that was its last unit. -/
theorem rr_dispatch_unit (s : RoundRobin) (cur : Process) (rest : List Process)
    (h : s.mRunningProcessList = cur :: rest) (hq : s.mTimeQuantum = 1)
    (hc : 1 ≤ cur.tempBurstTime) :
    ∃ cur2, cur2.pid = cur.pid ∧ cur2.tempBurstTime = cur.tempBurstTime - 1 ∧
      cur2.finishingTime = s.mTimeCounter + 1 ∧
      (dispatch s).mProcessList = s.mProcessList ∧
      (dispatch s).mTimeQuantum = 1 ∧
      (dispatch s).mTimeCounter = s.mTimeCounter + 1 ∧
      (dispatch s).mGantChart = s.mGantChart ++ [(cur.pid, s.mTimeCounter)] ∧
      ((cur.tempBurstTime = 1 ∧ (dispatch s).mRunningProcessList = rest ∧
          (dispatch s).mFinishedProcesses = s.mFinishedProcesses ++ [cur2]) ∨
        (cur.tempBurstTime ≠ 1 ∧
          ∃ cur3, cur3.pid = cur.pid ∧ cur3.tempBurstTime = cur.tempBurstTime - 1 ∧
            (dispatch s).mRunningProcessList = rest ++ [cur3] ∧
            (dispatch s).mFinishedProcesses = s.mFinishedProcesses)) := by
  have hlt : ¬ cur.tempBurstTime < 1 := by omega
  by_cases hinit : cur.init = false
  · by_cases h1 : cur.tempBurstTime = 1
    · have hz : cur.tempBurstTime - 1 = 0 := by omega
      refine ⟨{ cur with startingTime := s.mTimeCounter, init := true,
                         tempBurstTime := cur.tempBurstTime - 1,
                         finishingTime := s.mTimeCounter + 1 }, rfl, rfl, rfl, ?_, ?_, ?_, ?_,
        Or.inl ⟨h1, ?_, ?_⟩⟩ <;>
      simp [dispatch, h, hq, hinit, hlt, hz]
    · have hz : ¬ cur.tempBurstTime - 1 = 0 := by omega
      refine ⟨{ cur with tempBurstTime := cur.tempBurstTime - 1,
                         finishingTime := s.mTimeCounter + 1 }, rfl, rfl, rfl, ?_, ?_, ?_, ?_,
        Or.inr ⟨h1, { cur with startingTime := s.mTimeCounter, init := true,
                               tempBurstTime := cur.tempBurstTime - 1 }, rfl, rfl, ?_, ?_⟩⟩ <;>
      simp [dispatch, h, hq, hinit, hlt, hz]
  · by_cases h1 : cur.tempBurstTime = 1
    · have hz : cur.tempBurstTime - 1 = 0 := by omega
      refine ⟨{ cur with tempBurstTime := cur.tempBurstTime - 1,
                         finishingTime := s.mTimeCounter + 1 }, rfl, rfl, rfl, ?_, ?_, ?_, ?_,
        Or.inl ⟨h1, ?_, ?_⟩⟩ <;>
      simp [dispatch, h, hq, hinit, hlt, hz]
    · have hz : ¬ cur.tempBurstTime - 1 = 0 := by omega
      refine ⟨{ cur with tempBurstTime := cur.tempBurstTime - 1,
                         finishingTime := s.mTimeCounter + 1 }, rfl, rfl, rfl, ?_, ?_, ?_, ?_,
        Or.inr ⟨h1, { cur with tempBurstTime := cur.tempBurstTime - 1 }, rfl, rfl, ?_, ?_⟩⟩ <;>
      simp [dispatch, h, hq, hinit, hlt, hz]

/-- With an empty process queue the admission loop does nothing. -/
theorem rr_drainArrived_nil (s : RoundRobin) (h : s.mProcessList = []) :
    drainArrived s = s := by
  unfold drainArrived
  rw [h]
  simp only [drain, List.append_nil]
  cases s
  simp only at h
  rw [h]

/-- The admission loop moves the whole queue when every process has arrived. -/
theorem rr_drain_all (t : Int) (l : List Process) (h : ∀ p ∈ l, p.arrivalTime ≤ t) :
    drain t l = (l, []) := by
  induction l with
  | nil => rfl
  | cons p rest ih =>
    have hp : t ≥ p.arrivalTime := h p (List.mem_cons_self _ _)
    simp only [drain, hp, if_true]
    rw [ih (fun q hq => h q (List.mem_cons_of_mem _ hq))]

theorem rr_steps_succ (n : Nat) (s : RoundRobin) (h : s.mRunningProcessList ≠ []) :
    steps (n + 1) s = steps n (loopBody s) := by
  have hc : loopCond s = true := by
    unfold loopCond
    cases hr : s.mRunningProcessList with
    | nil => exact absurd hr h
    | cons x xs => simp
  simp [steps, hc]

/-- A round that is not the last one, started at clock `k`: the processes `xs` in
front of the running queue, each with `c ≥ 2` units left, are dispatched one after
the other at the clocks `k`, `k + 1`, ... and go to the back of the queue with
`c - 1` units left. -/
theorem rr_round : ∀ (xs ys : List Process) (s : RoundRobin) (c : Int) (k : Nat),
    2 ≤ c → s.mProcessList = [] → s.mTimeQuantum = 1 → s.mRunningProcessList = xs ++ ys →
    (∀ p ∈ xs, p.tempBurstTime = c) → s.mTimeCounter = (k : Int) →
    ∃ xs2, (steps xs.length s).mRunningProcessList = ys ++ xs2 ∧
      xs2.map (fun p => p.pid) = xs.map (fun p => p.pid) ∧
      (∀ p ∈ xs2, p.tempBurstTime = c - 1) ∧
      (steps xs.length s).mProcessList = [] ∧
      (steps xs.length s).mTimeQuantum = 1 ∧
      (steps xs.length s).mTimeCounter = ((k + xs.length : Nat) : Int) ∧
      (steps xs.length s).mGantChart = s.mGantChart ++
        ((xs.map (fun p => p.pid)).enumFrom k).map (fun x => (x.2, (x.1 : Int))) ∧
      (steps xs.length s).mFinishedProcesses = s.mFinishedProcesses := by
  intro xs
  induction xs with
  | nil =>
    intro ys s c k _ hq hqu hr _ ht
    exact ⟨[], by simpa [steps] using hr, rfl, by simp, hq, hqu, by simpa [steps] using ht,
      by simp [steps], rfl⟩
  | cons x xs ih =>
    intro ys s c k hc hq hqu hr hx ht
    have hrun : s.mRunningProcessList = x :: (xs ++ ys) := by rw [hr]; rfl
    have hxc : x.tempBurstTime = c := hx x (List.mem_cons_self _ _)
    obtain ⟨cur2, -, -, -, d1, d2, d3, d4, hcase⟩ :=
      rr_dispatch_unit s x (xs ++ ys) hrun hqu (by omega)
    rcases hcase with ⟨h1, -, -⟩ | ⟨-, cur3, e1, e2, e3, e4⟩
    · omega
    · have hlb : loopBody s = dispatch s := by
        unfold loopBody
        rw [rr_drainArrived_nil s hq]
      rw [← hlb] at d1 d2 d3 d4 e3 e4
      obtain ⟨xs2, i1, i2, i3, i4, i5, i6, i7, i8⟩ :=
        ih (ys ++ [cur3]) (loopBody s) c (k + 1) hc (by rw [d1, hq]) d2
          (by rw [e3, List.append_assoc])
          (fun p hp => hx p (List.mem_cons_of_mem _ hp)) (by rw [d3, ht]; push_cast; ring)
      have hst : steps (x :: xs).length s = steps xs.length (loopBody s) :=
        rr_steps_succ _ s (by rw [hrun]; simp)
      rw [hst]
      refine ⟨cur3 :: xs2, by rw [i1, List.append_assoc]; rfl, ?_, ?_, i4, i5, ?_, ?_,
        by rw [i8, e4]⟩
      · rw [List.map_cons, List.map_cons, i2, e1]
      · intro p hp
        rcases List.mem_cons.mp hp with rfl | hp
        · rw [e2, hxc]
        · exact i3 p hp
      · rw [i6]
        simp only [List.length_cons]
        congr 1
        omega
      · rw [i7, d4, ht, List.append_assoc]
        rfl

/-- The last round, started at clock `k`: the processes `xs` in front of the
running queue, each with one unit left, are dispatched one after the other at the
clocks `k`, `k + 1`, ... and finish at the clocks `k + 1`, `k + 2`, ... -/
theorem rr_round_last : ∀ (xs ys : List Process) (s : RoundRobin) (k : Nat),
    s.mProcessList = [] → s.mTimeQuantum = 1 → s.mRunningProcessList = xs ++ ys →
    (∀ p ∈ xs, p.tempBurstTime = 1) → s.mTimeCounter = (k : Int) →
    ∃ xs2, (steps xs.length s).mRunningProcessList = ys ∧
      xs2.map (fun p => (p.pid, p.finishingTime)) =
        ((xs.map (fun p => p.pid)).enumFrom k).map (fun x => (x.2, ((x.1 + 1 : Nat) : Int))) ∧
      (steps xs.length s).mProcessList = [] ∧
      (steps xs.length s).mTimeQuantum = 1 ∧
      (steps xs.length s).mTimeCounter = ((k + xs.length : Nat) : Int) ∧
      (steps xs.length s).mGantChart = s.mGantChart ++
        ((xs.map (fun p => p.pid)).enumFrom k).map (fun x => (x.2, (x.1 : Int))) ∧
      (steps xs.length s).mFinishedProcesses = s.mFinishedProcesses ++ xs2 := by
  intro xs
  induction xs with
  | nil =>
    intro ys s k hq hqu hr _ ht
    exact ⟨[], by simpa [steps] using hr, rfl, hq, hqu, by simpa [steps] using ht,
      by simp [steps], by simp [steps]⟩
  | cons x xs ih =>
    intro ys s k hq hqu hr hx ht
    have hrun : s.mRunningProcessList = x :: (xs ++ ys) := by rw [hr]; rfl
    have hxc : x.tempBurstTime = 1 := hx x (List.mem_cons_self _ _)
    obtain ⟨cur2, c1, -, c3, d1, d2, d3, d4, hcase⟩ :=
      rr_dispatch_unit s x (xs ++ ys) hrun hqu (by omega)
    rcases hcase with ⟨-, e3, e4⟩ | ⟨h1, -⟩
    · have hlb : loopBody s = dispatch s := by
        unfold loopBody
        rw [rr_drainArrived_nil s hq]
      rw [← hlb] at d1 d2 d3 d4 e3 e4
      obtain ⟨xs2, i1, i2, i4, i5, i6, i7, i8⟩ :=
        ih ys (loopBody s) (k + 1) (by rw [d1, hq]) d2 e3
          (fun p hp => hx p (List.mem_cons_of_mem _ hp)) (by rw [d3, ht]; push_cast; ring)
      have hst : steps (x :: xs).length s = steps xs.length (loopBody s) :=
        rr_steps_succ _ s (by rw [hrun]; simp)
      rw [hst]
      refine ⟨cur2 :: xs2, i1, ?_, i4, i5, ?_, ?_, by rw [i8, e4, List.append_assoc]; rfl⟩
      · rw [List.map_cons, i2, c1, c3, ht]
        simp only [List.map_cons, List.enumFrom_cons]
        push_cast
        rfl
      · rw [i6]
        simp only [List.length_cons]
        congr 1
        omega
      · rw [i7, d4, ht, List.append_assoc]
        rfl
    · exact absurd hxc h1

end round_robin

namespace round_robin

/-- The ids of a list with their positions counted from `k`, as a list over the
positions. -/
theorem rr_enumFrom_range {β : Type} (g : Nat → β) : ∀ (ids : List Int) (k : Nat),
    (ids.enumFrom k).map (fun x => (x.2, g x.1)) =
      (List.range ids.length).map (fun i => (ids.getD i 0, g (k + i))) := by
  intro ids
  induction ids with
  | nil => intro k; rfl
  | cons a ids ih =>
    intro k
    rw [List.enumFrom_cons, List.map_cons, ih (k + 1), List.length_cons,
      List.range_succ_eq_map, List.map_cons, List.map_map]
    refine congrArg₂ _ rfl (List.map_congr_left ?_)
    intro i _
    simp only [Function.comp, List.getD_cons_succ]
    rw [show k + 1 + i = k + (i + 1) by omega]

/-- The events of `r` rounds followed by the events of one more round are the
events of `r + 1` rounds. -/
theorem rr_range_round {β : Type} (ids : List Int) (r : Nat) (g : Nat → β) :
    (List.range (ids.length * r)).map (fun j => (ids.getD (j % ids.length) 0, g j)) ++
      (List.range ids.length).map (fun i => (ids.getD i 0, g (ids.length * r + i))) =
    (List.range (ids.length * (r + 1))).map
      (fun j => (ids.getD (j % ids.length) 0, g j)) := by
  rw [Nat.mul_succ, List.range_add, List.map_append, List.map_map]
  refine congrArg₂ _ rfl (List.map_congr_left ?_)
  intro i hi
  have hlt : i < ids.length := List.mem_range.mp hi
  simp only [Function.comp]
  rw [Nat.mul_add_mod, Nat.mod_eq_of_lt hlt]

/-- The first `r` rounds on processes with `c ≥ r + 1` units left each: after `r`
times as many iterations as there are processes, the running queue holds the same
ids in the same order with `c - r` units left each, and the trace has grown by the
events (id at position `j mod n`, clock `j`) for the clocks `j` of the rounds. -/
theorem rr_rounds (ids : List Int) : ∀ (r : Nat) (s : RoundRobin) (c : Int),
    (r : Int) + 1 ≤ c → s.mProcessList = [] → s.mTimeQuantum = 1 →
    s.mRunningProcessList.map (fun p => p.pid) = ids →
    (∀ p ∈ s.mRunningProcessList, p.tempBurstTime = c) →
    s.mTimeCounter = 0 → s.mGantChart = [] →
    (steps (ids.length * r) s).mRunningProcessList.map (fun p => p.pid) = ids ∧
    (∀ p ∈ (steps (ids.length * r) s).mRunningProcessList, p.tempBurstTime = c - r) ∧
    (steps (ids.length * r) s).mProcessList = [] ∧
    (steps (ids.length * r) s).mTimeQuantum = 1 ∧
    (steps (ids.length * r) s).mTimeCounter = ((ids.length * r : Nat) : Int) ∧
    (steps (ids.length * r) s).mGantChart =
      (List.range (ids.length * r)).map
        (fun j => (ids.getD (j % ids.length) 0, (j : Int))) ∧
    (steps (ids.length * r) s).mFinishedProcesses = s.mFinishedProcesses := by
  intro r
  induction r with
  | zero =>
    intro s c _ hq hqu hids hc ht hg
    simp only [Nat.mul_zero, List.range_zero, List.map_nil, Nat.cast_zero, sub_zero]
    exact ⟨hids, hc, hq, hqu, ht, hg, rfl⟩
  | succ r ih =>
    intro s c hcr hq hqu hids hc ht hg
    push_cast at hcr
    obtain ⟨i1, i2, i3, i4, i5, i6, i7⟩ := ih s c (by omega) hq hqu hids hc ht hg
    have hlen : (steps (ids.length * r) s).mRunningProcessList.length = ids.length := by
      have h := congrArg List.length i1
      rw [List.length_map] at h
      exact h
    obtain ⟨xs2, j1, j2, j3, j4, j5, j6, j7, j8⟩ :=
      rr_round (steps (ids.length * r) s).mRunningProcessList [] (steps (ids.length * r) s)
        (c - r) (ids.length * r) (by omega) i3 i4 (by rw [List.append_nil]) i2 i5
    rw [hlen, ← rr_steps_add] at j1 j4 j5 j6 j7 j8
    rw [show ids.length * r + ids.length = ids.length * (r + 1) from (Nat.mul_succ _ _).symm]
      at j1 j4 j5 j6 j7 j8
    rw [List.nil_append] at j1
    refine ⟨by rw [j1, j2, i1], ?_, j4, j5, ?_, ?_, by rw [j8, i7]⟩
    · intro p hp
      rw [j1] at hp
      rw [j3 p hp]
      push_cast
      ring
    · exact j6
    · rw [j7, i6, i1,
        rr_enumFrom_range (fun i => (i : Int)) ids (ids.length * r)]
      exact rr_range_round ids r (fun i => (i : Int))

end round_robin

/-! ## The dispatch of the two priority engines in terms of the time slice -/

namespace priority_preemptive

/-- The dispatch statement in terms of `timeSlice`. -/
theorem pp_dispatch_slice (s : PriorityPreemptive) :
    dispatch s =
      match stdlib.pqTop s.mRunningProcessList with
      | none => { s with mTimeCounter := s.mTimeCounter + s.mTimeQuantum }
      | some cur =>
        if (timeSlice s.mTimeCounter s.mTimeQuantum cur).1.tempBurstTime = 0 then
          { s with
            mRunningProcessList := stdlib.pqPop PriorityCompare s.mRunningProcessList
            mGantChart := s.mGantChart ++ [(cur.pid, s.mTimeCounter)]
            mTimeCounter := (timeSlice s.mTimeCounter s.mTimeQuantum cur).2
            mFinishedProcesses := s.mFinishedProcesses ++
              [{ (timeSlice s.mTimeCounter s.mTimeQuantum cur).1 with
                  finishingTime := (timeSlice s.mTimeCounter s.mTimeQuantum cur).2 }] }
        else
          { s with
            mRunningProcessList := stdlib.pqPush PriorityCompare
              (stdlib.pqPop PriorityCompare s.mRunningProcessList)
              (timeSlice s.mTimeCounter s.mTimeQuantum cur).1
            mGantChart := s.mGantChart ++ [(cur.pid, s.mTimeCounter)]
            mTimeCounter := (timeSlice s.mTimeCounter s.mTimeQuantum cur).2 } := by
  unfold dispatch timeSlice
  cases stdlib.pqTop s.mRunningProcessList with
  | none => rfl
  | some cur =>
    by_cases hinit : cur.init = false <;>
    by_cases hlt : cur.tempBurstTime < s.mTimeQuantum <;>
    simp [hinit, hlt]

end priority_preemptive

namespace round_robin_priority

/-- The dispatch statement in terms of `timeSlice`. -/
theorem rrp_dispatch_slice (s : PriorityPreemptive) :
    dispatch s =
      if s.mRunningProcessList.empty then
        some { s with mTimeCounter := s.mTimeCounter + s.mTimeQuantum }
      else if (timeSlice s.mTimeCounter s.mTimeQuantum
          s.mRunningProcessList.getProcess.1).1.tempBurstTime = 0 then
        some { s with
          mRunningProcessList := s.mRunningProcessList.getProcess.2
          mGantChart := s.mGantChart ++
            [(s.mRunningProcessList.getProcess.1.pid, s.mTimeCounter)]
          mTimeCounter := (timeSlice s.mTimeCounter s.mTimeQuantum
            s.mRunningProcessList.getProcess.1).2
          mFinishedProcesses := s.mFinishedProcesses ++
            [{ (timeSlice s.mTimeCounter s.mTimeQuantum
                  s.mRunningProcessList.getProcess.1).1 with
                finishingTime := (timeSlice s.mTimeCounter s.mTimeQuantum
                  s.mRunningProcessList.getProcess.1).2 }] }
      else
        (drainDuring (s.mTimeQuantum + 1).toNat
            ((timeSlice s.mTimeCounter s.mTimeQuantum
              s.mRunningProcessList.getProcess.1).2 - s.mTimeQuantum)
            s.mRunningProcessList.getProcess.2 s.mProcessList).bind
          (fun x => (x.1.addProcess (timeSlice s.mTimeCounter s.mTimeQuantum
              s.mRunningProcessList.getProcess.1).1).map
            (fun y => { s with
              mRunningProcessList := y.1
              mProcessList := x.2
              mGantChart := s.mGantChart ++
                [(s.mRunningProcessList.getProcess.1.pid, s.mTimeCounter)]
              mTimeCounter := (timeSlice s.mTimeCounter s.mTimeQuantum
                s.mRunningProcessList.getProcess.1).2 })) := by
  unfold dispatch timeSlice
  by_cases he : s.mRunningProcessList.empty = true
  · simp [he]
  · simp only [he]
    generalize s.mRunningProcessList.getProcess = g
    obtain ⟨cur, g2⟩ := g
    by_cases hinit : cur.init = false <;>
    by_cases hlt : cur.tempBurstTime < s.mTimeQuantum <;>
    simp [hinit, hlt]

/-- The time slice is the same in both engines. -/
theorem rrp_timeSlice_toPlain (t q : Int) (p : Process) :
    priority_preemptive.timeSlice t q p.toPlain =
      ((timeSlice t q p).1.toPlain, (timeSlice t q p).2) := by
  unfold timeSlice priority_preemptive.timeSlice
  by_cases hinit : p.init = false <;>
  by_cases hlt : p.tempBurstTime < q <;>
  simp [Process.toPlain, hinit, hlt]

/-- The time slice keeps the priority. -/
theorem rrp_timeSlice_priority (t q : Int) (p : Process) :
    (timeSlice t q p).1.priority = p.priority := by
  unfold timeSlice
  by_cases hinit : p.init = false <;>
  by_cases hlt : p.tempBurstTime < q <;>
  simp [hinit, hlt]

end round_robin_priority

/-! ## Runs of the bucketed engine that return -/

namespace round_robin_priority

theorem rrp_clamp_of_nonneg (p : Process) (h : 0 ≤ p.priority) : p.clamp = p := by
  unfold Process.clamp
  rw [if_neg (by omega)]

theorem rrp_clamp_nonneg (p : Process) : 0 ≤ p.clamp.priority := by
  unfold Process.clamp
  by_cases h : p.priority < 0
  · rw [if_pos h]
  · rw [if_neg h]
    omega

theorem rrp_clamp_view (p : Process) : view p.clamp = view p := by
  unfold Process.clamp
  by_cases h : p.priority < 0
  · rw [if_pos h]
    rfl
  · rw [if_neg h]

theorem rrp_clamp_arrival (p : Process) : p.clamp.arrivalTime = p.arrivalTime :=
  congrArg tick.Proc.arrivalTime (rrp_clamp_view p)

/-- A call of `addProcess` that returns was made with a priority that is not
negative. -/
theorem rrp_addProcess_some (r : RunningProcess) (p : Process) (x : RunningProcess × Int)
    (h : r.addProcess p = some x) : 0 ≤ p.priority := by
  unfold RunningProcess.addProcess at h
  by_cases hp : p.priority < 0
  · rw [if_pos hp] at h
    cases h
  · omega

/-- An admission loop that returns does the same on the queue of the `clamp`ed
processes. -/
theorem rrp_drain_clamp (t : Int) : ∀ (queue : List Process) (running run3 : RunningProcess)
    (rest : List Process), drain t running queue = some (run3, rest) →
    drain t running (queue.map Process.clamp) = some (run3, rest.map Process.clamp) := by
  intro queue
  induction queue with
  | nil =>
    intro running run3 rest h
    simp only [drain, Option.some.injEq, Prod.mk.injEq] at h
    obtain ⟨rfl, rfl⟩ := h
    rfl
  | cons p queue ih =>
    intro running run3 rest h
    by_cases hp : t ≥ p.arrivalTime
    · simp only [drain, hp, if_true] at h
      cases ha : running.addProcess p with
      | none =>
        rw [ha] at h
        cases h
      | some x =>
        rw [ha, Option.some_bind] at h
        have hc := rrp_clamp_of_nonneg p (rrp_addProcess_some running p x ha)
        simp only [List.map_cons, drain, hc, hp, if_true, ha, Option.some_bind]
        exact ih _ _ _ h
    · simp only [drain, hp, if_false, Option.some.injEq, Prod.mk.injEq] at h
      obtain ⟨rfl, rfl⟩ := h
      simp only [List.map_cons, drain, rrp_clamp_arrival, hp, if_false]

/-- The same for the loop that runs before a preempted process is stored again. -/
theorem rrp_drainDuring_clamp : ∀ (n : Nat) (i : Int) (queue : List Process)
    (running run3 : RunningProcess) (rest : List Process),
    drainDuring n i running queue = some (run3, rest) →
    drainDuring n i running (queue.map Process.clamp) =
      some (run3, rest.map Process.clamp) := by
  intro n
  induction n with
  | zero =>
    intro i queue running run3 rest h
    simp only [drainDuring, Option.some.injEq, Prod.mk.injEq] at h
    obtain ⟨rfl, rfl⟩ := h
    rfl
  | succ n ih =>
    intro i queue running run3 rest h
    cases queue with
    | nil =>
      simp only [drainDuring] at h
      have := ih (i + 1) [] running run3 rest h
      simpa only [List.map_nil, drainDuring] using this
    | cons p queue =>
      by_cases hp : i ≥ p.arrivalTime
      · simp only [drainDuring, hp, if_true] at h
        cases ha : running.addProcess p with
        | none =>
          rw [ha] at h
          cases h
        | some x =>
          rw [ha, Option.some_bind] at h
          have hc := rrp_clamp_of_nonneg p (rrp_addProcess_some running p x ha)
          simp only [List.map_cons, drainDuring, hc, hp, if_true, ha, Option.some_bind]
          exact ih _ _ _ _ _ h
      · simp only [drainDuring, hp, if_false] at h
        have := ih (i + 1) (p :: queue) running run3 rest h
        simp only [List.map_cons] at this
        simp only [List.map_cons, drainDuring, rrp_clamp_arrival, hp, if_false]
        exact this

/-- A dispatch that returns does the same on the state with the `clamp`ed queue. -/
theorem rrp_dispatch_clamp (s s2 : PriorityPreemptive) (h : dispatch s = some s2) :
    dispatch s.clampQueue = some s2.clampQueue := by
  rw [rrp_dispatch_slice] at h ⊢
  by_cases he : s.mRunningProcessList.empty = true
  · have he2 : s.clampQueue.mRunningProcessList.empty = true := he
    rw [if_pos he] at h
    rw [if_pos he2]
    simp only [Option.some.injEq] at h
    subst h
    rfl
  · have he2 : ¬ s.clampQueue.mRunningProcessList.empty = true := he
    rw [if_neg he] at h
    rw [if_neg he2]
    by_cases hz : (timeSlice s.mTimeCounter s.mTimeQuantum
        s.mRunningProcessList.getProcess.1).1.tempBurstTime = 0
    · have hz2 : (timeSlice s.clampQueue.mTimeCounter s.clampQueue.mTimeQuantum
          s.clampQueue.mRunningProcessList.getProcess.1).1.tempBurstTime = 0 := hz
      rw [if_pos hz] at h
      rw [if_pos hz2]
      simp only [Option.some.injEq] at h
      subst h
      rfl
    · have hz2 : ¬ (timeSlice s.clampQueue.mTimeCounter s.clampQueue.mTimeQuantum
          s.clampQueue.mRunningProcessList.getProcess.1).1.tempBurstTime = 0 := hz
      rw [if_neg hz] at h
      rw [if_neg hz2]
      cases hd : drainDuring (s.mTimeQuantum + 1).toNat
          ((timeSlice s.mTimeCounter s.mTimeQuantum
            s.mRunningProcessList.getProcess.1).2 - s.mTimeQuantum)
          s.mRunningProcessList.getProcess.2 s.mProcessList with
      | none =>
        rw [hd] at h
        cases h
      | some x =>
        rw [hd, Option.some_bind] at h
        have hd2 := rrp_drainDuring_clamp _ _ _ _ x.1 x.2 hd
        have hd3 : drainDuring (s.clampQueue.mTimeQuantum + 1).toNat
            ((timeSlice s.clampQueue.mTimeCounter s.clampQueue.mTimeQuantum
              s.clampQueue.mRunningProcessList.getProcess.1).2 - s.clampQueue.mTimeQuantum)
            s.clampQueue.mRunningProcessList.getProcess.2 s.clampQueue.mProcessList =
            some (x.1, x.2.map Process.clamp) := hd2
        rw [hd3, Option.some_bind]
        cases ha : x.1.addProcess (timeSlice s.mTimeCounter s.mTimeQuantum
            s.mRunningProcessList.getProcess.1).1 with
        | none =>
          rw [ha] at h
          cases h
        | some y =>
          rw [ha] at h
          simp only [Option.map_some', Option.some.injEq] at h
          subst h
          have ha2 : x.1.addProcess (timeSlice s.clampQueue.mTimeCounter
              s.clampQueue.mTimeQuantum s.clampQueue.mRunningProcessList.getProcess.1).1 =
              some y := ha
          rw [ha2]
          rfl

/-- An iteration that returns does the same on the state with the `clamp`ed queue. -/
theorem rrp_loopBody_clamp (s s2 : PriorityPreemptive) (h : loopBody s = some s2) :
    loopBody s.clampQueue = some s2.clampQueue := by
  unfold loopBody drainArrived at h ⊢
  cases hd : drain s.mTimeCounter s.mRunningProcessList s.mProcessList with
  | none =>
    rw [hd] at h
    cases h
  | some x =>
    rw [hd] at h
    simp only [Option.map_some', Option.some_bind] at h
    have hd2 : drain s.clampQueue.mTimeCounter s.clampQueue.mRunningProcessList
        s.clampQueue.mProcessList = some (x.1, x.2.map Process.clamp) :=
      rrp_drain_clamp _ _ _ x.1 x.2 hd
    rw [hd2]
    simp only [Option.map_some', Option.some_bind]
    exact rrp_dispatch_clamp _ _ h

theorem rrp_abs_clamp (s : PriorityPreemptive) : abs s.clampQueue = abs s := by
  unfold abs PriorityPreemptive.clampQueue
  simp only [List.map_map]
  congr 1
  exact List.map_congr_left (fun p _ => rrp_clamp_view p)

/-- An iteration of the loop of the bucketed engine that returns is a step of the
common loop; it keeps the running structure well formed, the process queue in
arrival order and the time quantum. -/
theorem rrp_refines_some (s s2 : PriorityPreemptive) (h : loopBody s = some s2)
    (hwf : s.mRunningProcessList.Wf)
    (hsorted : s.mProcessList.Pairwise (fun a b => a.arrivalTime ≤ b.arrivalTime))
    (hq : s.mTimeQuantum = 1) :
    tick.Step (abs s) (abs s2) ∧ s2.mRunningProcessList.Wf ∧
    s2.mProcessList.Pairwise (fun a b => a.arrivalTime ≤ b.arrivalTime) ∧
    s2.mTimeQuantum = 1 := by
  have hinv : Inv s.clampQueue := by
    refine ⟨hwf, ?_, ?_, hq⟩
    · intro p hp
      obtain ⟨p0, -, rfl⟩ := List.mem_map.mp hp
      exact rrp_clamp_nonneg p0
    · show (s.mProcessList.map Process.clamp).Pairwise _
      rw [List.pairwise_map]
      exact hsorted.imp (fun {a b} hab => by rw [rrp_clamp_arrival, rrp_clamp_arrival]; exact hab)
  obtain ⟨s3, h3, hstep, hwf3, -, hsorted3, hq3⟩ := rrp_refines s.clampQueue hinv
  rw [rrp_loopBody_clamp s s2 h] at h3
  simp only [Option.some.injEq] at h3
  subst h3
  rw [rrp_abs_clamp, rrp_abs_clamp] at hstep
  refine ⟨hstep, hwf3, ?_, hq3⟩
  have hs : (s2.mProcessList.map Process.clamp).Pairwise
      (fun a b => a.arrivalTime ≤ b.arrivalTime) := hsorted3
  rw [List.pairwise_map] at hs
  exact hs.imp (fun {a b} hab => by rw [rrp_clamp_arrival, rrp_clamp_arrival] at hab; exact hab)

/-- The views of the states of a run of the bucketed loop that returns form a run
of the common loop. -/
theorem rrp_run_some : ∀ (n : Nat) (s s2 : PriorityPreemptive), steps n s = some s2 →
    s.mRunningProcessList.Wf →
    s.mProcessList.Pairwise (fun a b => a.arrivalTime ≤ b.arrivalTime) →
    s.mTimeQuantum = 1 →
    Relation.ReflTransGen tick.Step (abs s) (abs s2) ∧ s2.mRunningProcessList.Wf ∧
    s2.mProcessList.Pairwise (fun a b => a.arrivalTime ≤ b.arrivalTime) ∧
    s2.mTimeQuantum = 1 := by
  intro n
  induction n with
  | zero =>
    intro s s2 h hwf hs hq
    simp only [steps, Option.some.injEq] at h
    subst h
    exact ⟨Relation.ReflTransGen.refl, hwf, hs, hq⟩
  | succ n ih =>
    intro s s2 h hwf hs hq
    by_cases hc : loopCond s = true
    · simp only [steps, hc, if_true] at h
      cases hb : loopBody s with
      | none =>
        rw [hb] at h
        cases h
      | some s1 =>
        rw [hb, Option.some_bind] at h
        obtain ⟨st, w1, w2, w3⟩ := rrp_refines_some s s1 hb hwf hs hq
        obtain ⟨r1, r2, r3, r4⟩ := ih s1 s2 h w1 w2 w3
        exact ⟨Relation.ReflTransGen.head st r1, r2, r3, r4⟩
    · have hc2 : loopCond s = false := by simpa using hc
      rw [rrp_steps_of_loopCond_false _ s hc2] at h
      simp only [Option.some.injEq] at h
      subst h
      exact ⟨Relation.ReflTransGen.refl, hwf, hs, hq⟩

end round_robin_priority

/-! ## The clock and the timestamps of the trace -/

namespace tick

/-- A run on well-formed remaining times: the clock does not go back, every trace
event lies before the clock, and the timestamps of the trace go up strictly. -/
theorem tick_run_increasing (a b : State) (h : Relation.ReflTransGen Step a b)
    (hw : Work a) (hp : a.gantt.Pairwise (fun x y => x.2 < y.2)) :
    a.t ≤ b.t ∧ Work b ∧ b.gantt.Pairwise (fun x y => x.2 < y.2) := by
  induction h with
  | refl => exact ⟨le_refl _, hw, hp⟩
  | tail _ hbc ih =>
    obtain ⟨i1, i2, i3⟩ := ih
    obtain ⟨u1, u2⟩ := tick_step_unit _ _ hbc i2
    refine ⟨by omega, tick_step_work _ _ hbc i2, ?_⟩
    rcases u2 with hg | ⟨i, hg⟩
    · rw [hg]
      exact i3
    · rw [hg, List.pairwise_append]
      refine ⟨i3, List.pairwise_singleton _ _, ?_⟩
      intro x hx y hy
      simp only [List.mem_singleton] at hy
      subst hy
      exact i2.2.2.2.1 x hx

/-- Timestamps that go up strictly are pairwise distinct. -/
theorem tick_increasing_nodup (g : List (Int × Int))
    (h : g.Pairwise (fun x y => x.2 < y.2)) : (g.map Prod.snd).Nodup := by
  unfold List.Nodup
  rw [List.pairwise_map]
  exact h.imp (fun {a b} hab => ne_of_lt hab)

end tick

namespace srtf

/-- An iteration of the SRTF loop appends at most one event, with the clock as
timestamp. -/
theorem srtf_loopBody_trace (s : SRTF) :
    (guarded.loopBody s).mGantChart = s.mGantChart ∨
    ∃ i, (guarded.loopBody s).mGantChart = s.mGantChart ++ [(i, s.mTimeCounter)] := by
  have hd3 : (guarded.drainArrived s).mTimeCounter = s.mTimeCounter := rfl
  have hd4 : (guarded.drainArrived s).mGantChart = s.mGantChart := rfl
  unfold guarded.loopBody
  generalize guarded.drainArrived s = d at hd3 hd4
  cases htop : stdlib.pqTop d.mRunningProcessList with
  | none =>
    left
    have hdis : dispatch d = { d with mTimeCounter := d.mTimeCounter + 1 } := by
      simp [dispatch, htop]
    rw [hdis]
    exact hd4
  | some cur =>
    right
    obtain ⟨cur2, -, -, -, -, -, k2, -, -⟩ := srtf_dispatch_start d cur htop
    exact ⟨cur.pid, by rw [k2, hd3, hd4]⟩

/-- The SRTF loop, on any process list: the clock never goes back, every trace
event lies before the clock, and the timestamps of the trace go up strictly. -/
theorem srtf_steps_increasing : ∀ (n : Nat) (s : SRTF),
    (∀ e ∈ s.mGantChart, e.2 < s.mTimeCounter) →
    s.mGantChart.Pairwise (fun x y => x.2 < y.2) →
    s.mTimeCounter ≤ (guarded.steps n s).mTimeCounter ∧
    (∀ e ∈ (guarded.steps n s).mGantChart, e.2 < (guarded.steps n s).mTimeCounter) ∧
    (guarded.steps n s).mGantChart.Pairwise (fun x y => x.2 < y.2) := by
  intro n
  induction n with
  | zero => intro s h1 h2; exact ⟨le_refl _, h1, h2⟩
  | succ n ih =>
    intro s h1 h2
    by_cases hc : loopCond s = true
    · have hs : guarded.steps (n + 1) s = guarded.steps n (guarded.loopBody s) := by simp [guarded.steps, hc]
      rw [hs]
      have ht := srtf_loopBody_clock s
      have hb : (∀ e ∈ (guarded.loopBody s).mGantChart, e.2 < (guarded.loopBody s).mTimeCounter) ∧
          (guarded.loopBody s).mGantChart.Pairwise (fun x y => x.2 < y.2) := by
        rcases srtf_loopBody_trace s with hg | ⟨i, hg⟩
        · rw [hg, ht]
          exact ⟨fun e he => by have := h1 e he; omega, h2⟩
        · rw [hg, ht]
          refine ⟨?_, ?_⟩
          · intro e he
            rcases List.mem_append.mp he with he | he
            · have := h1 e he
              omega
            · simp only [List.mem_singleton] at he
              subst he
              show s.mTimeCounter < s.mTimeCounter + 1
              omega
          · rw [List.pairwise_append]
            refine ⟨h2, List.pairwise_singleton _ _, ?_⟩
            intro x hx y hy
            simp only [List.mem_singleton] at hy
            subst hy
            exact h1 x hx
      obtain ⟨i1, i2, i3⟩ := ih (guarded.loopBody s) hb.1 hb.2
      exact ⟨by omega, i2, i3⟩
    · have hs : guarded.steps (n + 1) s = s := by simp [guarded.steps, hc]
      rw [hs]
      exact ⟨le_refl _, h1, h2⟩

end srtf

namespace round_robin_priority

theorem rrp_ctor_sorted (processes : List Process) :
    (PriorityPreemptive.ctor processes).mProcessList.Pairwise
      (fun a b => a.arrivalTime ≤ b.arrivalTime) := by
  show ((sortProcesses processes).map _).Pairwise _
  rw [List.pairwise_map]
  exact rrp_sort_sorted processes

end round_robin_priority

/-! ## The idle branch of the quantum-based loops -/

namespace tick

/-- A run keeps the processes, and keeps the process queue in arrival order: the
queue only loses processes at its front. -/
theorem tick_run_sorted (input : List (Int × Int × Int)) (a b : State)
    (h : Relation.ReflTransGen Step a b) (hc : Conserved input a)
    (hs : a.queue.Pairwise (fun x y => x.arrivalTime ≤ y.arrivalTime)) :
    Conserved input b ∧ b.queue.Pairwise (fun x y => x.arrivalTime ≤ y.arrivalTime) := by
  induction h with
  | refl => exact ⟨hc, hs⟩
  | tail _ hbc ih =>
    refine ⟨tick_step_conserved _ _ _ hbc ih.1, ?_⟩
    cases hbc with
    | idle hready hhead hq hr hf hg ht =>
      rw [hq]
      exact ih.2
    | run moved rest cur others moved2 rest2 hq hm hp hq2 hm2 hbq hg ht hfin =>
      have h1 := ih.2
      rw [hq, hq2] at h1
      rw [hbq]
      exact (List.pairwise_append.mp (List.pairwise_append.mp h1).2.1).2.1

/-- In a queue in arrival order whose front has not arrived, no process has
arrived. -/
theorem tick_sorted_head {α : Type} (arr : α → Int) (t : Int) (queue : List α)
    (hs : queue.Pairwise (fun x y => arr x ≤ arr y))
    (hh : ∀ q, queue.head? = some q → t < arr q) : ∀ q ∈ queue, t < arr q := by
  cases queue with
  | nil => intro q hq; cases hq
  | cons f rest =>
    have hf := hh f rfl
    intro q hq
    rcases List.mem_cons.mp hq with rfl | hq
    · exact hf
    · exact lt_of_lt_of_le hf ((List.pairwise_cons.mp hs).1 q hq)

end tick

namespace round_robin

theorem rr_sort_sorted (l : List Process) :
    (sortProcesses l).Pairwise (fun a b => a.arrivalTime ≤ b.arrivalTime) := by
  have hsorted : (sortProcesses l).Pairwise notAfter :=
    @List.sorted_insertionSort _ notAfter _
      ⟨fun a b => by
        unfold notAfter compare
        simp only [decide_eq_false_iff_not, not_lt]
        exact le_total _ _⟩
      ⟨fun a b c => by
        unfold notAfter compare
        simp only [decide_eq_false_iff_not, not_lt]
        exact fun h1 h2 => le_trans h1 h2⟩ _
  refine hsorted.imp ?_
  intro a b hab
  unfold notAfter compare at hab
  simpa using hab

/-- The idle branch of the Round-Robin loop: when the running queue is empty after
the admission loop, it was empty before, nothing was admitted, the process queue is
not empty, none of its processes has arrived, and the iteration only moves the
clock. -/
theorem rr_idle (s : RoundRobin)
    (hs : s.mProcessList.Pairwise (fun a b => a.arrivalTime ≤ b.arrivalTime))
    (hc : loopCond s = true) (hi : (drainArrived s).mRunningProcessList = []) :
    s.mRunningProcessList = [] ∧ (drainArrived s).mProcessList = s.mProcessList ∧
    s.mProcessList ≠ [] ∧ (∀ p ∈ s.mProcessList, s.mTimeCounter < p.arrivalTime) ∧
    loopBody s = { s with mTimeCounter := s.mTimeCounter + s.mTimeQuantum } := by
  obtain ⟨d1, -, d3⟩ := rr_drain_spec s.mTimeCounter s.mProcessList
  have hi2 : s.mRunningProcessList ++ (drain s.mTimeCounter s.mProcessList).1 = [] := hi
  obtain ⟨hr, hm⟩ := List.append_eq_nil.mp hi2
  rw [hm, List.nil_append] at d1
  have hq : (drainArrived s).mProcessList = s.mProcessList := d1.symm
  have hne : s.mProcessList ≠ [] := by
    intro hq0
    unfold loopCond at hc
    rw [hq0, hr] at hc
    cases hc
  have hd : drainArrived s = s := by
    have h1 : drainArrived s = { s with
        mRunningProcessList := s.mRunningProcessList ++ (drain s.mTimeCounter s.mProcessList).1
        mProcessList := (drain s.mTimeCounter s.mProcessList).2 } := rfl
    rw [h1, hm, ← d1, List.append_nil]
  refine ⟨hr, hq, hne, ?_, ?_⟩
  · rw [← d1] at d3
    exact tick.tick_sorted_head (fun p : Process => p.arrivalTime) _ _ hs d3
  · unfold loopBody
    rw [hd]
    exact rr_dispatch_nil s hr

/-- The process queue stays in arrival order, and the processes are kept. -/
theorem rr_steps_sorted (processes : List Process) (n : Nat) :
    (steps n (RoundRobin.ctor processes)).mProcessList.Pairwise
      (fun a b => a.arrivalTime ≤ b.arrivalTime) ∧
    tick.Conserved (processes.map (fun p => (p.pid, p.arrivalTime, p.burstTime)))
      (abs (steps n (RoundRobin.ctor processes))) := by
  obtain ⟨run, -⟩ := rr_run n (RoundRobin.ctor processes) rfl
  have h0 : (abs (RoundRobin.ctor processes)).queue.Pairwise
      (fun x y => x.arrivalTime ≤ y.arrivalTime) := by
    show ((sortProcesses processes).map view).Pairwise _
    rw [List.pairwise_map]
    exact rr_sort_sorted processes
  obtain ⟨c, hs⟩ := tick.tick_run_sorted _ _ _ run (rr_ctor_conserved processes) h0
  refine ⟨?_, c⟩
  have hs2 : ((steps n (RoundRobin.ctor processes)).mProcessList.map view).Pairwise
      (fun x y => x.arrivalTime ≤ y.arrivalTime) := hs
  rw [List.pairwise_map] at hs2
  exact hs2

end round_robin

namespace priority_preemptive

/-- The idle branch of the plain priority loop. -/
theorem pp_idle (s : PriorityPreemptive) (hinv : Inv s)
    (hc : loopCond s = true) (hi : (drainArrived s).mRunningProcessList = []) :
    s.mRunningProcessList = [] ∧ (drainArrived s).mProcessList = s.mProcessList ∧
    s.mProcessList ≠ [] ∧ (∀ p ∈ s.mProcessList, s.mTimeCounter < p.arrivalTime) ∧
    loopBody s = { s with mTimeCounter := s.mTimeCounter + s.mTimeQuantum } := by
  obtain ⟨hheap, hs, -⟩ := hinv
  obtain ⟨moved, d1, d2, -, d4, -⟩ :=
    pp_drain_spec s.mTimeCounter s.mProcessList s.mRunningProcessList hheap
  have hi2 : (drain s.mTimeCounter s.mRunningProcessList s.mProcessList).1 = [] := hi
  rw [hi2] at d2
  obtain ⟨hr, hm⟩ := List.append_eq_nil.mp (List.Perm.eq_nil d2.symm)
  rw [hm, List.nil_append] at d1
  have hq : (drainArrived s).mProcessList = s.mProcessList := d1.symm
  have hne : s.mProcessList ≠ [] := by
    intro hq0
    unfold loopCond at hc
    rw [hq0, hr] at hc
    cases hc
  have hd : drainArrived s = s := by
    have h1 : drainArrived s = { s with
        mRunningProcessList := (drain s.mTimeCounter s.mRunningProcessList s.mProcessList).1
        mProcessList := (drain s.mTimeCounter s.mRunningProcessList s.mProcessList).2 } := rfl
    rw [h1, hi2, ← d1, ← hr]
  refine ⟨hr, hq, hne, ?_, ?_⟩
  · rw [← d1] at d4
    exact tick.tick_sorted_head (fun p : Process => p.arrivalTime) _ _ hs d4
  · unfold loopBody
    rw [hd]
    unfold dispatch
    rw [hr]
    rfl

end priority_preemptive

namespace round_robin_priority

/-- The admission loop of the bucketed engine, when it returns: it has moved a
front part of the process queue, all of it arrived, into the running structure;
the process left in front of the queue has not arrived. -/
theorem rrp_drain_some (t : Int) : ∀ (queue : List Process) (running run3 : RunningProcess)
    (rest : List Process), drain t running queue = some (run3, rest) → running.Wf →
    ∃ moved, queue = moved ++ rest ∧
      run3.stored.Perm (running.stored ++ moved) ∧ run3.Wf ∧
      (∀ q ∈ moved, q.arrivalTime ≤ t ∧ 0 ≤ q.priority) ∧
      (∀ q, rest.head? = some q → t < q.arrivalTime) := by
  intro queue
  induction queue with
  | nil =>
    intro running run3 rest h hwf
    simp only [drain, Option.some.injEq, Prod.mk.injEq] at h
    obtain ⟨rfl, rfl⟩ := h
    exact ⟨[], rfl, by simp, hwf, by simp, by simp⟩
  | cons p queue ih =>
    intro running run3 rest h hwf
    by_cases hp : t ≥ p.arrivalTime
    · simp only [drain, hp, if_true] at h
      cases ha : running.addProcess p with
      | none =>
        rw [ha] at h
        cases h
      | some x =>
        rw [ha, Option.some_bind] at h
        have hpr := rrp_addProcess_some running p x ha
        obtain ⟨r2, a1, -, -, a4⟩ := rrp_addProcess_spec running p hpr
        rw [ha] at a1
        simp only [Option.some.injEq] at a1
        subst a1
        have hwf2 := rrp_addProcess_wf running r2 p _ hpr hwf ha
        obtain ⟨moved, b2, b3, b4, b5, b6⟩ := ih r2 run3 rest h hwf2
        refine ⟨p :: moved, by rw [List.cons_append, ← b2], ?_, b4, ?_, b6⟩
        · refine b3.trans ((a4.append_right moved).trans ?_)
          simp
        · intro q hq
          rcases List.mem_cons.mp hq with rfl | hq
          · exact ⟨hp, hpr⟩
          · exact b5 q hq
    · simp only [drain, hp, if_false, Option.some.injEq, Prod.mk.injEq] at h
      obtain ⟨rfl, rfl⟩ := h
      refine ⟨[], rfl, by simp, hwf, by simp, ?_⟩
      intro q hq
      simp only [List.head?_cons, Option.some.injEq] at hq
      subst hq
      omega

/-- The idle branch of the bucketed priority loop. -/
theorem rrp_idle (s d : PriorityPreemptive) (hwf : s.mRunningProcessList.Wf)
    (hs : s.mProcessList.Pairwise (fun a b => a.arrivalTime ≤ b.arrivalTime))
    (hc : loopCond s = true) (hd : drainArrived s = some d)
    (hi : d.mRunningProcessList.empty = true) :
    s.mRunningProcessList.stored = [] ∧ s.mRunningProcessList.empty = true ∧ d = s ∧
    s.mProcessList ≠ [] ∧ (∀ p ∈ s.mProcessList, s.mTimeCounter < p.arrivalTime) ∧
    loopBody s = some { s with mTimeCounter := s.mTimeCounter + s.mTimeQuantum } := by
  unfold drainArrived at hd
  cases hdr : drain s.mTimeCounter s.mRunningProcessList s.mProcessList with
  | none =>
    rw [hdr] at hd
    cases hd
  | some x =>
    rw [hdr] at hd
    simp only [Option.map_some', Option.some.injEq] at hd
    obtain ⟨moved, d1, d2, d3, -, d5⟩ := rrp_drain_some _ _ _ x.1 x.2 hdr hwf
    have hx1 : d.mRunningProcessList = x.1 := by rw [← hd]
    rw [hx1] at hi
    have hst := (rrp_empty_iff x.1 d3).mp hi
    rw [hst] at d2
    obtain ⟨hr, hm⟩ := List.append_eq_nil.mp (List.Perm.eq_nil d2.symm)
    rw [hm, List.nil_append] at d1
    have he : s.mRunningProcessList.empty = true := (rrp_empty_iff _ hwf).mpr hr
    have hne : s.mProcessList ≠ [] := by
      intro hq0
      unfold loopCond at hc
      rw [hq0, he] at hc
      cases hc
    have hx : x = (s.mRunningProcessList, s.mProcessList) := by
      have h2 : x.2 = s.mProcessList := d1.symm
      have h1 : x.1 = s.mRunningProcessList := by
        cases hq : s.mProcessList with
        | nil => exact absurd hq hne
        | cons p rest =>
          rw [hq] at hdr h2
          have hp : ¬ s.mTimeCounter ≥ p.arrivalTime := by
            have := d5 p (by rw [h2]; rfl)
            omega
          simp only [drain, hp, if_false, Option.some.injEq] at hdr
          rw [← hdr]
      exact Prod.ext h1 h2
    have hds : d = s := by
      rw [← hd, hx]
    refine ⟨hr, he, hds, hne, ?_, ?_⟩
    · rw [← d1] at d5
      exact tick.tick_sorted_head (fun p : Process => p.arrivalTime) _ _ hs d5
    · unfold loopBody drainArrived
      rw [hdr, hx]
      simp only [Option.map_some', Option.some_bind]
      unfold dispatch
      simp only [he, if_true]

end round_robin_priority

/-- C31: in the state at the head of any iteration of the Round-Robin, the plain
priority and the bucketed priority loop, on any process list: when the ready
structure is empty after the admission loop, so that the idle branch is taken, then
it was empty before, the process queue is not empty, every queued process arrives
after the clock, the finished and the queued processes together are the input, so
every process that has arrived is finished, and the iteration only adds the time
quantum 1 to the clock.  In Round-Robin on the processes of `main` this happens in
iteration 28, at clock 28. -/
theorem idle_branch_only_without_arrived_work
    (rp : List round_robin.Process) (pp : List priority_preemptive.Process)
    (bp : List round_robin_priority.Process) (n : Nat) :
    (∀ s, s = round_robin.steps n (round_robin.RoundRobin.ctor rp) →
      round_robin.loopCond s = true →
      (round_robin.drainArrived s).mRunningProcessList = [] →
      s.mRunningProcessList = [] ∧ s.mProcessList ≠ [] ∧
      (∀ p ∈ s.mProcessList, s.mTimeCounter < p.arrivalTime) ∧
      ((s.mFinishedProcesses ++ s.mProcessList).map
        (fun p => (p.pid, p.arrivalTime, p.burstTime))).Perm
          (rp.map (fun p => (p.pid, p.arrivalTime, p.burstTime))) ∧
      round_robin.loopBody s = { s with mTimeCounter := s.mTimeCounter + 1 }) ∧
    (∀ s, s = priority_preemptive.steps n (priority_preemptive.PriorityPreemptive.ctor pp) →
      priority_preemptive.loopCond s = true →
      (priority_preemptive.drainArrived s).mRunningProcessList = [] →
      s.mRunningProcessList = [] ∧ s.mProcessList ≠ [] ∧
      (∀ p ∈ s.mProcessList, s.mTimeCounter < p.arrivalTime) ∧
      ((s.mFinishedProcesses ++ s.mProcessList).map
        (fun p => (p.pid, p.arrivalTime, p.burstTime))).Perm
          (pp.map (fun p => (p.pid, p.arrivalTime, p.burstTime))) ∧
      priority_preemptive.loopBody s = { s with mTimeCounter := s.mTimeCounter + 1 }) ∧
    (∀ s d, round_robin_priority.steps n (round_robin_priority.PriorityPreemptive.ctor bp) =
        some s →
      round_robin_priority.loopCond s = true →
      round_robin_priority.drainArrived s = some d →
      d.mRunningProcessList.empty = true →
      s.mRunningProcessList.empty = true ∧ s.mRunningProcessList.stored = [] ∧
      s.mProcessList ≠ [] ∧
      (∀ p ∈ s.mProcessList, s.mTimeCounter < p.arrivalTime) ∧
      ((s.mFinishedProcesses ++ s.mProcessList).map
        (fun p => (p.pid, p.arrivalTime, p.burstTime))).Perm
          (bp.map (fun p => (p.pid, p.arrivalTime, p.burstTime))) ∧
      round_robin_priority.loopBody s =
        some { s with mTimeCounter := s.mTimeCounter + 1 }) ∧
    (round_robin.loopCond (round_robin.steps 28 (round_robin.RoundRobin.ctor
        [round_robin.Process.init4 1 0 10 10, round_robin.Process.init4 2 1 9 9,
          round_robin.Process.init4 3 2 5 5, round_robin.Process.init4 4 3 4 4,
          round_robin.Process.init4 5 40 4 4])) = true ∧
      (round_robin.drainArrived (round_robin.steps 28 (round_robin.RoundRobin.ctor
        [round_robin.Process.init4 1 0 10 10, round_robin.Process.init4 2 1 9 9,
          round_robin.Process.init4 3 2 5 5, round_robin.Process.init4 4 3 4 4,
          round_robin.Process.init4 5 40 4 4]))).mRunningProcessList = [] ∧
      (round_robin.steps 28 (round_robin.RoundRobin.ctor
        [round_robin.Process.init4 1 0 10 10, round_robin.Process.init4 2 1 9 9,
          round_robin.Process.init4 3 2 5 5, round_robin.Process.init4 4 3 4 4,
          round_robin.Process.init4 5 40 4 4])).mTimeCounter = 28) := by
  refine ⟨?_, ?_, ?_, by decide, by decide, by decide⟩
  · intro s hs hc hi
    obtain ⟨hsorted, hcons⟩ := round_robin.rr_steps_sorted rp n
    rw [← hs] at hsorted hcons
    have hq : s.mTimeQuantum = 1 := by
      rw [hs]
      exact (round_robin.rr_run n _ rfl).2
    obtain ⟨a1, -, a3, a4, a5⟩ := round_robin.rr_idle s hsorted hc hi
    refine ⟨a1, a3, a4, ?_, by rw [a5, hq]⟩
    have hc2 : ((s.mFinishedProcesses.map round_robin.view ++
        (s.mRunningProcessList.map round_robin.view ++
          s.mProcessList.map round_robin.view)).map tick.core).Perm _ := hcons
    rw [a1, List.map_nil, List.nil_append, ← List.map_append, List.map_map] at hc2
    exact hc2
  · intro s hs hc hi
    obtain ⟨run, hinv⟩ := priority_preemptive.pp_run n
      (priority_preemptive.PriorityPreemptive.ctor pp) (priority_preemptive.pp_inv_ctor pp)
    rw [← hs] at run hinv
    have hcons := (tick.tick_run_sorted _ _ _ run
      (priority_preemptive.pp_ctor_conserved pp) (by
        show (((priority_preemptive.PriorityPreemptive.ctor pp).mProcessList).map
          priority_preemptive.view).Pairwise _
        rw [List.pairwise_map]
        exact (priority_preemptive.pp_inv_ctor pp).2.1)).1
    obtain ⟨a1, -, a3, a4, a5⟩ := priority_preemptive.pp_idle s hinv hc hi
    refine ⟨a1, a3, a4, ?_, by rw [a5, hinv.2.2]⟩
    have hc2 : ((s.mFinishedProcesses.map priority_preemptive.view ++
        (s.mRunningProcessList.map priority_preemptive.view ++
          s.mProcessList.map priority_preemptive.view)).map tick.core).Perm _ := hcons
    rw [a1, List.map_nil, List.nil_append, ← List.map_append, List.map_map] at hc2
    exact hc2
  · intro s d hs hc hd hi
    obtain ⟨run, w1, w2, w3⟩ := round_robin_priority.rrp_run_some n _ s hs
      round_robin_priority.rrp_wf_ctor (round_robin_priority.rrp_ctor_sorted bp) rfl
    have hcons := (tick.tick_run_sorted _ _ _ run
      (round_robin_priority.rrp_ctor_conserved bp) (by
        show (((round_robin_priority.PriorityPreemptive.ctor bp).mProcessList).map
          round_robin_priority.view).Pairwise _
        rw [List.pairwise_map]
        exact round_robin_priority.rrp_ctor_sorted bp)).1
    obtain ⟨a1, a2, -, a4, a5, a6⟩ := round_robin_priority.rrp_idle s d w1 w2 hc hd hi
    refine ⟨a2, a1, a4, a5, ?_, by rw [a6, w3]⟩
    have hc2 : ((s.mFinishedProcesses.map round_robin_priority.view ++
        (s.mRunningProcessList.stored.map round_robin_priority.view ++
          s.mProcessList.map round_robin_priority.view)).map tick.core).Perm _ := hcons
    rw [a1, List.map_nil, List.nil_append, ← List.map_append, List.map_map] at hc2
    exact hc2

/-! ## The plain and the bucketed priority engine on distinct priorities -/

namespace round_robin_priority

/-- A list splits in one way only into a front part that satisfies `P` and a rest
whose first element does not. -/
theorem rrp_split_unique {α : Type} (P : α → Prop) : ∀ (m₁ r₁ m₂ r₂ : List α),
    m₁ ++ r₁ = m₂ ++ r₂ → (∀ x ∈ m₁, P x) → (∀ x ∈ m₂, P x) →
    (∀ x, r₁.head? = some x → ¬ P x) → (∀ x, r₂.head? = some x → ¬ P x) →
    m₁ = m₂ ∧ r₁ = r₂ := by
  intro m₁
  induction m₁ with
  | nil =>
    intro r₁ m₂ r₂ h _ h2 hr1 _
    cases m₂ with
    | nil => exact ⟨rfl, h⟩
    | cons y m₂ =>
      rw [List.nil_append] at h
      exact absurd (h2 y (List.mem_cons_self _ _)) (hr1 y (by rw [h]; rfl))
  | cons x m₁ ih =>
    intro r₁ m₂ r₂ h h1 h2 hr1 hr2
    cases m₂ with
    | nil =>
      rw [List.nil_append] at h
      exact absurd (h1 x (List.mem_cons_self _ _)) (hr2 x (by rw [← h]; rfl))
    | cons y m₂ =>
      simp only [List.cons_append, List.cons.injEq] at h
      obtain ⟨rfl, h⟩ := h
      obtain ⟨e1, e2⟩ := ih r₁ m₂ r₂ h (fun z hz => h1 z (List.mem_cons_of_mem _ hz))
        (fun z hz => h2 z (List.mem_cons_of_mem _ hz)) hr1 hr2
      exact ⟨by rw [e1], e2⟩

/-- The process that `getProcess` returns has the smallest priority of the stored
processes. -/
theorem rrp_getProcess_min (r : RunningProcess) (hwf : r.Wf) (hne : r.stored ≠ []) :
    ∀ x ∈ r.stored, r.getProcess.1.priority ≤ x.priority := by
  obtain ⟨k, p, ps, -, g2, g3, -, -, g6⟩ := rrp_getProcess_spec r hwf hne
  intro x hx
  rw [g3]
  show p.priority ≤ x.priority
  obtain ⟨bucket, hb, hxb⟩ := List.mem_flatten.mp hx
  obtain ⟨j, hj, hbj⟩ := List.getElem_of_mem hb
  have hj2 : r.mProcessList[j]? = some bucket := by
    rw [List.getElem?_eq_getElem hj, hbj]
  have hxj := hwf.1 j bucket x hj2 hxb
  rw [g6, hxj]
  by_contra hlt
  have hjk : j < k := by
    have : ¬ (k : Int) ≤ (j : Int) := hlt
    omega
  have := g2 j hjk
  rw [hj2] at this
  simp only [Option.some.injEq] at this
  rw [this] at hxb
  cases hxb

/-- The top of the running heap of the plain engine has the smallest priority. -/
theorem rrp_top_min (run : List priority_preemptive.Process)
    (hheap : stdlib.IsHeap priority_preemptive.key run) (cur : priority_preemptive.Process)
    (htop : stdlib.pqTop run = some cur) : ∀ x ∈ run, cur.priority ≤ x.priority := by
  intro x hx
  have h0 : run[0]? = some cur := by
    unfold stdlib.pqTop at htop
    rw [← List.head?_eq_getElem?]
    exact htop
  have hle := stdlib.IsHeap.head_le priority_preemptive.key run hheap cur h0 x hx
  unfold priority_preemptive.key at hle
  rw [Prod.Lex.le_iff] at hle
  rcases hle with h | ⟨h, -⟩
  · exact le_of_lt h
  · exact le_of_eq h

/-- Both admission loops move the same processes: after them the states agree with
nothing stored early. -/
theorem rrp_agree_drain (sp : priority_preemptive.PriorityPreemptive)
    (sb : PriorityPreemptive) (h : Agree sp sb) :
    ∃ db, drainArrived sb = some db ∧
      AgreeUpTo [] (priority_preemptive.drainArrived sp) db := by
  obtain ⟨early, ht, hg, hf, hq1, hq2, hheap, hwf, hpr, hnd, he1, he2, he3⟩ := h
  obtain ⟨run3, rest, moved, a1, a2, a3, a4, a5, a6⟩ :=
    rrp_drain_spec sb.mTimeCounter sb.mProcessList sb.mRunningProcessList hwf
      (fun p hp => hpr p (List.mem_append_right _ hp))
  obtain ⟨movedp, b1, b2, b3, b4, b5⟩ :=
    priority_preemptive.pp_drain_spec sp.mTimeCounter sp.mProcessList
      sp.mRunningProcessList hheap
  have hsplit : movedp ++
      (priority_preemptive.drain sp.mTimeCounter sp.mRunningProcessList sp.mProcessList).2 =
      (early ++ moved).map Process.toPlain ++ rest.map Process.toPlain := by
    rw [← b1, he1, a2, ← List.map_append, List.append_assoc]
  obtain ⟨e1, e2⟩ := rrp_split_unique
    (fun x : priority_preemptive.Process => x.arrivalTime ≤ sp.mTimeCounter)
    _ _ _ _ hsplit b3
    (by
      intro x hx
      obtain ⟨y, hy, rfl⟩ := List.mem_map.mp hx
      show y.arrivalTime ≤ sp.mTimeCounter
      rw [ht]
      rcases List.mem_append.mp hy with hy | hy
      · exact he2 y hy
      · exact a5 y hy)
    (fun x hx => not_le.mpr (b4 x hx))
    (by
      intro x hx
      rw [List.head?_map] at hx
      cases hh : rest.head? with
      | none => rw [hh] at hx; cases hx
      | some y =>
        rw [hh] at hx
        simp only [Option.map_some', Option.some.injEq] at hx
        subst hx
        show ¬ y.arrivalTime ≤ sp.mTimeCounter
        rw [ht]
        exact not_le.mpr (a6 y hh))
  refine ⟨{ sb with mRunningProcessList := run3, mProcessList := rest }, ?_, ?_⟩
  · unfold drainArrived
    rw [a1]
    rfl
  · have hperm : (run3.stored ++ rest).Perm
        (sb.mRunningProcessList.stored ++ sb.mProcessList) := by
      rw [a2, ← List.append_assoc]
      exact a3.append_right rest
    refine ⟨ht, hg, hf, hq1, hq2, b5, a4, ?_, ?_, ?_, by simp, ?_⟩
    · intro p hp
      exact hpr p (hperm.subset hp)
    · exact (List.Perm.nodup_iff (hperm.map _)).mpr hnd
    · exact e2
    · show ((priority_preemptive.drain sp.mTimeCounter sp.mRunningProcessList
        sp.mProcessList).1 ++ ([] : List Process).map Process.toPlain).Perm
          (run3.stored.map Process.toPlain)
      rw [List.map_nil, List.append_nil]
      refine b2.trans ?_
      rw [e1, List.map_append, ← List.append_assoc]
      refine (he3.append_right _).trans ?_
      rw [← List.map_append]
      exact a3.symm.map _

end round_robin_priority

namespace round_robin_priority

/-- After the admission loops both engines fetch the same process, and the states
after the dispatch agree, up to the processes that the bucketed engine stores
before it stores the preempted process again. -/
theorem rrp_agree_dispatch (dp : priority_preemptive.PriorityPreemptive)
    (db : PriorityPreemptive) (h : AgreeUpTo [] dp db) :
    ∃ sb2, dispatch db = some sb2 ∧ Agree (priority_preemptive.dispatch dp) sb2 := by
  obtain ⟨ht, hg, hf, hq1, hq2, hheap, hwf, hpr, hnd, he1, -, he3⟩ := h
  have hqueue : dp.mProcessList = db.mProcessList.map Process.toPlain := he1
  have hperm : dp.mRunningProcessList.Perm
      (db.mRunningProcessList.stored.map Process.toPlain) := by
    simpa using he3
  obtain ⟨pq, prun, pg, pf, pt, pqu⟩ := dp
  obtain ⟨bq, brun, bg, bf, bt, bqu⟩ := db
  simp only at ht hg hf hq1 hq2 hheap hwf hpr hnd hqueue hperm
  subst ht hg hf hq1 hq2 hqueue
  rw [rrp_dispatch_slice, priority_preemptive.pp_dispatch_slice]
  simp only
  by_cases hst : brun.stored = []
  · have he : brun.empty = true := (rrp_empty_iff brun hwf).mpr hst
    have hrun : prun = [] := by
      rw [hst] at hperm
      exact List.Perm.eq_nil hperm
    subst hrun
    rw [if_pos he]
    refine ⟨_, rfl, [], rfl, rfl, rfl, rfl, rfl, hheap, hwf, hpr, hnd, rfl, by simp, ?_⟩
    show (([] : List priority_preemptive.Process) ++ [].map Process.toPlain).Perm _
    rw [hst]
    exact List.Perm.refl _
  · have he : ¬ brun.empty = true := by
      intro he
      exact hst ((rrp_empty_iff brun hwf).mp he)
    rw [if_neg he]
    obtain ⟨k, p, ps, -, -, g3, g4, g5, g6⟩ := rrp_getProcess_spec brun hwf hst
    have hmin := rrp_getProcess_min brun hwf hst
    have hg1 : brun.getProcess.1 = p := by rw [g3]
    rw [hg1] at hmin
    rw [hg1]
    generalize brun.getProcess.2 = g at g4 g5
    have hpmem : p ∈ brun.stored := by rw [g4]; exact List.mem_cons_self _ _
    have hp0 : 0 ≤ p.priority := hpr p (List.mem_append_left _ hpmem)
    have hndst : (brun.stored.map (fun p => p.priority)).Nodup := by
      rw [List.map_append] at hnd
      exact hnd.of_append_left
    cases hrun : prun with
    | nil =>
      rw [hrun] at hperm
      have := List.Perm.eq_nil hperm.symm
      rw [g4] at this
      cases this
    | cons c cs =>
      have htop : stdlib.pqTop prun = some c := by rw [hrun]; rfl
      rw [← hrun]
      have hc : c = p.toPlain := by
        have hcm : c ∈ brun.stored.map Process.toPlain :=
          hperm.subset (by rw [hrun]; exact List.mem_cons_self _ _)
        obtain ⟨x, hx, rfl⟩ := List.mem_map.mp hcm
        have h1 : x.toPlain.priority ≤ p.toPlain.priority :=
          rrp_top_min prun hheap x.toPlain htop p.toPlain
            (hperm.symm.subset (List.mem_map_of_mem _ hpmem))
        have h2 : p.priority ≤ x.priority := hmin x hx
        have h3 : x.priority = p.priority := le_antisymm h1 h2
        rw [List.inj_on_of_nodup_map hndst hx hpmem h3]
      subst hc
      obtain ⟨hheap2, hperm2⟩ := stdlib.pqPop_spec priority_preemptive.key
        priority_preemptive.PriorityCompare priority_preemptive.pp_comp_key prun _ hheap htop
      have hperm3 : (stdlib.pqPop priority_preemptive.PriorityCompare prun).Perm
          (g.stored.map Process.toPlain) := by
        have h1 := hperm2.trans hperm
        rw [g4, List.map_cons] at h1
        exact List.Perm.cons_inv h1
      simp only [htop, rrp_timeSlice_toPlain]
      have hsub : ∀ x ∈ g.stored ++ bq, x ∈ brun.stored ++ bq := by
        intro x hx
        rcases List.mem_append.mp hx with hx | hx
        · exact List.mem_append_left _ (by rw [g4]; exact List.mem_cons_of_mem _ hx)
        · exact List.mem_append_right _ hx
      have hnd2 : (p.priority :: (g.stored ++ bq).map (fun p => p.priority)).Nodup := by
        rw [g4] at hnd
        exact hnd
      by_cases hz : (timeSlice pt 1 p).1.tempBurstTime = 0
      · have hz2 : (timeSlice pt 1 p).1.toPlain.tempBurstTime = 0 := hz
        rw [if_pos hz, if_pos hz2]
        refine ⟨_, rfl, [], rfl, rfl, ?_, rfl, rfl, hheap2, g5, fun x hx => hpr x (hsub x hx),
          (List.nodup_cons.mp hnd2).2, rfl, by simp, ?_⟩
        · show bf.map Process.toPlain ++ [_] = (bf ++ [_]).map Process.toPlain
          rw [List.map_append]
          rfl
        · show (stdlib.pqPop priority_preemptive.PriorityCompare prun ++
            ([] : List Process).map Process.toPlain).Perm _
          rw [List.map_nil, List.append_nil]
          exact hperm3
      · have hz2 : ¬ (timeSlice pt 1 p).1.toPlain.tempBurstTime = 0 := hz
        rw [if_neg hz, if_neg hz2]
        obtain ⟨run4, rest4, moved4, d1, d2, d3, d4, d5⟩ :=
          rrp_drainDuring_spec 2 ((timeSlice pt 1 p).2 - 1) g bq g5
            (fun x hx => hpr x (List.mem_append_right _ hx))
        have hts0 : 0 ≤ (timeSlice pt 1 p).1.priority := by
          rw [rrp_timeSlice_priority]
          exact hp0
        obtain ⟨r5, f1, -, -, f4⟩ := rrp_addProcess_spec run4 (timeSlice pt 1 p).1 hts0
        have hwf5 := rrp_addProcess_wf run4 r5 _ _ hts0 d4 f1
        have hd1 : drainDuring ((1 : Int) + 1).toNat ((timeSlice pt 1 p).2 - 1) g bq =
            some (run4, rest4) := d1
        rw [hd1, Option.some_bind, f1]
        simp only [Option.map_some']
        obtain ⟨hheap3, hperm4⟩ := stdlib.pqPush_spec priority_preemptive.key
          priority_preemptive.PriorityCompare priority_preemptive.pp_comp_key _
          (timeSlice pt 1 p).1.toPlain hheap2
        have hall : (r5.stored ++ rest4).Perm
            ((timeSlice pt 1 p).1 :: (g.stored ++ bq)) := by
          rw [d2, ← List.append_assoc, ← List.cons_append]
          refine List.Perm.append_right rest4 ?_
          refine f4.trans ?_
          refine (List.perm_append_singleton _ _).trans ?_
          exact List.Perm.cons _ d3
        refine ⟨_, rfl, moved4, rfl, rfl, rfl, rfl, rfl, hheap3, hwf5, ?_, ?_, ?_, ?_, ?_⟩
        · intro x hx
          rcases List.mem_cons.mp (hall.subset hx) with rfl | hx
          · exact hts0
          · exact hpr x (hsub x hx)
        · refine (List.Perm.nodup_iff (hall.map _)).mpr ?_
          rw [List.map_cons, rrp_timeSlice_priority]
          exact hnd2
        · show bq.map Process.toPlain = (moved4 ++ rest4).map Process.toPlain
          rw [d2]
        · intro x hx
          have := d5 x hx
          show x.arrivalTime ≤ (timeSlice pt 1 p).2
          push_cast at this
          omega
        · show (stdlib.pqPush priority_preemptive.PriorityCompare
            (stdlib.pqPop priority_preemptive.PriorityCompare prun)
            (timeSlice pt 1 p).1.toPlain ++ moved4.map Process.toPlain).Perm
              (r5.stored.map Process.toPlain)
          refine (hperm4.append_right _).trans ?_
          refine List.Perm.trans ?_ (f4.symm.map _)
          rw [List.map_append, List.map_cons, List.map_nil]
          refine List.Perm.trans ?_ (List.perm_append_singleton _ _).symm
          rw [List.cons_append]
          refine List.Perm.cons _ ?_
          refine List.Perm.trans ?_ (d3.symm.map _)
          rw [List.map_append]
          exact hperm3.append_right _

end round_robin_priority

namespace round_robin_priority

/-- One iteration of both loops from states that agree: the bucketed loop returns
and the states agree again. -/
theorem rrp_agree_loopBody (sp : priority_preemptive.PriorityPreemptive)
    (sb : PriorityPreemptive) (h : Agree sp sb) :
    ∃ sb2, loopBody sb = some sb2 ∧ Agree (priority_preemptive.loopBody sp) sb2 := by
  obtain ⟨db, hd, ha⟩ := rrp_agree_drain sp sb h
  obtain ⟨sb2, h2, ha2⟩ := rrp_agree_dispatch _ db ha
  refine ⟨sb2, ?_, ha2⟩
  unfold loopBody
  rw [hd, Option.some_bind]
  exact h2

/-- States that agree have the same loop condition. -/
theorem rrp_agree_loopCond (sp : priority_preemptive.PriorityPreemptive)
    (sb : PriorityPreemptive) (h : Agree sp sb) :
    priority_preemptive.loopCond sp = loopCond sb := by
  obtain ⟨early, -, -, -, -, -, -, hwf, -, -, he1, -, he3⟩ := h
  have hlen : sp.mRunningProcessList.length + sp.mProcessList.length =
      sb.mRunningProcessList.stored.length + sb.mProcessList.length := by
    have h1 := he3.length_eq
    rw [he1]
    simp only [List.length_append, List.length_map] at h1 ⊢
    omega
  rw [Bool.eq_iff_iff, priority_preemptive.pp_loopCond, rrp_loopCond sb hwf]
  simp only [abs, priority_preemptive.abs, ne_eq, List.append_eq_nil, List.map_eq_nil_iff]
  rw [← List.length_eq_zero, ← List.length_eq_zero, ← List.length_eq_zero,
    ← List.length_eq_zero]
  omega

/-- Any number of iterations of both loops from states that agree. -/
theorem rrp_agree_steps : ∀ (n : Nat) (sp : priority_preemptive.PriorityPreemptive)
    (sb : PriorityPreemptive), Agree sp sb →
    ∃ sb2, steps n sb = some sb2 ∧ Agree (priority_preemptive.steps n sp) sb2 := by
  intro n
  induction n with
  | zero => intro sp sb h; exact ⟨sb, rfl, h⟩
  | succ n ih =>
    intro sp sb h
    have hcond := rrp_agree_loopCond sp sb h
    by_cases hc : loopCond sb = true
    · obtain ⟨sb1, h1, a1⟩ := rrp_agree_loopBody sp sb h
      obtain ⟨sb2, h2, a2⟩ := ih _ sb1 a1
      refine ⟨sb2, ?_, ?_⟩
      · simp only [steps, hc, if_true, h1, Option.some_bind]
        exact h2
      · have hs : priority_preemptive.steps (n + 1) sp =
            priority_preemptive.steps n (priority_preemptive.loopBody sp) := by
          simp [priority_preemptive.steps, hcond, hc]
        rw [hs]
        exact a2
    · have hc2 : loopCond sb = false := by simpa using hc
      refine ⟨sb, rrp_steps_of_loopCond_false _ sb hc2, ?_⟩
      rw [priority_preemptive.pp_steps_of_loopCond_false _ sp (by rw [hcond, hc2])]
      exact h

theorem rrp_sort_toPlain (l : List Process) :
    priority_preemptive.sortProcesses (l.map Process.toPlain) =
      (sortProcesses l).map Process.toPlain := by
  unfold priority_preemptive.sortProcesses sortProcesses
  exact (List.map_insertionSort notAfter priority_preemptive.notAfter Process.toPlain l
    (fun a _ b _ => Iff.rfl)).symm

/-- The states that the two constructors build from the same processes agree, when
the priorities are distinct and not negative. -/
theorem rrp_agree_ctor (l : List Process) (hnd : (l.map (fun p => p.priority)).Nodup)
    (hpr : ∀ p ∈ l, 0 ≤ p.priority) :
    Agree (priority_preemptive.PriorityPreemptive.ctor (l.map Process.toPlain))
      (PriorityPreemptive.ctor l) := by
  refine ⟨[], rfl, rfl, rfl, rfl, rfl, stdlib.isHeap_nil _, rrp_wf_ctor, ?_, ?_, ?_,
    by simp, List.Perm.refl _⟩
  · intro p hp
    have hp2 : p ∈ (PriorityPreemptive.ctor l).mProcessList := hp
    obtain ⟨p0, hp0, rfl⟩ := rrp_ctor_mem l p hp2
    exact hpr p0 hp0
  · show (((sortProcesses l).map _).map (fun p : Process => p.priority)).Nodup
    rw [List.map_map]
    exact (List.Perm.nodup_iff ((rrp_sort_perm l).map _)).mpr hnd
  · show (priority_preemptive.sortProcesses (l.map Process.toPlain)).map _ =
      ((sortProcesses l).map _).map Process.toPlain
    rw [rrp_sort_toPlain, List.map_map, List.map_map]
    rfl

end round_robin_priority

/-- C34: take processes with pairwise distinct priorities, none negative, and
burst times of at least 1, and give them to the plain priority engine and to the
bucketed priority engine.  After any number of iterations of the two loops the
clock, the trace and the finished list are the same (the bucketed loop returns);
both `scheduleProcess` return for every iteration bound from (sum of the burst
times) + (largest arrival time) on, with the same trace and the same finished list,
every member of every finished record included. -/
theorem priority_engines_same_schedule (l : List round_robin_priority.Process)
    (hnd : (l.map (fun p => p.priority)).Nodup)
    (hwf : ∀ p ∈ l, 0 ≤ p.priority ∧ 1 ≤ p.burstTime) :
    (∀ n, ∃ sb,
      round_robin_priority.steps n (round_robin_priority.PriorityPreemptive.ctor l) =
        some sb ∧
      (priority_preemptive.steps n (priority_preemptive.PriorityPreemptive.ctor
        (l.map round_robin_priority.Process.toPlain))).mTimeCounter = sb.mTimeCounter ∧
      (priority_preemptive.steps n (priority_preemptive.PriorityPreemptive.ctor
        (l.map round_robin_priority.Process.toPlain))).mGantChart = sb.mGantChart ∧
      (priority_preemptive.steps n (priority_preemptive.PriorityPreemptive.ctor
        (l.map round_robin_priority.Process.toPlain))).mFinishedProcesses =
          sb.mFinishedProcesses.map round_robin_priority.Process.toPlain) ∧
    ∃ rp rb,
      (∀ fuel, ((l.map (fun p => p.burstTime)).sum +
          (l.map (fun p => p.arrivalTime)).foldr max 0).toNat ≤ fuel →
        priority_preemptive.PriorityPreemptive.scheduleProcess fuel
          (priority_preemptive.PriorityPreemptive.ctor
            (l.map round_robin_priority.Process.toPlain)) = some rp ∧
        round_robin_priority.PriorityPreemptive.scheduleProcess fuel
          (round_robin_priority.PriorityPreemptive.ctor l) = some rb) ∧
      rp.mGantChart = rb.mGantChart ∧
      rp.mFinishedProcesses =
        rb.mFinishedProcesses.map round_robin_priority.Process.toPlain := by
  have hpr : ∀ p ∈ l, 0 ≤ p.priority := fun p hp => (hwf p hp).1
  have hb : ∀ p ∈ l, 1 ≤ p.burstTime := fun p hp => (hwf p hp).2
  have h0 := round_robin_priority.rrp_agree_ctor l hnd hpr
  have hsteps := fun n => round_robin_priority.rrp_agree_steps n _ _ h0
  refine ⟨?_, ?_⟩
  · intro n
    obtain ⟨sb, h1, early, a1, a2, a3, -⟩ := hsteps n
    exact ⟨sb, h1, a1, a2, a3⟩
  · have hbp : ∀ p ∈ l.map round_robin_priority.Process.toPlain, 1 ≤ p.burstTime := by
      intro p hp
      obtain ⟨p0, hp0, rfl⟩ := List.mem_map.mp hp
      exact hb p0 hp0
    have hpot1 : tick.potential (priority_preemptive.abs
        (priority_preemptive.PriorityPreemptive.ctor
          (l.map round_robin_priority.Process.toPlain))) =
        (l.map (fun p => p.burstTime)).sum + (l.map (fun p => p.arrivalTime)).foldr max 0 := by
      rw [priority_preemptive.pp_potential_ctor, List.map_map, List.map_map]
      rfl
    have hpot2 := round_robin_priority.rrp_potential_ctor l
    obtain ⟨-, r1⟩ := priority_preemptive.pp_returns _ hbp
      ((l.map (fun p => p.burstTime)).sum +
        (l.map (fun p => p.arrivalTime)).foldr max 0).toNat (by rw [hpot1])
    obtain ⟨s2, q1, -, q3⟩ := round_robin_priority.rrp_returns l hpr hb
      ((l.map (fun p => p.burstTime)).sum +
        (l.map (fun p => p.arrivalTime)).foldr max 0).toNat (by rw [hpot2])
    obtain ⟨sb, h1, early, -, a2, a3, -⟩ := hsteps
      ((l.map (fun p => p.burstTime)).sum +
        (l.map (fun p => p.arrivalTime)).foldr max 0).toNat
    rw [q1] at h1
    simp only [Option.some.injEq] at h1
    subst h1
    refine ⟨_, _, fun fuel hfuel =>
      ⟨priority_preemptive.pp_scheduleProcess_mono _ _ _ _ hfuel r1,
        round_robin_priority.rrp_scheduleProcess_mono _ _ _ _ hfuel q3⟩, a2, ?_⟩
    show (priority_preemptive.steps _ _).mFinishedProcesses.map priority_preemptive.finalize =
      (s2.mFinishedProcesses.map round_robin_priority.finalize).map
        round_robin_priority.Process.toPlain
    rw [a3, List.map_map, List.map_map]
    rfl

/-- The statement of C34 on three processes with the priorities 2, 0 and 1: both
engines return the trace 1, 2, 2, 3, 3, 1, 1 and finish the processes 2, 3, 1 at
the clocks 3, 5 and 7. -/
theorem priority_engines_same_schedule_witness :
    ([round_robin_priority.Process.init4 1 0 2 3, round_robin_priority.Process.init4 2 1 0 2,
      round_robin_priority.Process.init4 3 1 1 2].map (fun p => p.priority)).Nodup ∧
    (∀ p ∈ [round_robin_priority.Process.init4 1 0 2 3,
        round_robin_priority.Process.init4 2 1 0 2,
        round_robin_priority.Process.init4 3 1 1 2], 0 ≤ p.priority ∧ 1 ≤ p.burstTime) ∧
    (∃ rp rb,
      priority_preemptive.PriorityPreemptive.scheduleProcess 8
        (priority_preemptive.PriorityPreemptive.ctor
          [priority_preemptive.Process.init4 1 0 2 3, priority_preemptive.Process.init4 2 1 0 2,
            priority_preemptive.Process.init4 3 1 1 2]) = some rp ∧
      round_robin_priority.PriorityPreemptive.scheduleProcess 8
        (round_robin_priority.PriorityPreemptive.ctor
          [round_robin_priority.Process.init4 1 0 2 3,
            round_robin_priority.Process.init4 2 1 0 2,
            round_robin_priority.Process.init4 3 1 1 2]) = some rb ∧
      rp.mGantChart = rb.mGantChart ∧
      rp.mFinishedProcesses =
        rb.mFinishedProcesses.map round_robin_priority.Process.toPlain) ∧
    (round_robin_priority.PriorityPreemptive.scheduleProcess 8
      (round_robin_priority.PriorityPreemptive.ctor
        [round_robin_priority.Process.init4 1 0 2 3,
          round_robin_priority.Process.init4 2 1 0 2,
          round_robin_priority.Process.init4 3 1 1 2])).map
      (fun r => (r.mGantChart.map Prod.fst,
        r.mFinishedProcesses.map (fun p => (p.pid, p.finishingTime)))) =
      some ([1, 2, 2, 3, 3, 1, 1], [(2, 3), (3, 5), (1, 7)]) :=
  ⟨by decide, by decide,
    (priority_engines_same_schedule
      [round_robin_priority.Process.init4 1 0 2 3, round_robin_priority.Process.init4 2 1 0 2,
        round_robin_priority.Process.init4 3 1 1 2] (by decide) (by decide)).2.imp
      (fun _ h => h.imp (fun _ h2 => ⟨(h2.1 8 (by decide)).1, (h2.1 8 (by decide)).2,
        h2.2.1, h2.2.2⟩)),
    by decide⟩

/-! ## SRTF: the loop of the source and the guarded loop -/

namespace srtf

/-- When the admission loop of the source ends, the guarded loop gives the same
heap, queue and count. -/
theorem srtf_drain_guarded (t : Int) : ∀ (queue running : List Process)
    (r : List Process × List Process × Nat),
    drain t running queue = some r → guarded.drain t running queue = r := by
  intro queue
  induction queue with
  | nil =>
    intro running r h
    unfold drain at h
    split at h
    · cases h
    · simp only [Option.some.injEq] at h
      rw [← h]
      rfl
  | cons p rest ih =>
    intro running r h
    unfold drain at h
    unfold guarded.drain
    by_cases hp : t = p.arrivalTime
    · rw [if_pos hp] at h ⊢
      exact ih _ r h
    · rw [if_neg hp] at h ⊢
      simpa using h

/-- The admission loop of the source ends when the clock is not 0 or a process
stays in the queue. -/
theorem srtf_drain_some (t : Int) : ∀ (queue running : List Process),
    (t ≠ 0 ∨ (guarded.drain t running queue).2.1 ≠ []) →
    drain t running queue = some (guarded.drain t running queue) := by
  intro queue
  induction queue with
  | nil =>
    intro running h
    have ht : t ≠ 0 := by
      rcases h with h | h
      · exact h
      · exact absurd rfl h
    unfold drain guarded.drain
    rw [if_neg (by simpa [frontOfEmpty, Process.init4] using ht)]
  | cons p rest ih =>
    intro running h
    unfold drain
    unfold guarded.drain at h ⊢
    by_cases hp : t = p.arrivalTime
    · rw [if_pos hp] at h
      rw [if_pos hp, if_pos hp]
      exact ih _ h
    · rw [if_neg hp, if_neg hp]

/-- The admission loop of the source does not end when it empties the queue at
clock 0: the read of the empty queue yields the arrival time 0. -/
theorem srtf_drain_none (t : Int) (ht : t = 0) : ∀ (queue running : List Process),
    (guarded.drain t running queue).2.1 = [] → drain t running queue = none := by
  intro queue
  induction queue with
  | nil =>
    intro running _
    unfold drain
    rw [if_pos (by rw [ht]; rfl)]
  | cons p rest ih =>
    intro running h
    unfold drain
    unfold guarded.drain at h
    by_cases hp : t = p.arrivalTime
    · rw [if_pos hp] at h ⊢
      exact ih _ h
    · rw [if_neg hp] at h
      cases h

theorem srtf_drainArrived_guarded (s d : SRTF) (h : drainArrived s = some d) :
    guarded.drainArrived s = d := by
  unfold drainArrived at h
  cases hd : drain s.mTimeCounter s.mRunningProcessList s.mProcessList with
  | none => rw [hd] at h; cases h
  | some r =>
    rw [hd, Option.map_some', Option.some.injEq] at h
    have := srtf_drain_guarded _ _ _ r hd
    unfold guarded.drainArrived
    rw [this]
    exact h

theorem srtf_drainArrived_some (s : SRTF)
    (h : s.mTimeCounter ≠ 0 ∨ (guarded.drainArrived s).mProcessList ≠ []) :
    drainArrived s = some (guarded.drainArrived s) := by
  unfold drainArrived
  rw [srtf_drain_some s.mTimeCounter s.mProcessList s.mRunningProcessList h]
  rfl

theorem srtf_drainArrived_none (s : SRTF) (ht : s.mTimeCounter = 0)
    (h : (guarded.drainArrived s).mProcessList = []) : drainArrived s = none := by
  unfold drainArrived
  rw [srtf_drain_none s.mTimeCounter ht s.mProcessList s.mRunningProcessList h]
  rfl

theorem srtf_loopBody_guarded (s s2 : SRTF) (h : loopBody s = some s2) :
    guarded.loopBody s = s2 := by
  unfold loopBody at h
  cases hd : drainArrived s with
  | none => rw [hd] at h; cases h
  | some d =>
    rw [hd, Option.map_some', Option.some.injEq] at h
    unfold guarded.loopBody
    rw [srtf_drainArrived_guarded s d hd]
    exact h

/-- Every state that the loop of the source reaches is the state that the guarded
loop reaches in the same number of iterations. -/
theorem srtf_steps_guarded : ∀ (n : Nat) (s s2 : SRTF),
    steps n s = some s2 → guarded.steps n s = s2 := by
  intro n
  induction n with
  | zero =>
    intro s s2 h
    simpa [steps, guarded.steps] using h
  | succ n ih =>
    intro s s2 h
    unfold steps at h
    unfold guarded.steps
    by_cases hc : loopCond s = true
    · rw [if_pos hc] at h ⊢
      cases hb : loopBody s with
      | none => rw [hb] at h; cases h
      | some s1 =>
        rw [hb, Option.some_bind] at h
        rw [srtf_loopBody_guarded s s1 hb]
        exact ih s1 s2 h
    · rw [if_neg hc] at h ⊢
      simpa using h

/-- What `SRTF::scheduleProcess` returns, the routine with the guarded loop
returns too. -/
theorem srtf_scheduleProcess_guarded (fuel : Nat) (s r : SRTF)
    (h : SRTF.scheduleProcess fuel s = some r) : guarded.scheduleProcess fuel s = some r := by
  unfold SRTF.scheduleProcess at h
  cases hs : steps fuel s with
  | none => rw [hs] at h; cases h
  | some s2 =>
    rw [hs, Option.some_bind] at h
    unfold guarded.scheduleProcess
    rw [srtf_steps_guarded fuel s s2 hs]
    exact h

/-- From a state with the clock at 1 or more, and from a state with the clock at
0 whose admission loop leaves a process in the queue or whose loop has ended, the
loop of the source reaches a state in every number of iterations. -/
theorem srtf_steps_some : ∀ (n : Nat) (s : SRTF),
    (1 ≤ s.mTimeCounter ∨
      (s.mTimeCounter = 0 ∧
        ((guarded.drainArrived s).mProcessList ≠ [] ∨ loopCond s = false))) →
    steps n s = some (guarded.steps n s) := by
  intro n
  induction n with
  | zero =>
    intro s _
    rfl
  | succ n ih =>
    intro s h
    unfold steps guarded.steps
    by_cases hc : loopCond s = true
    · rw [if_pos hc, if_pos hc]
      have hd : drainArrived s = some (guarded.drainArrived s) := by
        apply srtf_drainArrived_some
        rcases h with h | ⟨-, h | h⟩
        · left
          omega
        · right
          exact h
        · rw [hc] at h
          cases h
      have hb : loopBody s = some (guarded.loopBody s) := by
        unfold loopBody guarded.loopBody
        rw [hd]
        rfl
      rw [hb, Option.some_bind]
      apply ih
      left
      have := srtf_loopBody_clock s
      rcases h with h | ⟨h, -⟩ <;> omega
    · rw [if_neg hc, if_neg hc]

theorem srtf_scheduleProcess_some (fuel : Nat) (s : SRTF)
    (h : 1 ≤ s.mTimeCounter ∨
      (s.mTimeCounter = 0 ∧
        ((guarded.drainArrived s).mProcessList ≠ [] ∨ loopCond s = false))) :
    SRTF.scheduleProcess fuel s = guarded.scheduleProcess fuel s := by
  unfold SRTF.scheduleProcess guarded.scheduleProcess
  rw [srtf_steps_some fuel s h, Option.some_bind]

/-- The states after `n + k` iterations are the states `k` iterations after the
state after `n` iterations. -/
theorem srtf_steps_bind : ∀ (n k : Nat) (s : SRTF),
    steps (n + k) s = (steps n s).bind (steps k) := by
  intro n
  induction n with
  | zero =>
    intro k s
    rw [Nat.zero_add]
    rfl
  | succ n ih =>
    intro k s
    have e : ∀ (m : Nat) (x : SRTF), steps (m + 1) x =
        if loopCond x then (loopBody x).bind (steps m) else some x := fun _ _ => rfl
    rw [Nat.succ_add, e (n + k) s, e n s]
    by_cases hc : loopCond s = true
    · rw [if_pos hc, if_pos hc]
      cases hb : loopBody s with
      | none => rfl
      | some s1 =>
        rw [Option.some_bind, Option.some_bind]
        exact ih k s1
    · rw [if_neg hc, if_neg hc, Option.some_bind]
      have hc2 : loopCond s = false := by simpa using hc
      cases k with
      | zero => rfl
      | succ k => simp [steps, hc2]

/-- A state reached in `n` iterations is reached through a state after `m ≤ n`
iterations. -/
theorem srtf_steps_split (n m : Nat) (s s2 : SRTF) (hm : m ≤ n)
    (h : steps n s = some s2) :
    ∃ s1, steps m s = some s1 ∧ steps (n - m) s1 = some s2 := by
  obtain ⟨k, rfl⟩ := Nat.exists_eq_add_of_le hm
  rw [srtf_steps_bind m k s] at h
  cases h1 : steps m s with
  | none => rw [h1] at h; cases h
  | some s1 =>
    rw [h1, Option.some_bind] at h
    exact ⟨s1, rfl, by rw [Nat.add_sub_cancel_left]; exact h⟩

/-- Once the loop of the source has ended, more iterations change nothing. -/
theorem srtf_steps_stable (n : Nat) (s s2 : SRTF) (h : steps n s = some s2)
    (hc : loopCond s2 = false) (k : Nat) : steps (n + k) s = some s2 := by
  rw [srtf_steps_bind n k s, h, Option.some_bind]
  cases k with
  | zero => rfl
  | succ k => simp [steps, hc]

/-- Once `SRTF::scheduleProcess` returns within `n` iterations, any larger bound
gives the same result. -/
theorem srtf_returns_mono (n m : Nat) (s r : SRTF) (hnm : n ≤ m)
    (h : SRTF.scheduleProcess n s = some r) : SRTF.scheduleProcess m s = some r := by
  obtain ⟨k, rfl⟩ := Nat.exists_eq_add_of_le hnm
  unfold SRTF.scheduleProcess at h ⊢
  cases hs : steps n s with
  | none => rw [hs] at h; cases h
  | some s2 =>
    rw [hs, Option.some_bind] at h
    by_cases hc : loopCond s2 = true
    · simp [hc] at h
    · have hc2 : loopCond s2 = false := by simpa using hc
      rw [srtf_steps_stable n s s2 hs hc2 k, Option.some_bind]
      exact h

/-- The state in front of the dispatch of iteration `m`, when the loop of the
source gets beyond that iteration. -/
theorem srtf_atDispatch_some (processes : List Process) (n m : Nat) (s : SRTF)
    (h : steps n (SRTF.ctor processes) = some s) (hm : m < n)
    (hc : loopCond (guarded.steps m (SRTF.ctor processes)) = true) :
    atDispatch processes m = some (guarded.atDispatch processes m) := by
  obtain ⟨s1, h1, -⟩ := srtf_steps_split n m _ s (by omega) h
  obtain ⟨s1b, h1b, -⟩ := srtf_steps_split n (m + 1) _ s (by omega) h
  have e1 := srtf_steps_guarded m _ s1 h1
  rw [srtf_steps_bind m 1, h1, Option.some_bind] at h1b
  rw [e1] at hc
  unfold steps at h1b
  rw [if_pos hc] at h1b
  unfold atDispatch guarded.atDispatch
  rw [h1, Option.some_bind, e1]
  cases hd : drainArrived s1 with
  | none =>
    unfold loopBody at h1b
    rw [hd] at h1b
    cases h1b
  | some d => rw [srtf_drainArrived_guarded s1 d hd]

/-- The first admission loop leaves a process in the queue when some process of the
input has an arrival time other than 0. -/
theorem srtf_ctor_rest (processes : List Process)
    (h : ∃ p ∈ processes, p.arrivalTime ≠ 0) :
    (guarded.drainArrived (SRTF.ctor processes)).mProcessList ≠ [] := by
  intro hn
  obtain ⟨moved, m1, -, m3, -, -⟩ := srtf_drain_spec 0 (sortProcesses processes) []
    (stdlib.isHeap_nil key)
  have hn2 : (guarded.drain 0 [] (sortProcesses processes)).2.1 = [] := hn
  rw [hn2, List.append_nil] at m1
  obtain ⟨p, hp, hp0⟩ := h
  have hmem : p ∈ moved := by
    rw [← m1]
    exact (srtf_sort_perm processes).mem_iff.mpr hp
  exact hp0 (m3 p hmem)

/-- On the empty list and on a list with an arrival time other than 0 the loop of
the source reaches a state in every number of iterations: the state of the guarded
loop. -/
theorem srtf_ctor_steps_some (processes : List Process)
    (h : processes = [] ∨ ∃ p ∈ processes, p.arrivalTime ≠ 0) (n : Nat) :
    steps n (SRTF.ctor processes) = some (guarded.steps n (SRTF.ctor processes)) := by
  apply srtf_steps_some
  right
  refine ⟨rfl, ?_⟩
  rcases h with h | h
  · right
    rw [h]
    rfl
  · left
    exact srtf_ctor_rest processes h

theorem srtf_ctor_schedule_some (processes : List Process)
    (h : processes = [] ∨ ∃ p ∈ processes, p.arrivalTime ≠ 0) (fuel : Nat) :
    SRTF.scheduleProcess fuel (SRTF.ctor processes) =
      guarded.scheduleProcess fuel (SRTF.ctor processes) := by
  unfold SRTF.scheduleProcess guarded.scheduleProcess
  rw [srtf_ctor_steps_some processes h fuel, Option.some_bind]

/-- On a list that is not empty and has the arrival time 0 throughout, the first
admission loop empties the queue at clock 0 and pops the empty queue: no iteration
of the loop of the source ends, and `SRTF::scheduleProcess` does not return. -/
theorem srtf_ctor_none (processes : List Process) (hne : processes ≠ [])
    (h0 : ∀ p ∈ processes, p.arrivalTime = 0) :
    loopCond (SRTF.ctor processes) = true ∧
    drainArrived (SRTF.ctor processes) = none ∧
    (∀ n, steps (n + 1) (SRTF.ctor processes) = none) ∧
    ∀ fuel, SRTF.scheduleProcess fuel (SRTF.ctor processes) = none := by
  have hc : loopCond (SRTF.ctor processes) = true := by
    have hq : sortProcesses processes ≠ [] := by
      intro hq
      have hp := srtf_sort_perm processes
      rw [hq] at hp
      exact hne (List.Perm.eq_nil hp.symm)
    unfold loopCond SRTF.ctor
    cases hl : sortProcesses processes with
    | nil => exact absurd hl hq
    | cons x xs => rfl
  have hd : drainArrived (SRTF.ctor processes) = none := by
    apply srtf_drainArrived_none _ rfl
    obtain ⟨moved, m1, -, -, m4, -⟩ := srtf_drain_spec 0 (sortProcesses processes) []
      (stdlib.isHeap_nil key)
    show (guarded.drain 0 [] (sortProcesses processes)).2.1 = []
    cases hr : (guarded.drain 0 [] (sortProcesses processes)).2.1 with
    | nil => rfl
    | cons q rest =>
      exfalso
      rw [hr] at m1 m4
      have hq : q ∈ sortProcesses processes := by
        rw [m1]
        simp
      exact m4 q rfl (h0 q ((srtf_sort_perm processes).mem_iff.mp hq))
  have hs : ∀ n, steps (n + 1) (SRTF.ctor processes) = none := by
    intro n
    unfold steps
    rw [if_pos hc]
    unfold loopBody
    rw [hd]
    rfl
  refine ⟨hc, hd, hs, ?_⟩
  intro fuel
  unfold SRTF.scheduleProcess
  cases fuel with
  | zero =>
    simp [steps, hc]
  | succ n =>
    rw [hs n]
    rfl

end srtf

/-! ## SRTF: the scenario, the dispatch rule and the tie -/

/-- C3: SRTF on the processes (0, arrival 0, burst 4) and (1, arrival 1, burst 2)
ends (within any bound of at least 6 iterations) with the trace
(0,0),(1,1),(1,2),(0,3),(0,4),(0,5): process 1 takes the CPU from process 0 at
time 1, process 1 finishes at time 3 and process 0 at time 6. -/
theorem srtf_scenario_trace (fuel : Nat) (h : 6 ≤ fuel) :
    ((srtf.SRTF.ctor
        [srtf.Process.init4 0 0 4 4, srtf.Process.init4 1 1 2 2]).scheduleProcess fuel).map
      (fun r => (r.mGantChart, r.mFinishedProcesses.map (fun p => (p.pid, p.finishingTime))))
      = some ([(0, 0), (1, 1), (1, 2), (0, 3), (0, 4), (0, 5)], [(1, 3), (0, 6)]) := by
  have h6 : ∃ r, (srtf.SRTF.ctor
        [srtf.Process.init4 0 0 4 4, srtf.Process.init4 1 1 2 2]).scheduleProcess 6 = some r ∧
      (r.mGantChart, r.mFinishedProcesses.map (fun p => (p.pid, p.finishingTime)))
        = ([(0, 0), (1, 1), (1, 2), (0, 3), (0, 4), (0, 5)], [(1, 3), (0, 6)]) := by
    decide
  obtain ⟨r, hr, hv⟩ := h6
  rw [srtf.srtf_returns_mono 6 fuel _ r h hr]
  simp [hv]

/-- The statement of C3 at the bound 6. -/
theorem srtf_scenario_trace_witness :
    6 ≤ 6 ∧
    ((srtf.SRTF.ctor
        [srtf.Process.init4 0 0 4 4, srtf.Process.init4 1 1 2 2]).scheduleProcess 6).map
      (fun r => (r.mGantChart, r.mFinishedProcesses.map (fun p => (p.pid, p.finishingTime))))
      = some ([(0, 0), (1, 1), (1, 2), (0, 3), (0, 4), (0, 5)], [(1, 3), (0, 6)]) :=
  ⟨le_refl 6, srtf_scenario_trace 6 (le_refl 6)⟩

/-- C8: for every process list without a negative arrival time, in every state `s`
that the loop of `SRTF::scheduleProcess` reaches after any number `n` of
iterations, every event (p, t) of the trace was appended by an earlier iteration
`m` that dispatched the top `cur` of the running heap at clock t, p being the id of
`cur`; `d` is the state of that iteration between the admission loop and the
dispatch.  The remaining time of `cur` just before that tick is less than or equal
to the remaining time of every process that was not finished (running or still
queued) and had arrivalTime ≤ t.  Finished, running and queued processes together
are the input. -/
theorem srtf_dispatch_min_remaining (processes : List srtf.Process)
    (hwf : ∀ p ∈ processes, 0 ≤ p.arrivalTime) (n : Nat) (s : srtf.SRTF)
    (hs : srtf.steps n (srtf.SRTF.ctor processes) = some s) (e : Int × Int)
    (he : e ∈ s.mGantChart) :
    ∃ m d cur, m < n ∧ srtf.atDispatch processes m = some d ∧
      stdlib.pqTop d.mRunningProcessList = some cur ∧
      e = (cur.pid, d.mTimeCounter) ∧
      (∀ q ∈ d.mRunningProcessList ++ d.mProcessList,
        q.arrivalTime ≤ d.mTimeCounter → cur.tempBurstTime ≤ q.tempBurstTime) ∧
      ((d.mFinishedProcesses ++ (d.mRunningProcessList ++ d.mProcessList)).map
        srtf.core).Perm (processes.map srtf.core) := by
  have hg := srtf.srtf_steps_guarded n _ s hs
  rw [← hg] at he
  obtain ⟨m, cur, hm, htop, h3, h4, h5⟩ := srtf_guarded_min_remaining processes hwf n e he
  have hne : (srtf.guarded.atDispatch processes m).mRunningProcessList ≠ [] := by
    intro hnil
    rw [hnil] at htop
    cases htop
  have hreach := srtf.srtf_reach_steps processes m _ (srtf.srtf_reach_ctor processes hwf)
  have hc := (srtf.srtf_reach_drainArrived processes _ hreach).2.2.2.2.2.2 hne
  exact ⟨m, _, cur, hm, srtf.srtf_atDispatch_some processes n m s hs hm hc, htop, h3, h4, h5⟩

/-- The statement of C8 on the processes (0, arrival 0, burst 4) and (1, arrival 1,
burst 2) for the event (1, 1), which is in the trace after 2 iterations. -/
theorem srtf_dispatch_min_remaining_witness :
    (∀ p ∈ [srtf.Process.init4 0 0 4 4, srtf.Process.init4 1 1 2 2], 0 ≤ p.arrivalTime) ∧
    (srtf.steps 2 (srtf.SRTF.ctor
      [srtf.Process.init4 0 0 4 4, srtf.Process.init4 1 1 2 2])).map
        (fun s => s.mGantChart) = some [(0, 0), (1, 1)] ∧
    ∃ m d cur, m < 2 ∧
      srtf.atDispatch [srtf.Process.init4 0 0 4 4, srtf.Process.init4 1 1 2 2] m = some d ∧
      stdlib.pqTop d.mRunningProcessList = some cur ∧
      ((1, 1) : Int × Int) = (cur.pid, d.mTimeCounter) :=
  ⟨by decide, by decide,
    (srtf_dispatch_min_remaining [srtf.Process.init4 0 0 4 4, srtf.Process.init4 1 1 2 2]
      (by decide) 2 _ rfl (1, 1) (by decide)).imp
      (fun _ h => h.imp (fun _ h2 => h2.imp (fun _ h3 => ⟨h3.1, h3.2.1, h3.2.2.1, h3.2.2.2.1⟩)))⟩

/-- C9 fails on the code: on the processes (0, arrival 0, burst 3), (1, 1, 2),
(2, 1, 1) the running heap at time 2 holds process 1 and process 0, both with the
minimal remaining time 2, with process 1 on top; `SRTF::scheduleProcess` dispatches
process 1 at time 2 and again at time 3, and process 0 only afterwards. -/
theorem srtf_tie_dispatches_higher_id :
    (srtf.atDispatch [srtf.Process.init4 0 0 3 3, srtf.Process.init4 1 1 2 2,
        srtf.Process.init4 2 1 1 1] 2).map (fun d => d.mTimeCounter) = some 2 ∧
    (srtf.atDispatch [srtf.Process.init4 0 0 3 3, srtf.Process.init4 1 1 2 2,
        srtf.Process.init4 2 1 1 1] 2).map (fun d => d.mRunningProcessList.map
      (fun p => (p.pid, p.tempBurstTime))) = some [(1, 2), (0, 2)] ∧
    (srtf.atDispatch [srtf.Process.init4 0 0 3 3, srtf.Process.init4 1 1 2 2,
        srtf.Process.init4 2 1 1 1] 2).map (fun d => (srtf.dispatch d).mGantChart) =
      some [(0, 0), (2, 1), (1, 2)] ∧
    ((srtf.SRTF.ctor [srtf.Process.init4 0 0 3 3, srtf.Process.init4 1 1 2 2,
        srtf.Process.init4 2 1 1 1]).scheduleProcess 6).map (fun r => r.mGantChart) =
      some [(0, 0), (2, 1), (1, 2), (1, 3), (0, 4), (0, 5)] :=
  ⟨by decide, by decide, by decide, by decide⟩

/-! ## The tick-based engines with the loop of `srtf.cpp` as it is written -/

/-- C15: for process lists with burstTime ≥ 1 (and tempBurstTime = burstTime where
the constructor does not set it, arrivalTime ≥ 0 for SRTF, priority ≥ 0 for the
bucketed engine): every finished process in the result of `scheduleProcess` of each
of the four tick-based engines has finishingTime - arrivalTime ≥ burstTime,
waitingTime ≥ 0 and turnAroundTime = waitingTime + burstTime, and all processes of
the input are in the finished list.  Round-Robin and the two priority engines
return for every iteration bound from `potential` (the sum of the burst times plus
the latest arrival time) on.  For SRTF the statement is about every result that
`scheduleProcess` returns, and it returns, for every such bound, when the list is
empty or holds an arrival time other than 0. -/
theorem tick_engines_waiting_nonneg
    (sp : List srtf.Process) (rp : List round_robin.Process)
    (pp : List priority_preemptive.Process) (bp : List round_robin_priority.Process)
    (hs : ∀ p ∈ sp, 0 ≤ p.arrivalTime ∧ p.tempBurstTime = p.burstTime ∧ 1 ≤ p.burstTime)
    (hr : ∀ p ∈ rp, p.tempBurstTime = p.burstTime ∧ 1 ≤ p.burstTime)
    (hp : ∀ p ∈ pp, 1 ≤ p.burstTime)
    (hb : ∀ p ∈ bp, 1 ≤ p.burstTime ∧ 0 ≤ p.priority)
    (fuel : Nat)
    (hfs : (tick.potential (srtf.abs (srtf.SRTF.ctor sp))).toNat ≤ fuel)
    (hfr : (tick.potential (round_robin.abs (round_robin.RoundRobin.ctor rp))).toNat ≤ fuel)
    (hfp : (tick.potential (priority_preemptive.abs
      (priority_preemptive.PriorityPreemptive.ctor pp))).toNat ≤ fuel)
    (hfb : (tick.potential (round_robin_priority.abs
      (round_robin_priority.PriorityPreemptive.ctor bp))).toNat ≤ fuel) :
    ((∀ r, srtf.SRTF.scheduleProcess fuel (srtf.SRTF.ctor sp) = some r →
        (r.mFinishedProcesses.map (fun p => (p.pid, p.arrivalTime, p.burstTime))).Perm
          (sp.map (fun p => (p.pid, p.arrivalTime, p.burstTime))) ∧
        ∀ p ∈ r.mFinishedProcesses, p.burstTime ≤ p.finishingTime - p.arrivalTime ∧
          0 ≤ p.waitingTime ∧ p.turnAroundTime = p.waitingTime + p.burstTime) ∧
      ((sp = [] ∨ ∃ p ∈ sp, p.arrivalTime ≠ 0) →
        ∃ r, srtf.SRTF.scheduleProcess fuel (srtf.SRTF.ctor sp) = some r)) ∧
    (∃ r, round_robin.RoundRobin.scheduleProcess fuel (round_robin.RoundRobin.ctor rp) =
        some r ∧
      (r.mFinishedProcesses.map (fun p => (p.pid, p.arrivalTime, p.burstTime))).Perm
        (rp.map (fun p => (p.pid, p.arrivalTime, p.burstTime))) ∧
      ∀ p ∈ r.mFinishedProcesses, p.burstTime ≤ p.finishingTime - p.arrivalTime ∧
        0 ≤ p.waitingTime ∧ p.turnAroundTime = p.waitingTime + p.burstTime) ∧
    (∃ r, priority_preemptive.PriorityPreemptive.scheduleProcess fuel
        (priority_preemptive.PriorityPreemptive.ctor pp) = some r ∧
      (r.mFinishedProcesses.map (fun p => (p.pid, p.arrivalTime, p.burstTime))).Perm
        (pp.map (fun p => (p.pid, p.arrivalTime, p.burstTime))) ∧
      ∀ p ∈ r.mFinishedProcesses, p.burstTime ≤ p.finishingTime - p.arrivalTime ∧
        0 ≤ p.waitingTime ∧ p.turnAroundTime = p.waitingTime + p.burstTime) ∧
    (∃ r, round_robin_priority.PriorityPreemptive.scheduleProcess fuel
        (round_robin_priority.PriorityPreemptive.ctor bp) = some r ∧
      (r.mFinishedProcesses.map (fun p => (p.pid, p.arrivalTime, p.burstTime))).Perm
        (bp.map (fun p => (p.pid, p.arrivalTime, p.burstTime))) ∧
      ∀ p ∈ r.mFinishedProcesses, p.burstTime ≤ p.finishingTime - p.arrivalTime ∧
        0 ≤ p.waitingTime ∧ p.turnAroundTime = p.waitingTime + p.burstTime) := by
  refine ⟨?_, ?_, ?_, ?_⟩
  · obtain ⟨r, h1, h2, h3, -⟩ := srtf.srtf_final sp (fun p hp' => (hs p hp').1)
      (fun p hp' => (hs p hp').2) fuel hfs
    refine ⟨?_, ?_⟩
    · intro r2 hr2
      have hg := srtf.srtf_scheduleProcess_guarded fuel _ r2 hr2
      rw [h1, Option.some.injEq] at hg
      subst hg
      refine ⟨h2, ?_⟩
      intro p hp'
      obtain ⟨-, g2, g3, g4⟩ := h3 p hp'
      exact ⟨by omega, by omega, by omega⟩
    · intro hsafe
      exact ⟨r, by rw [srtf.srtf_ctor_schedule_some sp hsafe fuel]; exact h1⟩
  · obtain ⟨r, h1, h2, h3, -⟩ := round_robin.rr_final rp hr fuel hfr
    refine ⟨r, h1, h2, ?_⟩
    intro p hp'
    obtain ⟨-, g2, g3, g4⟩ := h3 p hp'
    exact ⟨by omega, by omega, by omega⟩
  · obtain ⟨r, h1, h2, h3, -⟩ := priority_preemptive.pp_final pp hp fuel hfp
    refine ⟨r, h1, h2, ?_⟩
    intro p hp'
    obtain ⟨-, g2, g3, g4⟩ := h3 p hp'
    exact ⟨by omega, by omega, by omega⟩
  · obtain ⟨r, h1, h2, h3, -⟩ := round_robin_priority.rrp_final bp
      (fun p hp' => (hb p hp').2) (fun p hp' => (hb p hp').1) fuel hfb
    refine ⟨r, h1, h2, ?_⟩
    intro p hp'
    obtain ⟨-, g2, g3, g4⟩ := h3 p hp'
    exact ⟨by omega, by omega, by omega⟩

/-- The statement of C15 on the process lists of the four `main` functions, with
the iteration bound 72 (the burst times sum to 32 and the last arrival is at 40).
The list of `round_robin.cpp` is that of `srtf.cpp`. -/
theorem tick_engines_waiting_nonneg_witness :
    (∀ p ∈ [srtf.Process.init4 1 0 10 10, srtf.Process.init4 2 1 9 9,
        srtf.Process.init4 3 2 5 5, srtf.Process.init4 4 3 4 4,
        srtf.Process.init4 5 40 4 4],
      0 ≤ p.arrivalTime ∧ p.tempBurstTime = p.burstTime ∧ 1 ≤ p.burstTime) ∧
    (∀ p ∈ [round_robin.Process.init4 1 0 10 10, round_robin.Process.init4 2 1 9 9,
        round_robin.Process.init4 3 2 5 5, round_robin.Process.init4 4 3 4 4,
        round_robin.Process.init4 5 40 4 4],
      p.tempBurstTime = p.burstTime ∧ 1 ≤ p.burstTime) ∧
    (∀ p ∈ priority_preemptive.mainProcessList, 1 ≤ p.burstTime) ∧
    (∀ p ∈ round_robin_priority.mainProcessList, 1 ≤ p.burstTime ∧ 0 ≤ p.priority) ∧
    (∃ r, srtf.SRTF.scheduleProcess 72 (srtf.SRTF.ctor
        [srtf.Process.init4 1 0 10 10, srtf.Process.init4 2 1 9 9,
          srtf.Process.init4 3 2 5 5, srtf.Process.init4 4 3 4 4,
          srtf.Process.init4 5 40 4 4]) = some r ∧
      ∀ p ∈ r.mFinishedProcesses, p.burstTime ≤ p.finishingTime - p.arrivalTime ∧
        0 ≤ p.waitingTime ∧ p.turnAroundTime = p.waitingTime + p.burstTime) :=
  ⟨by decide, by decide, by decide, by decide,
    ((tick_engines_waiting_nonneg
      [srtf.Process.init4 1 0 10 10, srtf.Process.init4 2 1 9 9,
        srtf.Process.init4 3 2 5 5, srtf.Process.init4 4 3 4 4,
        srtf.Process.init4 5 40 4 4]
      [round_robin.Process.init4 1 0 10 10, round_robin.Process.init4 2 1 9 9,
        round_robin.Process.init4 3 2 5 5, round_robin.Process.init4 4 3 4 4,
        round_robin.Process.init4 5 40 4 4]
      priority_preemptive.mainProcessList round_robin_priority.mainProcessList
      (by decide) (by decide) (by decide) (by decide) 72
      (by decide) (by decide) (by decide) (by decide)).1.2
      (Or.inr ⟨srtf.Process.init4 5 40 4 4, by decide, by decide⟩)).imp
      (fun r h => ⟨h, ((tick_engines_waiting_nonneg
      [srtf.Process.init4 1 0 10 10, srtf.Process.init4 2 1 9 9,
        srtf.Process.init4 3 2 5 5, srtf.Process.init4 4 3 4 4,
        srtf.Process.init4 5 40 4 4]
      [round_robin.Process.init4 1 0 10 10, round_robin.Process.init4 2 1 9 9,
        round_robin.Process.init4 3 2 5 5, round_robin.Process.init4 4 3 4 4,
        round_robin.Process.init4 5 40 4 4]
      priority_preemptive.mainProcessList round_robin_priority.mainProcessList
      (by decide) (by decide) (by decide) (by decide) 72
      (by decide) (by decide) (by decide) (by decide)).1.1 r h).2⟩)⟩

/-- C17 fails on the code when every process arrives at time 0.  On the single
process {1, 0, 1, 1}, which has arrivalTime ≥ 0 and tempBurstTime = burstTime ≥ 1,
the first admission loop empties the queue at clock 0, reads the front of the
empty queue, takes what it reads for a process arriving at clock 0 and pops the
empty queue: `SRTF::scheduleProcess` returns for no iteration bound, so the
process gets no trace event and no finishing time.  For every process list with
arrivalTime ≥ 0, tempBurstTime = burstTime ≥ 1 and distinct ids, whenever
`SRTF::scheduleProcess` returns, all processes of the input are in its finished
list, the trace holds exactly burstTime events with the id of each process, and the
finishing time of each process is one more than the timestamp of the last event
with its id (there is an event at finishingTime - 1 and none later); and it returns
for every iteration bound from `potential` on when some arrival time is not 0.  On
the list of `main` the five processes get 10, 9, 5, 4 and 4 events. -/
theorem srtf_events_equal_burst :
    (∀ p ∈ [srtf.Process.init4 1 0 1 1],
      0 ≤ p.arrivalTime ∧ p.tempBurstTime = p.burstTime ∧ 1 ≤ p.burstTime) ∧
    srtf.drainArrived (srtf.SRTF.ctor [srtf.Process.init4 1 0 1 1]) = none ∧
    (∀ fuel, srtf.SRTF.scheduleProcess fuel
      (srtf.SRTF.ctor [srtf.Process.init4 1 0 1 1]) = none) ∧
    (∀ processes : List srtf.Process,
      (∀ p ∈ processes,
        0 ≤ p.arrivalTime ∧ p.tempBurstTime = p.burstTime ∧ 1 ≤ p.burstTime) →
      (processes.map (fun p => p.pid)).Nodup →
      (∀ fuel r, srtf.SRTF.scheduleProcess fuel (srtf.SRTF.ctor processes) = some r →
        (r.mFinishedProcesses.map (fun p => (p.pid, p.arrivalTime, p.burstTime))).Perm
          (processes.map (fun p => (p.pid, p.arrivalTime, p.burstTime))) ∧
        (∀ p ∈ processes, ((r.mGantChart.map Prod.fst).count p.pid : Int) = p.burstTime) ∧
        (∀ p ∈ r.mFinishedProcesses, (p.pid, p.finishingTime - 1) ∈ r.mGantChart ∧
          ∀ e ∈ r.mGantChart, e.1 = p.pid → e.2 < p.finishingTime)) ∧
      ((∃ p ∈ processes, p.arrivalTime ≠ 0) → ∀ fuel,
        (tick.potential (srtf.abs (srtf.SRTF.ctor processes))).toNat ≤ fuel →
        ∃ r, srtf.SRTF.scheduleProcess fuel (srtf.SRTF.ctor processes) = some r)) ∧
    (srtf.SRTF.scheduleProcess 72 (srtf.SRTF.ctor
        [srtf.Process.init4 1 0 10 10, srtf.Process.init4 2 1 9 9,
        srtf.Process.init4 3 2 5 5, srtf.Process.init4 4 3 4 4,
        srtf.Process.init4 5 40 4 4])).map
      (fun r => [1, 2, 3, 4, 5].map (fun i => (r.mGantChart.map Prod.fst).count i)) =
      some [10, 9, 5, 4, 4] := by
  refine ⟨by decide, by decide, ?_, ?_, by decide⟩
  · exact (srtf.srtf_ctor_none [srtf.Process.init4 1 0 1 1] (by decide) (by decide)).2.2.2
  · intro processes hwf hid
    have harr : ∀ p ∈ processes, 0 ≤ p.arrivalTime := fun p h => (hwf p h).1
    have hw : ∀ p ∈ processes, p.tempBurstTime = p.burstTime ∧ 1 ≤ p.burstTime :=
      fun p h => (hwf p h).2
    refine ⟨?_, ?_⟩
    · intro fuel r hr
      have hg := srtf.srtf_scheduleProcess_guarded fuel _ r hr
      obtain ⟨r2, h1, h2, -, h4⟩ := srtf.srtf_final processes harr hw
        (max fuel (tick.potential (srtf.abs (srtf.SRTF.ctor processes))).toNat)
        (le_max_right _ _)
      have hm := srtf.srtf_scheduleProcess_mono fuel
        (max fuel (tick.potential (srtf.abs (srtf.SRTF.ctor processes))).toNat) _ r
        (le_max_left _ _) hg
      rw [h1, Option.some.injEq] at hm
      subst hm
      exact ⟨h2, (h4 hid).1, (h4 hid).2⟩
    · intro hne fuel hfuel
      obtain ⟨r, h1, -⟩ := srtf.srtf_final processes harr hw fuel hfuel
      exact ⟨r, by rw [srtf.srtf_ctor_schedule_some processes (Or.inr hne) fuel]; exact h1⟩

/-- C20 fails on the code for SRTF and Round-Robin.  The constructors of the plain
and of the bucketed priority engine set tempBurstTime to burstTime on every process
they queue, whatever the input holds.  The constructors of SRTF and Round-Robin
queue the sorted input records unchanged: on the process (id 0, arrival 0, burst 3)
given with tempBurstTime 1 the queue holds the remaining time 1, and the run gives
the process one trace event and the finishing time 1 instead of three events and
the finishing time 3.  The run of Round-Robin is on that process alone, the run of
SRTF on that process followed by (id 1, arrival 1, burst 1). -/
theorem constructors_remaining_time :
    (∀ (l : List priority_preemptive.Process),
      ∀ q ∈ (priority_preemptive.PriorityPreemptive.ctor l).mProcessList,
        q.tempBurstTime = q.burstTime) ∧
    (∀ (l : List round_robin_priority.Process),
      ∀ q ∈ (round_robin_priority.PriorityPreemptive.ctor l).mProcessList,
        q.tempBurstTime = q.burstTime) ∧
    (∀ (l : List srtf.Process), (srtf.SRTF.ctor l).mProcessList.Perm l) ∧
    (∀ (l : List round_robin.Process),
      (round_robin.RoundRobin.ctor l).mProcessList.Perm l) ∧
    (srtf.SRTF.ctor [srtf.Process.init4 0 0 3 1]).mProcessList.map
      (fun p => (p.burstTime, p.tempBurstTime)) = [(3, 1)] ∧
    (srtf.SRTF.scheduleProcess 2 (srtf.SRTF.ctor
        [srtf.Process.init4 0 0 3 1, srtf.Process.init4 1 1 1 1])).map
      (fun r => (r.mGantChart,
        r.mFinishedProcesses.map (fun p => (p.pid, p.burstTime, p.finishingTime)))) =
      some ([(0, 0), (1, 1)], [(0, 3, 1), (1, 1, 2)]) ∧
    (round_robin.RoundRobin.ctor [round_robin.Process.init4 0 0 3 1]).mProcessList.map
      (fun p => (p.burstTime, p.tempBurstTime)) = [(3, 1)] ∧
    (round_robin.RoundRobin.scheduleProcess 1
        (round_robin.RoundRobin.ctor [round_robin.Process.init4 0 0 3 1])).map
      (fun r => (r.mGantChart,
        r.mFinishedProcesses.map (fun p => (p.pid, p.burstTime, p.finishingTime)))) =
      some ([(0, 0)], [(0, 3, 1)]) := by
  refine ⟨?_, ?_, srtf.srtf_sort_perm, round_robin.rr_sort_perm, by decide, by decide,
    by decide, by decide⟩
  · intro l q hq
    obtain ⟨p, -, rfl⟩ := priority_preemptive.pp_ctor_mem l q hq
    rfl
  · intro l q hq
    obtain ⟨p, -, rfl⟩ := round_robin_priority.rrp_ctor_mem l q hq
    rfl

/-- On the empty list the loop of `SRTF::scheduleProcess` runs no iteration. -/
theorem srtf_empty_run (fuel : Nat) :
    srtf.steps fuel (srtf.SRTF.ctor []) = some (srtf.SRTF.ctor []) ∧
    srtf.SRTF.scheduleProcess fuel (srtf.SRTF.ctor []) =
      some (srtf.SRTF.mk [] [] [] [] 0 1 0) := by
  have h : srtf.steps fuel (srtf.SRTF.ctor []) = some (srtf.SRTF.ctor []) := by
    cases fuel with
    | zero => rfl
    | succ n => rfl
  refine ⟨h, ?_⟩
  unfold srtf.SRTF.scheduleProcess
  rw [h]
  decide

/-- C23: on the empty process list the loop condition of every engine is false in
the state that the constructor builds, so no iteration of the loop runs (for every
iteration bound the state after the loop is the state before it, and SRTF never
reads the front of its queue); `FCFS::process` does no iteration of its `for`
loop and leaves the timer at 0; every scheduling routine returns with an empty
finished list and an empty trace. -/
theorem empty_input_returns_empty :
    ((fcfs.FCFS.ctor []).process = fcfs.FCFS.mk 0 []) ∧
    (sjf.loopCond (sjf.SJF.ctor []) = false ∧
      (sjf.SJF.ctor []).scheduleProcess = sjf.SJF.mk 0 [] [] []) ∧
    (srtf.loopCond (srtf.SRTF.ctor []) = false ∧
      ∀ fuel, srtf.steps fuel (srtf.SRTF.ctor []) = some (srtf.SRTF.ctor []) ∧
        srtf.SRTF.scheduleProcess fuel (srtf.SRTF.ctor []) =
          some (srtf.SRTF.mk [] [] [] [] 0 1 0)) ∧
    (round_robin.loopCond (round_robin.RoundRobin.ctor []) = false ∧
      ∀ fuel, round_robin.steps fuel (round_robin.RoundRobin.ctor []) =
          round_robin.RoundRobin.ctor [] ∧
        round_robin.RoundRobin.scheduleProcess fuel (round_robin.RoundRobin.ctor []) =
          some (round_robin.RoundRobin.mk [] [] [] [] 0 1)) ∧
    (priority_preemptive.loopCond (priority_preemptive.PriorityPreemptive.ctor []) = false ∧
      ∀ fuel, priority_preemptive.steps fuel (priority_preemptive.PriorityPreemptive.ctor []) =
          priority_preemptive.PriorityPreemptive.ctor [] ∧
        priority_preemptive.PriorityPreemptive.scheduleProcess fuel
            (priority_preemptive.PriorityPreemptive.ctor []) =
          some (priority_preemptive.PriorityPreemptive.mk [] [] [] [] 0 1)) ∧
    (round_robin_priority.loopCond (round_robin_priority.PriorityPreemptive.ctor []) = false ∧
      ∀ fuel, round_robin_priority.steps fuel
            (round_robin_priority.PriorityPreemptive.ctor []) =
          some (round_robin_priority.PriorityPreemptive.ctor []) ∧
        round_robin_priority.PriorityPreemptive.scheduleProcess fuel
            (round_robin_priority.PriorityPreemptive.ctor []) =
          some (round_robin_priority.PriorityPreemptive.mk []
            (round_robin_priority.RunningProcess.mk [] 0) [] [] 0 1)) := by
  exact ⟨by decide, ⟨by decide, by decide⟩, ⟨by decide, srtf_empty_run⟩,
    ⟨by decide, rr_empty_run⟩, ⟨by decide, pp_empty_run⟩, ⟨by decide, rrp_empty_run⟩⟩

/-- C24 as amended: no print routine tests the size of the list before it divides.
On the empty process list every engine's print routine divides the two sums, both
0, by the size 0; as the division is done in `double` it does not trap, and both
averages are NaN.  For FCFS on a list that is not empty both averages are the
rational quotients of the sums by the number of processes. -/
theorem print_averages_unguarded :
    (fcfs.FCFS.ctor []).printAverages =
      (stdlib.DoubleValue.nan, stdlib.DoubleValue.nan) ∧
    (sjf.SJF.ctor []).printAverages =
      (stdlib.DoubleValue.nan, stdlib.DoubleValue.nan) ∧
    (∀ fuel, srtf.SRTF.printAverages fuel (srtf.SRTF.ctor []) =
      some (stdlib.DoubleValue.nan, stdlib.DoubleValue.nan)) ∧
    (∀ fuel, round_robin.RoundRobin.printAverages fuel (round_robin.RoundRobin.ctor []) =
      some (stdlib.DoubleValue.nan, stdlib.DoubleValue.nan)) ∧
    (∀ fuel, priority_preemptive.PriorityPreemptive.printAverages fuel
        (priority_preemptive.PriorityPreemptive.ctor []) =
      some (stdlib.DoubleValue.nan, stdlib.DoubleValue.nan)) ∧
    (∀ fuel, round_robin_priority.PriorityPreemptive.printAverages fuel
        (round_robin_priority.PriorityPreemptive.ctor []) =
      some (stdlib.DoubleValue.nan, stdlib.DoubleValue.nan)) ∧
    (∀ l : List fcfs.Process, l ≠ [] →
      (fcfs.FCFS.ctor l).printAverages =
        (stdlib.DoubleValue.finite
            (((fcfs.FCFS.ctor l).printSums.1 : ℚ) / (l.length : ℚ)),
          stdlib.DoubleValue.finite
            (((fcfs.FCFS.ctor l).printSums.2 : ℚ) / (l.length : ℚ))) ∧
      (fcfs.FCFS.ctor l).printAverages.1 =
        stdlib.DoubleValue.finite (fcfs.FCFS.ctor l).averageWaitingTime) := by
  refine ⟨by decide, by decide, ?_, ?_, ?_, ?_, ?_⟩
  · intro fuel
    unfold srtf.SRTF.printAverages
    rw [(srtf_empty_run fuel).2]
    decide
  · intro fuel
    unfold round_robin.RoundRobin.printAverages
    rw [(rr_empty_run fuel).2]
    decide
  · intro fuel
    unfold priority_preemptive.PriorityPreemptive.printAverages
    rw [(pp_empty_run fuel).2]
    decide
  · intro fuel
    unfold round_robin_priority.PriorityPreemptive.printAverages
    rw [(rrp_empty_run fuel).2]
    decide
  · intro l hl
    have hlen : (fcfs.FCFS.ctor l).process.mProcessQueue.length = l.length :=
      fcfs_process_length l
    have hne : l.length ≠ 0 := fun h => hl (List.length_eq_zero.mp h)
    unfold fcfs.FCFS.printAverages fcfs.FCFS.averageWaitingTime stdlib.divDouble
    rw [hlen]
    simp [hne]

/-- C21: take an input with `init` not set on any record and with
distinct ids, for Round-Robin without a negative `tempBurstTime`, for the two
priority engines without a negative `burstTime`, and for the bucketed engine without
a negative priority.  In each of the four tick-based engines, in the state after any
number `n` of iterations of the outer loop (for the bucketed engine the loop reaches
that state; for SRTF the statement is about every state that the loop reaches):
the starting time of a finished process is the timestamp of the first
trace event with its id, and no trace event with its id has a smaller timestamp; the
same holds of every process that has been dispatched and is not finished, and a
process that has not been dispatched has no trace event (`tick.First`); `m`
iterations later every process whose `init` was set still has `init` set and the
same starting time (`tick.SetOnce`).  The first statement also holds of the finished
list and the trace that `scheduleProcess` returns. -/
theorem starting_time_is_first_dispatch
    (sp : List srtf.Process) (rp : List round_robin.Process)
    (pp : List priority_preemptive.Process) (bp : List round_robin_priority.Process)
    (hs : (sp.map (fun p => p.pid)).Nodup ∧ ∀ p ∈ sp, p.init = false)
    (hr : (rp.map (fun p => p.pid)).Nodup ∧
      ∀ p ∈ rp, p.init = false ∧ 0 ≤ p.tempBurstTime)
    (hp : (pp.map (fun p => p.pid)).Nodup ∧
      ∀ p ∈ pp, p.init = false ∧ 0 ≤ p.burstTime)
    (hb : (bp.map (fun p => p.pid)).Nodup ∧
      ∀ p ∈ bp, p.init = false ∧ 0 ≤ p.burstTime ∧ 0 ≤ p.priority)
    (n m : Nat) :
    ((∀ s, srtf.steps n (srtf.SRTF.ctor sp) = some s →
        (∀ p ∈ s.mFinishedProcesses,
          s.mGantChart.find? (fun e => decide (e.1 = p.pid)) = some (p.pid, p.startingTime) ∧
          ∀ e ∈ s.mGantChart, e.1 = p.pid → p.startingTime ≤ e.2) ∧
        tick.First (srtf.abs s) ∧
        ∀ s2, srtf.steps m s = some s2 → tick.SetOnce (srtf.abs s) (srtf.abs s2)) ∧
      ∀ r, srtf.SRTF.scheduleProcess n (srtf.SRTF.ctor sp) = some r →
        ∀ p ∈ r.mFinishedProcesses,
          r.mGantChart.find? (fun e => decide (e.1 = p.pid)) = some (p.pid, p.startingTime) ∧
          ∀ e ∈ r.mGantChart, e.1 = p.pid → p.startingTime ≤ e.2) ∧
    ((∀ p ∈ (round_robin.steps n (round_robin.RoundRobin.ctor rp)).mFinishedProcesses,
        (round_robin.steps n (round_robin.RoundRobin.ctor rp)).mGantChart.find?
            (fun e => decide (e.1 = p.pid)) = some (p.pid, p.startingTime) ∧
        ∀ e ∈ (round_robin.steps n (round_robin.RoundRobin.ctor rp)).mGantChart,
          e.1 = p.pid → p.startingTime ≤ e.2) ∧
      tick.First (round_robin.abs (round_robin.steps n (round_robin.RoundRobin.ctor rp))) ∧
      tick.SetOnce (round_robin.abs (round_robin.steps n (round_robin.RoundRobin.ctor rp)))
        (round_robin.abs
          (round_robin.steps m (round_robin.steps n (round_robin.RoundRobin.ctor rp)))) ∧
      ∀ r, round_robin.RoundRobin.scheduleProcess n (round_robin.RoundRobin.ctor rp) = some r →
        ∀ p ∈ r.mFinishedProcesses,
          r.mGantChart.find? (fun e => decide (e.1 = p.pid)) = some (p.pid, p.startingTime) ∧
          ∀ e ∈ r.mGantChart, e.1 = p.pid → p.startingTime ≤ e.2) ∧
    ((∀ p ∈ (priority_preemptive.steps n
          (priority_preemptive.PriorityPreemptive.ctor pp)).mFinishedProcesses,
        (priority_preemptive.steps n
            (priority_preemptive.PriorityPreemptive.ctor pp)).mGantChart.find?
            (fun e => decide (e.1 = p.pid)) = some (p.pid, p.startingTime) ∧
        ∀ e ∈ (priority_preemptive.steps n
            (priority_preemptive.PriorityPreemptive.ctor pp)).mGantChart,
          e.1 = p.pid → p.startingTime ≤ e.2) ∧
      tick.First (priority_preemptive.abs
        (priority_preemptive.steps n (priority_preemptive.PriorityPreemptive.ctor pp))) ∧
      tick.SetOnce
        (priority_preemptive.abs
          (priority_preemptive.steps n (priority_preemptive.PriorityPreemptive.ctor pp)))
        (priority_preemptive.abs (priority_preemptive.steps m
          (priority_preemptive.steps n (priority_preemptive.PriorityPreemptive.ctor pp)))) ∧
      ∀ r, priority_preemptive.PriorityPreemptive.scheduleProcess n
          (priority_preemptive.PriorityPreemptive.ctor pp) = some r →
        ∀ p ∈ r.mFinishedProcesses,
          r.mGantChart.find? (fun e => decide (e.1 = p.pid)) = some (p.pid, p.startingTime) ∧
          ∀ e ∈ r.mGantChart, e.1 = p.pid → p.startingTime ≤ e.2) ∧
    ((∃ s s2,
        round_robin_priority.steps n (round_robin_priority.PriorityPreemptive.ctor bp) =
          some s ∧
        round_robin_priority.steps m s = some s2 ∧
        (∀ p ∈ s.mFinishedProcesses,
          s.mGantChart.find? (fun e => decide (e.1 = p.pid)) = some (p.pid, p.startingTime) ∧
          ∀ e ∈ s.mGantChart, e.1 = p.pid → p.startingTime ≤ e.2) ∧
        tick.First (round_robin_priority.abs s) ∧
        tick.SetOnce (round_robin_priority.abs s) (round_robin_priority.abs s2)) ∧
      ∀ r, round_robin_priority.PriorityPreemptive.scheduleProcess n
          (round_robin_priority.PriorityPreemptive.ctor bp) = some r →
        ∀ p ∈ r.mFinishedProcesses,
          r.mGantChart.find? (fun e => decide (e.1 = p.pid)) = some (p.pid, p.startingTime) ∧
          ∀ e ∈ r.mGantChart, e.1 = p.pid → p.startingTime ≤ e.2) := by
  refine ⟨?_, ?_, ?_, ?_⟩
  · obtain ⟨f1, f2, f3⟩ := srtf.srtf_start_first sp hs.1 hs.2 n m
    refine ⟨?_, ?_⟩
    · intro s hsn
      rw [srtf.srtf_steps_guarded n _ s hsn] at f1 f2 f3
      refine ⟨f2, f1, ?_⟩
      intro s2 hs2
      rw [srtf.srtf_steps_guarded m s s2 hs2] at f3
      exact f3
    · intro r hres p hmem
      obtain ⟨g1, g2⟩ := srtf.srtf_result_members n _ r
        (srtf.srtf_scheduleProcess_guarded n _ r hres)
      rw [g2] at hmem
      obtain ⟨p0, hp0, rfl⟩ := List.mem_map.mp hmem
      rw [g1]
      exact f2 p0 hp0
  · obtain ⟨f1, f2, f3⟩ := round_robin.rr_start_first rp hr.1 hr.2 n m
    refine ⟨f2, f1, f3, ?_⟩
    intro r hres p hmem
    obtain ⟨g1, g2⟩ := round_robin.rr_result_members n _ r hres
    rw [g2] at hmem
    obtain ⟨p0, hp0, rfl⟩ := List.mem_map.mp hmem
    rw [g1]
    exact f2 p0 hp0
  · obtain ⟨f1, f2, f3⟩ := priority_preemptive.pp_start_first pp hp.1 hp.2 n m
    refine ⟨f2, f1, f3, ?_⟩
    intro r hres p hmem
    obtain ⟨g1, g2⟩ := priority_preemptive.pp_result_members n _ r hres
    rw [g2] at hmem
    obtain ⟨p0, hp0, rfl⟩ := List.mem_map.mp hmem
    rw [g1]
    exact f2 p0 hp0
  · obtain ⟨s, s2, h1, h2, f1, f2, f3⟩ :=
      round_robin_priority.rrp_start_first bp hb.1 hb.2 n m
    refine ⟨⟨s, s2, h1, h2, f2, f1, f3⟩, ?_⟩
    intro r hres p hmem
    obtain ⟨s3, h3, g1, g2⟩ := round_robin_priority.rrp_result_members n _ r hres
    rw [h1] at h3
    cases h3
    rw [g2] at hmem
    obtain ⟨p0, hp0, rfl⟩ := List.mem_map.mp hmem
    rw [g1]
    exact f2 p0 hp0

/-- The statement of C21 on four process lists, for the SRTF engine
after 44 iterations: the five processes are finished by then. -/
theorem starting_time_is_first_dispatch_witness :
    ((([srtf.Process.init4 1 0 10 10, srtf.Process.init4 2 1 9 9,
          srtf.Process.init4 3 2 5 5, srtf.Process.init4 4 3 4 4,
          srtf.Process.init4 5 40 4 4].map (fun p => p.pid)).Nodup ∧
        ∀ p ∈ [srtf.Process.init4 1 0 10 10, srtf.Process.init4 2 1 9 9,
          srtf.Process.init4 3 2 5 5, srtf.Process.init4 4 3 4 4,
          srtf.Process.init4 5 40 4 4], p.init = false)) ∧
    ((([round_robin.Process.init4 1 0 3 3, round_robin.Process.init4 2 1 2 2].map
          (fun p => p.pid)).Nodup ∧
        ∀ p ∈ [round_robin.Process.init4 1 0 3 3, round_robin.Process.init4 2 1 2 2],
          p.init = false ∧ 0 ≤ p.tempBurstTime)) ∧
    (((priority_preemptive.mainProcessList.map (fun p => p.pid)).Nodup ∧
        ∀ p ∈ priority_preemptive.mainProcessList, p.init = false ∧ 0 ≤ p.burstTime)) ∧
    (((round_robin_priority.mainProcessList.map (fun p => p.pid)).Nodup ∧
        ∀ p ∈ round_robin_priority.mainProcessList,
          p.init = false ∧ 0 ≤ p.burstTime ∧ 0 ≤ p.priority)) ∧
    ∃ s, srtf.steps 44 (srtf.SRTF.ctor
        [srtf.Process.init4 1 0 10 10, srtf.Process.init4 2 1 9 9,
        srtf.Process.init4 3 2 5 5, srtf.Process.init4 4 3 4 4,
        srtf.Process.init4 5 40 4 4]) = some s ∧
      s.mFinishedProcesses.length = 5 ∧
      ∀ p ∈ s.mFinishedProcesses,
        s.mGantChart.find? (fun e => decide (e.1 = p.pid)) = some (p.pid, p.startingTime) ∧
        ∀ e ∈ s.mGantChart, e.1 = p.pid → p.startingTime ≤ e.2 :=
  ⟨by decide, by decide, by decide, by decide,
    srtf.guarded.steps 44 (srtf.SRTF.ctor
      [srtf.Process.init4 1 0 10 10, srtf.Process.init4 2 1 9 9,
        srtf.Process.init4 3 2 5 5, srtf.Process.init4 4 3 4 4,
        srtf.Process.init4 5 40 4 4]),
    srtf.srtf_ctor_steps_some _ (Or.inr ⟨srtf.Process.init4 5 40 4 4, by decide, by decide⟩) 44,
    by decide,
    ((starting_time_is_first_dispatch
      [srtf.Process.init4 1 0 10 10, srtf.Process.init4 2 1 9 9,
        srtf.Process.init4 3 2 5 5, srtf.Process.init4 4 3 4 4,
        srtf.Process.init4 5 40 4 4]
      [round_robin.Process.init4 1 0 3 3, round_robin.Process.init4 2 1 2 2]
      priority_preemptive.mainProcessList round_robin_priority.mainProcessList
      (by decide) (by decide) (by decide) (by decide) 44 0).1.1 _
      (srtf.srtf_ctor_steps_some _
        (Or.inr ⟨srtf.Process.init4 5 40 4 4, by decide, by decide⟩) 44)).1⟩

/-- C27 fails on the code when every process arrives at time 0.  On every process
list that is not empty and has the arrival time 0 throughout, such as the single
process {1, 0, 1, 1}, the first admission loop empties the queue at clock 0, reads
the front of the empty queue, takes what it reads for a process arriving at clock 0
and pops the empty queue: `SRTF::scheduleProcess` returns for no iteration bound.
On every other list with arrivalTime ≥ 0 and tempBurstTime = burstTime ≥ 1 it
returns one and the same state for every iteration bound from (sum of the burst
times) + (largest arrival time) on; the finished list of that state holds every
input process exactly as often as the input does, and the clock of that state is at
most (largest arrival time) + (sum of the burst times).  On the list of `main` the
clock ends at 44. -/
theorem srtf_runs_to_completion :
    (∀ processes : List srtf.Process, processes ≠ [] →
      (∀ p ∈ processes, p.arrivalTime = 0) →
      ∀ fuel, srtf.SRTF.scheduleProcess fuel (srtf.SRTF.ctor processes) = none) ∧
    (∀ p ∈ [srtf.Process.init4 1 0 1 1],
      0 ≤ p.arrivalTime ∧ p.tempBurstTime = p.burstTime ∧ 1 ≤ p.burstTime) ∧
    (∀ fuel, srtf.SRTF.scheduleProcess fuel
      (srtf.SRTF.ctor [srtf.Process.init4 1 0 1 1]) = none) ∧
    (∀ processes : List srtf.Process,
      (∀ p ∈ processes,
        0 ≤ p.arrivalTime ∧ p.tempBurstTime = p.burstTime ∧ 1 ≤ p.burstTime) →
      (processes = [] ∨ ∃ p ∈ processes, p.arrivalTime ≠ 0) →
      ∃ r,
        (∀ fuel, ((processes.map (fun p => p.burstTime)).sum +
            (processes.map (fun p => p.arrivalTime)).foldr max 0).toNat ≤ fuel →
          srtf.SRTF.scheduleProcess fuel (srtf.SRTF.ctor processes) = some r) ∧
        (r.mFinishedProcesses.map (fun p => (p.pid, p.arrivalTime, p.burstTime))).Perm
          (processes.map (fun p => (p.pid, p.arrivalTime, p.burstTime))) ∧
        r.mTimeCounter ≤ (processes.map (fun p => p.arrivalTime)).foldr max 0 +
          (processes.map (fun p => p.burstTime)).sum) ∧
    (srtf.SRTF.scheduleProcess 72 (srtf.SRTF.ctor
        [srtf.Process.init4 1 0 10 10, srtf.Process.init4 2 1 9 9,
        srtf.Process.init4 3 2 5 5, srtf.Process.init4 4 3 4 4,
        srtf.Process.init4 5 40 4 4])).map
      (fun r => (r.mFinishedProcesses.map (fun p => p.pid), r.mTimeCounter)) =
      some ([3, 4, 1, 2, 5], 44) := by
  refine ⟨?_, by decide, ?_, ?_, by decide⟩
  · intro processes hne h0
    exact (srtf.srtf_ctor_none processes hne h0).2.2.2
  · exact (srtf.srtf_ctor_none [srtf.Process.init4 1 0 1 1] (by decide) (by decide)).2.2.2
  · intro processes hwf hsafe
    obtain ⟨r, h1, h2, h3⟩ := srtf_guarded_runs_to_completion processes hwf
    refine ⟨r, ?_, h2, h3⟩
    intro fuel hfuel
    rw [srtf.srtf_ctor_schedule_some processes hsafe fuel]
    exact h1 fuel hfuel

/-- C30: for every process list without a negative arrival time, in every state
`s` that the loop of `SRTF::scheduleProcess` reaches at the head of an iteration
(clock t): every process in the process queue has arrivalTime ≥ t and every process
in the running heap has arrivalTime ≤ t.  When the admission loop ends, in the
state `d`, it has moved a front part of the queue into the heap, every moved
process has arrivalTime = t, and every process it leaves in the queue has
arrivalTime > t; the iteration then moves the clock to t + 1.  When the admission
loop does not end, the clock is 0 and every queued process has the arrival time 0:
all of them are due at this tick.  So a process enters the heap at the tick equal to
its arrival time, not earlier and not later.  When the input holds an arrival time
other than 0, the admission loop ends in every iteration. -/
theorem srtf_admission_at_arrival (processes : List srtf.Process)
    (harr : ∀ p ∈ processes, 0 ≤ p.arrivalTime) (n : Nat) (s : srtf.SRTF)
    (hs : srtf.steps n (srtf.SRTF.ctor processes) = some s) :
    (∀ q ∈ s.mProcessList, s.mTimeCounter ≤ q.arrivalTime) ∧
    (∀ q ∈ s.mRunningProcessList, q.arrivalTime ≤ s.mTimeCounter) ∧
    (∀ d, srtf.drainArrived s = some d →
      (∃ moved, s.mProcessList = moved ++ d.mProcessList ∧
        d.mRunningProcessList.Perm (s.mRunningProcessList ++ moved) ∧
        ∀ q ∈ moved, q.arrivalTime = s.mTimeCounter) ∧
      (∀ q ∈ d.mProcessList, s.mTimeCounter < q.arrivalTime)) ∧
    (srtf.drainArrived s = none →
      s.mTimeCounter = 0 ∧ ∀ q ∈ s.mProcessList, q.arrivalTime = s.mTimeCounter) ∧
    (∀ s2, srtf.loopBody s = some s2 → s2.mTimeCounter = s.mTimeCounter + 1) ∧
    ((∃ p ∈ processes, p.arrivalTime ≠ 0) → srtf.loopCond s = true →
      ∃ d, srtf.drainArrived s = some d) := by
  have hg := srtf.srtf_steps_guarded n _ s hs
  have hreach := srtf.srtf_reach_steps processes n _ (srtf.srtf_reach_ctor processes harr)
  rw [hg] at hreach
  obtain ⟨-, -, -, -, -, h6, -⟩ := srtf.srtf_reach_drainArrived processes _ hreach
  obtain ⟨hheap, -, hlate, hin, -⟩ := hreach
  obtain ⟨moved, m1, m2, m3, -, -⟩ := srtf.srtf_drain_spec
    s.mTimeCounter s.mProcessList s.mRunningProcessList hheap
  refine ⟨hlate, hin, ?_, ?_, ?_, ?_⟩
  · intro d hd
    have hdg := srtf.srtf_drainArrived_guarded s d hd
    rw [← hdg]
    exact ⟨⟨moved, m1, m2, m3⟩, h6⟩
  · intro hd
    have ht : s.mTimeCounter = 0 := by
      by_contra hne
      rw [srtf.srtf_drainArrived_some s (Or.inl hne)] at hd
      cases hd
    have hrest : (srtf.guarded.drainArrived s).mProcessList = [] := by
      by_contra hne
      rw [srtf.srtf_drainArrived_some s (Or.inr hne)] at hd
      cases hd
    have hrest2 : (srtf.guarded.drain s.mTimeCounter s.mRunningProcessList
        s.mProcessList).2.1 = [] := hrest
    rw [hrest2, List.append_nil] at m1
    refine ⟨ht, ?_⟩
    intro q hq
    rw [m1] at hq
    exact m3 q hq
  · intro s2 h2
    rw [← srtf.srtf_loopBody_guarded s s2 h2]
    exact srtf.srtf_loopBody_clock s
  · intro hne hc
    have h1 := srtf.srtf_ctor_steps_some processes (Or.inr hne) (n + 1)
    rw [srtf.srtf_steps_bind n 1, hs, Option.some_bind] at h1
    unfold srtf.steps at h1
    rw [if_pos hc] at h1
    cases hd : srtf.drainArrived s with
    | none =>
      unfold srtf.loopBody at h1
      rw [hd] at h1
      cases h1
    | some d => exact ⟨d, rfl⟩

/-- The statement of C30 on the processes (0, arrival 0, burst 4) and (1, arrival 1,
burst 2) at the head of iteration 1, where process 1 is moved. -/
theorem srtf_admission_at_arrival_witness :
    (∀ p ∈ [srtf.Process.init4 0 0 4 4, srtf.Process.init4 1 1 2 2], 0 ≤ p.arrivalTime) ∧
    (srtf.steps 1 (srtf.SRTF.ctor
        [srtf.Process.init4 0 0 4 4, srtf.Process.init4 1 1 2 2])).map
      (fun s => (s.mTimeCounter, s.mProcessList.map (fun p => p.pid))) = some (1, [1]) ∧
    (srtf.atDispatch [srtf.Process.init4 0 0 4 4, srtf.Process.init4 1 1 2 2] 1).map
      (fun d => d.mProcessList) = some [] ∧
    ∃ s, srtf.steps 1 (srtf.SRTF.ctor
        [srtf.Process.init4 0 0 4 4, srtf.Process.init4 1 1 2 2]) = some s ∧
      ∀ q ∈ s.mProcessList, s.mTimeCounter ≤ q.arrivalTime :=
  ⟨by decide, by decide, by decide,
    srtf.guarded.steps 1 (srtf.SRTF.ctor
      [srtf.Process.init4 0 0 4 4, srtf.Process.init4 1 1 2 2]),
    srtf.srtf_ctor_steps_some _ (Or.inr ⟨srtf.Process.init4 1 1 2 2, by decide, by decide⟩) 1,
    (srtf_admission_at_arrival [srtf.Process.init4 0 0 4 4, srtf.Process.init4 1 1 2 2]
      (by decide) 1 _
      (srtf.srtf_ctor_steps_some _
        (Or.inr ⟨srtf.Process.init4 1 1 2 2, by decide, by decide⟩) 1)).1⟩

/-- C32: in each tick-based engine, in the state after any number `n` of
iterations of the loop, every trace event has a timestamp below the clock, the
timestamps of the trace go up strictly, so no two events share a timestamp, and
`k` iterations later the clock is not smaller.  SRTF needs no condition on the
input; Round-Robin needs `tempBurstTime = burstTime ≥ 1`; the two priority engines
need `burstTime ≥ 1` (their constructors set `tempBurstTime`); for SRTF and for the
bucketed engine the statement is about every state that the loop reaches. -/
theorem tick_engines_clock_and_trace_increase
    (sp : List srtf.Process) (rp : List round_robin.Process)
    (pp : List priority_preemptive.Process) (bp : List round_robin_priority.Process)
    (hr : ∀ p ∈ rp, p.tempBurstTime = p.burstTime ∧ 1 ≤ p.burstTime)
    (hp : ∀ p ∈ pp, 1 ≤ p.burstTime)
    (hb : ∀ p ∈ bp, 1 ≤ p.burstTime) (n k : Nat) :
    (∀ s, srtf.steps n (srtf.SRTF.ctor sp) = some s →
      (∀ e ∈ s.mGantChart, e.2 < s.mTimeCounter) ∧
      s.mGantChart.Pairwise (fun x y => x.2 < y.2) ∧
      (s.mGantChart.map Prod.snd).Nodup ∧
      ∀ s2, srtf.steps k s = some s2 → s.mTimeCounter ≤ s2.mTimeCounter) ∧
    ((∀ e ∈ (round_robin.steps n (round_robin.RoundRobin.ctor rp)).mGantChart,
        e.2 < (round_robin.steps n (round_robin.RoundRobin.ctor rp)).mTimeCounter) ∧
      (round_robin.steps n (round_robin.RoundRobin.ctor rp)).mGantChart.Pairwise
        (fun x y => x.2 < y.2) ∧
      ((round_robin.steps n (round_robin.RoundRobin.ctor rp)).mGantChart.map Prod.snd).Nodup ∧
      (round_robin.steps n (round_robin.RoundRobin.ctor rp)).mTimeCounter ≤
        (round_robin.steps k
          (round_robin.steps n (round_robin.RoundRobin.ctor rp))).mTimeCounter) ∧
    ((∀ e ∈ (priority_preemptive.steps n
          (priority_preemptive.PriorityPreemptive.ctor pp)).mGantChart,
        e.2 < (priority_preemptive.steps n
          (priority_preemptive.PriorityPreemptive.ctor pp)).mTimeCounter) ∧
      (priority_preemptive.steps n
        (priority_preemptive.PriorityPreemptive.ctor pp)).mGantChart.Pairwise
          (fun x y => x.2 < y.2) ∧
      ((priority_preemptive.steps n
        (priority_preemptive.PriorityPreemptive.ctor pp)).mGantChart.map Prod.snd).Nodup ∧
      (priority_preemptive.steps n
          (priority_preemptive.PriorityPreemptive.ctor pp)).mTimeCounter ≤
        (priority_preemptive.steps k (priority_preemptive.steps n
          (priority_preemptive.PriorityPreemptive.ctor pp))).mTimeCounter) ∧
    (∀ s, round_robin_priority.steps n (round_robin_priority.PriorityPreemptive.ctor bp) =
        some s →
      (∀ e ∈ s.mGantChart, e.2 < s.mTimeCounter) ∧
      s.mGantChart.Pairwise (fun x y => x.2 < y.2) ∧
      (s.mGantChart.map Prod.snd).Nodup ∧
      ∀ s2, round_robin_priority.steps k s = some s2 → s.mTimeCounter ≤ s2.mTimeCounter) := by
  refine ⟨?_, ?_, ?_, ?_⟩
  · intro s hs
    obtain ⟨-, a2, a3⟩ := srtf.srtf_steps_increasing n (srtf.SRTF.ctor sp)
      (fun e he => by cases he) List.Pairwise.nil
    rw [srtf.srtf_steps_guarded n _ s hs] at a2 a3
    refine ⟨a2, a3, tick.tick_increasing_nodup _ a3, ?_⟩
    intro s2 hs2
    obtain ⟨b1, -, -⟩ := srtf.srtf_steps_increasing k s a2 a3
    rw [srtf.srtf_steps_guarded k s s2 hs2] at b1
    exact b1
  · obtain ⟨run1, hq⟩ := round_robin.rr_run n (round_robin.RoundRobin.ctor rp) rfl
    obtain ⟨run2, -⟩ := round_robin.rr_run k _ hq
    obtain ⟨-, a2, a3⟩ := tick.tick_run_increasing _ _ run1
      (round_robin.rr_ctor_work rp hr) List.Pairwise.nil
    obtain ⟨b1, -, -⟩ := tick.tick_run_increasing _ _ run2 a2 a3
    exact ⟨a2.2.2.2.1, a3, tick.tick_increasing_nodup _ a3, b1⟩
  · obtain ⟨run1, hq⟩ := priority_preemptive.pp_run n
      (priority_preemptive.PriorityPreemptive.ctor pp) (priority_preemptive.pp_inv_ctor pp)
    obtain ⟨run2, -⟩ := priority_preemptive.pp_run k _ hq
    obtain ⟨-, a2, a3⟩ := tick.tick_run_increasing _ _ run1
      (priority_preemptive.pp_ctor_work pp hp) List.Pairwise.nil
    obtain ⟨b1, -, -⟩ := tick.tick_run_increasing _ _ run2 a2 a3
    exact ⟨a2.2.2.2.1, a3, tick.tick_increasing_nodup _ a3, b1⟩
  · intro s hs
    obtain ⟨run1, w1, w2, w3⟩ := round_robin_priority.rrp_run_some n _ s hs
      round_robin_priority.rrp_wf_ctor (round_robin_priority.rrp_ctor_sorted bp) rfl
    obtain ⟨-, a2, a3⟩ := tick.tick_run_increasing _ _ run1
      (round_robin_priority.rrp_ctor_work bp hb) List.Pairwise.nil
    refine ⟨a2.2.2.2.1, a3, tick.tick_increasing_nodup _ a3, ?_⟩
    intro s2 hs2
    obtain ⟨run2, -, -, -⟩ := round_robin_priority.rrp_run_some k s s2 hs2 w1 w2 w3
    exact (tick.tick_run_increasing _ _ run2 a2 a3).1

/-- The statement of C32 on the process lists of `main`, after 30 iterations of the
Round-Robin loop and 40 of the bucketed loop: the clocks are 30 and 40. -/
theorem tick_engines_clock_and_trace_increase_witness :
    (∀ p ∈ [round_robin.Process.init4 1 0 10 10, round_robin.Process.init4 2 1 9 9,
        round_robin.Process.init4 3 2 5 5, round_robin.Process.init4 4 3 4 4,
        round_robin.Process.init4 5 40 4 4],
      p.tempBurstTime = p.burstTime ∧ 1 ≤ p.burstTime) ∧
    (∀ p ∈ priority_preemptive.mainProcessList, 1 ≤ p.burstTime) ∧
    (∀ p ∈ round_robin_priority.mainProcessList, 1 ≤ p.burstTime) ∧
    (round_robin.steps 30 (round_robin.RoundRobin.ctor
      [round_robin.Process.init4 1 0 10 10, round_robin.Process.init4 2 1 9 9,
        round_robin.Process.init4 3 2 5 5, round_robin.Process.init4 4 3 4 4,
        round_robin.Process.init4 5 40 4 4])).mTimeCounter = 30 ∧
    ((round_robin.steps 30 (round_robin.RoundRobin.ctor
      [round_robin.Process.init4 1 0 10 10, round_robin.Process.init4 2 1 9 9,
        round_robin.Process.init4 3 2 5 5, round_robin.Process.init4 4 3 4 4,
        round_robin.Process.init4 5 40 4 4])).mGantChart.map Prod.snd).Nodup ∧
    (round_robin_priority.steps 40
      (round_robin_priority.PriorityPreemptive.ctor
        round_robin_priority.mainProcessList)).map (fun s => s.mTimeCounter) = some 40 :=
  ⟨by decide, by decide, by decide, by decide,
    (tick_engines_clock_and_trace_increase []
      [round_robin.Process.init4 1 0 10 10, round_robin.Process.init4 2 1 9 9,
        round_robin.Process.init4 3 2 5 5, round_robin.Process.init4 4 3 4 4,
        round_robin.Process.init4 5 40 4 4]
      priority_preemptive.mainProcessList round_robin_priority.mainProcessList
      (by decide) (by decide) (by decide) 30 0).2.1.2.2.1, by decide⟩

/-- C33 fails on the code: the admission loop of `SRTF::scheduleProcess` tests
`mTimeCounter == mProcessList.front().arrivalTime` without testing `empty()`.
Whenever `scheduleProcess` returns on a process list that is not empty, the front
of the empty queue has been read at least once; on the list of `main` it is read
four times.  At clock 1 on the empty queue the read is made once and ends the loop;
at clock 0 the read gives the arrival time 0 and the loop goes on to pop the empty
queue: on the single process {1, 0, 1, 1} this happens in the first iteration, and
`scheduleProcess` returns for no iteration bound.  The admission loop of
Round-Robin tests `empty()` first and reads nothing from an empty queue. -/
theorem srtf_reads_front_of_empty_queue :
    (∀ (processes : List srtf.Process) (fuel : Nat) (r : srtf.SRTF), processes ≠ [] →
      srtf.SRTF.scheduleProcess fuel (srtf.SRTF.ctor processes) = some r →
      1 ≤ r.frontOnEmpty) ∧
    srtf.drain 1 [] [] = some ([], [], 1) ∧
    srtf.drain 0 [] [] = none ∧
    srtf.drainArrived (srtf.SRTF.ctor [srtf.Process.init4 1 0 1 1]) = none ∧
    (∀ fuel, srtf.SRTF.scheduleProcess fuel
      (srtf.SRTF.ctor [srtf.Process.init4 1 0 1 1]) = none) ∧
    (srtf.SRTF.scheduleProcess 44 (srtf.SRTF.ctor
      [srtf.Process.init4 1 0 10 10, srtf.Process.init4 2 1 9 9, srtf.Process.init4 3 2 5 5,
        srtf.Process.init4 4 3 4 4, srtf.Process.init4 5 40 4 4])).map
      (fun r => r.frontOnEmpty) = some 4 ∧
    round_robin.drain 0 [] = ([], []) := by
  refine ⟨?_, by decide, by decide, by decide, ?_, by decide, rfl⟩
  · intro processes fuel r hne hr
    have h := srtf.srtf_scheduleProcess_guarded fuel _ r hr
    have hc : srtf.loopCond (srtf.SRTF.ctor processes) = true := by
      have hq : (srtf.SRTF.ctor processes).mProcessList ≠ [] := by
        intro hq
        have hp := srtf.srtf_sort_perm processes
        rw [show srtf.sortProcesses processes = (srtf.SRTF.ctor processes).mProcessList
          from rfl, hq] at hp
        exact hne (List.Perm.eq_nil hp.symm)
      unfold srtf.loopCond
      cases hl : (srtf.SRTF.ctor processes).mProcessList with
      | nil => exact absurd hl hq
      | cons x xs => rfl
    unfold srtf.guarded.scheduleProcess at h
    simp only at h
    split at h
    · cases h
    · rename_i hend
      simp only [Option.some.injEq] at h
      subst h
      have := (srtf.srtf_steps_front fuel (srtf.SRTF.ctor processes)).2 hc
        (by simpa using hend)
      exact this
  · exact (srtf.srtf_ctor_none [srtf.Process.init4 1 0 1 1] (by decide) (by decide)).2.2.2

/-! ## Round-Robin on equal bursts, for every order of the queue -/

/-- Round-Robin from the state with the process queue `queue`, an empty ready queue
and the clock at 0, when all processes of `queue` have arrival time 0 and
`burstTime = tempBurstTime = b ≥ 1`: the run ends after `queue.length · b`
iterations, the `j`-th event has timestamp `j` and the id at position
`j mod queue.length`, and the process at position `k` finishes at
`queue.length · (b - 1) + k + 1`. -/
theorem rr_equal_bursts_queue (queue : List round_robin.Process) (b : Nat)
    (hl : queue ≠ []) (hb : 1 ≤ b)
    (hwf : ∀ p ∈ queue, p.arrivalTime = 0 ∧ p.burstTime = (b : Int) ∧
      p.tempBurstTime = (b : Int)) :
    ∃ r,
      (∀ fuel, queue.length * b ≤ fuel →
        round_robin.RoundRobin.scheduleProcess fuel
          (round_robin.RoundRobin.mk queue [] [] [] 0 1) = some r) ∧
      r.mGantChart = (List.range (queue.length * b)).map
        (fun j => ((queue.map (fun p => p.pid)).getD (j % queue.length) 0, (j : Int))) ∧
      r.mFinishedProcesses.map (fun p => (p.pid, p.finishingTime)) =
        (List.range queue.length).map
          (fun k => ((queue.map (fun p => p.pid)).getD k 0,
            ((queue.length * (b - 1) + k + 1 : Nat) : Int))) := by
  -- the state after the first admission loop
  have hd : round_robin.drainArrived (round_robin.RoundRobin.mk queue [] [] [] 0 1) =
      round_robin.RoundRobin.mk [] queue [] [] 0 1 := by
    unfold round_robin.drainArrived
    simp only
    rw [round_robin.rr_drain_all 0 queue (fun p hp => le_of_eq (hwf p hp).1)]
    rfl
  have hne : (round_robin.RoundRobin.mk [] queue [] [] 0 1).mRunningProcessList ≠ [] := hl
  have hlb : round_robin.loopBody (round_robin.RoundRobin.mk queue [] [] [] 0 1) =
      round_robin.loopBody (round_robin.RoundRobin.mk [] queue [] [] 0 1) := by
    unfold round_robin.loopBody
    rw [hd, round_robin.rr_drainArrived_nil _ rfl]
  have hcond : round_robin.loopCond (round_robin.RoundRobin.mk queue [] [] [] 0 1) = true := by
    unfold round_robin.loopCond
    cases queue with
    | nil => exact absurd rfl hl
    | cons x xs => rfl
  have hsteps : ∀ m, round_robin.steps (m + 1) (round_robin.RoundRobin.mk queue [] [] [] 0 1) =
      round_robin.steps (m + 1) (round_robin.RoundRobin.mk [] queue [] [] 0 1) := by
    intro m
    rw [round_robin.rr_steps_succ m _ hne, ← hlb]
    simp [round_robin.steps, hcond]
  have hlen : (queue.map (fun p => p.pid)).length = queue.length := List.length_map _ _
  obtain ⟨i1, i2, i3, i4, i5, i6, i7⟩ :=
    round_robin.rr_rounds (queue.map (fun p => p.pid)) (b - 1)
      (round_robin.RoundRobin.mk [] queue [] [] 0 1) (b : Int)
      (by push_cast [Nat.cast_sub hb]; omega) rfl rfl rfl (fun p hp => (hwf p hp).2.2) rfl rfl
  rw [hlen] at i1 i2 i3 i4 i5 i6 i7
  have hlen2 : (round_robin.steps (queue.length * (b - 1))
      (round_robin.RoundRobin.mk [] queue [] [] 0 1)).mRunningProcessList.length =
        queue.length := by
    have h := congrArg List.length i1
    simp only [List.length_map] at h
    exact h
  obtain ⟨xs2, j1, j2, j4, j5, j6, j7, j8⟩ :=
    round_robin.rr_round_last
      (round_robin.steps (queue.length * (b - 1))
        (round_robin.RoundRobin.mk [] queue [] [] 0 1)).mRunningProcessList []
      (round_robin.steps (queue.length * (b - 1))
        (round_robin.RoundRobin.mk [] queue [] [] 0 1))
      (queue.length * (b - 1)) i3 i4 (by rw [List.append_nil])
      (fun p hp => by rw [i2 p hp]; push_cast [Nat.cast_sub hb]; ring) i5
  rw [hlen2, ← round_robin.rr_steps_add] at j1 j4 j5 j6 j7 j8
  have htot : queue.length * (b - 1) + queue.length = queue.length * b := by
    have : b = (b - 1) + 1 := by omega
    conv_rhs => rw [this, Nat.mul_succ]
  rw [htot] at j1 j4 j5 j6 j7 j8
  have hpos : 0 < queue.length * b :=
    Nat.mul_pos (List.length_pos.mpr hl) hb
  obtain ⟨m, hm⟩ : ∃ m, queue.length * b = m + 1 := ⟨queue.length * b - 1, by omega⟩
  have hfinal : round_robin.steps (queue.length * b)
      (round_robin.RoundRobin.mk queue [] [] [] 0 1) =
      round_robin.steps (queue.length * b) (round_robin.RoundRobin.mk [] queue [] [] 0 1) := by
    rw [hm]
    exact hsteps m
  have hend : round_robin.loopCond
      (round_robin.steps (queue.length * b)
        (round_robin.RoundRobin.mk queue [] [] [] 0 1)) = false := by
    rw [hfinal]
    unfold round_robin.loopCond
    rw [j1, j4]
    rfl
  have hres : round_robin.RoundRobin.scheduleProcess (queue.length * b)
      (round_robin.RoundRobin.mk queue [] [] [] 0 1) =
      some { round_robin.steps (queue.length * b)
          (round_robin.RoundRobin.mk queue [] [] [] 0 1) with
        mFinishedProcesses :=
          (round_robin.steps (queue.length * b)
            (round_robin.RoundRobin.mk queue [] [] [] 0 1)).mFinishedProcesses.map
              round_robin.finalize } := by
    unfold round_robin.RoundRobin.scheduleProcess
    simp only [hend]
    rfl
  refine ⟨_, fun fuel hfuel => round_robin.rr_scheduleProcess_mono _ _ _ _ hfuel hres, ?_, ?_⟩
  · show (round_robin.steps (queue.length * b)
        (round_robin.RoundRobin.mk queue [] [] [] 0 1)).mGantChart = _
    rw [hfinal, j7, i6, i1,
      round_robin.rr_enumFrom_range (fun i => (i : Int)) (queue.map (fun p => p.pid))
        (queue.length * (b - 1)), hlen]
    have := round_robin.rr_range_round (queue.map (fun p => p.pid)) (b - 1)
      (fun i => (i : Int))
    rw [hlen] at this
    rw [this]
    congr 2
  · show ((round_robin.steps (queue.length * b)
        (round_robin.RoundRobin.mk queue [] [] [] 0 1)).mFinishedProcesses.map
          round_robin.finalize).map
      (fun p => (p.pid, p.finishingTime)) = _
    rw [hfinal, j8, i7, List.map_map]
    show (([] ++ xs2).map (fun p : round_robin.Process => (p.pid, p.finishingTime))) = _
    rw [List.nil_append, j2, i1,
      round_robin.rr_enumFrom_range (fun i => ((i + 1 : Nat) : Int))
        (queue.map (fun p => p.pid)) (queue.length * (b - 1)), hlen]

/-- C36: Round-Robin on a list `l` of `n ≥ 1` processes that all have arrival time 0
and `burstTime = tempBurstTime = b ≥ 1`.  The constructor queues a permutation of
`l`; the comparison function looks at the arrival time only, so the sort is free to
leave the processes in any order.  For every order `queue` of the processes in the
process queue, the run from the state that the constructor builds with that queue
returns after `n · b` iterations (and for every larger bound); the trace has
`n · b` events, the `j`-th with timestamp `j` and the id of the process at position
`j mod n` of `queue`; the finished list holds the processes in the order of
`queue`, the one at position `k` with finishing time `n · (b - 1) + k + 1`.  In
particular this holds of `scheduleProcess` on the state that the constructor builds
from `l`, with the positions in its process queue. -/
theorem round_robin_equal_bursts_trace (l : List round_robin.Process) (b : Nat)
    (hl : l ≠ []) (hb : 1 ≤ b)
    (hwf : ∀ p ∈ l, p.arrivalTime = 0 ∧ p.burstTime = (b : Int) ∧
      p.tempBurstTime = (b : Int)) :
    (round_robin.RoundRobin.ctor l).mProcessList.Perm l ∧
    round_robin.RoundRobin.ctor l =
      round_robin.RoundRobin.mk (round_robin.RoundRobin.ctor l).mProcessList [] [] [] 0 1 ∧
    (∀ queue : List round_robin.Process, queue.Perm l →
      ∃ r,
        (∀ fuel, l.length * b ≤ fuel →
          round_robin.RoundRobin.scheduleProcess fuel
            (round_robin.RoundRobin.mk queue [] [] [] 0 1) = some r) ∧
        r.mGantChart = (List.range (l.length * b)).map
          (fun j => ((queue.map (fun p => p.pid)).getD (j % l.length) 0, (j : Int))) ∧
        r.mFinishedProcesses.map (fun p => (p.pid, p.finishingTime)) =
          (List.range l.length).map
            (fun k => ((queue.map (fun p => p.pid)).getD k 0,
              ((l.length * (b - 1) + k + 1 : Nat) : Int)))) ∧
    ∃ r,
      (∀ fuel, l.length * b ≤ fuel →
        round_robin.RoundRobin.scheduleProcess fuel (round_robin.RoundRobin.ctor l) =
          some r) ∧
      r.mGantChart = (List.range (l.length * b)).map
        (fun j => (((round_robin.RoundRobin.ctor l).mProcessList.map
          (fun p => p.pid)).getD (j % l.length) 0, (j : Int))) ∧
      r.mFinishedProcesses.map (fun p => (p.pid, p.finishingTime)) =
        (List.range l.length).map
          (fun k => (((round_robin.RoundRobin.ctor l).mProcessList.map
            (fun p => p.pid)).getD k 0,
            ((l.length * (b - 1) + k + 1 : Nat) : Int))) := by
  have hperm : (round_robin.RoundRobin.ctor l).mProcessList.Perm l :=
    round_robin.rr_sort_perm l
  have hall : ∀ queue : List round_robin.Process, queue.Perm l →
      ∃ r,
        (∀ fuel, l.length * b ≤ fuel →
          round_robin.RoundRobin.scheduleProcess fuel
            (round_robin.RoundRobin.mk queue [] [] [] 0 1) = some r) ∧
        r.mGantChart = (List.range (l.length * b)).map
          (fun j => ((queue.map (fun p => p.pid)).getD (j % l.length) 0, (j : Int))) ∧
        r.mFinishedProcesses.map (fun p => (p.pid, p.finishingTime)) =
          (List.range l.length).map
            (fun k => ((queue.map (fun p => p.pid)).getD k 0,
              ((l.length * (b - 1) + k + 1 : Nat) : Int))) := by
    intro queue hq
    have hne : queue ≠ [] := by
      intro h
      rw [h] at hq
      exact hl (List.Perm.eq_nil hq.symm)
    have h := rr_equal_bursts_queue queue b hne hb
      (fun p hp => hwf p (hq.mem_iff.mp hp))
    rw [hq.length_eq] at h
    exact h
  exact ⟨hperm, rfl, hall, hall _ hperm⟩

/-- The statement of C36 on three processes with burst time 2: the trace is
0, 1, 2, 0, 1, 2 at the clocks 0 to 5 and the processes finish at 4, 5 and 6; with
the queue in the order 2, 0, 1 the trace is 2, 0, 1, 2, 0, 1. -/
theorem round_robin_equal_bursts_trace_witness :
    [round_robin.Process.init4 0 0 2 2, round_robin.Process.init4 1 0 2 2,
      round_robin.Process.init4 2 0 2 2] ≠ [] ∧ 1 ≤ 2 ∧
    (∀ p ∈ [round_robin.Process.init4 0 0 2 2, round_robin.Process.init4 1 0 2 2,
        round_robin.Process.init4 2 0 2 2],
      p.arrivalTime = 0 ∧ p.burstTime = ((2 : Nat) : Int) ∧
        p.tempBurstTime = ((2 : Nat) : Int)) ∧
    (∃ r,
      round_robin.RoundRobin.scheduleProcess 6 (round_robin.RoundRobin.ctor
        [round_robin.Process.init4 0 0 2 2, round_robin.Process.init4 1 0 2 2,
          round_robin.Process.init4 2 0 2 2]) = some r ∧
      r.mGantChart = [(0, 0), (1, 1), (2, 2), (0, 3), (1, 4), (2, 5)] ∧
      r.mFinishedProcesses.map (fun p => (p.pid, p.finishingTime)) =
        [(0, 4), (1, 5), (2, 6)]) ∧
    (∃ r,
      round_robin.RoundRobin.scheduleProcess 6 (round_robin.RoundRobin.mk
        [round_robin.Process.init4 2 0 2 2, round_robin.Process.init4 0 0 2 2,
          round_robin.Process.init4 1 0 2 2] [] [] [] 0 1) = some r ∧
      r.mGantChart = [(2, 0), (0, 1), (1, 2), (2, 3), (0, 4), (1, 5)] ∧
      r.mFinishedProcesses.map (fun p => (p.pid, p.finishingTime)) =
        [(2, 4), (0, 5), (1, 6)]) :=
  ⟨by decide, by decide, by decide,
    (round_robin_equal_bursts_trace
      [round_robin.Process.init4 0 0 2 2, round_robin.Process.init4 1 0 2 2,
        round_robin.Process.init4 2 0 2 2] 2 (by decide) (by decide) (by decide)).2.2.2.imp
      (fun _ h => ⟨h.1 6 (by decide), h.2.1.trans (by decide), h.2.2.trans (by decide)⟩),
    ((round_robin_equal_bursts_trace
      [round_robin.Process.init4 0 0 2 2, round_robin.Process.init4 1 0 2 2,
        round_robin.Process.init4 2 0 2 2] 2 (by decide) (by decide) (by decide)).2.2.1
      [round_robin.Process.init4 2 0 2 2, round_robin.Process.init4 0 0 2 2,
        round_robin.Process.init4 1 0 2 2] (by decide)).imp
      (fun _ h => ⟨h.1 6 (by decide), h.2.1.trans (by decide), h.2.2.trans (by decide)⟩)⟩
